import Mathlib

/-!
# XRPL legacy `Number` codec (binary-codec/types/number.go)

A shallow embedding of `parseNumberString`, `normalizeNumber`, `formatNumber`,
`Number.FromJSON` and `Number.ToJSON`, followed by theorems about them.

Conventions of the embedding:
* Go `int64` / `int32` values are Lean `Int`s; every arithmetic operation that can
  wrap in Go is followed by `wrap64` / `wrap32` (two's complement reduction).
* Go strings are `List Char`, that is, valid UTF-8 text (a Go string holding bytes
  that are not UTF-8 has no counterpart here); `len` is only ever taken of strings of
  ASCII digits, where the byte length is the number of characters.
* Go `([]byte, error)` results are `Except GoError (List Nat)`, bytes being
  naturals below 256.
-/

namespace XRPL.BinaryCodec.Types

/-! ## Machine integers -/

/-- Two's-complement reduction to the `int64` range. -/
def wrap64 (x : Int) : Int := (x + 9223372036854775808) % 18446744073709551616 - 9223372036854775808

/-- Two's-complement reduction to the `int32` range. -/
def wrap32 (x : Int) : Int := (x + 2147483648) % 4294967296 - 2147483648

/-- Range of Go's `int64`. -/
def IsInt64 (x : Int) : Prop := -9223372036854775808 ≤ x ∧ x ≤ 9223372036854775807

/-- Range of Go's `int32`. -/
def IsInt32 (x : Int) : Prop := -2147483648 ≤ x ∧ x ≤ 2147483647

instance (x : Int) : Decidable (IsInt64 x) := by unfold IsInt64; infer_instance
instance (x : Int) : Decidable (IsInt32 x) := by unfold IsInt32; infer_instance

/-! ## Errors -/

/-- Go error values: the sentinel `ErrInvalidNumber`, errors built by
`fmt.Errorf("%w<suffix>", inner)`, and errors coming from the binary parser. -/
inductive GoError where
  | ErrInvalidNumber : GoError
  | wrapf (inner : GoError) (suffix : String) : GoError
  | parserError (msg : String) : GoError
  deriving DecidableEq, Repr

/-- Go's `errors.Is(err, target)` for the error values above. -/
def errorsIs : GoError → GoError → Bool
  | .wrapf inner suffix, target =>
      decide (GoError.wrapf inner suffix = target) || errorsIs inner target
  | err, target => decide (err = target)

/-! ## Constants of number.go -/

def numberMinMantissa : Int := 1000000000000000
def numberMaxMantissa : Int := 9999999999999999
def numberMinExponent : Int := -32768
def numberMaxExponent : Int := 32768
def numberZeroExponent : Int := -2147483648
def numberByteLength : Nat := 12

/-! ## normalizeNumber -/

/-- First loop of `normalizeNumber`:
`for absMantissa > 0 && absMantissa < numberMinMantissa { absMantissa *= 10; exponent--;
if exponent < numberMinExponent { return 0, 0, error } }`. -/
def scaleUp (absMantissa exponent : Int) : Except GoError (Int × Int) :=
  if absMantissa > 0 ∧ absMantissa < numberMinMantissa then
    if wrap32 (exponent - 1) < numberMinExponent then
      .error (.wrapf .ErrInvalidNumber ": exponent underflow")
    else
      scaleUp (wrap64 (absMantissa * 10)) (wrap32 (exponent - 1))
  else
    .ok (absMantissa, exponent)
termination_by (numberMinMantissa - absMantissa).toNat
decreasing_by
  rename_i h _
  simp only [numberMinMantissa, wrap64] at *
  have e : (absMantissa * 10 + 9223372036854775808) % 18446744073709551616
      = absMantissa * 10 + 9223372036854775808 := Int.emod_eq_of_lt (by omega) (by omega)
  rw [e]
  apply (Int.toNat_lt_toNat (by omega)).2
  omega

/-- Second loop of `normalizeNumber`:
`for absMantissa > numberMaxMantissa { absMantissa /= 10; exponent++;
if exponent > numberMaxExponent { return 0, 0, error } }`.
Go's `/` on integers truncates toward zero (`Int.tdiv`). -/
def scaleDown (absMantissa exponent : Int) : Except GoError (Int × Int) :=
  if absMantissa > numberMaxMantissa then
    if wrap32 (exponent + 1) > numberMaxExponent then
      .error (.wrapf .ErrInvalidNumber ": exponent overflow")
    else
      scaleDown (Int.tdiv absMantissa 10) (wrap32 (exponent + 1))
  else
    .ok (absMantissa, exponent)
termination_by absMantissa.toNat
decreasing_by
  rename_i h _
  simp only [numberMaxMantissa] at *
  have h2 : Int.tdiv absMantissa 10 = absMantissa / 10 :=
    Int.tdiv_eq_ediv (by omega) (by omega)
  rw [h2]
  apply (Int.toNat_lt_toNat (by omega)).2
  omega

/-- Embedding of `normalizeNumber(mantissa int64, exponent int32) (int64, int32, error)`.
`-absMantissa` is a wrapping `int64` negation. -/
def normalizeNumber (mantissa exponent : Int) : Except GoError (Int × Int) :=
  if mantissa = 0 then
    .ok (0, numberZeroExponent)
  else
    let absMantissa := if mantissa < 0 then wrap64 (-mantissa) else mantissa
    match scaleUp absMantissa exponent with
    | .error err => .error err
    | .ok (absMantissa, exponent) =>
      match scaleDown absMantissa exponent with
      | .error err => .error err
      | .ok (absMantissa, exponent) =>
        .ok (if mantissa < 0 then wrap64 (-absMantissa) else absMantissa, exponent)

/-! ## Strings: the library functions used by parseNumberString -/

/-- Go's `unicode.IsSpace`: the Unicode `White_Space` property. -/
def isSpace (c : Char) : Bool :=
  let n := c.toNat
  (9 ≤ n && n ≤ 13) || n == 32 || n == 0x85 || n == 0xA0 || n == 0x1680 ||
    (0x2000 ≤ n && n ≤ 0x200A) || n == 0x2028 || n == 0x2029 || n == 0x202F ||
    n == 0x205F || n == 0x3000

/-- Go's `strings.TrimSpace`: drop leading and trailing white space. -/
def TrimSpace (s : List Char) : List Char :=
  (s.dropWhile isSpace).rdropWhile isSpace

/-- The regex class `\d`, which in Go is the ASCII range `[0-9]`. -/
def isDigit (c : Char) : Bool := 48 ≤ c.toNat && c.toNat ≤ 57

/-- Capture groups 1 to 4 of a successful `numberRegex.FindStringSubmatch`. A group
that did not take part in the match is the empty string, as in Go. -/
structure NumberMatch where
  sign : List Char
  intPart : List Char
  fracPart : List Char
  expPart : List Char
  deriving DecidableEq, Repr

/-- Split an optional leading `+` or `-` (the regex fragment `[+-]?`, greedy). -/
def splitSign : List Char → List Char × List Char
  | c :: rest => if c = '+' ∨ c = '-' then ([c], rest) else ([], c :: rest)
  | [] => ([], [])

/-- The tail `(?:[eE]([+-]?\d+))?$` of `numberRegex`: returns capture group 4. -/
def matchExponentSuffix : List Char → Option (List Char)
  | [] => some []
  | c :: rest =>
    if c = 'e' ∨ c = 'E' then
      let (expSign, r) := splitSign rest
      let digits := r.takeWhile isDigit
      if digits ≠ [] ∧ r.dropWhile isDigit = [] then some (expSign ++ digits) else none
    else none

/-- The fragment `(?:\.(\d*))?` of `numberRegex`: returns capture group 3 and the rest. -/
def splitFraction : List Char → List Char × List Char
  | c :: rest =>
    if c = '.' then (rest.takeWhile isDigit, rest.dropWhile isDigit)
    else ([], c :: rest)
  | [] => ([], [])

/-- `numberRegex.FindStringSubmatch(s)` for
`^([+-]?)(\d*)(?:\.(\d*))?(?:[eE]([+-]?\d+))?$`, written as the deterministic
left-to-right matcher the pattern denotes: each fragment is followed by a character
class disjoint from its own, so the greedy choice is the only one that can succeed.
`\d` is the ASCII class `[0-9]` in Go (`isDigit`). `none` is Go's `nil`. -/
def numberRegexMatch (s : List Char) : Option NumberMatch :=
  let (sign, r0) := splitSign s
  let intPart := r0.takeWhile isDigit
  let (fracPart, r2) := splitFraction (r0.dropWhile isDigit)
  match matchExponentSuffix r2 with
  | some expPart => some ⟨sign, intPart, fracPart, expPart⟩
  | none => none

/-- Value of a decimal digit character. -/
def digitValue (c : Char) : Nat := c.toNat - 48

/-- Value of a string of decimal digits, most significant first. -/
def decimalValue (ds : List Char) : Nat :=
  ds.foldl (fun acc c => acc * 10 + digitValue c) 0

/-- A non-empty string of ASCII digits. -/
def isDigitString (ds : List Char) : Bool := !ds.isEmpty && ds.all isDigit

/-- Go's `(*big.Int).SetString(s, 10)`: an optional sign followed by one or more
decimal digits; `none` is `ok == false`. -/
def bigIntSetString (s : List Char) : Option Int :=
  let (sign, ds) := splitSign s
  if isDigitString ds then
    some (if sign = ['-'] then -(decimalValue ds : Int) else (decimalValue ds : Int))
  else none

/-- Go's `strconv.ParseInt(s, 10, 32)`: an optional sign followed by one or more
decimal digits whose signed value fits `int32`; `none` is a non-nil `err`
(syntax or range). -/
def strconvParseInt32 (s : List Char) : Option Int :=
  let (sign, ds) := splitSign s
  if isDigitString ds then
    let v : Int := if sign = ['-'] then -(decimalValue ds : Int) else (decimalValue ds : Int)
    if IsInt32 v then some v else none
  else none

/-- Go's `strconv.FormatInt(x, 10)`. -/
def strconvFormatInt (x : Int) : List Char :=
  if x < 0 then '-' :: Nat.toDigits 10 x.natAbs else Nat.toDigits 10 x.natAbs

/-! ## parseNumberString -/

/-- Embedding of `parseNumberString(s string) (int64, int32, error)`. -/
def parseNumberString (s : List Char) : Except GoError (Int × Int) :=
  let s := TrimSpace s
  if s = ['0'] ∨ s = [] then
    .ok (0, numberZeroExponent)
  else
    match numberRegexMatch s with
    | none => .error (.wrapf .ErrInvalidNumber ": invalid format")
    | some submatches =>
      let sign := submatches.sign
      let intPart := submatches.intPart
      let fracPart := submatches.fracPart
      let expPart := submatches.expPart
      let numStr := intPart ++ fracPart
      if numStr = [] then
        .ok (0, numberZeroExponent)
      else
        match bigIntSetString numStr with
        | none => .error (.wrapf .ErrInvalidNumber ": cannot parse mantissa")
        | some mantissa =>
          let exponent := wrap32 (wrap32 intPart.length - wrap32 numStr.length)
          let adjusted : Except GoError Int :=
            if expPart ≠ [] then
              match strconvParseInt32 expPart with
              | none => .error (.wrapf .ErrInvalidNumber ": invalid exponent")
              | some expValue => .ok (wrap32 (exponent + expValue))
            else .ok exponent
          match adjusted with
          | .error err => .error err
          | .ok exponent =>
            let mantissa := if sign = ['-'] then -mantissa else mantissa
            if ¬ IsInt64 mantissa then
              .error (.wrapf .ErrInvalidNumber ": mantissa overflow")
            else
              .ok (mantissa, exponent)

/-! ## formatNumber -/

/-- Embedding of `formatNumber(mantissa int64, exponent int32) string`. The last
fixed-point branch cannot be reached (it needs `exponent >= 0`). -/
def formatNumber (mantissa exponent : Int) : List Char :=
  if exponent = numberZeroExponent then
    ['0']
  else
    let useDecimal := exponent ≥ -25 ∧ exponent ≤ -5
    let mantissaStr0 := strconvFormatInt mantissa
    let sign : List Char := if mantissa < 0 then ['-'] else []
    let mantissaStr := if mantissa < 0 then mantissaStr0.drop 1 else mantissaStr0
    if useDecimal then
      let totalExp : Int := exponent + mantissaStr.length
      if totalExp ≤ 0 then
        sign ++ ['0', '.'] ++ List.replicate (-totalExp).toNat '0' ++ mantissaStr
      else if totalExp < mantissaStr.length then
        sign ++ mantissaStr.take totalExp.toNat ++ ['.'] ++ mantissaStr.drop totalExp.toNat
      else
        sign ++ mantissaStr ++ List.replicate (totalExp - mantissaStr.length).toNat '0'
    else if mantissaStr.length = 1 then
      sign ++ mantissaStr ++ ['e'] ++ strconvFormatInt exponent
    else
      sign ++ mantissaStr.take 1 ++ ['.'] ++ mantissaStr.drop 1 ++ ['e'] ++
        strconvFormatInt (exponent + mantissaStr.length - 1)

/-! ## Number.FromJSON / Number.ToJSON -/

/-- Go's `any` as far as `Number.FromJSON` distinguishes values: a string or not. -/
inductive AnyValue where
  | string (s : List Char) : AnyValue
  | int (i : Int) : AnyValue
  | bool (b : Bool) : AnyValue
  | null : AnyValue
  deriving DecidableEq, Repr

/-- `binary.BigEndian.PutUint64(buf, v)`: the eight bytes of `v`, most significant first. -/
def putUint64 (v : Nat) : List Nat :=
  [v / 72057594037927936 % 256, v / 281474976710656 % 256, v / 1099511627776 % 256,
   v / 4294967296 % 256, v / 16777216 % 256, v / 65536 % 256, v / 256 % 256, v % 256]

/-- `binary.BigEndian.PutUint32(buf, v)`: the four bytes of `v`, most significant first. -/
def putUint32 (v : Nat) : List Nat :=
  [v / 16777216 % 256, v / 65536 % 256, v / 256 % 256, v % 256]

/-- `binary.BigEndian.Uint64` / `Uint32`: big-endian value of a byte string. -/
def bigEndianValue (b : List Nat) : Nat := b.foldl (fun acc x => acc * 256 + x) 0

/-- Go's conversion `uint64(x)` of an `int64`. -/
def toUint64 (x : Int) : Nat := (x % 18446744073709551616).toNat

/-- Go's conversion `uint32(x)` of an `int32`. -/
def toUint32 (x : Int) : Nat := (x % 4294967296).toNat

/-- Embedding of `(*Number).FromJSON(value any) ([]byte, error)`. -/
def FromJSON (value : AnyValue) : Except GoError (List Nat) :=
  match value with
  | .string strValue =>
    match parseNumberString strValue with
    | .error err => .error err
    | .ok (mantissa, exponent) =>
      match normalizeNumber mantissa exponent with
      | .error err => .error err
      | .ok (mantissa, exponent) =>
        .ok (putUint64 (toUint64 mantissa) ++ putUint32 (toUint32 exponent))
  | _ => .error (.wrapf .ErrInvalidNumber ": must be a string")

/-- Modelled from the spec: the binary parser behind `interfaces.BinaryParser`, whose
implementation is not part of the sources at hand. It is a "sequential read-only view
over a byte buffer" and "`readBytes(n)` fails with TruncationError if fewer than n
bytes remain". -/
structure BinaryParser where
  data : List Nat
  deriving DecidableEq, Repr

/-- Modelled from the spec: `p.ReadBytes(n)`, returning the bytes read and the advanced parser. -/
def BinaryParser.ReadBytes (p : BinaryParser) (n : Nat) :
    Except GoError (List Nat) × BinaryParser :=
  if p.data.length < n then (.error (.parserError "truncated"), p)
  else (.ok (p.data.take n), ⟨p.data.drop n⟩)

/-- Embedding of `(*Number).ToJSON(p interfaces.BinaryParser, _ ...int) (any, error)`,
returning the result together with the parser after the read. -/
def ToJSON (p : BinaryParser) : Except GoError AnyValue × BinaryParser :=
  match p.ReadBytes numberByteLength with
  | (.error err, p) => (.error err, p)
  | (.ok b, p) =>
    let mantissa := wrap64 (bigEndianValue (b.take 8))
    let exponent := wrap32 (bigEndianValue ((b.drop 8).take 4))
    if exponent = numberZeroExponent then
      (.ok (.string ['0']), p)
    else
      (.ok (.string (formatNumber mantissa exponent)), p)

deriving instance DecidableEq for Except

/-! ## Named values and the grammar of the specification -/

/-- The error returned by the first loop of `normalizeNumber`. -/
def errExponentUnderflow : GoError := .wrapf .ErrInvalidNumber ": exponent underflow"

/-- The error returned by the second loop of `normalizeNumber`. -/
def errExponentOverflow : GoError := .wrapf .ErrInvalidNumber ": exponent overflow"

/-- The error returned by `parseNumberString` when the regular expression does not match. -/
def errInvalidFormat : GoError := .wrapf .ErrInvalidNumber ": invalid format"

/-- The error returned by `parseNumberString` when `strconv.ParseInt` fails. -/
def errInvalidExponent : GoError := .wrapf .ErrInvalidNumber ": invalid exponent"

/-- The error returned by `parseNumberString` when the mantissa does not fit `int64`. -/
def errMantissaOverflow : GoError := .wrapf .ErrInvalidNumber ": mantissa overflow"

/-- The fixed 12-byte encoding of zero: mantissa 0, exponent `numberZeroExponent`. -/
def zeroPattern : List Nat := [0, 0, 0, 0, 0, 0, 0, 0, 128, 0, 0, 0]

/-- An optional sign: nothing, `+` or `-`. -/
def IsSignText (sign : List Char) : Prop := sign = [] ∨ sign = ['+'] ∨ sign = ['-']

instance (sign : List Char) : Decidable (IsSignText sign) := by
  unfold IsSignText
  infer_instance

/-- Every character is an ASCII decimal digit. -/
def AllDigits (ds : List Char) : Prop := ∀ c ∈ ds, isDigit c = true

instance (ds : List Char) : Decidable (AllDigits ds) := by
  unfold AllDigits
  infer_instance

/-- The pieces of a string laid out as `numberRegex` has it:
`[sign] I ['.' F] [(e|E) [sign] digits]`. `frac` is `none` when there is no `'.'`;
`exp` is `none` when there is no exponent marker, else the marker, the sign text
and the digits after it. -/
structure NumberParts where
  sign : List Char
  intDigits : List Char
  frac : Option (List Char)
  exp : Option (Char × List Char × List Char)
  deriving DecidableEq, Repr

/-- The optional fractional suffix `'.' F`. -/
def fracSuffix : Option (List Char) → List Char
  | none => []
  | some f => '.' :: f

/-- The optional exponent suffix `(e|E) [sign] digits`. -/
def expSuffix : Option (Char × List Char × List Char) → List Char
  | none => []
  | some (marker, es, ed) => marker :: (es ++ ed)

/-- The fractional digits `F` of an optional fractional suffix. -/
def fracDigitsOf : Option (List Char) → List Char
  | none => []
  | some f => f

/-- The text `X` of an optional exponent suffix. -/
def expTextOf : Option (Char × List Char × List Char) → List Char
  | none => []
  | some (_, es, ed) => es ++ ed

/-- The fractional suffix obeys the grammar. -/
def FracWellFormed : Option (List Char) → Prop
  | none => True
  | some f => AllDigits f

/-- The exponent suffix obeys the grammar. -/
def ExpWellFormed : Option (Char × List Char × List Char) → Prop
  | none => True
  | some (marker, es, ed) =>
    (marker = 'e' ∨ marker = 'E') ∧ IsSignText es ∧ ed ≠ [] ∧ AllDigits ed

instance (frac : Option (List Char)) : Decidable (FracWellFormed frac) := by
  cases frac <;> unfold FracWellFormed <;> infer_instance

instance (exp : Option (Char × List Char × List Char)) : Decidable (ExpWellFormed exp) := by
  cases exp <;> unfold ExpWellFormed <;> infer_instance

namespace NumberParts

/-- The fractional digits `F` (empty when there is no `'.'`). -/
def fracDigits (p : NumberParts) : List Char := fracDigitsOf p.frac

/-- The text `X` after the exponent marker (empty when there is none). -/
def expText (p : NumberParts) : List Char := expTextOf p.exp

/-- The string the pieces spell. -/
def render (p : NumberParts) : List Char :=
  p.sign ++ (p.intDigits ++ (fracSuffix p.frac ++ expSuffix p.exp))

/-- The pieces obey the grammar of `numberRegex`, `[+-]?`, `\d*`, `(?:\.(\d*))?`,
`(?:[eE]([+-]?\d+))?`: the integer digits `I` and the fractional digits `F` may be none
at all, the digits of the exponent are one or more. -/
def WellFormed (p : NumberParts) : Prop :=
  IsSignText p.sign ∧ AllDigits p.intDigits ∧ FracWellFormed p.frac ∧ ExpWellFormed p.exp

instance (p : NumberParts) : Decidable p.WellFormed := by
  unfold WellFormed
  infer_instance

/-- The digits `I ++ F` of the mantissa. -/
def digits (p : NumberParts) : List Char := p.intDigits ++ p.fracDigits

/-- The signed integer the digits `I ++ F` denote. -/
def mantissa (p : NumberParts) : Int :=
  if p.sign = ['-'] then -(decimalValue p.digits : Int) else (decimalValue p.digits : Int)

/-- The integer `X` the exponent suffix denotes (0 when absent). -/
def expValue (p : NumberParts) : Int :=
  match p.exp with
  | none => 0
  | some (_, es, ed) => if es = ['-'] then -(decimalValue ed : Int) else (decimalValue ed : Int)

/-- The decimal exponent `X - len(F)` of the string. -/
def exponent (p : NumberParts) : Int := p.expValue - p.fracDigits.length

end NumberParts

/-- A string has the layout that `numberRegex` accepts:
`[optional sign][integer digits][optional '.' + fractional digits][optional 'e'/'E' + optional sign + digits]`,
in which the integer digits and the fractional digits may be none at all, and the digits
after the exponent marker are one or more. -/
def NumberLayout (s : List Char) : Prop := ∃ p : NumberParts, p.WellFormed ∧ s = p.render

/-- The pieces obey the grammar in the words of the specification, "optional sign,
integer digits, optional `.` + fractional digits, optional exponent marker (`e`/`E`,
optional sign, digits)": only the sign, the fraction and the exponent are optional, and
digits are one digit or more. -/
def NumberParts.SpecWellFormed (p : NumberParts) : Prop :=
  p.WellFormed ∧ p.intDigits ≠ [] ∧ p.frac ≠ some []

/-- A string has the layout of the specification's grammar. -/
def SpecNumberLayout (s : List Char) : Prop :=
  ∃ p : NumberParts, p.SpecWellFormed ∧ s = p.render


/-- The decimal digits of a natural number, most significant first, by the usual
recursion; `Nat.toDigits 10` computes the same list (`toDigits_eq_decimalDigits`). -/
def decimalDigits (n : Nat) : List Char :=
  if n < 10 then [Nat.digitChar n] else decimalDigits (n / 10) ++ [Nat.digitChar (n % 10)]
decreasing_by omega

/-- The sign text printed for an integer: `-` when negative, else nothing. -/
def signText (x : Int) : List Char := if x < 0 then ['-'] else []

/-- The change of exponent that brings a positive magnitude `n` to sixteen digits:
(number of decimal digits of `n`) minus 16. -/
def normShift (n : Nat) : Int := (Nat.log 10 n : Int) - 15

/-- The sixteen leading digits of a positive magnitude `n`, padded with zeros when `n`
has fewer digits and truncated when it has more. -/
def normMantissa (n : Nat) : Nat :=
  if Nat.log 10 n ≤ 15 then n * 10 ^ (15 - Nat.log 10 n) else n / 10 ^ (Nat.log 10 n - 15)

/-- The `int64` mantissa stored in bytes 0..7 of an encoding, as `Number.ToJSON` reads it. -/
def encodedMantissa (bytes : List Nat) : Int := wrap64 (bigEndianValue (bytes.take 8))

/-- The `int32` exponent stored in bytes 8..11 of an encoding, as `Number.ToJSON` reads it. -/
def encodedExponent (bytes : List Nat) : Int :=
  wrap32 (bigEndianValue ((bytes.drop 8).take 4))

/-- The twelve bytes `Number.FromJSON` builds from a mantissa and an exponent. -/
def encodeNumber (mantissa exponent : Int) : List Nat :=
  putUint64 (toUint64 mantissa) ++ putUint32 (toUint32 exponent)

/-- The big-endian two's-complement representation of a signed integer on `width`
bytes, as the specification words it: byte `i` (counted from the most significant) is
digit `width - 1 - i` of `v mod 256^width` in base 256. -/
def twosComplementBE (width : Nat) (v : Int) : List Nat :=
  (List.range width).map (fun i => (v % 256 ^ width).toNat / 256 ^ (width - 1 - i) % 256)

end XRPL.BinaryCodec.Types

namespace XRPL.Transaction.Types

/-!
# MPToken metadata (xrpl/transaction/types/mptoken_metadata.go)

Conventions of the embedding:
* JSON text is Unicode: keys and string values of a document are `List Char`. A Go
  string held in a struct field may also contain bytes that are not valid UTF-8, and
  is a `List GoChar`.
* A Go value of type `any` that holds JSON data is a `JSONValue`; Go's `nil` is
  `JSONValue.null`. The field `AdditionalInfo`, in which a caller may put any Go value,
  is a `GoAny`: `nil`, a value that gets through `encoding/json`, or one that does
  not. A Go `map[string]any` is a list of members whose keys are strictly
  increasing (`keyLt`): one fixed order stands for Go's unspecified iteration order,
  and `json.Marshal` emits the keys of a map in exactly this order.
* The text layer of `encoding/json` (bytes to document and back) is a parameter
  `JSONText`; what Go does with a parsed document (`toGoValue`, `decodeStruct`) and
  with a struct before printing (`structToJSON`) is defined here.
* A Go `error` result of `ValidateMPTokenMetadata` is the list of the errors it wraps,
  the empty list being `nil`.
-/

/-! ## JSON values and Go maps -/

/-- A finite `float64`, which is what `encoding/json` makes of a JSON number,
identified by its bit pattern. The code under study never computes with it. -/
structure Float64 where
  bits : Nat
  deriving DecidableEq, Repr

/-- A JSON document, and also Go's `any` holding JSON data (`nil`, `bool`, `float64`,
`string`, `[]any`, `map[string]any`). -/
inductive JSONValue where
  | null : JSONValue
  | bool (b : Bool) : JSONValue
  | number (n : Float64) : JSONValue
  | string (s : List Char) : JSONValue
  | array (items : List JSONValue) : JSONValue
  | object (members : List (List Char × JSONValue)) : JSONValue
  deriving Repr

/-- Go's string order `<` (bytewise on UTF-8, which is the order of code points). -/
def keyLt : List Char → List Char → Bool
  | [], [] => false
  | [], _ :: _ => true
  | _ :: _, [] => false
  | a :: as, b :: bs => decide (a < b) || (decide (a = b) && keyLt as bs)

/-- Go's `m[k] = v` on a map. -/
def mapInsert (k : List Char) (v : JSONValue) :
    List (List Char × JSONValue) → List (List Char × JSONValue)
  | [] => [(k, v)]
  | (k', v') :: rest =>
    if keyLt k k' then (k, v) :: (k', v') :: rest
    else if k = k' then (k, v) :: rest
    else (k', v') :: mapInsert k v rest

/-- Go's `v, ok := m[k]`: `none` is `ok == false`. -/
def mapLookup : List (List Char × JSONValue) → List Char → Option JSONValue
  | [], _ => none
  | (k', v) :: rest, k => if k = k' then some v else mapLookup rest k

/-- Go's `_, ok := m[k]`. -/
def mapHas (m : List (List Char × JSONValue)) (k : List Char) : Bool :=
  (mapLookup m k).isSome

mutual
/-- What `json.Unmarshal` stores in an `any` for a parsed document: objects become
maps (a repeated key keeps its last value), arrays become slices. -/
def toGoValue : JSONValue → JSONValue
  | .array items => .array (toGoList items)
  | .object members => .object (toGoMembers members [])
  | .null => .null
  | .bool b => .bool b
  | .number n => .number n
  | .string s => .string s
/-- `toGoValue` on the items of an array. -/
def toGoList : List JSONValue → List JSONValue
  | [] => []
  | v :: rest => toGoValue v :: toGoList rest
/-- The members of a parsed object stored one after the other into a map. -/
def toGoMembers : List (List Char × JSONValue) → List (List Char × JSONValue) →
    List (List Char × JSONValue)
  | [], acc => acc
  | (k, v) :: rest, acc => toGoMembers rest (mapInsert k (toGoValue v) acc)
end

/-- The text layer of Go's `encoding/json`: `parse` reads bytes as a JSON document
(`none` when `json.Unmarshal` into an `any` fails: a syntax error, or a number outside
`float64`), `print` writes a document. -/
structure JSONText where
  parse : List Nat → Option JSONValue
  print : JSONValue → List Nat

/-- The laws of the text layer: `print` writes bytes, and the library reads back the
document it wrote. -/
def JSONText.Lawful (T : JSONText) : Prop :=
  (∀ d, ∀ b ∈ T.print d, b < 256) ∧ ∀ d, T.parse (T.print d) = some d

/-- Go's `json.Unmarshal(data, &m)` for `m` of type `map[string]any`: `none` is a
non-nil error (a syntax error, or a document that is neither an object nor `null`);
`null` leaves the map `nil`, which reads as the empty map. -/
def jsonUnmarshalMap (T : JSONText) (data : List Nat) : Option (List (List Char × JSONValue)) :=
  match T.parse data with
  | some (.object members) => some (toGoMembers members [])
  | some .null => some []
  | _ => none

/-! ## encoding/hex and strings.ToUpper -/

/-- Value of a hexadecimal digit, upper or lower case. -/
def fromHexChar (c : Char) : Option Nat :=
  if '0' ≤ c ∧ c ≤ '9' then some (c.toNat - 48)
  else if 'a' ≤ c ∧ c ≤ 'f' then some (c.toNat - 87)
  else if 'A' ≤ c ∧ c ≤ 'F' then some (c.toNat - 55)
  else none

/-- Go's `hex.DecodeString`: `none` is a non-nil error (odd length or a character that
is not a hexadecimal digit). -/
def hexDecodeString : List Char → Option (List Nat)
  | [] => some []
  | [_] => none
  | a :: b :: rest =>
    match fromHexChar a, fromHexChar b, hexDecodeString rest with
    | some x, some y, some r => some ((x * 16 + y) :: r)
    | _, _, _ => none

/-- Go's `hex.EncodeToString`: two lower-case digits per byte. -/
def hexEncodeToString : List Nat → List Char
  | [] => []
  | b :: rest => Nat.digitChar (b / 16) :: Nat.digitChar (b % 16) :: hexEncodeToString rest

/-- Go's `strings.ToUpper`, here only ever applied to ASCII text. -/
def stringsToUpper (s : List Char) : List Char := s.map Char.toUpper

/-! ## Constants, tables and types of mptoken_metadata.go -/

def MaxMPTokenMetadataByteLength : Nat := 1024
def URIRequiredFieldCount : Nat := 3

def MPTokenMetadataAssetClasses : List (List Char) :=
  ["rwa".toList, "memes".toList, "wrapped".toList, "gaming".toList, "defi".toList,
   "other".toList]

def MPTokenMetadataAssetSubClasses : List (List Char) :=
  ["stablecoin".toList, "commodity".toList, "real_estate".toList, "private_credit".toList,
   "equity".toList, "treasury".toList, "other".toList]

def MPTokenMetadataURICategories : List (List Char) :=
  ["website".toList, "social".toList, "docs".toList, "other".toList]

/-- The table `mptTokenMetadataFieldMap` (long key, compact key), in source order. -/
def mptTokenMetadataFieldMap : List (List Char × List Char) :=
  [("ticker".toList, "t".toList), ("name".toList, "n".toList), ("desc".toList, "d".toList),
   ("icon".toList, "i".toList), ("asset_class".toList, "ac".toList),
   ("asset_subclass".toList, "as".toList), ("issuer_name".toList, "in".toList),
   ("uris".toList, "us".toList), ("additional_info".toList, "ai".toList)]

/-- The table `mptTokenMetadataURIFieldMap` (long key, compact key), in source order. -/
def mptTokenMetadataURIFieldMap : List (List Char × List Char) :=
  [("uri".toList, "u".toList), ("category".toList, "c".toList), ("title".toList, "t".toList)]

/-- Go's `alias, ok := mapping[key]` on one of the two tables. -/
def mappingLookup : List (List Char × List Char) → List Char → Option (List Char)
  | [], _ => none
  | (long, compact) :: rest, k => if k = long then some compact else mappingLookup rest k

/-- The error values of the package, named as in the source. The declarations
themselves are not among the sources at hand; the constructors carry the fields the
code fills in. The last three stand for the errors of `encoding/json`: a syntax error,
an `UnmarshalTypeError`, and the error for a Go value that does not get through the
library (the `UnsupportedTypeError`, `UnsupportedValueError` or `MarshalerError` of
`json.Marshal`, and the error of `json.Unmarshal` on a number outside `float64`). -/
inductive MetadataError where
  | ErrInvalidMPTokenMetadataHex
  | ErrInvalidMPTokenMetadataSize
  | ErrInvalidMPTokenMetadataJSON
  | ErrInvalidMPTokenMetadataFieldCount (Count : Nat)
  | ErrInvalidMPTokenMetadataUnknownField (Field : List Char)
  | ErrInvalidMPTokenMetadataFieldCollision (Long Compact : List Char)
  | ErrInvalidMPTokenMetadataMissingField (Field : List Char)
  | ErrInvalidMPTokenMetadataTicker
  | ErrInvalidMPTokenMetadataAssetClass (AssetClassSet : List (List Char))
  | ErrInvalidMPTokenMetadataAssetSubClass (AssetSubclassSet : List (List Char))
  | ErrInvalidMPTokenMetadataRWASubClassRequired
  | ErrInvalidMPTokenMetadataURIs
  | ErrInvalidMPTokenMetadataAdditionalInfo
  | jsonSyntaxError
  | jsonUnmarshalTypeError
  | jsonUnsupportedValueError
  deriving DecidableEq, Repr

/-- One step of Go's `for range` over a string: a rune decoded from valid UTF-8, or a
byte that is not part of a valid UTF-8 sequence. -/
inductive GoChar where
  | rune (c : Char)
  | invalid (b : Nat)
  deriving DecidableEq, Repr

/-- Go's `utf8.ValidString`. -/
def utf8ValidString : List GoChar → Bool
  | [] => true
  | .rune _ :: rest => utf8ValidString rest
  | .invalid _ :: _ => false

/-- The text `json.Marshal` writes for a Go string: it is "coerced to valid UTF-8,
replacing invalid bytes with the Unicode replacement rune". -/
def jsonCoerce : List GoChar → List Char
  | [] => []
  | .rune c :: rest => c :: jsonCoerce rest
  | .invalid _ :: rest => Char.ofNat 0xFFFD :: jsonCoerce rest

/-- The Go string `json.Unmarshal` stores for the text of a JSON string. -/
def goString : List Char → List GoChar
  | [] => []
  | c :: rest => .rune c :: goString rest

/-- The struct `ParsedMPTokenMetadataURI`. -/
structure ParsedMPTokenMetadataURI where
  URI : List GoChar
  Category : List GoChar
  Title : List GoChar
  deriving DecidableEq, Repr

/-- A Go value of type `any` as far as `encoding/json` tells values apart. `nil` is the
nil interface. `value v` is a non-nil value for which `json.Marshal` writes a text that
`json.Unmarshal` reads back as the document `v`: a string, a number, a map, a slice, a
struct and so on, and also a nil map, a nil slice or a nil pointer held in the interface,
all written `null`. `unsupported` is a non-nil value that does not get through the
library: `json.Marshal` returns an error for it (a channel, a func, a complex number, a
NaN or an infinity, a cyclic value, a `Marshaler` that fails, or a value that contains one
of these), or writes a number that `json.Unmarshal` cannot store in a `float64` (such as
`json.Number("1e400")`). With either, `EncodeMPTokenMetadata` returns the empty string
and the error of the library before it builds the map. -/
inductive GoAny where
  | nil : GoAny
  | value (v : JSONValue) : GoAny
  | unsupported : GoAny
  deriving Repr

/-- What `json.Unmarshal` stores in a field of type `any` for a parsed document: `null`
sets the field to `nil`, every other document is stored as Go data (`toGoValue`). -/
def unmarshalAny : JSONValue → GoAny
  | .null => .nil
  | v => .value (toGoValue v)

/-- The struct `ParsedMPTokenMetadata`. A `*string` is an `Option`; the slice `URIs` is
`none` when `nil` and `some []` when empty but not `nil`; `AdditionalInfo` of type `any`
is a `GoAny`. -/
structure ParsedMPTokenMetadata where
  Ticker : List GoChar
  Name : List GoChar
  Desc : Option (List GoChar)
  Icon : List GoChar
  AssetClass : List GoChar
  AssetSubclass : Option (List GoChar)
  IssuerName : List GoChar
  URIs : Option (List ParsedMPTokenMetadataURI)
  AdditionalInfo : GoAny
  deriving Repr

/-! ## json.Marshal of the struct, json.Unmarshal into the struct -/

/-- The document `json.Marshal` writes for a `ParsedMPTokenMetadataURI`: the fields in
declaration order under their tags. -/
def uriToJSON (u : ParsedMPTokenMetadataURI) : JSONValue :=
  .object [("u".toList, .string (jsonCoerce u.URI)),
    ("c".toList, .string (jsonCoerce u.Category)),
    ("t".toList, .string (jsonCoerce u.Title))]

/-- The member written for a `*string` field tagged `omitempty`. -/
def optionalStringMember (tag : List Char) :
    Option (List GoChar) → List (List Char × JSONValue)
  | none => []
  | some s => [(tag, .string (jsonCoerce s))]

/-- The member written for the slice field `URIs`, tagged `omitempty`: nothing for a
`nil` or empty slice. -/
def urisMember : Option (List ParsedMPTokenMetadataURI) → List (List Char × JSONValue)
  | none => []
  | some [] => []
  | some (u :: us) => [("us".toList, .array ((u :: us).map uriToJSON))]

/-- The member written for the `any` field `AdditionalInfo`, tagged `omitempty`: nothing
for the nil interface, the document of a value that `json.Marshal` can write, and the
error of the library for a value that does not get through it. -/
def additionalInfoMember : GoAny → Except MetadataError (List (List Char × JSONValue))
  | .nil => .ok []
  | .value v => .ok [("ai".toList, v)]
  | .unsupported => .error .jsonUnsupportedValueError

/-- The document `json.Marshal` writes for a `ParsedMPTokenMetadata`: the fields in
declaration order under their tags, the `omitempty` ones left out when empty; an error
when `AdditionalInfo` holds a value that does not get through the library. -/
def structToJSON (metadata : ParsedMPTokenMetadata) : Except MetadataError JSONValue :=
  match additionalInfoMember metadata.AdditionalInfo with
  | .error err => .error err
  | .ok additionalInfo =>
    .ok (.object (
      [("t".toList, .string (jsonCoerce metadata.Ticker)),
       ("n".toList, .string (jsonCoerce metadata.Name))] ++
      optionalStringMember "d".toList metadata.Desc ++
      [("i".toList, .string (jsonCoerce metadata.Icon)),
       ("ac".toList, .string (jsonCoerce metadata.AssetClass))] ++
      optionalStringMember "as".toList metadata.AssetSubclass ++
      [("in".toList, .string (jsonCoerce metadata.IssuerName))] ++
      urisMember metadata.URIs ++
      additionalInfo))

/-- Go's `json.Marshal(meta)` for `meta` of type `ParsedMPTokenMetadata`: the text of
the document, or the error. The code only ever hands this text to `json.Unmarshal`, so
it is given as the text of the document that it reads back as. -/
def jsonMarshalStruct (T : JSONText) (metadata : ParsedMPTokenMetadata) :
    Except MetadataError (List Nat) :=
  match structToJSON metadata with
  | .error err => .error err
  | .ok document => .ok (T.print document)

/-- Go's `json.Marshal(m)` for a map `m` of type `map[string]any` that holds what
`json.Unmarshal` stored (`nil`, `bool`, `float64`, `string`, `[]any`, `map[string]any`):
on such data `json.Marshal` returns no error. -/
def jsonMarshalMap (T : JSONText) (m : List (List Char × JSONValue)) :
    Except MetadataError (List Nat) :=
  .ok (T.print (.object m))

/-- Case folding of `encoding/json` when it matches an object key against the field
tags: exact on all characters that cannot fold to an ASCII letter; `a..z` fold to
`A..Z`, and so do the long s (to `S`) and the Kelvin sign (to `K`). -/
def foldChar (c : Char) : Char :=
  if 'a' ≤ c ∧ c ≤ 'z' then Char.ofNat (c.toNat - 32)
  else if c = Char.ofNat 0x17F then 'S'
  else if c = Char.ofNat 0x212A then 'K'
  else c

/-- The folded form of a key or tag. -/
def foldName (s : List Char) : List Char := s.map foldChar

/-- `json.Unmarshal` of a value into a `string` field holding `cur`: a string is
stored, `null` changes nothing, anything else is an `UnmarshalTypeError`. -/
def decodeStringField (cur : List GoChar) : JSONValue → Except MetadataError (List GoChar)
  | .string s => .ok (goString s)
  | .null => .ok cur
  | _ => .error .jsonUnmarshalTypeError

/-- `json.Unmarshal` of a value into a `*string` field: a string is stored behind a
fresh pointer, `null` sets `nil`, anything else is an `UnmarshalTypeError`. -/
def decodeStringPtrField : JSONValue → Except MetadataError (Option (List GoChar))
  | .string s => .ok (some (goString s))
  | .null => .ok none
  | _ => .error .jsonUnmarshalTypeError

/-- One key of an object decoded into a `ParsedMPTokenMetadataURI`. Unknown keys are
skipped. -/
def decodeURIMember (u : ParsedMPTokenMetadataURI) (k : List Char) (v : JSONValue) :
    Except MetadataError ParsedMPTokenMetadataURI :=
  if foldName k = foldName "u".toList then
    match decodeStringField u.URI v with
    | .ok s => .ok { u with URI := s }
    | .error e => .error e
  else if foldName k = foldName "c".toList then
    match decodeStringField u.Category v with
    | .ok s => .ok { u with Category := s }
    | .error e => .error e
  else if foldName k = foldName "t".toList then
    match decodeStringField u.Title v with
    | .ok s => .ok { u with Title := s }
    | .error e => .error e
  else .ok u

/-- The keys of an object decoded one after the other into a URI struct. -/
def decodeURIMembers : List (List Char × JSONValue) → ParsedMPTokenMetadataURI →
    Except MetadataError ParsedMPTokenMetadataURI
  | [], u => .ok u
  | (k, v) :: rest, u =>
    match decodeURIMember u k v with
    | .ok u' => decodeURIMembers rest u'
    | .error e => .error e

/-- `json.Unmarshal` of an array element into the slice element `cur`. -/
def decodeURI (cur : ParsedMPTokenMetadataURI) :
    JSONValue → Except MetadataError ParsedMPTokenMetadataURI
  | .object members => decodeURIMembers members cur
  | .null => .ok cur
  | _ => .error .jsonUnmarshalTypeError

/-- The elements of an array decoded into a slice that holds `cur`: element `i` is
decoded into `cur[i]`, and into a zero value past the length of `cur`. -/
def decodeURIList : List JSONValue → List ParsedMPTokenMetadataURI →
    Except MetadataError (List ParsedMPTokenMetadataURI)
  | [], _ => .ok []
  | v :: rest, cur =>
    match decodeURI (cur.headD ⟨[], [], []⟩) v with
    | .error e => .error e
    | .ok u =>
      match decodeURIList rest cur.tail with
      | .error e => .error e
      | .ok us => .ok (u :: us)

/-- `json.Unmarshal` of a value into the field `URIs` holding `cur`: an array is
decoded element by element, `null` sets `nil`, anything else is an
`UnmarshalTypeError`. -/
def decodeURIsField (cur : Option (List ParsedMPTokenMetadataURI)) : JSONValue →
    Except MetadataError (Option (List ParsedMPTokenMetadataURI))
  | .array items =>
    match decodeURIList items (cur.getD []) with
    | .ok us => .ok (some us)
    | .error e => .error e
  | .null => .ok none
  | _ => .error .jsonUnmarshalTypeError

/-- One key of an object decoded into a `ParsedMPTokenMetadata`. Unknown keys are
skipped. -/
def decodeStructMember (r : ParsedMPTokenMetadata) (k : List Char) (v : JSONValue) :
    Except MetadataError ParsedMPTokenMetadata :=
  if foldName k = foldName "t".toList then
    match decodeStringField r.Ticker v with
    | .ok s => .ok { r with Ticker := s }
    | .error e => .error e
  else if foldName k = foldName "n".toList then
    match decodeStringField r.Name v with
    | .ok s => .ok { r with Name := s }
    | .error e => .error e
  else if foldName k = foldName "d".toList then
    match decodeStringPtrField v with
    | .ok s => .ok { r with Desc := s }
    | .error e => .error e
  else if foldName k = foldName "i".toList then
    match decodeStringField r.Icon v with
    | .ok s => .ok { r with Icon := s }
    | .error e => .error e
  else if foldName k = foldName "ac".toList then
    match decodeStringField r.AssetClass v with
    | .ok s => .ok { r with AssetClass := s }
    | .error e => .error e
  else if foldName k = foldName "as".toList then
    match decodeStringPtrField v with
    | .ok s => .ok { r with AssetSubclass := s }
    | .error e => .error e
  else if foldName k = foldName "in".toList then
    match decodeStringField r.IssuerName v with
    | .ok s => .ok { r with IssuerName := s }
    | .error e => .error e
  else if foldName k = foldName "us".toList then
    match decodeURIsField r.URIs v with
    | .ok us => .ok { r with URIs := us }
    | .error e => .error e
  else if foldName k = foldName "ai".toList then
    .ok { r with AdditionalInfo := unmarshalAny v }
  else .ok r

/-- The keys of an object decoded one after the other into the struct. -/
def decodeStructMembers : List (List Char × JSONValue) → ParsedMPTokenMetadata →
    Except MetadataError ParsedMPTokenMetadata
  | [], r => .ok r
  | (k, v) :: rest, r =>
    match decodeStructMember r k v with
    | .ok r' => decodeStructMembers rest r'
    | .error e => .error e

/-- The zero value of `ParsedMPTokenMetadata`. -/
def zeroParsedMPTokenMetadata : ParsedMPTokenMetadata :=
  ⟨[], [], none, [], [], none, [], none, .nil⟩

/-- `json.Unmarshal` of a parsed document into a zero `ParsedMPTokenMetadata`. Go goes on
after a type error and reports the first one at the end; the result is an error either
way. -/
def decodeStruct : JSONValue → Except MetadataError ParsedMPTokenMetadata
  | .object members => decodeStructMembers members zeroParsedMPTokenMetadata
  | .null => .ok zeroParsedMPTokenMetadata
  | _ => .error .jsonUnmarshalTypeError

/-- Go's `json.Unmarshal(data, &result)` for `result` of type `ParsedMPTokenMetadata`. -/
def jsonUnmarshalStruct (T : JSONText) (data : List Nat) :
    Except MetadataError ParsedMPTokenMetadata :=
  match T.parse data with
  | none => .error .jsonSyntaxError
  | some d => decodeStruct d

/-! ## compactKeys, EncodeMPTokenMetadata, DecodeMPTokenMetadata -/

/-- One turn of the loop of `compactKeys`. -/
def compactKeysStep (input : List (List Char × JSONValue))
    (mapping : List (List Char × List Char))
    (result : List (List Char × JSONValue)) (entry : List Char × JSONValue) :
    List (List Char × JSONValue) :=
  match mappingLookup mapping entry.1 with
  | some compactAlias =>
    if mapHas input compactAlias then mapInsert entry.1 entry.2 result
    else mapInsert compactAlias entry.2 result
  | none => mapInsert entry.1 entry.2 result

/-- Embedding of `compactKeys(input, mapping)`. -/
def compactKeys (input : List (List Char × JSONValue))
    (mapping : List (List Char × List Char)) : List (List Char × JSONValue) :=
  input.foldl (compactKeysStep input mapping) []

/-- The body of the loop over the URI entries: a map gets its keys compacted, anything
else is kept. -/
def compactURIEntry : JSONValue → JSONValue
  | .object uriMap => .object (compactKeys uriMap mptTokenMetadataURIFieldMap)
  | v => v

/-- The step "handle nested URIs" shared by `EncodeMPTokenMetadata` and
`DecodeMPTokenMetadata`. `newURIs` starts as a `nil` slice, so an empty array is
replaced by `nil`, which `json.Marshal` writes as `null`. -/
def compactNestedURIs (compactMap : List (List Char × JSONValue)) :
    List (List Char × JSONValue) :=
  match mapLookup compactMap "us".toList with
  | some (.array []) => mapInsert "us".toList .null compactMap
  | some (.array (u :: us)) =>
    mapInsert "us".toList (.array ((u :: us).map compactURIEntry)) compactMap
  | _ => compactMap

/-- Embedding of `EncodeMPTokenMetadata`; `.error err` stands for the result
`("", err)`. -/
def EncodeMPTokenMetadata (T : JSONText) (metadata : ParsedMPTokenMetadata) :
    Except MetadataError (List Char) :=
  match jsonMarshalStruct T metadata with
  | .error err => .error err
  | .ok bytes =>
    match jsonUnmarshalMap T bytes with
    | none => .error .jsonSyntaxError
    | some asMap =>
      let compactMap := compactKeys asMap mptTokenMetadataFieldMap
      let compactMap := compactNestedURIs compactMap
      match jsonMarshalMap T compactMap with
      | .error err => .error err
      | .ok finalJSON => .ok (stringsToUpper (hexEncodeToString finalJSON))

/-- The string of the result `(string, error)` of `EncodeMPTokenMetadata`: the hex text,
and the empty string when an error is returned. -/
def encodedText : Except MetadataError (List Char) → List Char
  | .ok hexText => hexText
  | .error _ => []

/-- Embedding of `DecodeMPTokenMetadata`; `.error` stands for the `nil` result with an
error. -/
def DecodeMPTokenMetadata (T : JSONText) (hexInput : List Char) :
    Except MetadataError ParsedMPTokenMetadata :=
  match hexDecodeString hexInput with
  | none => .error .ErrInvalidMPTokenMetadataHex
  | some bytes =>
    match jsonUnmarshalMap T bytes with
    | none => .error .ErrInvalidMPTokenMetadataJSON
    | some rawMap =>
      let compactMap := compactKeys rawMap mptTokenMetadataFieldMap
      let compactMap := compactNestedURIs compactMap
      match jsonMarshalMap T compactMap with
      | .error err => .error err
      | .ok cleanBytes => jsonUnmarshalStruct T cleanBytes

/-! ## ValidateMPTokenMetadata -/

/-- Embedding of `areBothFieldsPresent`. -/
def areBothFieldsPresent (obj : List (List Char × JSONValue)) (long compact : List Char) :
    Bool :=
  mapHas obj long && mapHas obj compact

/-- Embedding of `lookupField`: the value (`nil` when absent) and whether it exists. -/
def lookupField (m : List (List Char × JSONValue)) (long compact : List Char) :
    JSONValue × Bool :=
  match mapLookup m long with
  | some v => (v, true)
  | none =>
    match mapLookup m compact with
    | some v => (v, true)
    | none => (.null, false)

/-- Embedding of `isString`. -/
def isString : JSONValue → Bool
  | .string _ => true
  | _ => false

/-- Embedding of `isMap`. -/
def isMap : JSONValue → Bool
  | .object _ => true
  | _ => false

/-- The class `[A-Z0-9]` of `tickerRegex`. -/
def isTickerChar (c : Char) : Bool := ('A' ≤ c && c ≤ 'Z') || ('0' ≤ c && c ≤ '9')

/-- `tickerRegex.MatchString` for `^[A-Z0-9]{1,6}$`. -/
def tickerRegexMatch (s : List Char) : Bool :=
  decide (1 ≤ s.length) && decide (s.length ≤ 6) && s.all isTickerChar

/-- Embedding of `validateTicker`; `none` is a `nil` error. -/
def validateTicker : JSONValue → Option MetadataError
  | .string s =>
    if s = [] then some .ErrInvalidMPTokenMetadataTicker
    else if ¬ tickerRegexMatch s then some .ErrInvalidMPTokenMetadataTicker
    else none
  | _ => some .ErrInvalidMPTokenMetadataTicker

/-- Embedding of `validateNonEmptyString(fieldName)`. -/
def validateNonEmptyString (fieldName : List Char) : JSONValue → Option MetadataError
  | .string s =>
    if s.length = 0 then some (.ErrInvalidMPTokenMetadataMissingField fieldName) else none
  | _ => some (.ErrInvalidMPTokenMetadataMissingField fieldName)

/-- Embedding of `validateOptionalString(fieldName)`. -/
def validateOptionalString (fieldName : List Char) : JSONValue → Option MetadataError
  | .null => none
  | v => validateNonEmptyString fieldName v

/-- Embedding of `validateAssetClass`. -/
def validateAssetClass : JSONValue → Option MetadataError
  | .string s =>
    if ¬ MPTokenMetadataAssetClasses.contains s then
      some (.ErrInvalidMPTokenMetadataAssetClass MPTokenMetadataAssetClasses)
    else none
  | _ => some (.ErrInvalidMPTokenMetadataAssetClass MPTokenMetadataAssetClasses)

/-- The inner `switch longKey` of `validateField`: the optional fields. -/
def isOptionalField (longKey : List Char) : Bool :=
  longKey = "desc".toList || longKey = "asset_subclass".toList ||
    longKey = "uris".toList || longKey = "additional_info".toList

/-- Embedding of `validateField`. -/
def validateField (obj : List (List Char × JSONValue)) (longKey compactKey : List Char)
    (validator : JSONValue → Option MetadataError) : List MetadataError :=
  match mapLookup obj longKey, mapLookup obj compactKey with
  | some _, some _ => [.ErrInvalidMPTokenMetadataFieldCollision longKey compactKey]
  | some longValue, none =>
    match validator longValue with
    | some err => [err]
    | none => []
  | none, some compactValue =>
    match validator compactValue with
    | some err => [err]
    | none => []
  | none, none =>
    if isOptionalField longKey then []
    else [.ErrInvalidMPTokenMetadataMissingField longKey]

/-- The test `ok && assetClassStr == "rwa"` of `validateSubClass`. -/
def isRWA : JSONValue → Bool
  | .string s => s = "rwa".toList
  | _ => false

/-- The test `!ok || len(s) == 0 || !slices.Contains(...)` of `validateSubClass`. -/
def isInvalidSubClass : JSONValue → Bool
  | .string s => s.length = 0 || !MPTokenMetadataAssetSubClasses.contains s
  | _ => true

/-- Embedding of `validateSubClass`. -/
def validateSubClass (obj : List (List Char × JSONValue)) : List MetadataError :=
  let assetClass := lookupField obj "asset_class".toList "ac".toList
  let assetSubclass := lookupField obj "asset_subclass".toList "as".toList
  if areBothFieldsPresent obj "asset_subclass".toList "as".toList then
    [.ErrInvalidMPTokenMetadataFieldCollision "asset_subclass".toList "as".toList]
  else if assetClass.2 && isRWA assetClass.1 && !assetSubclass.2 then
    [.ErrInvalidMPTokenMetadataRWASubClassRequired]
  else if assetSubclass.2 && isInvalidSubClass assetSubclass.1 then
    [.ErrInvalidMPTokenMetadataAssetSubClass MPTokenMetadataAssetSubClasses]
  else []

/-- The collisions found by the loop over `mptTokenMetadataURIFieldMap` inside
`validateURIs`, in the order of the table (Go ranges over the table in an unspecified
order). -/
def uriCollisions (uriObject : List (List Char × JSONValue)) :
    List (List Char × List Char) → List MetadataError
  | [] => []
  | (long, compact) :: rest =>
    if areBothFieldsPresent uriObject long compact then
      .ErrInvalidMPTokenMetadataFieldCollision long compact :: uriCollisions uriObject rest
    else uriCollisions uriObject rest

/-- The test on the category of a URI object, once it is known to be a string. -/
def isInvalidCategory : JSONValue → Bool
  | .string categoryStr => !MPTokenMetadataURICategories.contains categoryStr
  | _ => false

/-- The body of the loop of `validateURIs` for one item: the errors it appends. -/
def validateURIItem : JSONValue → List MetadataError
  | .object uriObject =>
    if uriObject.length ≠ URIRequiredFieldCount then [.ErrInvalidMPTokenMetadataURIs]
    else
      let collisions := uriCollisions uriObject mptTokenMetadataURIFieldMap
      let uri := lookupField uriObject "uri".toList "u".toList
      let category := lookupField uriObject "category".toList "c".toList
      let title := lookupField uriObject "title".toList "t".toList
      if !uri.2 || !isString uri.1 || !category.2 || !isString category.1 ||
          !title.2 || !isString title.1 then
        collisions ++ [.ErrInvalidMPTokenMetadataURIs]
      else if isInvalidCategory category.1 then
        collisions ++ [.ErrInvalidMPTokenMetadataURIs]
      else collisions
  | _ => [.ErrInvalidMPTokenMetadataURIs]

/-- The loop of `validateURIs` over the items. -/
def validateURIItems : List JSONValue → List MetadataError
  | [] => []
  | item :: rest => validateURIItem item ++ validateURIItems rest

/-- Embedding of `validateURIs`. -/
def validateURIs (obj : List (List Char × JSONValue)) : List MetadataError :=
  let field := lookupField obj "uris".toList "us".toList
  if !field.2 then []
  else if areBothFieldsPresent obj "uris".toList "us".toList then
    [.ErrInvalidMPTokenMetadataFieldCollision "uris".toList "us".toList]
  else
    match field.1 with
    | .array [] => [.ErrInvalidMPTokenMetadataURIs]
    | .array (item :: rest) => validateURIItems (item :: rest)
    | _ => [.ErrInvalidMPTokenMetadataURIs]

/-- Embedding of `validateAdditionalInfo`. -/
def validateAdditionalInfo (obj : List (List Char × JSONValue)) : List MetadataError :=
  let field := lookupField obj "additional_info".toList "ai".toList
  if !field.2 then []
  else if areBothFieldsPresent obj "additional_info".toList "ai".toList then
    [.ErrInvalidMPTokenMetadataFieldCollision "additional_info".toList "ai".toList]
  else if !isString field.1 && !isMap field.1 then
    [.ErrInvalidMPTokenMetadataAdditionalInfo]
  else []

/-- Embedding of `filterErrors`: it drops `nil` errors, and no error of this model is
`nil`. -/
def filterErrors (errs : List MetadataError) : List MetadataError := errs

/-- The set `validKeys` built by `ValidateMPTokenMetadata`. -/
def validKeys : List (List Char × List Char) → List (List Char)
  | [] => []
  | (long, compact) :: rest => long :: compact :: validKeys rest

/-- The loop of `ValidateMPTokenMetadata` over the keys of `rawData`. -/
def unknownFieldErrors : List (List Char × JSONValue) → List MetadataError
  | [] => []
  | (key, _) :: rest =>
    if (validKeys mptTokenMetadataFieldMap).contains key then unknownFieldErrors rest
    else .ErrInvalidMPTokenMetadataUnknownField key :: unknownFieldErrors rest

/-- The steps 4 and 5 of `ValidateMPTokenMetadata`: the errors collected from a parsed
object. -/
def validateRawData (rawData : List (List Char × JSONValue)) : List MetadataError :=
  let errs : List MetadataError :=
    if rawData.length > mptTokenMetadataFieldMap.length then
      [.ErrInvalidMPTokenMetadataFieldCount mptTokenMetadataFieldMap.length]
    else []
  let errs := errs ++ unknownFieldErrors rawData
  let errs := errs ++ validateField rawData "ticker".toList "t".toList validateTicker
  let errs := errs ++ validateField rawData "name".toList "n".toList
    (validateNonEmptyString "name".toList)
  let errs := errs ++ validateField rawData "icon".toList "i".toList
    (validateNonEmptyString "icon".toList)
  let errs := errs ++ validateField rawData "issuer_name".toList "in".toList
    (validateNonEmptyString "issuer_name".toList)
  let errs := errs ++ validateField rawData "asset_class".toList "ac".toList
    validateAssetClass
  let errs := errs ++ validateField rawData "desc".toList "d".toList
    (validateOptionalString "desc".toList)
  let errs := errs ++ validateSubClass rawData
  let errs := errs ++ validateURIs rawData
  let errs := errs ++ validateAdditionalInfo rawData
  filterErrors errs

/-- Embedding of `ValidateMPTokenMetadata`: the list of errors wrapped in the result,
empty for `nil`. -/
def ValidateMPTokenMetadata (T : JSONText) (hexInput : List Char) : List MetadataError :=
  match hexDecodeString hexInput with
  | none => [.ErrInvalidMPTokenMetadataHex]
  | some bytes =>
    if bytes.length > MaxMPTokenMetadataByteLength then [.ErrInvalidMPTokenMetadataSize]
    else
      match jsonUnmarshalMap T bytes with
      | none => [.ErrInvalidMPTokenMetadataJSON]
      | some rawData => validateRawData rawData

/-! ## A concrete text layer

A small postfix notation for documents that satisfies the laws of `JSONText`. It shows
that the laws can be met and lets examples run; it is not the JSON syntax. Each byte is
an instruction of a stack machine that builds the document. -/

/-- An entry of the stack: a finished document, or the code points (last one first) of
a string under construction. -/
inductive StackItem where
  | value (v : JSONValue)
  | codes (l : List Nat)

/-- The instructions below 16; `none` when one does not apply. -/
def stackOp : Nat → List StackItem → Option (List StackItem)
  | 0, st => some (.value .null :: st)
  | 1, st => some (.value (.bool false) :: st)
  | 2, st => some (.value (.bool true) :: st)
  | 3, st => some (.value (.number ⟨0⟩) :: st)
  | 4, .value (.number n) :: st => some (.value (.number ⟨n.bits + 1⟩) :: st)
  | 5, st => some (.codes [] :: st)
  | 6, .codes l :: st => some (.codes (0 :: l) :: st)
  | 8, .codes l :: st => some (.value (.string (l.reverse.map Char.ofNat)) :: st)
  | 9, st => some (.value (.array []) :: st)
  | 10, .value v :: .value (.array items) :: st => some (.value (.array (items ++ [v])) :: st)
  | 11, st => some (.value (.object []) :: st)
  | 12, .value v :: .value (.string k) :: .value (.object members) :: st =>
    some (.value (.object (members ++ [(k, v)])) :: st)
  | _, _ => none

/-- A hexadecimal digit `d`, written as the byte `16 + d`, appended to the code point
under construction. -/
def stackDigit (d : Nat) : List StackItem → Option (List StackItem)
  | .codes (c :: l) :: st => some (.codes ((c * 16 + d) :: l) :: st)
  | _ => none

/-- One instruction of the stack machine; `none` when it does not apply. -/
def stackStep (b : Nat) (st : List StackItem) : Option (List StackItem) :=
  if b < 16 then stackOp b st
  else if b < 32 then stackDigit (b - 16) st
  else none

/-- The stack machine run over a list of bytes. -/
def stackRun : List Nat → List StackItem → Option (List StackItem)
  | [], st => some st
  | b :: rest, st =>
    match stackStep b st with
    | some st' => stackRun rest st'
    | none => none

/-- The instructions that append one character: six hexadecimal digits of its code
point. -/
def stackPrintChar (c : Char) : List Nat :=
  [6, 16 + c.toNat / 1048576 % 16, 16 + c.toNat / 65536 % 16, 16 + c.toNat / 4096 % 16,
   16 + c.toNat / 256 % 16, 16 + c.toNat / 16 % 16, 16 + c.toNat % 16]

/-- The instructions that append the characters of a string. -/
def stackPrintChars : List Char → List Nat
  | [] => []
  | c :: rest => stackPrintChar c ++ stackPrintChars rest

/-- The instructions that build a string. -/
def stackPrintString (s : List Char) : List Nat := 5 :: (stackPrintChars s ++ [8])

mutual
/-- The instructions that build a document. -/
def stackPrint : JSONValue → List Nat
  | .null => [0]
  | .bool false => [1]
  | .bool true => [2]
  | .number n => 3 :: List.replicate n.bits 4
  | .string s => stackPrintString s
  | .array items => 9 :: stackPrintItems items
  | .object members => 11 :: stackPrintMembers members
/-- The instructions that append the items of an array. -/
def stackPrintItems : List JSONValue → List Nat
  | [] => []
  | v :: rest => stackPrint v ++ 10 :: stackPrintItems rest
/-- The instructions that append the members of an object. -/
def stackPrintMembers : List (List Char × JSONValue) → List Nat
  | [] => []
  | (k, v) :: rest => stackPrintString k ++ (stackPrint v ++ 12 :: stackPrintMembers rest)
end

/-- The document built by a list of bytes, if they build exactly one. -/
def stackParse (data : List Nat) : Option JSONValue :=
  match stackRun data [] with
  | some [.value v] => some v
  | _ => none

/-- The concrete text layer. -/
def stackJSON : JSONText where
  parse := stackParse
  print := stackPrint

/-- The documents that `json.Unmarshal` refuses to store in a `map[string]any`: a JSON
array, string, number or boolean. -/
def isArrayStringNumberOrBool : JSONValue → Bool
  | .array _ => true
  | .string _ => true
  | .number _ => true
  | .bool _ => true
  | .object _ => false
  | .null => false

/-- The errors of the envelope checks of `ValidateMPTokenMetadata` (steps 1 to 3). -/
def isEnvelopeError : MetadataError → Bool
  | .ErrInvalidMPTokenMetadataHex => true
  | .ErrInvalidMPTokenMetadataSize => true
  | .ErrInvalidMPTokenMetadataJSON => true
  | _ => false

/-- The lists of errors that steps 4 and 5 of `ValidateMPTokenMetadata` append, one
list per step, in order. -/
def validationSteps (rawData : List (List Char × JSONValue)) : List (List MetadataError) :=
  [if rawData.length > mptTokenMetadataFieldMap.length then
      [.ErrInvalidMPTokenMetadataFieldCount mptTokenMetadataFieldMap.length] else [],
   unknownFieldErrors rawData,
   validateField rawData "ticker".toList "t".toList validateTicker,
   validateField rawData "name".toList "n".toList (validateNonEmptyString "name".toList),
   validateField rawData "icon".toList "i".toList (validateNonEmptyString "icon".toList),
   validateField rawData "issuer_name".toList "in".toList
     (validateNonEmptyString "issuer_name".toList),
   validateField rawData "asset_class".toList "ac".toList validateAssetClass,
   validateField rawData "desc".toList "d".toList (validateOptionalString "desc".toList),
   validateSubClass rawData,
   validateURIs rawData,
   validateAdditionalInfo rawData]

/-- The index in `validationSteps` of the only step that can report a given error
(11 when no step can). -/
def errorStep : MetadataError → Nat
  | .ErrInvalidMPTokenMetadataFieldCount _ => 0
  | .ErrInvalidMPTokenMetadataUnknownField _ => 1
  | .ErrInvalidMPTokenMetadataTicker => 2
  | .ErrInvalidMPTokenMetadataAssetClass _ => 6
  | .ErrInvalidMPTokenMetadataAssetSubClass _ => 8
  | .ErrInvalidMPTokenMetadataRWASubClassRequired => 8
  | .ErrInvalidMPTokenMetadataURIs => 9
  | .ErrInvalidMPTokenMetadataAdditionalInfo => 10
  | .ErrInvalidMPTokenMetadataMissingField f =>
    if f = "ticker".toList then 2
    else if f = "name".toList then 3
    else if f = "icon".toList then 4
    else if f = "issuer_name".toList then 5
    else if f = "asset_class".toList then 6
    else if f = "desc".toList then 7
    else 11
  | .ErrInvalidMPTokenMetadataFieldCollision long compact =>
    if (long, compact) = ("ticker".toList, "t".toList) then 2
    else if (long, compact) = ("name".toList, "n".toList) then 3
    else if (long, compact) = ("icon".toList, "i".toList) then 4
    else if (long, compact) = ("issuer_name".toList, "in".toList) then 5
    else if (long, compact) = ("asset_class".toList, "ac".toList) then 6
    else if (long, compact) = ("desc".toList, "d".toList) then 7
    else if (long, compact) = ("asset_subclass".toList, "as".toList) then 8
    else if (long, compact) = ("uris".toList, "us".toList) then 9
    else if (long, compact) ∈ mptTokenMetadataURIFieldMap then 9
    else if (long, compact) = ("additional_info".toList, "ai".toList) then 10
    else 11
  | _ => 11

/-- The object `EncodeMPTokenMetadata` is meant to write for one URI: the compact keys
in ascending order. -/
def canonicalURI (u : ParsedMPTokenMetadataURI) : JSONValue :=
  .object [("c".toList, .string (jsonCoerce u.Category)),
    ("t".toList, .string (jsonCoerce u.Title)),
    ("u".toList, .string (jsonCoerce u.URI))]

/-- The member `us` of the object `EncodeMPTokenMetadata` is meant to write. -/
def canonicalURIsMember : Option (List ParsedMPTokenMetadataURI) → List (List Char × JSONValue)
  | none => []
  | some [] => []
  | some (u :: us) => [("us".toList, .array ((u :: us).map canonicalURI))]

/-- The member `ai` of the object `EncodeMPTokenMetadata` is meant to write: the document
of the value as a Go map holds it; nothing for `nil`, and nothing for a value that cannot
be written, for which no object is written at all. -/
def canonicalInfoMember : GoAny → List (List Char × JSONValue)
  | .nil => []
  | .value v => [("ai".toList, toGoValue v)]
  | .unsupported => []

/-- The values of an `any` that `json.Unmarshal` produces: `nil`, or JSON data other
than `null` in the form in which Go holds it (`bool`, `float64`, `string`, `[]any`,
`map[string]any` with every key once). -/
def IsUnmarshalledAny : GoAny → Prop
  | .nil => True
  | .value .null => False
  | .value v => toGoValue v = v
  | .unsupported => False

/-- The members of the object `EncodeMPTokenMetadata` is meant to write, as a function
of the field values: the compact keys in ascending order, the optional ones only when
the field is set. -/
def canonicalMembers (metadata : ParsedMPTokenMetadata) : List (List Char × JSONValue) :=
  [("ac".toList, .string (jsonCoerce metadata.AssetClass))] ++
  canonicalInfoMember metadata.AdditionalInfo ++
  optionalStringMember "as".toList metadata.AssetSubclass ++
  optionalStringMember "d".toList metadata.Desc ++
  [("i".toList, .string (jsonCoerce metadata.Icon)),
   ("in".toList, .string (jsonCoerce metadata.IssuerName)),
   ("n".toList, .string (jsonCoerce metadata.Name)),
   ("t".toList, .string (jsonCoerce metadata.Ticker))] ++
  canonicalURIsMember metadata.URIs

/-- Whether a list of keys is strictly ascending in Go's string order. -/
def keysAscending : List (List Char) → Bool
  | [] => true
  | [_] => true
  | a :: b :: rest => keyLt a b && keysAscending (b :: rest)

/-- The lists of members that stand for a Go map: the keys are strictly ascending, so
every key occurs once. -/
def IsGoMap (m : List (List Char × JSONValue)) : Prop :=
  keysAscending (m.map Prod.fst) = true

/-- The key under which `compactKeys` stores the entry of `key`: the compact alias when
there is one and it is not itself a key of the input, the key otherwise. -/
def compactTarget (input : List (List Char × JSONValue))
    (mapping : List (List Char × List Char)) (key : List Char) : List Char :=
  match mappingLookup mapping key with
  | some compactAlias => if mapHas input compactAlias then key else compactAlias
  | none => key

/-- The value of the last member with key `k` in the members of a JSON object, which is
the one Go keeps when a key is repeated. -/
def lastValue : List (List Char × JSONValue) → List Char → Option JSONValue
  | [], _ => none
  | (k', v) :: rest, k => (lastValue rest k).or (if k = k' then some v else none)

/-- The compact alias of a key in one of the two tables, the key itself when it has
none. -/
def compactAlias (mapping : List (List Char × List Char)) (key : List Char) : List Char :=
  (mappingLookup mapping key).getD key

/-- The members of a JSON object with every long key replaced by its compact alias. -/
def renameMembers (mapping : List (List Char × List Char))
    (members : List (List Char × JSONValue)) : List (List Char × JSONValue) :=
  members.map (fun e => (compactAlias mapping e.1, e.2))

/-- No field of the table is present under both its long and its compact key. -/
def NoCollision (mapping : List (List Char × List Char))
    (members : List (List Char × JSONValue)) : Prop :=
  ∀ p ∈ mapping, ¬ (p.1 ∈ members.map Prod.fst ∧ p.2 ∈ members.map Prod.fst)

/-- Whether the strings of a URI entry are valid UTF-8. -/
def uriValidUTF8 (u : ParsedMPTokenMetadataURI) : Bool :=
  utf8ValidString u.URI && utf8ValidString u.Category && utf8ValidString u.Title

/-- Whether a `*string` is `nil` or points to valid UTF-8. -/
def optionalValidUTF8 : Option (List GoChar) → Bool
  | none => true
  | some s => utf8ValidString s

/-- Whether all strings of the struct are valid UTF-8. -/
def metadataValidUTF8 (metadata : ParsedMPTokenMetadata) : Bool :=
  utf8ValidString metadata.Ticker && utf8ValidString metadata.Name &&
  optionalValidUTF8 metadata.Desc && utf8ValidString metadata.Icon &&
  utf8ValidString metadata.AssetClass && optionalValidUTF8 metadata.AssetSubclass &&
  utf8ValidString metadata.IssuerName && (metadata.URIs.getD []).all uriValidUTF8

/-- A metadata value with every field set, for running the codec. -/
def exampleMetadata : ParsedMPTokenMetadata :=
  { Ticker := goString "TBILL".toList
    Name := goString "T-Bill".toList
    Desc := some (goString "A bill".toList)
    Icon := goString "i.png".toList
    AssetClass := goString "rwa".toList
    AssetSubclass := some (goString "treasury".toList)
    IssuerName := goString "Issuer".toList
    URIs := some [⟨goString "x.org".toList, goString "docs".toList, goString "Doc".toList⟩]
    AdditionalInfo := .value (.object [("rate".toList, .string "5%".toList)]) }

/-- A metadata value whose `AdditionalInfo` holds a value that `json.Marshal` cannot
write, such as a channel; the other fields are those of `exampleMetadata`. -/
def unsupportedInfoMetadata : ParsedMPTokenMetadata :=
  { exampleMetadata with AdditionalInfo := .unsupported }

/-- A metadata value whose ticker is the single byte 0xFF, which is not valid UTF-8;
the other fields are empty. -/
def invalidTickerMetadata : ParsedMPTokenMetadata :=
  { zeroParsedMPTokenMetadata with Ticker := [.invalid 255] }

/-- A URI entry of a JSON document with every long key replaced by its compact alias;
an entry that is not an object is left as it is. -/
def renameURIObject : JSONValue → JSONValue
  | .object members => .object (renameMembers mptTokenMetadataURIFieldMap members)
  | v => v

/-- The value of `uris` with the long keys of its entries replaced. -/
def renameURIs : JSONValue → JSONValue
  | .array items => .array (items.map renameURIObject)
  | v => v

/-- The members of a metadata document with every long key replaced by its compact
alias, at top level and inside each URI object. -/
def renameLongKeys (members : List (List Char × JSONValue)) : List (List Char × JSONValue) :=
  members.map (fun e =>
    (compactAlias mptTokenMetadataFieldMap e.1,
     if compactAlias mptTokenMetadataFieldMap e.1 = "us".toList then renameURIs e.2 else e.2))

/-- The objects among the entries of a value of `uris`. -/
def uriObjects : JSONValue → List (List (List Char × JSONValue))
  | .array items => items.filterMap (fun item =>
      match item with
      | .object members => some members
      | _ => none)
  | _ => []

/-- What the step "handle nested URIs" stores under `us` in place of the value `v`. -/
def compactNestedValue : JSONValue → JSONValue
  | .array [] => .null
  | .array (u :: us) => .array ((u :: us).map compactURIEntry)
  | v => v

/-- The members of a metadata document written with the long keys only. -/
def exampleLongMembers : List (List Char × JSONValue) :=
  [("ticker".toList, .string "TBILL".toList),
   ("name".toList, .string "T-Bill".toList),
   ("desc".toList, .string "A bill".toList),
   ("icon".toList, .string "i.png".toList),
   ("asset_class".toList, .string "rwa".toList),
   ("asset_subclass".toList, .string "treasury".toList),
   ("issuer_name".toList, .string "Issuer".toList),
   ("uris".toList, .array [.object [("uri".toList, .string "x.org".toList),
     ("category".toList, .string "docs".toList), ("title".toList, .string "Doc".toList)]]),
   ("additional_info".toList, .object [("rate".toList, .string "5%".toList)])]

/-- Whether an error is a missing-field error or a value error for the top-level field
with the given long key. -/
def isMissingOrValueError (long : List Char) : MetadataError → Bool
  | .ErrInvalidMPTokenMetadataMissingField f => f = long
  | .ErrInvalidMPTokenMetadataTicker => long = "ticker".toList
  | .ErrInvalidMPTokenMetadataAssetClass _ => long = "asset_class".toList
  | .ErrInvalidMPTokenMetadataAssetSubClass _ => long = "asset_subclass".toList
  | .ErrInvalidMPTokenMetadataRWASubClassRequired => long = "asset_subclass".toList
  | .ErrInvalidMPTokenMetadataURIs => long = "uris".toList
  | .ErrInvalidMPTokenMetadataAdditionalInfo => long = "additional_info".toList
  | _ => false

/-- Whether the members of an object have an entry under one of the two keys whose
value is a string. -/
def hasStringEntry (o : List (List Char × JSONValue)) (long compact : List Char) : Bool :=
  o.any (fun e => (e.1 == long || e.1 == compact) && isString e.2)

/-- Whether a value is one of the strings website, social, docs, other. -/
def isCategoryValue : JSONValue → Bool
  | .string s => MPTokenMetadataURICategories.contains s
  | _ => false

/-- Whether the members of an object have an entry under `category` or `c` whose value
is one of the allowed categories. -/
def hasCategoryEntry (o : List (List Char × JSONValue)) : Bool :=
  o.any (fun e => (e.1 == "category".toList || e.1 == "c".toList) && isCategoryValue e.2)

/-- The URI entries that the rules accept: an object with exactly three entries, one
under `uri` or `u`, one under `category` or `c`, one under `title` or `t`, all three
values strings, and the category an allowed one. -/
def isValidURIEntry : JSONValue → Bool
  | .object o =>
    decide (o.length = 3) && hasStringEntry o "uri".toList "u".toList && hasCategoryEntry o &&
      hasStringEntry o "title".toList "t".toList
  | _ => false

/-- A document whose only member is a list of one well-formed URI entry. -/
def exampleURIsMembers : List (List Char × JSONValue) :=
  [("us".toList, .array [.object [("c".toList, .string "docs".toList),
    ("t".toList, .string "Doc".toList), ("u".toList, .string "x.org".toList)]])]

end XRPL.Transaction.Types

/-! # Transaction flags and validators (`xrpl/flag`, `xrpl/transaction`)

Shallow embedding of `flag.Contains`, of the `TrustSet` flag setters and of the
`Validate` methods of `MPTokenIssuanceCreate`, `XChainModifyBridge`, `Payment` and
`AccountSet`.

* `uint8`, `uint16` and `uint32` values are natural numbers; the only arithmetic on them
  is bitwise AND/OR and comparison, none of which leaves the range.
* A Go pointer field (`*uint8`, `*string`, ...) and a Go interface or slice field that may
  be `nil` is an `Option`.
* A result `(bool, error)` is a pair `Bool × Option TxError`, `none` being the `nil` error.
* `BaseTx`, the package `types`, the package `typecheck` and the helper functions
  `IsAmount`, `IsPaths`, `IsDomainID`, `ValidateOptionalField` are declared in files that
  are not at hand. Their types are the fields of `PackageTypes`, their functions and
  constants the fields of `Helpers`; every definition below takes them as a parameter.
-/

namespace XRPL.Flag

/-- The function `Contains(currentFlag, flag uint32) bool`:
`flag != 0 && (currentFlag&flag) == flag`. -/
def Contains (currentFlag flag : Nat) : Bool :=
  flag != 0 && (currentFlag &&& flag) == flag

end XRPL.Flag

namespace XRPL.Transaction

open XRPL.Flag

/-- The error values that the validators at hand return by name; every other error value
of the package (those that the helper functions make) is `other`. -/
inductive TxError where
  | ErrInvalidTransferFee
  | ErrTransferFeeRequiresCanTransfer
  | ErrInvalidMPTokenMetadata
  | ErrInvalidFlags
  | ErrInvalidDestination
  | ErrInvalidCredentialIDs
  | ErrInvalidDomainID
  | ErrPartialPaymentFlagRequired
  | ErrAccountSetInvalidSetFlag
  | ErrAccountSetInvalidTickSize
  | other (id : Nat)
  deriving DecidableEq

/-- The types whose declarations are not at hand: the fields of `BaseTx` other than
`Flags` (as one value), `types.CurrencyAmount`, `PathStep`, `types.XChainBridge`, and the
values other than numbers and strings that a flattened transaction may hold. -/
structure PackageTypes where
  Common : Type
  Amount : Type
  PathStep : Type
  XChainBridge : Type
  Value : Type

/-- The struct `BaseTx` that every transaction embeds: its `Flags uint32` and, as one
value, all its other fields. -/
structure BaseTx (T : PackageTypes) where
  Flags : Nat
  Rest : T.Common

/-- A value of a flattened transaction (`interface{}`). -/
inductive FlatValue (T : PackageTypes) where
  | uint8 (n : Nat)
  | uint32 (n : Nat)
  | string (s : String)
  | other (v : T.Value)

/-- The map `FlatTransaction` (`map[string]interface{}`), as the list of its entries. -/
abbrev FlatTransaction (T : PackageTypes) := List (String × FlatValue T)

/-- The assignment `flattened[k] = v`. -/
def FlatTransaction.set {T : PackageTypes} (m : FlatTransaction T) (k : String)
    (v : FlatValue T) : FlatTransaction T :=
  (k, v) :: m.filter (fun p => p.1 != k)

/-- The functions and the constant that the validators call and whose code is not at
hand. -/
structure Helpers (T : PackageTypes) where
  /-- Helper `BaseTx.Validate`. -/
  BaseTxValidate : BaseTx T → Bool × Option TxError
  /-- Helper `BaseTx.Flatten`. -/
  BaseTxFlatten : BaseTx T → FlatTransaction T
  /-- Helper `IsAmount(field, fieldName, isFieldRequired)`. -/
  IsAmount : Option T.Amount → String → Bool → Bool × Option TxError
  /-- Helper `IsPaths`. -/
  IsPaths : List (List T.PathStep) → Bool × Option TxError
  /-- Helper `IsDomainID`. -/
  IsDomainID : String → Bool
  /-- Helper `addresscodec.IsValidAddress`. -/
  IsValidAddress : String → Bool
  /-- Helper `types.CredentialIDs.IsValid`. -/
  CredentialIDsIsValid : List String → Bool
  /-- Helper `types.XChainBridge.Validate`. -/
  XChainBridgeValidate : T.XChainBridge → Bool × Option TxError
  /-- Helper `typecheck.IsHex`. -/
  IsHex : String → Bool
  /-- Helper `typecheck.IsString`. -/
  IsString : FlatValue T → Bool
  /-- Helper `typecheck.IsUint8`. -/
  IsUint8 : FlatValue T → Bool
  /-- Helper `typecheck.IsUint32`. -/
  IsUint32 : FlatValue T → Bool
  /-- Helper `ValidateOptionalField(tx, field, check)`. -/
  ValidateOptionalField : FlatTransaction T → String → (FlatValue T → Bool) → Option TxError
  /-- Constant `MaxTransferFee`. -/
  MaxTransferFee : Nat

/-! ## `trust_set.go` -/

/-- Constant `TfSetAuth uint32 = 0x00010000`. -/
def TfSetAuth : Nat := 0x00010000
/-- Constant `TfSetNoRipple uint32 = 0x00020000`. -/
def TfSetNoRipple : Nat := 0x00020000
/-- Constant `TfClearNoRipple uint32 = 0x00040000`. -/
def TfClearNoRipple : Nat := 0x00040000
/-- Constant `TfSetFreeze uint32 = 0x00100000`. -/
def TfSetFreeze : Nat := 0x00100000
/-- Constant `TfClearFreeze uint32 = 0x00200000`. -/
def TfClearFreeze : Nat := 0x00200000
/-- Constant `TfSetDeepFreeze uint32 = 0x00400000`. -/
def TfSetDeepFreeze : Nat := 0x00400000
/-- Constant `TfClearDeepFreeze uint32 = 0x00800000`. -/
def TfClearDeepFreeze : Nat := 0x00800000

/-- The struct `TrustSet`. -/
structure TrustSet (T : PackageTypes) where
  BaseTx : BaseTx T
  LimitAmount : Option T.Amount
  QualityIn : Nat
  QualityOut : Nat

/-- Method `func (t *TrustSet) SetSetAuthFlag()`: `t.Flags |= TfSetAuth`. -/
def TrustSet.SetSetAuthFlag {T : PackageTypes} (t : TrustSet T) : TrustSet T :=
  { t with BaseTx := { t.BaseTx with Flags := t.BaseTx.Flags ||| TfSetAuth } }

/-- Method `func (t *TrustSet) SetSetNoRippleFlag()`: `t.Flags |= TfSetNoRipple`. -/
def TrustSet.SetSetNoRippleFlag {T : PackageTypes} (t : TrustSet T) : TrustSet T :=
  { t with BaseTx := { t.BaseTx with Flags := t.BaseTx.Flags ||| TfSetNoRipple } }

/-- Method `func (t *TrustSet) SetClearNoRippleFlag()`: `t.Flags |= TfClearNoRipple`. -/
def TrustSet.SetClearNoRippleFlag {T : PackageTypes} (t : TrustSet T) : TrustSet T :=
  { t with BaseTx := { t.BaseTx with Flags := t.BaseTx.Flags ||| TfClearNoRipple } }

/-- Method `func (t *TrustSet) SetSetFreezeFlag()`: `t.Flags |= TfSetFreeze`. -/
def TrustSet.SetSetFreezeFlag {T : PackageTypes} (t : TrustSet T) : TrustSet T :=
  { t with BaseTx := { t.BaseTx with Flags := t.BaseTx.Flags ||| TfSetFreeze } }

/-- Method `func (t *TrustSet) SetClearFreezeFlag()`: `t.Flags |= TfClearFreeze`. -/
def TrustSet.SetClearFreezeFlag {T : PackageTypes} (t : TrustSet T) : TrustSet T :=
  { t with BaseTx := { t.BaseTx with Flags := t.BaseTx.Flags ||| TfClearFreeze } }

/-- Method `func (t *TrustSet) SetSetDeepFreezeFlag()`: `t.Flags |= TfSetDeepFreeze`. -/
def TrustSet.SetSetDeepFreezeFlag {T : PackageTypes} (t : TrustSet T) : TrustSet T :=
  { t with BaseTx := { t.BaseTx with Flags := t.BaseTx.Flags ||| TfSetDeepFreeze } }

/-- Method `func (t *TrustSet) SetClearDeepFreezeFlag()`: `t.Flags |= TfClearDeepFreeze`. -/
def TrustSet.SetClearDeepFreezeFlag {T : PackageTypes} (t : TrustSet T) : TrustSet T :=
  { t with BaseTx := { t.BaseTx with Flags := t.BaseTx.Flags ||| TfClearDeepFreeze } }

/-- The names of the seven flag setters of `TrustSet`, to speak of sequences of calls. -/
inductive TrustSetSetter where
  | SetSetAuthFlag
  | SetSetNoRippleFlag
  | SetClearNoRippleFlag
  | SetSetFreezeFlag
  | SetClearFreezeFlag
  | SetSetDeepFreezeFlag
  | SetClearDeepFreezeFlag
  deriving DecidableEq

/-- The call of a setter on a `TrustSet`. -/
def TrustSetSetter.call {T : PackageTypes} : TrustSetSetter → TrustSet T → TrustSet T
  | .SetSetAuthFlag, t => t.SetSetAuthFlag
  | .SetSetNoRippleFlag, t => t.SetSetNoRippleFlag
  | .SetClearNoRippleFlag, t => t.SetClearNoRippleFlag
  | .SetSetFreezeFlag, t => t.SetSetFreezeFlag
  | .SetClearFreezeFlag, t => t.SetClearFreezeFlag
  | .SetSetDeepFreezeFlag, t => t.SetSetDeepFreezeFlag
  | .SetClearDeepFreezeFlag, t => t.SetClearDeepFreezeFlag

/-- The flag constant that goes with a setter. -/
def TrustSetSetter.constant : TrustSetSetter → Nat
  | .SetSetAuthFlag => TfSetAuth
  | .SetSetNoRippleFlag => TfSetNoRipple
  | .SetClearNoRippleFlag => TfClearNoRipple
  | .SetSetFreezeFlag => TfSetFreeze
  | .SetClearFreezeFlag => TfClearFreeze
  | .SetSetDeepFreezeFlag => TfSetDeepFreeze
  | .SetClearDeepFreezeFlag => TfClearDeepFreeze

/-- The calls of a sequence of setters, one after the other. -/
def callSetters {T : PackageTypes} (calls : List TrustSetSetter) (t : TrustSet T) :
    TrustSet T :=
  calls.foldl (fun cur s => s.call cur) t

/-- The bitwise OR of the constants of a sequence of setters. -/
def orOfConstants (calls : List TrustSetSetter) : Nat :=
  calls.foldl (fun acc s => acc ||| s.constant) 0

/-! ## `mptoken_issuance_create.go` -/

/-- Constant `TfMPTCanLock uint32 = 0x00000002`. -/
def TfMPTCanLock : Nat := 0x00000002
/-- Constant `TfMPTRequireAuth uint32 = 0x00000004`. -/
def TfMPTRequireAuth : Nat := 0x00000004
/-- Constant `TfMPTCanEscrow uint32 = 0x00000008`. -/
def TfMPTCanEscrow : Nat := 0x00000008
/-- Constant `TfMPTCanTrade uint32 = 0x00000010`. -/
def TfMPTCanTrade : Nat := 0x00000010
/-- Constant `TfMPTCanTransfer uint32 = 0x00000020`. -/
def TfMPTCanTransfer : Nat := 0x00000020
/-- Constant `TfMPTCanClawback uint32 = 0x00000040`. -/
def TfMPTCanClawback : Nat := 0x00000040

/-- The struct `MPTokenIssuanceCreate` (`MaximumAmount` is a `*types.XRPCurrencyAmount`,
a currency amount). -/
structure MPTokenIssuanceCreate (T : PackageTypes) where
  BaseTx : BaseTx T
  AssetScale : Option Nat
  TransferFee : Option Nat
  MaximumAmount : Option T.Amount
  MPTokenMetadata : Option String

/-- Method `func (m *MPTokenIssuanceCreate) Validate() (bool, error)`. -/
def MPTokenIssuanceCreate.Validate {T : PackageTypes} (h : Helpers T)
    (m : MPTokenIssuanceCreate T) : Bool × Option TxError :=
  let (ok, err) := h.BaseTxValidate m.BaseTx
  if err != none || !ok then (false, err)
  else
    let feeResult : Option (Bool × Option TxError) :=
      match m.TransferFee with
      | some fee =>
        if fee > 0 then
          if fee > h.MaxTransferFee then some (false, some .ErrInvalidTransferFee)
          else if !Contains m.BaseTx.Flags TfMPTCanTransfer then
            some (false, some .ErrTransferFeeRequiresCanTransfer)
          else none
        else none
      | none => none
    match feeResult with
    | some r => r
    | none =>
      let amountResult : Option (Bool × Option TxError) :=
        match m.MaximumAmount with
        | some amount =>
          let (ok, err) := h.IsAmount (some amount) "MaximumAmount" true
          if !ok then some (false, err) else none
        | none => none
      match amountResult with
      | some r => r
      | none =>
        match m.MPTokenMetadata with
        | some metadata =>
          if !h.IsHex metadata then (false, some .ErrInvalidMPTokenMetadata) else (true, none)
        | none => (true, none)

/-! ## `xchain_modify_bridge.go` -/

/-- Constant `TfClearAccountCreateAmount uint32 = 0x00010000`. -/
def TfClearAccountCreateAmount : Nat := 0x00010000

/-- The struct `XChainModifyBridge`. Its own field `Flags` hides the `Flags` of the
embedded `BaseTx`: `x.Flags` is this field. -/
structure XChainModifyBridge (T : PackageTypes) where
  BaseTx : BaseTx T
  Flags : Nat
  MinAccountCreateAmount : Option T.Amount
  SignatureReward : Option T.Amount
  XChainBridge : T.XChainBridge

/-- Method `func (x *XChainModifyBridge) Validate() (bool, error)`. -/
def XChainModifyBridge.Validate {T : PackageTypes} (h : Helpers T)
    (x : XChainModifyBridge T) : Bool × Option TxError :=
  let (_, err) := h.BaseTxValidate x.BaseTx
  if err != none then (false, err)
  else if !Contains x.Flags TfClearAccountCreateAmount then (false, some .ErrInvalidFlags)
  else
    let (ok, err) := h.IsAmount x.MinAccountCreateAmount "MinAccountCreateAmount" false
    if !ok then (false, err)
    else
      let (ok, err) := h.IsAmount x.SignatureReward "SignatureReward" false
      if !ok then (false, err)
      else h.XChainBridgeValidate x.XChainBridge

/-! ## `payment.go` -/

/-- Constant `TfRippleNotDirect uint32 = 65536`. -/
def TfRippleNotDirect : Nat := 65536
/-- Constant `TfPartialPayment uint32 = 131072`. -/
def TfPartialPayment : Nat := 131072
/-- Constant `TfLimitQuality uint32 = 262144`. -/
def TfLimitQuality : Nat := 262144

/-- The struct `Payment` (`types.Address` and `types.Hash256` are string types,
`types.CredentialIDs` a slice of strings). -/
structure Payment (T : PackageTypes) where
  BaseTx : BaseTx T
  Amount : Option T.Amount
  CredentialIDs : Option (List String)
  DeliverMax : Option T.Amount
  DeliverMin : Option T.Amount
  Destination : String
  DestinationTag : Option Nat
  InvoiceID : String
  Paths : Option (List (List T.PathStep))
  SendMax : Option T.Amount
  DomainID : Option String

/-- Function `func checkPartialPayment(tx *Payment) (bool, error)`. -/
def checkPartialPayment {T : PackageTypes} (tx : Payment T) : Bool × Option TxError :=
  if tx.DeliverMin.isNone then (true, none)
  else if tx.BaseTx.Flags == 0 then (false, some .ErrPartialPaymentFlagRequired)
  else if !Contains tx.BaseTx.Flags TfPartialPayment then
    (false, some .ErrPartialPaymentFlagRequired)
  else (true, none)

/-- The function `checkPartialPayment` without its test `tx.Flags == 0`, to compare the
two. -/
def checkPartialPaymentWithoutZeroTest {T : PackageTypes} (tx : Payment T) :
    Bool × Option TxError :=
  if tx.DeliverMin.isNone then (true, none)
  else if !Contains tx.BaseTx.Flags TfPartialPayment then
    (false, some .ErrPartialPaymentFlagRequired)
  else (true, none)

/-- Method `func (p *Payment) Validate() (bool, error)`. -/
def Payment.Validate {T : PackageTypes} (h : Helpers T) (p : Payment T) :
    Bool × Option TxError :=
  let (_, err) := h.BaseTxValidate p.BaseTx
  if err != none then (false, err)
  else
    let (ok, err) := h.IsAmount p.Amount "Amount" true
    if !ok then (false, err)
    else if !h.IsValidAddress p.Destination then (false, some .ErrInvalidDestination)
    else
      let pathsResult : Option (Bool × Option TxError) :=
        match p.Paths with
        | some paths =>
          let (ok, err) := h.IsPaths paths
          if !ok then some (false, err) else none
        | none => none
      match pathsResult with
      | some r => r
      | none =>
        let (ok, err) := h.IsAmount p.SendMax "SendMax" false
        if !ok then (false, err)
        else
          let (ok, err) := h.IsAmount p.DeliverMax "DeliverMax" false
          if !ok then (false, err)
          else
            let (ok, err) := h.IsAmount p.DeliverMin "DeliverMin" false
            if !ok then (false, err)
            else if (match p.CredentialIDs with
                | some ids => !h.CredentialIDsIsValid ids
                | none => false) then (false, some .ErrInvalidCredentialIDs)
            else
              let (ok, err) := checkPartialPayment p
              if !ok then (false, err)
              else if (match p.DomainID with
                  | some domainID => !h.IsDomainID domainID
                  | none => false) then (false, some .ErrInvalidDomainID)
              else (true, none)

/-! ## `account_set.go` -/

/-- Constant `AsfRequireDest uint32 = 1`, the least account flag. -/
def AsfRequireDest : Nat := 1
/-- Constant `AsfAllowTrustLineLocking uint32 = 17`, the greatest account flag. -/
def AsfAllowTrustLineLocking : Nat := 17
/-- Constant `MinTickSize = 3`. -/
def MinTickSize : Nat := 3
/-- Constant `MaxTickSize = 15`. -/
def MaxTickSize : Nat := 15

/-- The struct `AccountSet` (`types.Hash128` and `types.Hash256` are string types). -/
structure AccountSet (T : PackageTypes) where
  BaseTx : BaseTx T
  ClearFlag : Nat
  Domain : Option String
  EmailHash : Option String
  MessageKey : Option String
  NFTokenMinter : Option String
  SetFlag : Nat
  TransferRate : Option Nat
  TickSize : Option Nat
  WalletLocator : Option String
  WalletSize : Option Nat

/-- One step of a `Flatten` method: `if present { flattened[k] = v }`. -/
def setIfSome {T : PackageTypes} (m : FlatTransaction T) (k : String)
    (v : Option (FlatValue T)) : FlatTransaction T :=
  match v with
  | some v => m.set k v
  | none => m

/-- Method `func (s *AccountSet) Flatten() FlatTransaction`. -/
def AccountSet.Flatten {T : PackageTypes} (h : Helpers T) (s : AccountSet T) :
    FlatTransaction T :=
  let flattened := h.BaseTxFlatten s.BaseTx
  let flattened := flattened.set "TransactionType" (.string "AccountSet")
  let flattened := if s.ClearFlag != 0 then flattened.set "ClearFlag" (.uint32 s.ClearFlag)
    else flattened
  let flattened := setIfSome flattened "Domain" (s.Domain.map .string)
  let flattened := setIfSome flattened "EmailHash" (s.EmailHash.map .string)
  let flattened := setIfSome flattened "MessageKey" (s.MessageKey.map .string)
  let flattened := setIfSome flattened "NFTokenMinter" (s.NFTokenMinter.map .string)
  let flattened := if s.SetFlag != 0 then flattened.set "SetFlag" (.uint32 s.SetFlag)
    else flattened
  let flattened := setIfSome flattened "TransferRate" (s.TransferRate.map .uint32)
  let flattened := setIfSome flattened "TickSize" (s.TickSize.map .uint8)
  let flattened := setIfSome flattened "WalletLocator" (s.WalletLocator.map .string)
  let flattened := setIfSome flattened "WalletSize" (s.WalletSize.map .uint32)
  flattened

/-- The first error of a sequence of checks run one after the other, each of which stops
the validation when it gives an error. -/
def firstError : List (Option TxError) → Option TxError
  | [] => none
  | some err :: _ => some err
  | none :: rest => firstError rest

/-- The ten calls of `ValidateOptionalField` of `AccountSet.Validate`, in the order of the
code. -/
def AccountSet.optionalFieldChecks {T : PackageTypes} (h : Helpers T) (s : AccountSet T) :
    List (Option TxError) :=
  let flatten := s.Flatten h
  [ h.ValidateOptionalField flatten "ClearFlag" h.IsUint32,
    h.ValidateOptionalField flatten "Domain" h.IsString,
    h.ValidateOptionalField flatten "EmailHash" h.IsString,
    h.ValidateOptionalField flatten "MessageKey" h.IsString,
    h.ValidateOptionalField flatten "SetFlag" h.IsUint32,
    h.ValidateOptionalField flatten "TransferRate" h.IsUint32,
    h.ValidateOptionalField flatten "TickSize" h.IsUint8,
    h.ValidateOptionalField flatten "NFTokenMinter" h.IsString,
    h.ValidateOptionalField flatten "WalletLocator" h.IsString,
    h.ValidateOptionalField flatten "WalletSize" h.IsUint32 ]

/-- Method `func (s *AccountSet) Validate() (bool, error)`: the base transaction, the ten
optional fields (each `if err != nil { return false, err }`), the range of `SetFlag`, the
range of `TickSize`. -/
def AccountSet.Validate {T : PackageTypes} (h : Helpers T) (s : AccountSet T) :
    Bool × Option TxError :=
  let (_, err) := h.BaseTxValidate s.BaseTx
  if err != none then (false, err)
  else
    match firstError (s.optionalFieldChecks h) with
    | some err => (false, some err)
    | none =>
      if s.SetFlag != 0 && (s.SetFlag < AsfRequireDest || s.SetFlag > AsfAllowTrustLineLocking)
      then (false, some .ErrAccountSetInvalidSetFlag)
      else if (match s.TickSize with
          | some tick => tick != 0 && (tick < MinTickSize || tick > MaxTickSize)
          | none => false) then (false, some .ErrAccountSetInvalidTickSize)
      else (true, none)

/-! ## Sample values for the parameters -/

/-- Sample types for the parameters: amounts are numbers of drops, the rest is trivial. -/
@[reducible]
def sampleTypes : PackageTypes :=
  { Common := Unit, Amount := Nat, PathStep := Unit, XChainBridge := Unit, Value := Unit }

/-- Sample helpers that accept every value, with the transfer fee limit 50000 of the
field documentation. -/
def sampleHelpers : Helpers sampleTypes :=
  { BaseTxValidate := fun _ => (true, none)
    BaseTxFlatten := fun b => if b.Flags != 0 then [("Flags", .uint32 b.Flags)] else []
    IsAmount := fun _ _ _ => (true, none)
    IsPaths := fun _ => (true, none)
    IsDomainID := fun _ => true
    IsValidAddress := fun _ => true
    CredentialIDsIsValid := fun _ => true
    XChainBridgeValidate := fun _ => (true, none)
    IsHex := fun _ => true
    IsString := fun _ => true
    IsUint8 := fun _ => true
    IsUint32 := fun _ => true
    ValidateOptionalField := fun _ _ _ => none
    MaxTransferFee := 50000 }

/-- A sample `TrustSet` without flags: a limit amount and two qualities. -/
def sampleTrustSet : TrustSet sampleTypes :=
  { BaseTx := { Flags := 0, Rest := () }, LimitAmount := some (5 : Nat), QualityIn := 7,
    QualityOut := 9 }

/-- A sample `Payment` with a `DeliverMin` and the flag `TfRippleNotDirect` alone. -/
def samplePayment : Payment sampleTypes :=
  { BaseTx := { Flags := TfRippleNotDirect, Rest := () }, Amount := some (1000 : Nat),
    CredentialIDs := none, DeliverMax := none, DeliverMin := some (10 : Nat),
    Destination := "rHb9CJAWyB4rj91VRWn96DkukG4bwdtyTh", DestinationTag := none,
    InvoiceID := "", Paths := none, SendMax := none, DomainID := none }

/-- A sample `AccountSet` with the tick size `tick` and nothing else. -/
def sampleAccountSet (tick : Option Nat) : AccountSet sampleTypes :=
  { BaseTx := { Flags := 0, Rest := () }, ClearFlag := 0, Domain := none, EmailHash := none,
    MessageKey := none, NFTokenMinter := none, SetFlag := 0, TransferRate := none,
    TickSize := tick, WalletLocator := none, WalletSize := none }

/-- A sample `MPTokenIssuanceCreate` with a `TransferFee` of 0 and no flags. -/
def zeroFeeIssuance : MPTokenIssuanceCreate sampleTypes :=
  { BaseTx := { Flags := 0, Rest := () }, AssetScale := none, TransferFee := some 0,
    MaximumAmount := none, MPTokenMetadata := none }

/-- A sample `MPTokenIssuanceCreate` with the `TransferFee` `fee` and no flags. -/
def sampleFeeIssuance (fee : Nat) : MPTokenIssuanceCreate sampleTypes :=
  { BaseTx := { Flags := 0, Rest := () }, AssetScale := none, TransferFee := some fee,
    MaximumAmount := none, MPTokenMetadata := none }

/-- The documented example of `XChainModifyBridge`: a signature reward of 200, a minimal
account create amount of 1000000, and no flags. -/
def documentedModifyBridge : XChainModifyBridge sampleTypes :=
  { BaseTx := { Flags := 0, Rest := () }, Flags := 0,
    MinAccountCreateAmount := some (1000000 : Nat), SignatureReward := some (200 : Nat),
    XChainBridge := () }

end XRPL.Transaction

/-! # Transaction metadata (`xrpl/transaction/metadata.go`, `metadata_builder.go`)

The structs of the transaction metadata and the methods of `TxMetadataBuilder`. A method
with a value receiver is a function of the receiver. A pointer, a slice and a value of
type `any` may be `nil`: pointers and slices are an `Option`, and `nil` is one of the
values of the parameter type that stands for `any`.
-/

namespace XRPL.Transaction

/-- The types that the metadata structs use and whose declarations are not at hand:
`ledger.EntryType`, `ledger.FlatLedgerObject`, the values of type `any`, `types.BatchID`,
`types.NFTokenID`, `types.OfferID` and `types.MPTIssuanceID`. -/
structure MetaTypes where
  EntryType : Type
  FlatLedgerObject : Type
  AnyValue : Type
  BatchID : Type
  NFTokenID : Type
  OfferID : Type
  MPTIssuanceID : Type

/-- The struct `CreatedNode`. -/
structure CreatedNode (M : MetaTypes) where
  LedgerEntryType : M.EntryType
  LedgerIndex : String
  NewFields : M.FlatLedgerObject

/-- The struct `ModifiedNode`. -/
structure ModifiedNode (M : MetaTypes) where
  LedgerEntryType : M.EntryType
  LedgerIndex : String
  FinalFields : M.FlatLedgerObject
  PreviousFields : M.FlatLedgerObject
  PreviousTxnID : String
  PreviousTxnLgrSeq : Nat

/-- The struct `DeletedNode`. -/
structure DeletedNode (M : MetaTypes) where
  LedgerEntryType : M.EntryType
  LedgerIndex : String
  FinalFields : M.FlatLedgerObject

/-- The struct `AffectedNode`. -/
structure AffectedNode (M : MetaTypes) where
  CreatedNode : Option (CreatedNode M)
  ModifiedNode : Option (ModifiedNode M)
  DeletedNode : Option (DeletedNode M)

/-- The struct `TxObjMeta`. -/
structure TxObjMeta (M : MetaTypes) where
  AffectedNodes : Option (List (AffectedNode M))
  PartialDeliveredAmount : M.AnyValue
  TransactionIndex : Nat
  TransactionResult : String
  DeliveredAmount : M.AnyValue
  ParentBatchID : Option M.BatchID

/-- The struct `TxMetadataBuilder`. -/
structure TxMetadataBuilder (M : MetaTypes) where
  AffectedNodes : Option (List (AffectedNode M))
  PartialDeliveredAmount : M.AnyValue
  TransactionIndex : Nat
  TransactionResult : String
  DeliveredAmount : M.AnyValue
  ParentBatchID : Option M.BatchID
  NFTokenID : Option M.NFTokenID
  OfferID : Option M.OfferID
  NFTokenIDs : Option (List M.NFTokenID)
  MPTIssuanceID : Option M.MPTIssuanceID

/-- The struct `PaymentMetadata` of `payment.go`. -/
structure PaymentMetadata (M : MetaTypes) where
  TxObjMeta : TxObjMeta M

/-- The struct `MPTokenIssuanceCreateMetadata` of `mptoken_issuance_create.go`. -/
structure MPTokenIssuanceCreateMetadata (M : MetaTypes) where
  TxObjMeta : TxObjMeta M
  MPTIssuanceID : Option M.MPTIssuanceID

/-- Modelled from the spec: the struct `NFTokenMintMetadata`, whose declaration is not at
hand, with the fields that `AsNFTokenMintMetadata` fills in: the embedded `TxObjMeta`,
`NFTokenID` and `OfferID`. -/
structure NFTokenMintMetadata (M : MetaTypes) where
  TxObjMeta : TxObjMeta M
  NFTokenID : Option M.NFTokenID
  OfferID : Option M.OfferID

/-- Modelled from the spec: the struct `NFTokenCreateOfferMetadata`, whose declaration is
not at hand, with the fields that `AsNFTokenCreateOfferMetadata` fills in: the embedded
`TxObjMeta` and `OfferID`. -/
structure NFTokenCreateOfferMetadata (M : MetaTypes) where
  TxObjMeta : TxObjMeta M
  OfferID : Option M.OfferID

/-- Modelled from the spec: the struct `NFTokenAcceptOfferMetadata`, whose declaration is
not at hand, with the fields that `AsNFTokenAcceptOfferMetadata` fills in: the embedded
`TxObjMeta` and `NFTokenID`. -/
structure NFTokenAcceptOfferMetadata (M : MetaTypes) where
  TxObjMeta : TxObjMeta M
  NFTokenID : Option M.NFTokenID

/-- Modelled from the spec: the struct `NFTokenCancelOfferMetadata`, whose declaration is
not at hand, with the fields that `AsNFTokenCancelOfferMetadata` fills in: the embedded
`TxObjMeta` and `NFTokenIDs`. -/
structure NFTokenCancelOfferMetadata (M : MetaTypes) where
  TxObjMeta : TxObjMeta M
  NFTokenIDs : Option (List M.NFTokenID)

/-- Method `func (tmb TxMetadataBuilder) AsTxObjMeta() TxObjMeta`. -/
def TxMetadataBuilder.AsTxObjMeta {M : MetaTypes} (tmb : TxMetadataBuilder M) : TxObjMeta M :=
  { AffectedNodes := tmb.AffectedNodes
    PartialDeliveredAmount := tmb.PartialDeliveredAmount
    TransactionIndex := tmb.TransactionIndex
    TransactionResult := tmb.TransactionResult
    DeliveredAmount := tmb.DeliveredAmount
    ParentBatchID := tmb.ParentBatchID }

/-- Method `func (tmb TxMetadataBuilder) AsPaymentMetadata() PaymentMetadata`. -/
def TxMetadataBuilder.AsPaymentMetadata {M : MetaTypes} (tmb : TxMetadataBuilder M) :
    PaymentMetadata M :=
  { TxObjMeta := tmb.AsTxObjMeta }

/-- Method `func (tmb TxMetadataBuilder) AsNFTokenMintMetadata() NFTokenMintMetadata`. -/
def TxMetadataBuilder.AsNFTokenMintMetadata {M : MetaTypes} (tmb : TxMetadataBuilder M) :
    NFTokenMintMetadata M :=
  { TxObjMeta := tmb.AsTxObjMeta
    NFTokenID := tmb.NFTokenID
    OfferID := tmb.OfferID }

/-- Method `func (tmb TxMetadataBuilder) AsNFTokenCreateOfferMetadata()
NFTokenCreateOfferMetadata`. -/
def TxMetadataBuilder.AsNFTokenCreateOfferMetadata {M : MetaTypes}
    (tmb : TxMetadataBuilder M) : NFTokenCreateOfferMetadata M :=
  { TxObjMeta := tmb.AsTxObjMeta
    OfferID := tmb.OfferID }

/-- Method `func (tmb TxMetadataBuilder) AsNFTokenAcceptOfferMetadata()
NFTokenAcceptOfferMetadata`. -/
def TxMetadataBuilder.AsNFTokenAcceptOfferMetadata {M : MetaTypes}
    (tmb : TxMetadataBuilder M) : NFTokenAcceptOfferMetadata M :=
  { TxObjMeta := tmb.AsTxObjMeta
    NFTokenID := tmb.NFTokenID }

/-- Method `func (tmb TxMetadataBuilder) AsNFTokenCancelOfferMetadata()
NFTokenCancelOfferMetadata`. -/
def TxMetadataBuilder.AsNFTokenCancelOfferMetadata {M : MetaTypes}
    (tmb : TxMetadataBuilder M) : NFTokenCancelOfferMetadata M :=
  { TxObjMeta := tmb.AsTxObjMeta
    NFTokenIDs := tmb.NFTokenIDs }

/-- Method `func (tmb TxMetadataBuilder) AsMPTokenIssuanceCreateMetadata()
MPTokenIssuanceCreateMetadata`. -/
def TxMetadataBuilder.AsMPTokenIssuanceCreateMetadata {M : MetaTypes}
    (tmb : TxMetadataBuilder M) : MPTokenIssuanceCreateMetadata M :=
  { TxObjMeta := tmb.AsTxObjMeta
    MPTIssuanceID := tmb.MPTIssuanceID }

end XRPL.Transaction

/-! # `pkg/hexutil` -/

namespace XRPL.Pkg.Hexutil

open XRPL.Transaction.Types

/-- The bytes of a Go byte slice: none for the `nil` slice (`none`), as for the empty
one. -/
def sliceBytes (b : Option (List Nat)) : List Nat := b.getD []

/-- The function `EncodeToUpperHex(b []byte) string`:
`strings.ToUpper(hex.EncodeToString(b))`. -/
def EncodeToUpperHex (b : Option (List Nat)) : List Char :=
  stringsToUpper (hexEncodeToString (sliceBytes b))

/-- The upper-case hexadecimal digit of a value below 16. -/
def upperHexDigit (d : Nat) : Char := "0123456789ABCDEF".toList.getD d '0'

end XRPL.Pkg.Hexutil

namespace XRPL.BinaryCodec.Types

/-- A string made only of an optional sign, an optional `'.'` and an optional exponent
suffix: it has the layout of a number, and neither integer nor fractional digits. -/
def DigitlessLayout (s : List Char) : Prop :=
  ∃ p : NumberParts, p.WellFormed ∧ p.intDigits = [] ∧ p.fracDigits = [] ∧ s = p.render

/-- A canonical twelve-byte encoding: the zero pattern, or a mantissa whose magnitude lies
in `[10^15, 10^16 - 1]` with an exponent in `[-32768, 32768]`. -/
def IsCanonicalEncoding (b : List Nat) : Prop :=
  b.length = 12 ∧ (∀ x ∈ b, x < 256) ∧
    (b = zeroPattern ∨
      (numberMinMantissa ≤ |encodedMantissa b| ∧ |encodedMantissa b| ≤ numberMaxMantissa ∧
        numberMinExponent ≤ encodedExponent b ∧ encodedExponent b ≤ numberMaxExponent))

end XRPL.BinaryCodec.Types

namespace XRPL.Transaction.Types

/-- A map with a long key without its alias (`name`), a long key together with its alias
(`ticker` and `t`) and a key that has no alias (`x`). -/
def exampleCollisionMap : List (List Char × JSONValue) :=
  [("name".toList, .string "Bill".toList), ("t".toList, .string "TB".toList),
   ("ticker".toList, .string "TBILL".toList), ("x".toList, .bool true)]

/-- The members of a document with ten keys: the nine compact keys and `ticker`. -/
def tenKeyMembers : List (List Char × JSONValue) :=
  [("ac".toList, .string "rwa".toList), ("ai".toList, .string "x".toList),
   ("as".toList, .string "other".toList), ("d".toList, .string "x".toList),
   ("i".toList, .string "x".toList), ("in".toList, .string "x".toList),
   ("n".toList, .string "x".toList), ("t".toList, .string "X".toList),
   ("ticker".toList, .string "X".toList), ("us".toList, .null)]

/-- The errors about the form of the input: the hex text, the JSON text, the number of
top-level keys, an unknown key, a key collision. -/
def isStructuralError : MetadataError → Bool
  | .ErrInvalidMPTokenMetadataHex => true
  | .ErrInvalidMPTokenMetadataJSON => true
  | .ErrInvalidMPTokenMetadataFieldCount _ => true
  | .ErrInvalidMPTokenMetadataUnknownField _ => true
  | .ErrInvalidMPTokenMetadataFieldCollision _ _ => true
  | _ => false

/-- The errors about the value of a field: a required field that is missing or empty, and
the errors of the ticker, the asset class, the asset subclass, the URIs and the additional
information. -/
def isValueError : MetadataError → Bool
  | .ErrInvalidMPTokenMetadataMissingField _ => true
  | .ErrInvalidMPTokenMetadataTicker => true
  | .ErrInvalidMPTokenMetadataAssetClass _ => true
  | .ErrInvalidMPTokenMetadataAssetSubClass _ => true
  | .ErrInvalidMPTokenMetadataRWASubClassRequired => true
  | .ErrInvalidMPTokenMetadataURIs => true
  | .ErrInvalidMPTokenMetadataAdditionalInfo => true
  | _ => false

/-- The nine compact keys, in ascending order. -/
def compactNames : List (List Char) :=
  ["ac".toList, "ai".toList, "as".toList, "d".toList, "i".toList, "in".toList,
   "n".toList, "t".toList, "us".toList]

end XRPL.Transaction.Types

namespace XRPL.Transaction.Types

/-- A loop over the members of an object, one step for each member, that stops at the
first error: the shape of `decodeStructMembers` and of `decodeURIMembers`. -/
def runMembers {α : Type} (step : α → List Char → JSONValue → Except MetadataError α) :
    List (List Char × JSONValue) → α → Except MetadataError α
  | [], r => .ok r
  | (k, v) :: rest, r =>
    match step r k v with
    | .ok r' => runMembers step rest r'
    | .error e => .error e

/-- The members `(name, value name)` for the names that have a value, in the order of
the names. -/
def tableMembers (names : List (List Char)) (value : List Char → Option JSONValue) :
    List (List Char × JSONValue) :=
  names.filterMap (fun c => (value c).map (fun v => (c, v)))

/-- The three compact keys of a URI entry, in ascending order. -/
def uriCompactNames : List (List Char) := ["c".toList, "t".toList, "u".toList]

/-- The long key whose compact alias is `c` in one of the two tables (`c` itself when
there is none). -/
def longName (mapping : List (List Char × List Char)) (c : List Char) : List Char :=
  match mapping.find? (fun p => p.2 = c) with
  | some p => p.1
  | none => c

/-- The value a field is read from: the value under the compact key when the map has
this key, else the value under the long key. -/
def effectiveValue (mapping : List (List Char × List Char))
    (m : List (List Char × JSONValue)) (c : List Char) : Option JSONValue :=
  (mapLookup m c).or (mapLookup m (longName mapping c))

/-- A URI entry reduced to its compact keys, each with the value the entry has under the
compact key, else under the long key; an entry that is not an object is left as it is. -/
def reduceURI : JSONValue → JSONValue
  | .object o => .object (tableMembers uriCompactNames (effectiveValue mptTokenMetadataURIFieldMap o))
  | v => v

/-- The value of `us` with every entry reduced; the empty array becomes `null`. -/
def reduceURIs : JSONValue → JSONValue
  | .array [] => .null
  | .array (u :: us) => .array ((u :: us).map reduceURI)
  | v => v

/-- A metadata object reduced to its compact keys: for each of the nine fields the
value under the compact key when the object has this key, else the value under the long
key, and no other key; the URI entries are reduced in the same way. -/
def reducedDocument (m : List (List Char × JSONValue)) : List (List Char × JSONValue) :=
  tableMembers compactNames (fun c =>
    (effectiveValue mptTokenMetadataFieldMap m c).map
      (fun v => if c = "us".toList then reduceURIs v else v))

/-- No key other than one of the names itself is equal to a name up to the case folding of
`encoding/json`. -/
def ExactKeys (names : List (List Char)) (m : List (List Char × JSONValue)) : Prop :=
  ∀ e ∈ m, ∀ c ∈ names, foldName e.1 = foldName c → e.1 = c

/-- The members of a document with both `ticker` and `t`, the value under `t` being the
number 5 (the `float64` with the bits `0x4014000000000000`). -/
def numberTickerMembers : List (List Char × JSONValue) :=
  [("ticker".toList, .string "A".toList), ("t".toList, .number ⟨4617315517961601024⟩)]

/-- The members of a document whose only key is `T`. -/
def upperCaseKeyMembers : List (List Char × JSONValue) :=
  [("T".toList, .string "X".toList)]

/-- The members of a document with collisions at top level (`ticker` and `t`) and inside
a URI entry (`uri` and `u`), and with an unknown key. -/
def collisionMembers : List (List Char × JSONValue) :=
  [("ticker".toList, .string "LONG".toList), ("t".toList, .string "TB".toList),
   ("extra".toList, .object [("extra".toList, .string "x".toList)]),
   ("us".toList, .array [.object [("uri".toList, .string "a.org".toList),
     ("u".toList, .string "b.org".toList), ("category".toList, .string "docs".toList),
     ("title".toList, .string "Doc".toList)]])]

/-- The compact keys of the seven fields that hold a string. -/
def stringFieldNames : List (List Char) :=
  ["t".toList, "n".toList, "d".toList, "i".toList, "ac".toList, "as".toList, "in".toList]

/-- The string that the struct holds in the field with the given compact key: `none` for
a `nil` pointer and for a key that is not the key of a string field. -/
def stringField (r : ParsedMPTokenMetadata) (c : List Char) : Option (List GoChar) :=
  if c = "t".toList then some r.Ticker
  else if c = "n".toList then some r.Name
  else if c = "d".toList then r.Desc
  else if c = "i".toList then some r.Icon
  else if c = "ac".toList then some r.AssetClass
  else if c = "as".toList then r.AssetSubclass
  else if c = "in".toList then some r.IssuerName
  else none

end XRPL.Transaction.Types

namespace XRPL.BinaryCodec.Types

/-! ## Machine-integer lemmas -/

theorem wrap32_of_isInt32 {x : Int} (h : IsInt32 x) : wrap32 x = x := by
  unfold IsInt32 at h
  unfold wrap32
  omega

theorem wrap64_of_isInt64 {x : Int} (h : IsInt64 x) : wrap64 x = x := by
  unfold IsInt64 at h
  unfold wrap64
  omega

theorem wrap32_isInt32 (x : Int) : IsInt32 (wrap32 x) := by
  unfold IsInt32 wrap32
  omega

theorem wrap64_isInt64 (x : Int) : IsInt64 (wrap64 x) := by
  unfold IsInt64 wrap64
  omega

theorem wrap32_wrap32_add (x y : Int) : wrap32 (wrap32 x + y) = wrap32 (x + y) := by
  unfold wrap32
  omega

theorem wrap32_wrap32_sub (x y : Int) : wrap32 (wrap32 x - y) = wrap32 (x - y) := by
  unfold wrap32
  omega

/-! ## The two loops of normalizeNumber -/

/-- The scale-up loop runs `k` times when `k` is the first power of ten that lifts
`a` to `numberMinMantissa`, provided none of the `k` exponent checks fires. -/
theorem scaleUp_ok (k : Nat) : ∀ (a e : Int), 0 < a →
    (∀ j : Nat, j < k → a * 10 ^ j < numberMinMantissa) →
    numberMinMantissa ≤ a * 10 ^ k → IsInt32 e →
    (∀ j : Nat, 1 ≤ j → j ≤ k → ¬ wrap32 (e - j) < numberMinExponent) →
    scaleUp a e = .ok (a * 10 ^ k, wrap32 (e - k)) := by
  induction k with
  | zero =>
    intro a e _ _ hge he _
    rw [scaleUp]
    have hnot : ¬ (a > 0 ∧ a < numberMinMantissa) := by
      simp only [pow_zero, mul_one] at hge
      omega
    simp [hnot, wrap32_of_isInt32 he]
  | succ k ih =>
    intro a e ha hlt hge he hchk
    have ha' : a < numberMinMantissa := by simpa using hlt 0 (Nat.succ_pos k)
    have h1 : ¬ wrap32 (e - 1) < numberMinExponent := by
      simpa using hchk 1 (le_refl 1) (by omega)
    have hw : wrap64 (a * 10) = a * 10 := by
      apply wrap64_of_isInt64
      unfold IsInt64
      unfold numberMinMantissa at ha'
      omega
    rw [scaleUp]
    simp only [gt_iff_lt, ha, ha', and_self, if_true, h1, if_false, hw]
    rw [ih (a * 10) (wrap32 (e - 1)) (by omega)]
    · have e1 : a * 10 * 10 ^ k = a * 10 ^ (k + 1) := by ring
      have e2 : wrap32 (wrap32 (e - 1) - (k : Int)) = wrap32 (e - ((k + 1 : Nat) : Int)) := by
        rw [wrap32_wrap32_sub]
        congr 1
        push_cast
        ring
      rw [e1, e2]
    · intro j hj
      have := hlt (j + 1) (by omega)
      have e1 : a * 10 * 10 ^ j = a * 10 ^ (j + 1) := by ring
      rw [e1]
      exact this
    · have e1 : a * 10 * 10 ^ k = a * 10 ^ (k + 1) := by ring
      rw [e1]
      exact hge
    · exact wrap32_isInt32 _
    · intro j hj1 hjk
      have := hchk (j + 1) (by omega) (by omega)
      rw [wrap32_wrap32_sub]
      have e2 : e - 1 - (j : Int) = e - ((j + 1 : Nat) : Int) := by
        push_cast
        ring
      rw [e2]
      exact this

/-- The scale-up loop fails as soon as one of its exponent checks fires. -/
theorem scaleUp_err (k : Nat) : ∀ (a e : Int), 0 < a →
    (∀ j : Nat, j < k → a * 10 ^ j < numberMinMantissa) →
    (∃ j : Nat, 1 ≤ j ∧ j ≤ k ∧ wrap32 (e - j) < numberMinExponent) →
    scaleUp a e = .error errExponentUnderflow := by
  induction k with
  | zero =>
    intro a e _ _ hex
    obtain ⟨j, h1, h2, _⟩ := hex
    omega
  | succ k ih =>
    intro a e ha hlt hex
    have ha' : a < numberMinMantissa := by simpa using hlt 0 (Nat.succ_pos k)
    rw [scaleUp]
    simp only [gt_iff_lt, ha, ha', and_self, if_true]
    by_cases h1 : wrap32 (e - 1) < numberMinExponent
    · simp [h1, errExponentUnderflow]
    · have hw : wrap64 (a * 10) = a * 10 := by
        apply wrap64_of_isInt64
        unfold IsInt64
        unfold numberMinMantissa at ha'
        omega
      simp only [h1, if_false, hw]
      apply ih (a * 10) (wrap32 (e - 1)) (by omega)
      · intro j hj
        have := hlt (j + 1) (by omega)
        have e1 : a * 10 * 10 ^ j = a * 10 ^ (j + 1) := by ring
        rw [e1]
        exact this
      · obtain ⟨j, hj1, hjk, hj⟩ := hex
        have hj2 : j ≠ 1 := by
          intro h
          subst h
          exact h1 (by simpa using hj)
        refine ⟨j - 1, by omega, by omega, ?_⟩
        rw [wrap32_wrap32_sub]
        have e2 : e - 1 - ((j - 1 : Nat) : Int) = e - (j : Int) := by
          have : ((j - 1 : Nat) : Int) = (j : Int) - 1 := by omega
          rw [this]
          ring
        rw [e2]
        exact hj

theorem ediv_ten_ediv_pow (a : Int) (ha : 0 ≤ a) (j : Nat) :
    a / 10 / 10 ^ j = a / 10 ^ (j + 1) := by
  obtain ⟨n, rfl⟩ := Int.eq_ofNat_of_zero_le ha
  have h : ((n / 10 / 10 ^ j : Nat) : Int) = ((n / 10 ^ (j + 1) : Nat) : Int) := by
    rw [Nat.div_div_eq_div_mul, pow_succ']
  push_cast at h
  exact h

/-- The scale-down loop runs `k` times when `k` is the first power of ten that brings
`a` down to `numberMaxMantissa`, provided none of the `k` exponent checks fires. -/
theorem scaleDown_ok (k : Nat) : ∀ (a e : Int), 0 ≤ a →
    (∀ j : Nat, j < k → numberMaxMantissa < a / 10 ^ j) →
    a / 10 ^ k ≤ numberMaxMantissa → IsInt32 e →
    (∀ j : Nat, 1 ≤ j → j ≤ k → ¬ wrap32 (e + j) > numberMaxExponent) →
    scaleDown a e = .ok (a / 10 ^ k, wrap32 (e + k)) := by
  induction k with
  | zero =>
    intro a e _ _ hle he _
    rw [scaleDown]
    have hnot : ¬ (a > numberMaxMantissa) := by
      simp only [pow_zero, Int.ediv_one] at hle
      omega
    simp [hnot, wrap32_of_isInt32 he]
  | succ k ih =>
    intro a e ha hgt hle he hchk
    have ha' : numberMaxMantissa < a := by simpa using hgt 0 (Nat.succ_pos k)
    have h1 : ¬ wrap32 (e + 1) > numberMaxExponent := by
      simpa using hchk 1 (le_refl 1) (by omega)
    have hd : Int.tdiv a 10 = a / 10 := Int.tdiv_eq_ediv ha (by omega)
    have hdiv : ∀ j : Nat, a / 10 / 10 ^ j = a / 10 ^ (j + 1) := ediv_ten_ediv_pow a ha
    rw [scaleDown]
    simp only [gt_iff_lt, ha', if_true, hd]
    simp only [gt_iff_lt] at h1
    simp only [h1, if_false]
    rw [ih (a / 10) (wrap32 (e + 1)) (by omega)]
    · have e2 : wrap32 (wrap32 (e + 1) + (k : Int)) = wrap32 (e + ((k + 1 : Nat) : Int)) := by
        rw [wrap32_wrap32_add]
        congr 1
        push_cast
        ring
      rw [hdiv, e2]
    · intro j hj
      rw [hdiv]
      exact hgt (j + 1) (by omega)
    · rw [hdiv]
      exact hle
    · exact wrap32_isInt32 _
    · intro j hj1 hjk
      have := hchk (j + 1) (by omega) (by omega)
      rw [wrap32_wrap32_add]
      have e2 : e + 1 + (j : Int) = e + ((j + 1 : Nat) : Int) := by
        push_cast
        ring
      rw [e2]
      exact this

/-- The scale-down loop fails as soon as one of its exponent checks fires. -/
theorem scaleDown_err (k : Nat) : ∀ (a e : Int), 0 ≤ a →
    (∀ j : Nat, j < k → numberMaxMantissa < a / 10 ^ j) →
    (∃ j : Nat, 1 ≤ j ∧ j ≤ k ∧ wrap32 (e + j) > numberMaxExponent) →
    scaleDown a e = .error errExponentOverflow := by
  induction k with
  | zero =>
    intro a e _ _ hex
    obtain ⟨j, h1, h2, _⟩ := hex
    omega
  | succ k ih =>
    intro a e ha hgt hex
    have ha' : numberMaxMantissa < a := by simpa using hgt 0 (Nat.succ_pos k)
    have hd : Int.tdiv a 10 = a / 10 := Int.tdiv_eq_ediv ha (by omega)
    have hdiv : ∀ j : Nat, a / 10 / 10 ^ j = a / 10 ^ (j + 1) := ediv_ten_ediv_pow a ha
    rw [scaleDown]
    simp only [gt_iff_lt, ha', if_true, hd]
    by_cases h1 : numberMaxExponent < wrap32 (e + 1)
    · simp [h1, errExponentOverflow]
    · simp only [h1, if_false]
      apply ih (a / 10) (wrap32 (e + 1)) (by omega)
      · intro j hj
        rw [hdiv]
        exact hgt (j + 1) (by omega)
      · obtain ⟨j, hj1, hjk, hj⟩ := hex
        have hj2 : j ≠ 1 := by
          intro h
          subst h
          exact h1 (by simpa using hj)
        refine ⟨j - 1, by omega, by omega, ?_⟩
        rw [wrap32_wrap32_add]
        have e2 : e + 1 + ((j - 1 : Nat) : Int) = e + (j : Int) := by
          have : ((j - 1 : Nat) : Int) = (j : Int) - 1 := by omega
          rw [this]
          ring
        rw [e2]
        exact hj

/-- The scale-up loop leaves a magnitude of at least `numberMinMantissa` (or a
non-positive one) untouched, whatever the exponent. -/
theorem scaleUp_of_not_small (a e : Int) (h : ¬ (0 < a ∧ a < numberMinMantissa)) :
    scaleUp a e = .ok (a, e) := by
  rw [scaleUp]
  simp only [gt_iff_lt, h, if_false]

/-- The scale-down loop leaves a magnitude of at most `numberMaxMantissa` untouched,
whatever the exponent. -/
theorem scaleDown_of_le (a e : Int) (h : a ≤ numberMaxMantissa) :
    scaleDown a e = .ok (a, e) := by
  rw [scaleDown]
  have hnot : ¬ (a > numberMaxMantissa) := by omega
  simp only [hnot, if_false]

/-! ## normalizeNumber in terms of its loops -/

theorem abs_eq_ite_wrap64 (m : Int) (hI : IsInt64 m) (hne : m ≠ -9223372036854775808) :
    (if m < 0 then wrap64 (-m) else m) = |m| := by
  unfold IsInt64 at hI
  rcases abs_cases m with ⟨h, h0⟩ | ⟨h, h0⟩
  · rw [h]
    have : ¬ m < 0 := by omega
    simp [this]
  · rw [h]
    simp only [h0, if_true]
    apply wrap64_of_isInt64
    unfold IsInt64
    omega

theorem normalizeNumber_of_loops (m e a1 e1 a2 e2 : Int) (hm : m ≠ 0) (hI : IsInt64 m)
    (hne : m ≠ -9223372036854775808) (h1 : scaleUp |m| e = .ok (a1, e1))
    (h2 : scaleDown a1 e1 = .ok (a2, e2)) (hr : 0 ≤ a2 ∧ a2 ≤ 9223372036854775807) :
    normalizeNumber m e = .ok (Int.sign m * a2, e2) := by
  unfold normalizeNumber
  simp only [hm, if_false, abs_eq_ite_wrap64 m hI hne, h1, h2]
  by_cases hneg : m < 0
  · have hw : wrap64 (-a2) = -a2 := by
      apply wrap64_of_isInt64
      unfold IsInt64
      omega
    simp [hneg, hw, Int.sign_eq_neg_one_of_neg hneg]
  · have hpos : 0 < m := by omega
    simp [hneg, Int.sign_eq_one_of_pos hpos]

theorem normalizeNumber_of_scaleUp_err (m e : Int) (err : GoError) (hm : m ≠ 0)
    (hI : IsInt64 m) (hne : m ≠ -9223372036854775808) (h1 : scaleUp |m| e = .error err) :
    normalizeNumber m e = .error err := by
  unfold normalizeNumber
  simp only [hm, if_false, abs_eq_ite_wrap64 m hI hne, h1]

theorem normalizeNumber_of_scaleDown_err (m e a1 e1 : Int) (err : GoError) (hm : m ≠ 0)
    (hI : IsInt64 m) (hne : m ≠ -9223372036854775808) (h1 : scaleUp |m| e = .ok (a1, e1))
    (h2 : scaleDown a1 e1 = .error err) :
    normalizeNumber m e = .error err := by
  unfold normalizeNumber
  simp only [hm, if_false, abs_eq_ite_wrap64 m hI hne, h1, h2]

/-- C8: scale-up normalization is exact. For a non-zero mantissa `m` with `|m| < 10^15`
and an exponent `e ≥ -2^31 + 15`, with `k` the least positive integer such that
`|m| * 10^k ≥ 10^15`: if `e - k ≥ -32768` then `normalizeNumber m e` returns
`(m * 10^k, e - k)` without error and without 64-bit overflow, and if `e - k < -32768`
it returns an error that is `ErrInvalidNumber`. -/
theorem normalizeNumber_scale_up_exact (m e : Int) (k : Nat)
    (hm : m ≠ 0) (hlt : |m| < 1000000000000000)
    (hlo : -2147483648 + 15 ≤ e) (hhi : e ≤ 2147483647)
    (hk : 0 < k) (hkge : 1000000000000000 ≤ |m| * 10 ^ k)
    (hkmin : ∀ j : Nat, 0 < j → j < k → |m| * 10 ^ j < 1000000000000000) :
    (-32768 ≤ e - k →
      normalizeNumber m e = .ok (m * 10 ^ k, e - k) ∧ IsInt64 (m * 10 ^ k)) ∧
    (e - k < -32768 →
      ∃ err, normalizeNumber m e = .error err ∧ errorsIs err .ErrInvalidNumber = true) := by
  have hapos : 0 < |m| := abs_pos.mpr hm
  have hmin : ∀ j : Nat, j < k → |m| * 10 ^ j < numberMinMantissa := by
    intro j hj
    unfold numberMinMantissa
    rcases Nat.eq_zero_or_pos j with h0 | h0
    · subst h0
      simpa using hlt
    · exact hkmin j h0 hj
  have hk15 : k ≤ 15 := by
    by_contra hcon
    have h15 := hmin 15 (by omega)
    unfold numberMinMantissa at h15
    norm_num at h15
    omega
  have hI : IsInt64 m := by
    unfold IsInt64
    rcases abs_cases m with ⟨h, _⟩ | ⟨h, _⟩ <;> rw [h] at hlt <;> omega
  have hne : m ≠ -9223372036854775808 := by
    rcases abs_cases m with ⟨h, _⟩ | ⟨h, _⟩ <;> rw [h] at hlt <;> omega
  have he : IsInt32 e := by
    unfold IsInt32
    omega
  have hw : ∀ j : Nat, j ≤ k → wrap32 (e - j) = e - j := by
    intro j hj
    apply wrap32_of_isInt32
    unfold IsInt32
    omega
  have hprod : |m| * 10 ^ k ≤ numberMaxMantissa := by
    have h := hmin (k - 1) (by omega)
    have e1 : |m| * 10 ^ k = |m| * 10 ^ (k - 1) * 10 := by
      rw [mul_assoc, ← pow_succ]
      congr 2
      omega
    rw [e1]
    unfold numberMinMantissa at h
    unfold numberMaxMantissa
    omega
  constructor
  · intro hge
    have hup : scaleUp |m| e = .ok (|m| * 10 ^ k, wrap32 (e - k)) := by
      apply scaleUp_ok k |m| e hapos hmin hkge he
      intro j _ hj2
      rw [hw j hj2]
      unfold numberMinExponent
      omega
    have hdown := scaleDown_of_le (|m| * 10 ^ k) (wrap32 (e - k)) hprod
    have hres := normalizeNumber_of_loops m e _ _ _ _ hm hI hne hup hdown
      (by unfold numberMaxMantissa at hprod; omega)
    have hs : Int.sign m * (|m| * 10 ^ k) = m * 10 ^ k := by
      rw [← mul_assoc, Int.sign_mul_abs]
    rw [hs, hw k (le_refl k)] at hres
    refine ⟨hres, ?_⟩
    have habs : |m * 10 ^ k| = |m| * 10 ^ k := by
      rw [abs_mul, abs_of_nonneg (by positivity : (0 : Int) ≤ 10 ^ k)]
    unfold IsInt64
    unfold numberMaxMantissa at hprod
    rw [← habs] at hprod
    rcases abs_cases (m * 10 ^ k) with ⟨h, _⟩ | ⟨h, _⟩ <;> rw [h] at hprod <;> omega
  · intro hlt2
    refine ⟨errExponentUnderflow, ?_, by decide⟩
    apply normalizeNumber_of_scaleUp_err m e _ hm hI hne
    apply scaleUp_err k |m| e hapos hmin
    refine ⟨k, hk, le_refl k, ?_⟩
    rw [hw k (le_refl k)]
    unfold numberMinExponent
    omega

theorem normalizeNumber_scale_up_exact_witness :
    normalizeNumber 1 0 = .ok (1000000000000000, -15) ∧
    normalizeNumber (-1) 0 = .ok (-1000000000000000, -15) := by
  have hmin : ∀ j : Nat, 0 < j → j < 15 → (1 : Int) * 10 ^ j < 1000000000000000 := by
    intro j _ hj
    interval_cases j <;> norm_num
  constructor
  · have h := (normalizeNumber_scale_up_exact 1 0 15 (by decide) (by decide) (by decide)
      (by decide) (by decide) (by decide) (by simpa using hmin)).1 (by decide)
    simpa using h.1
  · have h := (normalizeNumber_scale_up_exact (-1) 0 15 (by decide) (by decide) (by decide)
      (by decide) (by decide) (by decide) (by simpa using hmin)).1 (by decide)
    simpa using h.1

/-- C9: scale-down normalization truncates. For a mantissa `m ≠ -2^63` with
`|m| > 10^16 - 1` and an exponent `e`, with `k` the least positive integer such that
`⌊|m| / 10^k⌋ ≤ 10^16 - 1`: if `e + k ≤ 32768` then `normalizeNumber m e` returns
`(sign m * ⌊|m| / 10^k⌋, e + k)`; the dropped low digits are never rounded. -/
theorem normalizeNumber_scale_down_truncates (m e : Int) (k : Nat)
    (hI : IsInt64 m) (he : IsInt32 e) (hgt : |m| > 9999999999999999)
    (hne : m ≠ -9223372036854775808)
    (_hk : 0 < k) (hkle : |m| / 10 ^ k ≤ 9999999999999999)
    (hkmin : ∀ j : Nat, 0 < j → j < k → |m| / 10 ^ j > 9999999999999999)
    (hek : e + k ≤ 32768) :
    normalizeNumber m e = .ok (Int.sign m * (|m| / 10 ^ k), e + k) := by
  have hm : m ≠ 0 := by
    intro h
    subst h
    simp at hgt
  have hapos : 0 < |m| := abs_pos.mpr hm
  have habs : |m| ≤ 9223372036854775807 := by
    unfold IsInt64 at hI
    rcases abs_cases m with ⟨h, _⟩ | ⟨h, _⟩ <;> rw [h] <;> omega
  have hmin : ∀ j : Nat, j < k → numberMaxMantissa < |m| / 10 ^ j := by
    intro j hj
    unfold numberMaxMantissa
    rcases Nat.eq_zero_or_pos j with h0 | h0
    · subst h0
      simpa using hgt
    · exact hkmin j h0 hj
  have hk3 : k ≤ 3 := by
    by_contra hcon
    have h3 := hmin 3 (by omega)
    unfold numberMaxMantissa at h3
    norm_num at h3
    omega
  have hw : ∀ j : Nat, j ≤ k → wrap32 (e + j) = e + j := by
    intro j hj
    apply wrap32_of_isInt32
    unfold IsInt32 at he ⊢
    omega
  have hup : scaleUp |m| e = .ok (|m|, e) := by
    apply scaleUp_of_not_small
    unfold numberMinMantissa
    omega
  have hdown : scaleDown |m| e = .ok (|m| / 10 ^ k, wrap32 (e + k)) := by
    apply scaleDown_ok k |m| e (le_of_lt hapos) hmin hkle he
    intro j _ hj2
    rw [hw j hj2]
    unfold numberMaxExponent
    omega
  have hq0 : 0 ≤ |m| / 10 ^ k := Int.ediv_nonneg (le_of_lt hapos) (by positivity)
  have hres := normalizeNumber_of_loops m e _ _ _ _ hm hI hne hup hdown (by omega)
  rw [hw k (le_refl k)] at hres
  exact hres

theorem normalizeNumber_scale_down_truncates_witness :
    normalizeNumber 10000000000000000 0 = .ok (1000000000000000, 1) ∧
    normalizeNumber (-12345678901234567) 5 = .ok (-1234567890123456, 6) := by
  constructor
  · have h := normalizeNumber_scale_down_truncates 10000000000000000 0 1 (by decide)
      (by decide) (by decide) (by decide) (by decide) (by decide) (by omega) (by decide)
    simpa using h
  · have h := normalizeNumber_scale_down_truncates (-12345678901234567) 5 1 (by decide)
      (by decide) (by decide) (by decide) (by decide) (by decide) (by omega) (by decide)
    simpa using h

/-- C4: zero canonicalization. `FromJSON("0")` and `FromJSON("")` both succeed with the
bytes `00 00 00 00 00 00 00 00 80 00 00 00` (mantissa 0, exponent -2147483648), and
`ToJSON` on those bytes returns `"0"`. -/
theorem zero_canonicalization :
    FromJSON (.string "0".toList) = .ok [0, 0, 0, 0, 0, 0, 0, 0, 128, 0, 0, 0] ∧
    FromJSON (.string "".toList) = .ok [0, 0, 0, 0, 0, 0, 0, 0, 128, 0, 0, 0] ∧
    encodedMantissa [0, 0, 0, 0, 0, 0, 0, 0, 128, 0, 0, 0] = 0 ∧
    encodedExponent [0, 0, 0, 0, 0, 0, 0, 0, 128, 0, 0, 0] = -2147483648 ∧
    (ToJSON ⟨[0, 0, 0, 0, 0, 0, 0, 0, 128, 0, 0, 0]⟩).1 = .ok (.string "0".toList) := by
  decide

/-! ## Characters and the regular expression -/

theorem isDigit_not_sign {c : Char} (h : isDigit c = true) : ¬ (c = '+' ∨ c = '-') := by
  rintro (rfl | rfl) <;> exact absurd h (by decide)

theorem isDigit_ne_dot {c : Char} (h : isDigit c = true) : c ≠ '.' := by
  rintro rfl
  exact absurd h (by decide)

theorem isDigit_not_marker {c : Char} (h : isDigit c = true) : ¬ (c = 'e' ∨ c = 'E') := by
  rintro (rfl | rfl) <;> exact absurd h (by decide)

theorem isDigit_not_space {c : Char} (h : isDigit c = true) : isSpace c = false := by
  unfold isDigit at h
  unfold isSpace
  simp only [Bool.and_eq_true, decide_eq_true_eq] at h
  simp only [Bool.or_eq_false_iff, Bool.and_eq_false_iff, decide_eq_false_iff_not,
    beq_eq_false_iff_ne, ne_eq]
  omega

theorem splitSign_append (sign rest : List Char) (hs : IsSignText sign)
    (hrest : ∀ c, rest.head? = some c → ¬ (c = '+' ∨ c = '-')) :
    splitSign (sign ++ rest) = (sign, rest) := by
  rcases hs with rfl | rfl | rfl
  · cases rest with
    | nil => rfl
    | cons c r =>
      have := hrest c rfl
      simp [splitSign, this]
  · simp [splitSign]
  · simp [splitSign]

theorem takeWhile_isDigit_append (ds rest : List Char) (hd : AllDigits ds)
    (hrest : ∀ c, rest.head? = some c → isDigit c = false) :
    (ds ++ rest).takeWhile isDigit = ds ∧ (ds ++ rest).dropWhile isDigit = rest := by
  induction ds with
  | nil =>
    cases rest with
    | nil => simp
    | cons c r =>
      have := hrest c rfl
      simp [List.takeWhile, List.dropWhile, this]
  | cons d ds ih =>
    have hd0 : isDigit d = true := hd d (List.mem_cons_self d ds)
    have hds : AllDigits ds := fun c hc => hd c (List.mem_cons_of_mem d hc)
    obtain ⟨h1, h2⟩ := ih hds
    simp [List.takeWhile, List.dropWhile, hd0, h1, h2]

theorem matchExponentSuffix_expSuffix (exp : Option (Char × List Char × List Char))
    (hexp : ExpWellFormed exp) :
    matchExponentSuffix (expSuffix exp) = some (expTextOf exp) ∧
    (∀ c, (expSuffix exp).head? = some c → (c = 'e' ∨ c = 'E')) := by
  cases exp with
  | none => simp [matchExponentSuffix, expSuffix, expTextOf]
  | some t =>
    obtain ⟨marker, es, ed⟩ := t
    obtain ⟨hm, hes, hne, hed⟩ := hexp
    have hsplit : splitSign (es ++ ed) = (es, ed) := by
      apply splitSign_append es ed hes
      intro c hc
      cases ed with
      | nil => exact absurd rfl hne
      | cons d ds =>
        simp only [List.head?_cons, Option.some.injEq] at hc
        subst hc
        exact isDigit_not_sign (hed _ (List.mem_cons_self _ _))
    have htd := takeWhile_isDigit_append ed [] hed (by simp)
    simp only [List.append_nil] at htd
    refine ⟨?_, ?_⟩
    · simp [matchExponentSuffix, expSuffix, expTextOf, hm, hsplit, htd.1, htd.2, hne]
    · intro c hc
      simp only [expSuffix, List.head?_cons, Option.some.injEq] at hc
      subst hc
      exact hm

theorem splitFraction_suffix (frac : Option (List Char))
    (exp : Option (Char × List Char × List Char))
    (hfrac : FracWellFormed frac) (hexp : ExpWellFormed exp) :
    splitFraction (fracSuffix frac ++ expSuffix exp) = (fracDigitsOf frac, expSuffix exp) ∧
    (∀ c, (fracSuffix frac ++ expSuffix exp).head? = some c →
      (c = '.' ∨ c = 'e' ∨ c = 'E')) := by
  have hE2 := (matchExponentSuffix_expSuffix exp hexp).2
  cases frac with
  | none =>
    simp only [fracSuffix, List.nil_append]
    refine ⟨?_, fun c hc => Or.inr (hE2 c hc)⟩
    generalize expSuffix exp = t at hE2
    cases t with
    | nil => simp [splitFraction, fracDigitsOf]
    | cons c r =>
      have hc := hE2 c rfl
      have hne : c ≠ '.' := by
        rcases hc with rfl | rfl <;> decide
      simp [splitFraction, fracDigitsOf, hne]
  | some f =>
    have htd := takeWhile_isDigit_append f _ hfrac (fun c hc => by
      rcases hE2 c hc with rfl | rfl <;> decide)
    refine ⟨?_, ?_⟩
    · simp [splitFraction, fracSuffix, fracDigitsOf, htd.1, htd.2]
    · intro c hc
      simp only [fracSuffix, List.cons_append, List.head?_cons, Option.some.injEq] at hc
      exact Or.inl hc.symm

/-- On a string laid out by the grammar, the regular expression matches and its four
capture groups are the sign, the integer digits, the fractional digits and the
exponent text. -/
theorem numberRegexMatch_render (p : NumberParts) (hp : p.WellFormed) :
    numberRegexMatch p.render = some ⟨p.sign, p.intDigits, p.fracDigits, p.expText⟩ := by
  obtain ⟨sign, intDigits, frac, exp⟩ := p
  obtain ⟨hsign, hint, hfrac, hexp⟩ := hp
  simp only at hsign hint hfrac hexp
  obtain ⟨hE1, -⟩ := matchExponentSuffix_expSuffix exp hexp
  obtain ⟨hF1, hF2⟩ := splitFraction_suffix frac exp hfrac hexp
  have hI := takeWhile_isDigit_append intDigits _ hint (fun c hc => by
    rcases hF2 c hc with rfl | rfl | rfl <;> decide)
  have hS : splitSign (NumberParts.render ⟨sign, intDigits, frac, exp⟩) =
      (sign, intDigits ++ (fracSuffix frac ++ expSuffix exp)) := by
    apply splitSign_append sign _ hsign
    intro c hc
    cases intDigits with
    | nil =>
      simp only [List.nil_append] at hc
      rcases hF2 c hc with rfl | rfl | rfl <;> decide
    | cons d ds =>
      simp only [List.cons_append, List.head?_cons, Option.some.injEq] at hc
      subst hc
      exact isDigit_not_sign (hint _ (List.mem_cons_self _ _))
  unfold numberRegexMatch
  simp only [hS, hI.1, hI.2, hF1, hE1, NumberParts.fracDigits, NumberParts.expText]

theorem splitSign_spec (s : List Char) :
    IsSignText (splitSign s).1 ∧ s = (splitSign s).1 ++ (splitSign s).2 := by
  cases s with
  | nil => simp [splitSign, IsSignText]
  | cons c r =>
    by_cases h : c = '+' ∨ c = '-'
    · rcases h with rfl | rfl <;> simp [splitSign, IsSignText]
    · simp [splitSign, h, IsSignText]

theorem allDigits_takeWhile (r : List Char) : AllDigits (r.takeWhile isDigit) := by
  intro c hc
  exact List.mem_takeWhile_imp hc

theorem splitFraction_spec (r : List Char) :
    ∃ frac, FracWellFormed frac ∧ r = fracSuffix frac ++ (splitFraction r).2 := by
  cases r with
  | nil => exact ⟨none, trivial, by simp [splitFraction, fracSuffix]⟩
  | cons c t =>
    by_cases h : c = '.'
    · subst h
      refine ⟨some (t.takeWhile isDigit), allDigits_takeWhile t, ?_⟩
      simp [splitFraction, fracSuffix, List.takeWhile_append_dropWhile]
    · exact ⟨none, trivial, by simp [splitFraction, fracSuffix, h]⟩

theorem matchExponentSuffix_spec (r x : List Char) (h : matchExponentSuffix r = some x) :
    ∃ exp, ExpWellFormed exp ∧ r = expSuffix exp := by
  cases r with
  | nil => exact ⟨none, trivial, by simp [expSuffix]⟩
  | cons c t =>
    by_cases hm : c = 'e' ∨ c = 'E'
    · simp only [matchExponentSuffix, hm, if_true] at h
      obtain ⟨hsign, hsplit⟩ := splitSign_spec t
      by_cases hd : (splitSign t).2.takeWhile isDigit ≠ [] ∧
          (splitSign t).2.dropWhile isDigit = []
      · refine ⟨some (c, (splitSign t).1, (splitSign t).2.takeWhile isDigit),
          ⟨hm, hsign, hd.1, allDigits_takeWhile _⟩, ?_⟩
        have hall : (splitSign t).2.takeWhile isDigit = (splitSign t).2 := by
          have := List.takeWhile_append_dropWhile isDigit (splitSign t).2
          rw [hd.2, List.append_nil] at this
          exact this
        simp only [expSuffix, hall]
        rw [← hsplit]
      · simp only [hd, if_false] at h
        exact absurd h (by simp)
    · simp [matchExponentSuffix, hm] at h

/-- Whatever the regular expression matches is laid out by the grammar. -/
theorem numberRegexMatch_layout (s : List Char) (g : NumberMatch)
    (h : numberRegexMatch s = some g) : NumberLayout s := by
  unfold numberRegexMatch at h
  obtain ⟨hsign, hsplit⟩ := splitSign_spec s
  generalize splitSign s = sr at h hsign hsplit
  obtain ⟨sign, r0⟩ := sr
  simp only at h hsign hsplit
  obtain ⟨frac, hfrac, hfr⟩ := splitFraction_spec (r0.dropWhile isDigit)
  generalize splitFraction (r0.dropWhile isDigit) = fr at h hfr
  obtain ⟨fp, r2⟩ := fr
  simp only at h hfr
  cases hm : matchExponentSuffix r2 with
  | none => simp [hm] at h
  | some x =>
    obtain ⟨exp, hexp, hr2⟩ := matchExponentSuffix_spec r2 x hm
    refine ⟨⟨sign, r0.takeWhile isDigit, frac, exp⟩,
      ⟨hsign, allDigits_takeWhile r0, hfrac, hexp⟩, ?_⟩
    simp only [NumberParts.render]
    rw [← hr2, ← hfr, List.takeWhile_append_dropWhile]
    exact hsplit

/-- The regular expression matches exactly the strings laid out by the grammar. -/
theorem numberRegexMatch_isSome_iff (s : List Char) :
    (numberRegexMatch s).isSome = true ↔ NumberLayout s := by
  constructor
  · intro h
    obtain ⟨g, hg⟩ := Option.isSome_iff_exists.mp h
    exact numberRegexMatch_layout s g hg
  · rintro ⟨p, hp, rfl⟩
    rw [numberRegexMatch_render p hp]
    rfl

/-! ## White space -/

theorem TrimSpace_eq_self (s : List Char) (h : ∀ c ∈ s, isSpace c = false) :
    TrimSpace s = s := by
  unfold TrimSpace
  have h1 : s.dropWhile isSpace = s := by
    cases s with
    | nil => rfl
    | cons c r => simp [List.dropWhile, h c (List.mem_cons_self c r)]
  rw [h1]
  rw [List.rdropWhile_eq_self_iff]
  intro hl
  simp [h _ (List.getLast_mem hl)]

theorem render_no_space (p : NumberParts) (hp : p.WellFormed) :
    ∀ c ∈ p.render, isSpace c = false := by
  obtain ⟨sign, intDigits, frac, exp⟩ := p
  obtain ⟨hsign, hint, hfrac, hexp⟩ := hp
  simp only at hsign hint hfrac hexp
  intro c hc
  simp only [NumberParts.render, List.mem_append] at hc
  have hsg : ∀ t : List Char, IsSignText t → c ∈ t → isSpace c = false := by
    intro t ht hct
    rcases ht with rfl | rfl | rfl
    · simp at hct
    · simp only [List.mem_singleton] at hct
      subst hct
      decide
    · simp only [List.mem_singleton] at hct
      subst hct
      decide
  rcases hc with hc | hc | hc | hc
  · exact hsg sign hsign hc
  · exact isDigit_not_space (hint c hc)
  · cases frac with
    | none => simp [fracSuffix] at hc
    | some f =>
      simp only [fracSuffix, List.mem_cons] at hc
      rcases hc with rfl | hc
      · decide
      · exact isDigit_not_space (hfrac c hc)
  · cases exp with
    | none => simp [expSuffix] at hc
    | some t =>
      obtain ⟨marker, es, ed⟩ := t
      obtain ⟨hm, hes, -, hed⟩ := hexp
      simp only [expSuffix, List.mem_cons, List.mem_append] at hc
      rcases hc with rfl | hc | hc
      · rcases hm with rfl | rfl <;> decide
      · exact hsg es hes hc
      · exact isDigit_not_space (hed c hc)

theorem TrimSpace_render (p : NumberParts) (hp : p.WellFormed) :
    TrimSpace p.render = p.render :=
  TrimSpace_eq_self p.render (render_no_space p hp)

/-! ## parseNumberString on a string laid out by the grammar -/

theorem isDigitString_of_allDigits (ds : List Char) (h : AllDigits ds) (hne : ds ≠ []) :
    isDigitString ds = true := by
  unfold isDigitString
  simp only [Bool.and_eq_true, Bool.not_eq_true', List.isEmpty_eq_false, List.all_eq_true]
  exact ⟨hne, h⟩

theorem splitSign_digits (ds : List Char) (h : AllDigits ds) : splitSign ds = ([], ds) := by
  have := splitSign_append [] ds (Or.inl rfl) (by
    intro c hc
    cases ds with
    | nil => simp at hc
    | cons d t =>
      simp only [List.head?_cons, Option.some.injEq] at hc
      subst hc
      exact isDigit_not_sign (h _ (List.mem_cons_self _ _)))
  simpa using this

theorem bigIntSetString_digits (ds : List Char) (h : AllDigits ds) (hne : ds ≠ []) :
    bigIntSetString ds = some (decimalValue ds : Int) := by
  unfold bigIntSetString
  simp [splitSign_digits ds h, isDigitString_of_allDigits ds h hne]

theorem strconvParseInt32_text (es ed : List Char) (hes : IsSignText es) (hne : ed ≠ [])
    (hed : AllDigits ed) :
    strconvParseInt32 (es ++ ed) =
      if IsInt32 (if es = ['-'] then -(decimalValue ed : Int) else (decimalValue ed : Int))
      then some (if es = ['-'] then -(decimalValue ed : Int) else (decimalValue ed : Int))
      else none := by
  have hsplit : splitSign (es ++ ed) = (es, ed) := by
    apply splitSign_append es ed hes
    intro c hc
    cases ed with
    | nil => exact absurd rfl hne
    | cons d ds =>
      simp only [List.head?_cons, Option.some.injEq] at hc
      subst hc
      exact isDigit_not_sign (hed _ (List.mem_cons_self _ _))
  unfold strconvParseInt32
  simp only [hsplit, isDigitString_of_allDigits ed hed hne, if_true]

theorem parse_exponent_arith (a b : Nat) (x : Int) :
    wrap32 (wrap32 (wrap32 (a : Int) - wrap32 ((a + b : Nat) : Int)) + x)
      = wrap32 (x - (b : Int)) := by
  unfold wrap32
  push_cast
  omega

theorem parse_exponent_arith_zero (a b : Nat) :
    wrap32 (wrap32 (a : Int) - wrap32 ((a + b : Nat) : Int)) = wrap32 (0 - (b : Int)) := by
  unfold wrap32
  push_cast
  omega

/-- What `parseNumberString` returns on a string that trims to one laid out by the grammar: zero for
`"0"`, `""` and strings without a mantissa digit; an error when the exponent text does
not fit `int32` or the signed digits do not fit `int64`; otherwise the signed value of
the digits `I ++ F` and the exponent `X - len(F)` reduced to `int32`. -/
theorem parseNumberString_trimmed (s : List Char) (p : NumberParts) (hp : p.WellFormed)
    (htrim : TrimSpace s = p.render) :
    parseNumberString s =
      if p.render = ['0'] ∨ p.render = [] ∨ p.digits = [] then .ok (0, numberZeroExponent)
      else if p.exp.isSome = true ∧ ¬ IsInt32 p.expValue then .error errInvalidExponent
      else if ¬ IsInt64 p.mantissa then .error errMantissaOverflow
      else .ok (p.mantissa, wrap32 p.exponent) := by
  have hre := numberRegexMatch_render p hp
  unfold parseNumberString
  simp only [htrim]
  by_cases h0 : p.render = ['0'] ∨ p.render = []
  · have h0' : p.render = ['0'] ∨ p.render = [] ∨ p.digits = [] := by
      rcases h0 with h | h
      · exact Or.inl h
      · exact Or.inr (Or.inl h)
    simp only [h0, h0', if_true]
  · simp only [h0, if_false, hre]
    by_cases hd : p.digits = []
    · have hd' : p.intDigits ++ p.fracDigits = [] := hd
      have h0' : p.render = ['0'] ∨ p.render = [] ∨ p.digits = [] := Or.inr (Or.inr hd)
      simp only [hd', h0', if_true]
    · have hd' : ¬ (p.intDigits ++ p.fracDigits = []) := hd
      have h0' : ¬ (p.render = ['0'] ∨ p.render = [] ∨ p.digits = []) := by
        rintro (h | h | h)
        · exact h0 (Or.inl h)
        · exact h0 (Or.inr h)
        · exact hd h
      rw [if_neg h0']
      clear h0 h0' hre htrim s
      obtain ⟨sign, intDigits, frac, exp⟩ := p
      obtain ⟨hsign, hint, hfrac, hexp⟩ := hp
      simp only at hsign hint hfrac hexp
      simp only [NumberParts.fracDigits, NumberParts.expText, NumberParts.digits] at hd hd' ⊢
      have hall : AllDigits (intDigits ++ fracDigitsOf frac) := by
        intro c hc
        rcases List.mem_append.mp hc with hc | hc
        · exact hint c hc
        · cases frac with
          | none => simp [fracDigitsOf] at hc
          | some f => exact hfrac c hc
      simp only [hd', if_false, bigIntSetString_digits _ hall hd, List.length_append]
      cases exp with
      | none =>
        simp only [expTextOf, ne_eq, not_true_eq_false, if_false, Option.isSome_none,
          Bool.false_eq_true, false_and, NumberParts.mantissa, NumberParts.digits,
          NumberParts.fracDigits, NumberParts.exponent, NumberParts.expValue]
        rw [parse_exponent_arith_zero intDigits.length (fracDigitsOf frac).length]
        by_cases hI : IsInt64 (if sign = ['-'] then
            -(decimalValue (intDigits ++ fracDigitsOf frac) : Int)
            else (decimalValue (intDigits ++ fracDigitsOf frac) : Int))
        · simp [hI]
        · simp [hI, errMantissaOverflow]
      | some t =>
        obtain ⟨marker, es, ed⟩ := t
        obtain ⟨hm, hes, hne, hed⟩ := hexp
        have htext : es ++ ed ≠ [] := by
          intro h
          exact hne (List.append_eq_nil.mp h).2
        simp only [expTextOf, ne_eq, htext, not_false_eq_true, if_true,
          strconvParseInt32_text es ed hes hne hed, Option.isSome_some, true_and,
          NumberParts.mantissa, NumberParts.digits,
          NumberParts.fracDigits, NumberParts.exponent, NumberParts.expValue]
        by_cases hX : IsInt32 (if es = ['-'] then -(decimalValue ed : Int)
            else (decimalValue ed : Int))
        · have harith := parse_exponent_arith intDigits.length (fracDigitsOf frac).length
            (if es = ['-'] then -(decimalValue ed : Int) else (decimalValue ed : Int))
          simp only [hX, if_true, not_true_eq_false, if_false, harith]
          by_cases hI : IsInt64 (if sign = ['-'] then
              -(decimalValue (intDigits ++ fracDigitsOf frac) : Int)
              else (decimalValue (intDigits ++ fracDigitsOf frac) : Int))
          · simp [hI]
          · simp [hI, errMantissaOverflow]
        · simp [hX, errInvalidExponent]

theorem parseNumberString_render (p : NumberParts) (hp : p.WellFormed) :
    parseNumberString p.render =
      if p.render = ['0'] ∨ p.render = [] ∨ p.digits = [] then .ok (0, numberZeroExponent)
      else if p.exp.isSome = true ∧ ¬ IsInt32 p.expValue then .error errInvalidExponent
      else if ¬ IsInt64 p.mantissa then .error errMantissaOverflow
      else .ok (p.mantissa, wrap32 p.exponent) :=
  parseNumberString_trimmed p.render p hp (TrimSpace_render p hp)

/-! ## Decimal values -/

theorem decimalValue_foldl (ds : List Char) : ∀ acc : Nat,
    ds.foldl (fun acc c => acc * 10 + digitValue c) acc
      = acc * 10 ^ ds.length + decimalValue ds := by
  induction ds with
  | nil =>
    intro acc
    simp [decimalValue]
  | cons d ds ih =>
    intro acc
    simp only [List.foldl_cons, List.length_cons, decimalValue]
    rw [ih (acc * 10 + digitValue d), ih (0 * 10 + digitValue d)]
    ring

theorem decimalValue_append (a b : List Char) :
    decimalValue (a ++ b) = decimalValue a * 10 ^ b.length + decimalValue b := by
  unfold decimalValue
  rw [List.foldl_append, decimalValue_foldl b]
  rfl

theorem digitValue_le (c : Char) (h : isDigit c = true) : digitValue c ≤ 9 := by
  unfold isDigit at h
  simp only [Bool.and_eq_true, decide_eq_true_eq] at h
  unfold digitValue
  omega

theorem decimalValue_lt (ds : List Char) (h : AllDigits ds) :
    decimalValue ds < 10 ^ ds.length := by
  induction ds using List.reverseRecOn with
  | nil => simp [decimalValue]
  | append_singleton ds c ih =>
    have hds : AllDigits ds := fun x hx => h x (List.mem_append_left _ hx)
    have hc : digitValue c ≤ 9 := digitValue_le c (h c (by simp))
    have := ih hds
    rw [decimalValue_append]
    simp only [List.length_singleton, pow_one, List.length_append, pow_succ]
    have e1 : decimalValue [c] = digitValue c := by simp [decimalValue]
    rw [e1]
    omega

/-! ## Claims about parseNumberString -/

theorem render_length (p : NumberParts) :
    p.digits.length ≤ p.render.length := by
  obtain ⟨sign, intDigits, frac, exp⟩ := p
  simp only [NumberParts.digits, NumberParts.render, NumberParts.fracDigits,
    List.length_append]
  have : (fracDigitsOf frac).length ≤ (fracSuffix frac).length := by
    cases frac <;> simp [fracDigitsOf, fracSuffix]
  omega

theorem mantissa_small_of_short (p : NumberParts) (hp : p.WellFormed)
    (h : p.render = ['0'] ∨ p.render = [] ∨ p.digits = []) : IsInt64 p.mantissa := by
  have hlen : p.digits.length ≤ 1 := by
    rcases h with h | h | h
    · have := render_length p
      rw [h] at this
      simpa using this
    · have := render_length p
      rw [h] at this
      simp only [List.length_nil] at this
      omega
    · rw [h]
      simp
  have hall : AllDigits p.digits := by
    obtain ⟨sign, intDigits, frac, exp⟩ := p
    obtain ⟨-, hint, hfrac, -⟩ := hp
    intro c hc
    rcases List.mem_append.mp hc with hc | hc
    · exact hint c hc
    · cases frac with
      | none => simp [NumberParts.fracDigits, fracDigitsOf] at hc
      | some f => exact hfrac c hc
  have hv := decimalValue_lt p.digits hall
  have hpow : 10 ^ p.digits.length ≤ 10 ^ 1 := Nat.pow_le_pow_right (by decide) hlen
  unfold NumberParts.mantissa IsInt64
  split <;> omega

/-- C7: mantissa overflow. For every string laid out by the grammar whose signed
concatenation of integer and fractional digits lies outside `[-2^63, 2^63 - 1]`,
`parseNumberString` and hence `Number.FromJSON` fail with an error that is
`ErrInvalidNumber`, and no bytes are returned; in particular for `"5."` followed by
22 zeros, whose value would fit after normalization. -/
theorem parseNumberString_mantissa_overflow (p : NumberParts) (hp : p.WellFormed)
    (hM : ¬ IsInt64 p.mantissa) :
    ∃ err, parseNumberString p.render = .error err ∧
      errorsIs err .ErrInvalidNumber = true ∧
      FromJSON (.string p.render) = .error err := by
  have hspec := parseNumberString_render p hp
  have h0 : ¬ (p.render = ['0'] ∨ p.render = [] ∨ p.digits = []) :=
    fun h => hM (mantissa_small_of_short p hp h)
  rw [if_neg h0] at hspec
  by_cases hX : p.exp.isSome = true ∧ ¬ IsInt32 p.expValue
  · rw [if_pos hX] at hspec
    refine ⟨errInvalidExponent, hspec, by decide, ?_⟩
    simp only [FromJSON, hspec]
  · rw [if_neg hX, if_pos hM] at hspec
    refine ⟨errMantissaOverflow, hspec, by decide, ?_⟩
    simp only [FromJSON, hspec]

theorem parseNumberString_mantissa_overflow_witness :
    ∃ err, parseNumberString "5.0000000000000000000000".toList = .error err ∧
      errorsIs err .ErrInvalidNumber = true ∧
      FromJSON (.string "5.0000000000000000000000".toList) = .error err :=
  parseNumberString_mantissa_overflow
    ⟨[], "5".toList, some "0000000000000000000000".toList, none⟩ (by decide) (by decide)

/-- C10: parse semantics. For every string other than `"0"` laid out as
`[sign] I ['.' F] [(e|E) X]` with `I ++ F` not empty, the signed value of `I ++ F`
within `int64`, and `X` and `X - len(F)` within `int32`, `parseNumberString` returns
the signed value of `I ++ F` as mantissa and `X - len(F)` as exponent (`X = 0` when
there is no exponent suffix). -/
theorem parseNumberString_semantics (p : NumberParts) (hp : p.WellFormed)
    (hs : p.render ≠ ['0']) (hd : p.digits ≠ [])
    (hM : IsInt64 p.mantissa) (hX : IsInt32 p.expValue) (hE : IsInt32 p.exponent) :
    parseNumberString p.render = .ok (p.mantissa, p.exponent) := by
  have hspec := parseNumberString_render p hp
  have hne : p.render ≠ [] := by
    intro h
    have := render_length p
    rw [h] at this
    simp only [List.length_nil, Nat.le_zero, List.length_eq_zero] at this
    exact hd this
  have h0 : ¬ (p.render = ['0'] ∨ p.render = [] ∨ p.digits = []) := by
    rintro (h | h | h)
    · exact hs h
    · exact hne h
    · exact hd h
  have h1 : ¬ (p.exp.isSome = true ∧ ¬ IsInt32 p.expValue) := fun h => h.2 hX
  have h2 : ¬ ¬ IsInt64 p.mantissa := fun h => h hM
  rw [if_neg h0, if_neg h1, if_neg h2, wrap32_of_isInt32 hE] at hspec
  exact hspec

theorem parseNumberString_semantics_witness :
    parseNumberString "1.5e10".toList = .ok (15, 9) ∧
    parseNumberString "123.456".toList = .ok (123456, -3) ∧
    parseNumberString "0.00123".toList = .ok (123, -5) :=
  ⟨parseNumberString_semantics ⟨[], "1".toList, some "5".toList, some ('e', [], "10".toList)⟩
      (by decide) (by decide) (by decide) (by decide) (by decide) (by decide),
   parseNumberString_semantics ⟨[], "123".toList, some "456".toList, none⟩
      (by decide) (by decide) (by decide) (by decide) (by decide) (by decide),
   parseNumberString_semantics ⟨[], "0".toList, some "00123".toList, none⟩
      (by decide) (by decide) (by decide) (by decide) (by decide) (by decide)⟩

/-! ## Evaluating FromJSON -/

theorem FromJSON_of_steps (s : List Char) (m e m' e' : Int)
    (hparse : parseNumberString s = .ok (m, e))
    (hnorm : normalizeNumber m e = .ok (m', e')) :
    FromJSON (.string s) = .ok (putUint64 (toUint64 m') ++ putUint32 (toUint32 e')) := by
  simp only [FromJSON, hparse, hnorm]

theorem FromJSON_of_parse_error (s : List Char) (err : GoError)
    (hparse : parseNumberString s = .error err) :
    FromJSON (.string s) = .error err := by
  simp only [FromJSON, hparse]

theorem normalizeNumber_one : normalizeNumber 1 0 = .ok (1000000000000000, -15) := by
  have h := scaleUp_ok 15 1 0 (by decide)
    (by
      intro j hj
      unfold numberMinMantissa
      interval_cases j <;> norm_num)
    (by decide) (by decide)
    (by
      intro j h1 h2
      interval_cases j <;> decide)
  have h2 := scaleDown_of_le (1 * 10 ^ 15) (wrap32 (0 - (15 : Nat))) (by decide)
  have h3 := normalizeNumber_of_loops 1 0 _ _ _ _ (by decide) (by decide) (by decide) h h2
    (by decide)
  simpa using h3

theorem normalizeNumber_five_tenths :
    normalizeNumber 5 (-1) = .ok (5000000000000000, -16) := by
  have h := scaleUp_ok 15 5 (-1) (by decide)
    (by
      intro j hj
      unfold numberMinMantissa
      interval_cases j <;> norm_num)
    (by decide) (by decide)
    (by
      intro j h1 h2
      interval_cases j <;> decide)
  have h2 := scaleDown_of_le (5 * 10 ^ 15) (wrap32 (-1 - (15 : Nat))) (by decide)
  have h3 := normalizeNumber_of_loops 5 (-1) _ _ _ _ (by decide) (by decide) (by decide) h h2
    (by decide)
  simpa using h3

/-- The layout of the specification is within the layout of `numberRegex`, and the
regular expression finds integer digits in every string that has it. -/
theorem specNumberLayout_match (s : List Char) (h : SpecNumberLayout s) :
    NumberLayout s ∧ ∃ g, numberRegexMatch s = some g ∧ g.intPart ≠ [] := by
  obtain ⟨p, ⟨hw, hint, _⟩, rfl⟩ := h
  exact ⟨⟨p, hw, rfl⟩, _, numberRegexMatch_render p hw, hint⟩

theorem scaleUp_error (a e : Int) (err : GoError) (h : scaleUp a e = .error err) :
    err = errExponentUnderflow := by
  induction a, e using scaleUp.induct with
  | case1 a e h1 h2 =>
    unfold scaleUp at h
    simp only [h1, h2, if_true] at h
    cases h
    rfl
  | case2 a e h1 h2 ih =>
    unfold scaleUp at h
    simp only [h1, h2, if_true, if_false] at h
    exact ih h
  | case3 a e h1 =>
    unfold scaleUp at h
    simp only [h1, if_false] at h
    cases h

theorem scaleDown_error (a e : Int) (err : GoError) (h : scaleDown a e = .error err) :
    err = errExponentOverflow := by
  induction a, e using scaleDown.induct with
  | case1 a e h1 h2 =>
    unfold scaleDown at h
    simp only [h1, h2, if_true] at h
    cases h
    rfl
  | case2 a e h1 h2 ih =>
    unfold scaleDown at h
    simp only [h1, h2, if_true, if_false] at h
    exact ih h
  | case3 a e h1 =>
    unfold scaleDown at h
    simp only [h1, if_false] at h
    cases h

/-- The only errors of `normalizeNumber` are those of its two loops. -/
theorem normalizeNumber_error (m e : Int) (err : GoError)
    (h : normalizeNumber m e = .error err) :
    err = errExponentUnderflow ∨ err = errExponentOverflow := by
  unfold normalizeNumber at h
  split at h
  · cases h
  · simp only at h
    split at h
    · cases h
      rename_i err2 hup
      exact Or.inl (scaleUp_error _ _ _ hup)
    · split at h
      · cases h
        rename_i err2 hdown
        exact Or.inr (scaleDown_error _ _ _ hdown)
      · cases h

/-- A string that the regular expression matches is not refused for its format. -/
theorem parseNumberString_of_match (s : List Char) (g : NumberMatch)
    (h : numberRegexMatch (TrimSpace s) = some g) :
    parseNumberString s ≠ .error errInvalidFormat := by
  unfold parseNumberString
  simp only [h]
  intro hc
  repeat' (split at hc)
  all_goals first | cases hc | (exact absurd hc (by decide))
  rename_i heq
  repeat' (split at heq)
  all_goals first | cases heq | (exact absurd heq (by decide))

theorem FromJSON_of_match (s : List Char) (g : NumberMatch)
    (h : numberRegexMatch (TrimSpace s) = some g) :
    FromJSON (.string s) ≠ .error errInvalidFormat := by
  have hp := parseNumberString_of_match s g h
  intro hc
  unfold FromJSON at hc
  simp only at hc
  split at hc
  · rename_i err herr
    cases hc
    exact hp herr
  · split at hc
    · rename_i err herr
      cases hc
      rcases normalizeNumber_error _ _ _ herr with h2 | h2 <;> exact absurd h2 (by decide)
    · cases hc

/-- C6 as stated fails. `" 1"` (a leading space), `".5"` (no integer digits) and `"+"`
(no digits at all) do not have the layout of the specification, yet `Number.FromJSON`
accepts them: `parseNumberString` trims white space first, and `numberRegex` lets the
integer digits be empty (`\d*`). -/
theorem malformed_rejection_counterexample :
    (¬ SpecNumberLayout " 1".toList ∧ ¬ NumberLayout " 1".toList ∧
      FromJSON (.string " 1".toList) =
        .ok [0, 3, 141, 126, 164, 198, 128, 0, 255, 255, 255, 241]) ∧
    (¬ SpecNumberLayout ".5".toList ∧
      FromJSON (.string ".5".toList) =
        .ok [0, 17, 195, 121, 55, 224, 128, 0, 255, 255, 255, 240]) ∧
    (¬ SpecNumberLayout "+".toList ∧ FromJSON (.string "+".toList) = .ok zeroPattern) := by
  have hone : ¬ NumberLayout " 1".toList := by
    rw [← numberRegexMatch_isSome_iff]
    decide
  refine ⟨⟨fun h => hone (specNumberLayout_match _ h).1, hone, ?_⟩, ⟨?_, ?_⟩, ?_, ?_⟩
  · have h := FromJSON_of_steps " 1".toList 1 0 _ _ (by decide) normalizeNumber_one
    rw [h]
    decide
  · intro h
    obtain ⟨g, hg, hint⟩ := (specNumberLayout_match _ h).2
    have h2 : numberRegexMatch ".5".toList = some ⟨[], [], ['5'], []⟩ := by decide
    rw [h2] at hg
    cases hg
    exact hint rfl
  · have h := FromJSON_of_steps ".5".toList 5 (-1) _ _ (by decide) normalizeNumber_five_tenths
    rw [h]
    decide
  · intro h
    obtain ⟨g, hg, hint⟩ := (specNumberLayout_match _ h).2
    have h2 : numberRegexMatch "+".toList = some ⟨['+'], [], [], []⟩ := by decide
    rw [h2] at hg
    cases hg
    exact hint rfl
  · decide

/-- C6, amended: `Number.FromJSON` (via `parseNumberString`) refuses a string for its
format exactly when its form after trimming leading and trailing white space does not
have the layout `[sign][digits]['.' digits][(e|E) [sign] digits]` in which the integer
digits and the fractional digits may be none at all. The error is the "invalid format"
error, which is `ErrInvalidNumber`, and no bytes are returned. Every string with the
layout of the specification has this layout. -/
theorem malformed_rejection (s : List Char) :
    (¬ NumberLayout (TrimSpace s) →
      parseNumberString s = .error errInvalidFormat ∧
      FromJSON (.string s) = .error errInvalidFormat) ∧
    (NumberLayout (TrimSpace s) →
      parseNumberString s ≠ .error errInvalidFormat ∧
      FromJSON (.string s) ≠ .error errInvalidFormat) ∧
    (SpecNumberLayout (TrimSpace s) → NumberLayout (TrimSpace s)) ∧
    errorsIs errInvalidFormat .ErrInvalidNumber = true := by
  refine ⟨fun h => ?_, fun h => ?_, fun h => (specNumberLayout_match _ h).1, by decide⟩
  · have h0 : ¬ (TrimSpace s = ['0'] ∨ TrimSpace s = []) := by
      rintro (h0 | h0)
      · apply h
        rw [h0]
        exact ⟨⟨[], ['0'], none, none⟩, by decide, by decide⟩
      · apply h
        rw [h0]
        exact ⟨⟨[], [], none, none⟩, by decide, by decide⟩
    have hre : numberRegexMatch (TrimSpace s) = none := by
      cases hm : numberRegexMatch (TrimSpace s) with
      | none => rfl
      | some g => exact absurd (numberRegexMatch_layout _ g hm) h
    have hparse : parseNumberString s = .error errInvalidFormat := by
      unfold parseNumberString
      simp only [h0, if_false, hre, errInvalidFormat]
    exact ⟨hparse, FromJSON_of_parse_error s _ hparse⟩
  · obtain ⟨g, hg⟩ := Option.isSome_iff_exists.mp ((numberRegexMatch_isSome_iff _).2 h)
    exact ⟨parseNumberString_of_match s g hg, FromJSON_of_match s g hg⟩

/-- C6 on the strings of the claim, which are refused, and on `".5"`, which has the
layout after trimming and is not refused for its format. -/
theorem malformed_rejection_witness :
    FromJSON (.string "12a34".toList) = .error errInvalidFormat ∧
    FromJSON (.string "12.34.56".toList) = .error errInvalidFormat ∧
    FromJSON (.string "invalid".toList) = .error errInvalidFormat ∧
    FromJSON (.string ".5".toList) ≠ .error errInvalidFormat :=
  ⟨((malformed_rejection "12a34".toList).1 (by
      rw [← numberRegexMatch_isSome_iff]
      decide)).2,
   ((malformed_rejection "12.34.56".toList).1 (by
      rw [← numberRegexMatch_isSome_iff]
      decide)).2,
   ((malformed_rejection "invalid".toList).1 (by
      rw [← numberRegexMatch_isSome_iff]
      decide)).2,
   ((malformed_rejection ".5".toList).2.1 (by
      rw [← numberRegexMatch_isSome_iff]
      decide)).2⟩

/-- C2, the code at a failing input: the exponent 40000 lies above
`numberMaxExponent`, the mantissa needs no scaling, no loop runs and so no bound is
checked; `Number.FromJSON` returns twelve bytes carrying the exponent 40000. -/
theorem FromJSON_exponent_unchecked :
    normalizeNumber 1000000000000000 40000 = .ok (1000000000000000, 40000) ∧
    FromJSON (.string "1000000000000000e40000".toList) =
      .ok [0, 3, 141, 126, 164, 198, 128, 0, 0, 0, 156, 64] := by
  have hn : normalizeNumber 1000000000000000 40000 = .ok (1000000000000000, 40000) := by
    have h1 := scaleUp_of_not_small 1000000000000000 40000 (by decide)
    have h2 := scaleDown_of_le 1000000000000000 40000 (by decide)
    have h3 := normalizeNumber_of_loops 1000000000000000 40000 _ _ _ _ (by decide)
      (by decide) (by decide) h1 h2 (by decide)
    simpa using h3
  refine ⟨hn, ?_⟩
  rw [FromJSON_of_steps "1000000000000000e40000".toList 1000000000000000 40000 _ _
    (by decide) hn]
  decide

/-- C3, the code at a failing input: for the mantissa `-2^63` the negation
`-absMantissa` wraps, both loops are skipped, and `Number.FromJSON` returns a mantissa
of magnitude `2^63`, far above `10^16 - 1`. -/
theorem FromJSON_minInt64_not_canonical :
    normalizeNumber (-9223372036854775808) 0 = .ok (-9223372036854775808, 0) ∧
    FromJSON (.string "-9223372036854775808".toList) =
      .ok [128, 0, 0, 0, 0, 0, 0, 0, 0, 0, 0, 0] := by
  have hn : normalizeNumber (-9223372036854775808) 0 = .ok (-9223372036854775808, 0) := by
    have hw : wrap64 9223372036854775808 = -9223372036854775808 := by decide
    have h1 := scaleUp_of_not_small (-9223372036854775808) 0 (by decide)
    have h2 := scaleDown_of_le (-9223372036854775808) 0 (by decide)
    unfold normalizeNumber
    simp [hw, h1, h2]
  refine ⟨hn, ?_⟩
  rw [FromJSON_of_steps "-9223372036854775808".toList (-9223372036854775808) 0 _ _
    (by decide) hn]
  decide

/-! ## Decimal digits of an integer -/

theorem decimalDigits_of_lt (n : Nat) (h : n < 10) : decimalDigits n = [Nat.digitChar n] := by
  rw [decimalDigits, if_pos h]

theorem decimalDigits_of_ge (n : Nat) (h : ¬ n < 10) :
    decimalDigits n = decimalDigits (n / 10) ++ [Nat.digitChar (n % 10)] := by
  rw [decimalDigits, if_neg h]

theorem toDigitsCore_eq_decimalDigits (fuel : Nat) : ∀ (n : Nat) (acc : List Char),
    n < fuel → Nat.toDigitsCore 10 fuel n acc = decimalDigits n ++ acc := by
  induction fuel with
  | zero =>
    intro n acc h
    omega
  | succ fuel ih =>
    intro n acc h
    simp only [Nat.toDigitsCore]
    by_cases h0 : n / 10 = 0
    · have hlt : n < 10 := by omega
      have hmod : n % 10 = n := Nat.mod_eq_of_lt hlt
      rw [decimalDigits_of_lt n hlt]
      simp [h0, hmod]
    · have hge : ¬ n < 10 := by omega
      rw [if_neg h0, ih (n / 10) _ (by omega), decimalDigits_of_ge n hge]
      simp

theorem toDigits_eq_decimalDigits (n : Nat) : Nat.toDigits 10 n = decimalDigits n := by
  unfold Nat.toDigits
  rw [toDigitsCore_eq_decimalDigits (n + 1) n [] (by omega)]
  simp

theorem digitChar_isDigit (d : Nat) (h : d < 10) :
    isDigit (Nat.digitChar d) = true ∧ digitValue (Nat.digitChar d) = d := by
  interval_cases d <;> exact ⟨by decide, by decide⟩

theorem decimalDigits_ne_nil (n : Nat) : decimalDigits n ≠ [] := by
  rw [decimalDigits]
  split <;> simp

theorem decimalDigits_allDigits (n : Nat) : AllDigits (decimalDigits n) := by
  induction n using Nat.strong_induction_on with
  | _ n ih =>
    rw [decimalDigits]
    split
    · intro c hc
      simp only [List.mem_singleton] at hc
      subst hc
      exact (digitChar_isDigit n (by omega)).1
    · intro c hc
      rcases List.mem_append.mp hc with hc | hc
      · exact ih (n / 10) (by omega) c hc
      · simp only [List.mem_singleton] at hc
        subst hc
        exact (digitChar_isDigit (n % 10) (by omega)).1

theorem decimalValue_singleton (c : Char) : decimalValue [c] = digitValue c := by
  simp [decimalValue]

theorem decimalValue_decimalDigits (n : Nat) : decimalValue (decimalDigits n) = n := by
  induction n using Nat.strong_induction_on with
  | _ n ih =>
    rw [decimalDigits]
    split
    · rw [decimalValue_singleton]
      exact (digitChar_isDigit n (by omega)).2
    · rw [decimalValue_append, ih (n / 10) (by omega), decimalValue_singleton,
        (digitChar_isDigit (n % 10) (by omega)).2]
      simp only [List.length_singleton, pow_one]
      omega

theorem decimalDigits_length_le (k : Nat) : ∀ n : Nat, n < 10 ^ (k + 1) →
    (decimalDigits n).length ≤ k + 1 := by
  induction k with
  | zero =>
    intro n h
    rw [decimalDigits]
    have : n < 10 := by simpa using h
    simp [this]
  | succ k ih =>
    intro n h
    rw [decimalDigits]
    split
    · simp
    · have h2 : n / 10 < 10 ^ (k + 1) := by
        rw [pow_succ] at h
        omega
      have := ih (n / 10) h2
      simp only [List.length_append, List.length_singleton]
      omega

/-- The digits printed for an `int64` magnitude: at most 19 of them. -/
theorem decimalDigits_length_int64 (n : Nat) (h : n ≤ 9223372036854775808) :
    (decimalDigits n).length ≤ 19 :=
  decimalDigits_length_le 18 n (by
    have : (10 : Nat) ^ (18 + 1) = 10000000000000000000 := by norm_num
    omega)

/-- `strconv.FormatInt` prints an optional `-` followed by the digits of the magnitude. -/
theorem strconvFormatInt_eq (x : Int) :
    strconvFormatInt x = (if x < 0 then ['-'] else []) ++ decimalDigits x.natAbs := by
  unfold strconvFormatInt
  rw [toDigits_eq_decimalDigits]
  split <;> simp

/-! ## formatNumber, branch by branch -/

theorem mantissaStr_eq (m : Int) :
    (if m < 0 then (strconvFormatInt m).drop 1 else strconvFormatInt m)
      = decimalDigits m.natAbs := by
  rw [strconvFormatInt_eq]
  split <;> simp

theorem formatNumber_eq (m e : Int) :
    formatNumber m e =
      if e = numberZeroExponent then ['0']
      else if e ≥ -25 ∧ e ≤ -5 then
        if e + ((decimalDigits m.natAbs).length : Int) ≤ 0 then
          signText m ++ ['0', '.'] ++
            List.replicate (-(e + ((decimalDigits m.natAbs).length : Int))).toNat '0' ++
            decimalDigits m.natAbs
        else if e + ((decimalDigits m.natAbs).length : Int)
            < ((decimalDigits m.natAbs).length : Int) then
          signText m ++
            (decimalDigits m.natAbs).take (e + ((decimalDigits m.natAbs).length : Int)).toNat ++
            ['.'] ++
            (decimalDigits m.natAbs).drop (e + ((decimalDigits m.natAbs).length : Int)).toNat
        else
          signText m ++ decimalDigits m.natAbs ++
            List.replicate (e + ((decimalDigits m.natAbs).length : Int)
              - ((decimalDigits m.natAbs).length : Int)).toNat '0'
      else if (decimalDigits m.natAbs).length = 1 then
        signText m ++ decimalDigits m.natAbs ++ ['e'] ++ strconvFormatInt e
      else
        signText m ++ (decimalDigits m.natAbs).take 1 ++ ['.'] ++
          (decimalDigits m.natAbs).drop 1 ++ ['e'] ++
          strconvFormatInt (e + ((decimalDigits m.natAbs).length : Int) - 1) := by
  unfold formatNumber
  simp only [mantissaStr_eq, signText]

theorem signed_value (x : Int) (ds : List Char) (h : decimalValue ds = x.natAbs) :
    (if signText x = ['-'] then -(decimalValue ds : Int) else (decimalValue ds : Int)) = x := by
  unfold signText
  by_cases hx : x < 0
  · simp only [hx, if_true, h]
    omega
  · have hne : ¬ (([] : List Char) = ['-']) := by simp
    simp only [hx, if_false, hne, h]
    omega

theorem signText_isSignText (x : Int) : IsSignText (signText x) := by
  unfold signText IsSignText
  split <;> simp

theorem decimalValue_replicate_zero (k : Nat) : decimalValue (List.replicate k '0') = 0 := by
  induction k with
  | zero => rfl
  | succ k ih =>
    rw [List.replicate_succ']
    rw [decimalValue_append, ih, decimalValue_singleton]
    simp [digitValue]

theorem allDigits_replicate_zero (k : Nat) : AllDigits (List.replicate k '0') := by
  intro c hc
  rw [List.eq_of_mem_replicate hc]
  decide

theorem allDigits_append {a b : List Char} (ha : AllDigits a) (hb : AllDigits b) :
    AllDigits (a ++ b) := by
  intro c hc
  rcases List.mem_append.mp hc with h | h
  · exact ha c h
  · exact hb c h

theorem allDigits_take {a : List Char} (k : Nat) (ha : AllDigits a) : AllDigits (a.take k) :=
  fun c hc => ha c (List.mem_of_mem_take hc)

theorem allDigits_drop {a : List Char} (k : Nat) (ha : AllDigits a) : AllDigits (a.drop k) :=
  fun c hc => ha c (List.mem_of_mem_drop hc)

/-- The general form of the parse semantics on grammar strings, used below. -/
theorem parseNumberString_of_parts (p : NumberParts) (hp : p.WellFormed)
    (hs : p.render ≠ ['0']) (hd : p.digits ≠ [])
    (hM : IsInt64 p.mantissa) (hX : IsInt32 p.expValue) (hE : IsInt32 p.exponent) :
    parseNumberString p.render = .ok (p.mantissa, p.exponent) := by
  have hspec := parseNumberString_render p hp
  have hne : p.render ≠ [] := by
    intro h
    have := render_length p
    rw [h] at this
    simp only [List.length_nil, Nat.le_zero, List.length_eq_zero] at this
    exact hd this
  have h0 : ¬ (p.render = ['0'] ∨ p.render = [] ∨ p.digits = []) := by
    rintro (h | h | h)
    · exact hs h
    · exact hne h
    · exact hd h
  have h1 : ¬ (p.exp.isSome = true ∧ ¬ IsInt32 p.expValue) := fun h => h.2 hX
  have h2 : ¬ ¬ IsInt64 p.mantissa := fun h => h hM
  rw [if_neg h0, if_neg h1, if_neg h2, wrap32_of_isInt32 hE] at hspec
  exact hspec

theorem parse_of_signed_parts (p : NumberParts) (m e : Int) (out : List Char)
    (hp : p.WellFormed) (hr : p.render = out) (hlen : 2 ≤ out.length)
    (hsign : p.sign = signText m) (hdig : decimalValue p.digits = m.natAbs)
    (hm : m ≠ 0) (hI : IsInt64 m) (hX : IsInt32 p.expValue) (hE : p.exponent = e)
    (he : IsInt32 e) :
    parseNumberString out = .ok (m, e) := by
  have hd : p.digits ≠ [] := by
    intro h
    rw [h] at hdig
    simp only [decimalValue, List.foldl_nil] at hdig
    omega
  have hs : p.render ≠ ['0'] := by
    intro h
    rw [hr] at h
    rw [h] at hlen
    simp at hlen
  have hman : p.mantissa = m := by
    unfold NumberParts.mantissa
    rw [hsign]
    exact signed_value m p.digits hdig
  have h := parseNumberString_of_parts p hp hs hd (by rw [hman]; exact hI) hX
    (by rw [hE]; exact he)
  rw [hr, hman, hE] at h
  exact h

/-- Parsing inverts formatting: for a non-zero `int64` mantissa and an exponent within
`[-32768, 32768]`, `parseNumberString (formatNumber m e)` returns `(m, e)`. -/
theorem parse_format_roundtrip (m e : Int) (hm : m ≠ 0) (hI : IsInt64 m)
    (he1 : -32768 ≤ e) (he2 : e ≤ 32768) :
    parseNumberString (formatNumber m e) = .ok (m, e) := by
  have hz : e ≠ numberZeroExponent := by
    unfold numberZeroExponent
    omega
  have he : IsInt32 e := by
    unfold IsInt32
    omega
  have hlen19 : (decimalDigits m.natAbs).length ≤ 19 :=
    decimalDigits_length_int64 _ (by unfold IsInt64 at hI; omega)
  rw [formatNumber_eq, if_neg hz]
  generalize hstr : decimalDigits m.natAbs = str at hlen19 ⊢
  have hall : AllDigits str := by
    rw [← hstr]
    exact decimalDigits_allDigits _
  have hne : str ≠ [] := by
    rw [← hstr]
    exact decimalDigits_ne_nil _
  have hval : decimalValue str = m.natAbs := by
    rw [← hstr]
    exact decimalValue_decimalDigits _
  have hlen1 : 1 ≤ str.length := List.length_pos.mpr hne
  by_cases hdec : e ≥ -25 ∧ e ≤ -5
  · rw [if_pos hdec]
    by_cases ht0 : e + (str.length : Int) ≤ 0
    · rw [if_pos ht0]
      apply parse_of_signed_parts ⟨signText m, ['0'],
        some (List.replicate (-(e + (str.length : Int))).toNat '0' ++ str), none⟩ m e _
        ⟨signText_isSignText m, allDigits_replicate_zero 1,
          allDigits_append (allDigits_replicate_zero _) hall, trivial⟩
      · simp [NumberParts.render, fracSuffix, expSuffix]
      · simp only [List.length_append, List.length_cons]
        omega
      · rfl
      · simp only [NumberParts.digits, NumberParts.fracDigits, fracDigitsOf]
        rw [decimalValue_append, decimalValue_append, decimalValue_replicate_zero, hval]
        simp [decimalValue_singleton, digitValue]
      · exact hm
      · exact hI
      · simp only [NumberParts.expValue]
        decide
      · simp only [NumberParts.exponent, NumberParts.expValue, NumberParts.fracDigits,
          fracDigitsOf, List.length_append, List.length_replicate]
        push_cast
        omega
      · exact he
    · rw [if_neg ht0]
      by_cases ht1 : e + (str.length : Int) < (str.length : Int)
      · rw [if_pos ht1]
        apply parse_of_signed_parts ⟨signText m,
          str.take (e + (str.length : Int)).toNat,
          some (str.drop (e + (str.length : Int)).toNat), none⟩ m e _
          ⟨signText_isSignText m, allDigits_take _ hall, allDigits_drop _ hall, trivial⟩
        · simp [NumberParts.render, fracSuffix, expSuffix]
        · simp only [List.length_append, List.length_cons, List.length_take,
            List.length_drop]
          omega
        · rfl
        · simp only [NumberParts.digits, NumberParts.fracDigits, fracDigitsOf,
            List.take_append_drop]
          exact hval
        · exact hm
        · exact hI
        · simp only [NumberParts.expValue]
          decide
        · simp only [NumberParts.exponent, NumberParts.expValue, NumberParts.fracDigits,
            fracDigitsOf, List.length_drop]
          omega
        · exact he
      · omega
  · rw [if_neg hdec]
    by_cases hone : str.length = 1
    · rw [if_pos hone, strconvFormatInt_eq]
      apply parse_of_signed_parts ⟨signText m, str, none,
        some ('e', signText e, decimalDigits e.natAbs)⟩ m e _
        ⟨signText_isSignText m, hall, trivial,
          ⟨Or.inl rfl, signText_isSignText e, decimalDigits_ne_nil _,
            decimalDigits_allDigits _⟩⟩
      · simp [NumberParts.render, fracSuffix, expSuffix, signText]
      · simp only [List.length_append, List.length_cons]
        omega
      · rfl
      · simp only [NumberParts.digits, NumberParts.fracDigits, fracDigitsOf, List.append_nil]
        exact hval
      · exact hm
      · exact hI
      · simp only [NumberParts.expValue]
        rw [signed_value e _ (decimalValue_decimalDigits _)]
        exact he
      · simp only [NumberParts.exponent, NumberParts.expValue, NumberParts.fracDigits,
          fracDigitsOf]
        rw [signed_value e _ (decimalValue_decimalDigits _)]
        simp
      · exact he
    · rw [if_neg hone, strconvFormatInt_eq]
      apply parse_of_signed_parts ⟨signText m, str.take 1, some (str.drop 1),
        some ('e', signText (e + (str.length : Int) - 1),
          decimalDigits (e + (str.length : Int) - 1).natAbs)⟩ m e _
        ⟨signText_isSignText m, allDigits_take _ hall, allDigits_drop _ hall,
          ⟨Or.inl rfl, signText_isSignText _, decimalDigits_ne_nil _,
            decimalDigits_allDigits _⟩⟩
      · simp [NumberParts.render, fracSuffix, expSuffix, signText]
      · simp only [List.length_append, List.length_cons, List.length_take,
          List.length_drop]
        omega
      · rfl
      · simp only [NumberParts.digits, NumberParts.fracDigits, fracDigitsOf,
          List.take_append_drop]
        exact hval
      · exact hm
      · exact hI
      · simp only [NumberParts.expValue]
        rw [signed_value _ _ (decimalValue_decimalDigits _)]
        unfold IsInt32
        omega
      · simp only [NumberParts.exponent, NumberParts.expValue, NumberParts.fracDigits,
          fracDigitsOf, List.length_drop]
        rw [signed_value _ _ (decimalValue_decimalDigits _)]
        omega
      · exact he

/-! ## The normal form of a magnitude -/

theorem log10_bounds (n : Nat) (hn : n ≠ 0) :
    10 ^ Nat.log 10 n ≤ n ∧ n < 10 ^ (Nat.log 10 n + 1) :=
  ⟨Nat.pow_log_le_self 10 hn, Nat.lt_pow_succ_log_self (by decide) n⟩

theorem scaleUp_steps (n : Nat) (hn : 0 < n) (hlt : n < 1000000000000000) :
    Nat.log 10 n ≤ 14 ∧
    (∀ j : Nat, j < 15 - Nat.log 10 n → n * 10 ^ j < 1000000000000000) ∧
    1000000000000000 ≤ n * 10 ^ (15 - Nat.log 10 n) ∧
    n * 10 ^ (15 - Nat.log 10 n) ≤ 9999999999999999 := by
  obtain ⟨h1, h2⟩ := log10_bounds n (by omega)
  have hL : Nat.log 10 n < 15 := Nat.log_lt_of_lt_pow (by omega) (by norm_num; exact hlt)
  generalize Nat.log 10 n = L at h1 h2 hL
  refine ⟨by omega, ?_, ?_, ?_⟩
  · intro j hj
    calc n * 10 ^ j < 10 ^ (L + 1) * 10 ^ j := mul_lt_mul_of_pos_right h2 (by positivity)
      _ = 10 ^ (L + 1 + j) := (pow_add 10 (L + 1) j).symm
      _ ≤ 10 ^ 15 := Nat.pow_le_pow_right (by decide) (by omega)
      _ = 1000000000000000 := by norm_num
  · calc 1000000000000000 = 10 ^ (L + (15 - L)) := by
          rw [show L + (15 - L) = 15 by omega]
          norm_num
      _ = 10 ^ L * 10 ^ (15 - L) := pow_add 10 L (15 - L)
      _ ≤ n * 10 ^ (15 - L) := Nat.mul_le_mul_right _ h1
  · have : n * 10 ^ (15 - L) < 10000000000000000 := by
      calc n * 10 ^ (15 - L) < 10 ^ (L + 1) * 10 ^ (15 - L) :=
            mul_lt_mul_of_pos_right h2 (by positivity)
        _ = 10 ^ (L + 1 + (15 - L)) := (pow_add 10 (L + 1) (15 - L)).symm
        _ = 10000000000000000 := by
          rw [show L + 1 + (15 - L) = 16 by omega]
          norm_num
    omega

theorem scaleDown_steps (n : Nat) (hge : 10000000000000000 ≤ n) :
    16 ≤ Nat.log 10 n ∧
    (∀ j : Nat, j < Nat.log 10 n - 15 → 9999999999999999 < n / 10 ^ j) ∧
    1000000000000000 ≤ n / 10 ^ (Nat.log 10 n - 15) ∧
    n / 10 ^ (Nat.log 10 n - 15) ≤ 9999999999999999 := by
  obtain ⟨h1, h2⟩ := log10_bounds n (by omega)
  have hL : 16 ≤ Nat.log 10 n := Nat.le_log_of_pow_le (by decide) (by norm_num; exact hge)
  generalize Nat.log 10 n = L at h1 h2 hL
  refine ⟨hL, ?_, ?_, ?_⟩
  · intro j hj
    have : 10000000000000000 ≤ n / 10 ^ j := by
      rw [Nat.le_div_iff_mul_le (by positivity)]
      calc 10000000000000000 * 10 ^ j = 10 ^ (16 + j) := by
            rw [pow_add]
            norm_num
        _ ≤ 10 ^ L := Nat.pow_le_pow_right (by decide) (by omega)
        _ ≤ n := h1
    omega
  · rw [Nat.le_div_iff_mul_le (by positivity)]
    calc 1000000000000000 * 10 ^ (L - 15) = 10 ^ (15 + (L - 15)) := by
          rw [pow_add]
          norm_num
      _ = 10 ^ L := by rw [show 15 + (L - 15) = L by omega]
      _ ≤ n := h1
  · have : n / 10 ^ (L - 15) < 10000000000000000 := by
      rw [Nat.div_lt_iff_lt_mul (by positivity)]
      calc n < 10 ^ (L + 1) := h2
        _ = 10 ^ (16 + (L - 15)) := by rw [show 16 + (L - 15) = L + 1 by omega]
        _ = 10000000000000000 * 10 ^ (L - 15) := by
          rw [pow_add]
          norm_num
    omega

theorem normMantissa_range (n : Nat) (hn : 0 < n) :
    1000000000000000 ≤ normMantissa n ∧ normMantissa n ≤ 9999999999999999 := by
  unfold normMantissa
  by_cases hlt : n < 1000000000000000
  · obtain ⟨hL, -, h3, h4⟩ := scaleUp_steps n hn hlt
    rw [if_pos (by omega)]
    exact ⟨h3, h4⟩
  · by_cases hge : 10000000000000000 ≤ n
    · obtain ⟨hL, -, h3, h4⟩ := scaleDown_steps n hge
      rw [if_neg (by omega)]
      exact ⟨h3, h4⟩
    · have hL : Nat.log 10 n = 15 := by
        rw [Nat.log_eq_iff (Or.inl (by decide))]
        constructor
        · norm_num
          omega
        · norm_num
          omega
      rw [hL]
      simp only [le_refl, if_true, Nat.sub_self, pow_zero, mul_one]
      omega

/-- The two loops on a positive magnitude: either one of the exponent checks fires,
or the result is the normal form of the magnitude with the exponent shifted to match. -/
theorem loops_char (n : Nat) (e : Int) (hn : 0 < n) (he : IsInt32 e) :
    scaleUp (n : Int) e = .error errExponentUnderflow ∨
    (∃ a1 e1, scaleUp (n : Int) e = .ok (a1, e1) ∧
      scaleDown a1 e1 = .error errExponentOverflow) ∨
    (∃ a1 e1, scaleUp (n : Int) e = .ok (a1, e1) ∧
      scaleDown a1 e1 = .ok ((normMantissa n : Int), wrap32 (e + normShift n))) := by
  have hpos : (0 : Int) < (n : Int) := by exact_mod_cast hn
  by_cases hlt : n < 1000000000000000
  · -- scale up
    obtain ⟨hL, hsteps, h3, h4⟩ := scaleUp_steps n hn hlt
    have hnm : normMantissa n = n * 10 ^ (15 - Nat.log 10 n) := by
      unfold normMantissa
      rw [if_pos (by omega)]
    have hns : e + normShift n = e - ((15 - Nat.log 10 n : Nat) : Int) := by
      unfold normShift
      omega
    by_cases hc : ∃ j : Nat, 1 ≤ j ∧ j ≤ 15 - Nat.log 10 n ∧
        wrap32 (e - j) < numberMinExponent
    · left
      apply scaleUp_err (15 - Nat.log 10 n) n e hpos _ hc
      intro j hj
      have := hsteps j hj
      unfold numberMinMantissa
      exact_mod_cast this
    · right
      right
      refine ⟨(n : Int) * 10 ^ (15 - Nat.log 10 n), wrap32 (e - ((15 - Nat.log 10 n : Nat) : Int)),
        ?_, ?_⟩
      · apply scaleUp_ok (15 - Nat.log 10 n) n e hpos _ _ he
        · intro j h1 h2 h3
          exact hc ⟨j, h1, h2, h3⟩
        · intro j hj
          have := hsteps j hj
          unfold numberMinMantissa
          exact_mod_cast this
        · unfold numberMinMantissa
          exact_mod_cast h3
      · rw [hnm, hns]
        push_cast
        apply scaleDown_of_le
        unfold numberMaxMantissa
        exact_mod_cast h4
  · have hup : scaleUp (n : Int) e = .ok ((n : Int), e) := by
      apply scaleUp_of_not_small
      unfold numberMinMantissa
      omega
    by_cases hge : 10000000000000000 ≤ n
    · -- scale down
      obtain ⟨hL, hsteps, h3, h4⟩ := scaleDown_steps n hge
      have hnm : normMantissa n = n / 10 ^ (Nat.log 10 n - 15) := by
        unfold normMantissa
        rw [if_neg (by omega)]
      have hns : e + normShift n = e + ((Nat.log 10 n - 15 : Nat) : Int) := by
        unfold normShift
        omega
      have hsteps' : ∀ j : Nat, j < Nat.log 10 n - 15 →
          numberMaxMantissa < (n : Int) / 10 ^ j := by
        intro j hj
        have := hsteps j hj
        unfold numberMaxMantissa
        exact_mod_cast this
      right
      by_cases hc : ∃ j : Nat, 1 ≤ j ∧ j ≤ Nat.log 10 n - 15 ∧
          wrap32 (e + j) > numberMaxExponent
      · left
        exact ⟨n, e, hup, scaleDown_err (Nat.log 10 n - 15) n e (le_of_lt hpos) hsteps' hc⟩
      · right
        refine ⟨n, e, hup, ?_⟩
        rw [hnm, hns]
        push_cast
        apply scaleDown_ok (Nat.log 10 n - 15) n e (le_of_lt hpos) hsteps' _ he
        · intro j h1 h2 h3
          exact hc ⟨j, h1, h2, h3⟩
        · unfold numberMaxMantissa
          exact_mod_cast h4
    · -- already in range
      have hL : Nat.log 10 n = 15 := by
        rw [Nat.log_eq_iff (Or.inl (by decide))]
        constructor
        · norm_num
          omega
        · norm_num
          omega
      have hnm : normMantissa n = n := by
        unfold normMantissa
        rw [hL]
        simp
      have hns : e + normShift n = e := by
        unfold normShift
        rw [hL]
        simp
      right
      right
      refine ⟨n, e, hup, ?_⟩
      rw [hnm, hns, wrap32_of_isInt32 he]
      apply scaleDown_of_le
      unfold numberMaxMantissa
      omega

/-- What a successful `normalizeNumber` returns for a non-zero mantissa other than
`-2^63`: the sign times the normal form of the magnitude, and the exponent shifted to
match (reduced to `int32`). -/
theorem normalizeNumber_char (m e m' e' : Int) (hm : m ≠ 0) (hI : IsInt64 m)
    (hne : m ≠ -9223372036854775808) (he : IsInt32 e)
    (h : normalizeNumber m e = .ok (m', e')) :
    m' = Int.sign m * (normMantissa m.natAbs : Int) ∧
    e' = wrap32 (e + normShift m.natAbs) := by
  have hn : 0 < m.natAbs := Int.natAbs_pos.mpr hm
  have habs : ((m.natAbs : Nat) : Int) = |m| := Int.natCast_natAbs m
  have hr := normMantissa_range m.natAbs hn
  rcases loops_char m.natAbs e hn he with h1 | ⟨a1, e1, h1, h2⟩ | ⟨a1, e1, h1, h2⟩
  · rw [habs] at h1
    rw [normalizeNumber_of_scaleUp_err m e _ hm hI hne h1] at h
    exact absurd h (by simp)
  · rw [habs] at h1
    rw [normalizeNumber_of_scaleDown_err m e a1 e1 _ hm hI hne h1 h2] at h
    exact absurd h (by simp)
  · rw [habs] at h1
    rw [normalizeNumber_of_loops m e a1 e1 _ _ hm hI hne h1 h2 (by omega)] at h
    simp only [Except.ok.injEq, Prod.mk.injEq] at h
    exact ⟨h.1.symm, h.2.symm⟩

/-! ## Bytes -/

theorem encodedMantissa_encodeNumber (m e : Int) (hI : IsInt64 m) :
    encodedMantissa (encodeNumber m e) = m := by
  unfold IsInt64 at hI
  unfold encodedMantissa encodeNumber putUint64 putUint32 toUint64
  simp only [List.cons_append, List.nil_append, List.take_succ_cons, List.take_zero,
    bigEndianValue, List.foldl_cons, List.foldl_nil]
  unfold wrap64
  have h0 : (0 : Int) ≤ m % 18446744073709551616 := Int.emod_nonneg _ (by decide)
  have h1 : m % 18446744073709551616 < 18446744073709551616 := Int.emod_lt_of_pos _ (by decide)
  generalize hv : (m % 18446744073709551616).toNat = v
  have hv' : (v : Int) = m % 18446744073709551616 := by
    rw [← hv]
    exact Int.toNat_of_nonneg h0
  have hvlt : v < 18446744073709551616 := by omega
  have hsum : (0 * 256 + v / 72057594037927936 % 256) * 256 + v / 281474976710656 % 256 =
      v / 281474976710656 := by omega
  have hsum2 : v / 281474976710656 * 256 + v / 1099511627776 % 256 = v / 1099511627776 := by
    omega
  have hsum3 : v / 1099511627776 * 256 + v / 4294967296 % 256 = v / 4294967296 := by omega
  have hsum4 : v / 4294967296 * 256 + v / 16777216 % 256 = v / 16777216 := by omega
  have hsum5 : v / 16777216 * 256 + v / 65536 % 256 = v / 65536 := by omega
  have hsum6 : v / 65536 * 256 + v / 256 % 256 = v / 256 := by omega
  have hsum7 : v / 256 * 256 + v % 256 = v := by omega
  rw [hsum, hsum2, hsum3, hsum4, hsum5, hsum6, hsum7, hv']
  omega

theorem encodedExponent_encodeNumber (m e : Int) (he : IsInt32 e) :
    encodedExponent (encodeNumber m e) = e := by
  unfold IsInt32 at he
  unfold encodedExponent encodeNumber putUint64 putUint32 toUint32
  simp only [List.cons_append, List.nil_append, List.drop_succ_cons, List.drop_zero,
    List.take_succ_cons, List.take_zero, bigEndianValue, List.foldl_cons, List.foldl_nil]
  unfold wrap32
  have h0 : (0 : Int) ≤ e % 4294967296 := Int.emod_nonneg _ (by decide)
  have h1 : e % 4294967296 < 4294967296 := Int.emod_lt_of_pos _ (by decide)
  generalize hv : (e % 4294967296).toNat = v
  have hv' : (v : Int) = e % 4294967296 := by
    rw [← hv]
    exact Int.toNat_of_nonneg h0
  have hvlt : v < 4294967296 := by omega
  have hsum : (0 * 256 + v / 16777216 % 256) * 256 + v / 65536 % 256 = v / 65536 := by omega
  have hsum2 : v / 65536 * 256 + v / 256 % 256 = v / 256 := by omega
  have hsum3 : v / 256 * 256 + v % 256 = v := by omega
  rw [hsum, hsum2, hsum3, hv']
  omega

theorem encodeNumber_length (m e : Int) : (encodeNumber m e).length = 12 := by
  simp [encodeNumber, putUint64, putUint32]

/-- `Number.ToJSON` on a parser holding exactly an encoding `encodeNumber m e`. -/
theorem ToJSON_encodeNumber (m e : Int) (hI : IsInt64 m) (he : IsInt32 e) :
    (ToJSON ⟨encodeNumber m e⟩).1 =
      if e = numberZeroExponent then .ok (.string ['0'])
      else .ok (.string (formatNumber m e)) := by
  have hlen := encodeNumber_length m e
  have hm := encodedMantissa_encodeNumber m e hI
  have hx := encodedExponent_encodeNumber m e he
  unfold encodedMantissa at hm
  unfold encodedExponent at hx
  have hread : (BinaryParser.mk (encodeNumber m e)).ReadBytes numberByteLength =
      (.ok (encodeNumber m e), ⟨[]⟩) := by
    unfold BinaryParser.ReadBytes numberByteLength
    have h1 : ¬ (encodeNumber m e).length < 12 := by omega
    have h2 : (encodeNumber m e).take 12 = encodeNumber m e :=
      List.take_of_length_le (by omega)
    have h3 : (encodeNumber m e).drop 12 = [] := List.drop_of_length_le (by omega)
    simp only [h1, if_false, h2, h3]
  unfold ToJSON
  rw [hread]
  simp only [hm, hx]
  split <;> rfl

/-! ## Output of normalizeNumber -/

theorem normalizeNumber_zero (e : Int) : normalizeNumber 0 e = .ok (0, numberZeroExponent) := by
  unfold normalizeNumber
  simp

theorem normalizeNumber_minInt64 (e : Int) :
    normalizeNumber (-9223372036854775808) e = .ok (-9223372036854775808, e) := by
  have hw : wrap64 9223372036854775808 = -9223372036854775808 := by decide
  have h1 := scaleUp_of_not_small (-9223372036854775808) e (by decide)
  have h2 := scaleDown_of_le (-9223372036854775808) e (by decide)
  unfold normalizeNumber
  simp [hw, h1, h2]

/-- A mantissa whose magnitude is already canonical is returned unchanged, whatever the
exponent. -/
theorem normalizeNumber_inRange (m e : Int) (h1 : numberMinMantissa ≤ |m|)
    (h2 : |m| ≤ numberMaxMantissa) : normalizeNumber m e = .ok (m, e) := by
  unfold numberMinMantissa at h1
  unfold numberMaxMantissa at h2
  have hm : m ≠ 0 := by
    intro h
    subst h
    simp at h1
  have hI : IsInt64 m := by
    unfold IsInt64
    rcases abs_cases m with ⟨h, _⟩ | ⟨h, _⟩ <;> rw [h] at h1 h2 <;> omega
  have hne : m ≠ -9223372036854775808 := by
    rcases abs_cases m with ⟨h, _⟩ | ⟨h, _⟩ <;> rw [h] at h1 h2 <;> omega
  have hup := scaleUp_of_not_small |m| e (by unfold numberMinMantissa; omega)
  have hdown := scaleDown_of_le |m| e (by unfold numberMaxMantissa; omega)
  have h := normalizeNumber_of_loops m e _ _ _ _ hm hI hne hup hdown (by omega)
  rw [Int.sign_mul_abs] at h
  exact h

/-- Whatever `normalizeNumber` returns is within the machine ranges, is zero only with
the zero exponent, and is a fixed point of `normalizeNumber`. -/
theorem normalizeNumber_output (m0 e0 m e : Int) (hI : IsInt64 m0) (he : IsInt32 e0)
    (h : normalizeNumber m0 e0 = .ok (m, e)) :
    IsInt64 m ∧ IsInt32 e ∧ (m = 0 → e = numberZeroExponent) ∧
    normalizeNumber m e = .ok (m, e) := by
  by_cases hz : m0 = 0
  · subst hz
    rw [normalizeNumber_zero] at h
    simp only [Except.ok.injEq, Prod.mk.injEq] at h
    obtain ⟨rfl, rfl⟩ := h
    exact ⟨by decide, by decide, fun _ => rfl, normalizeNumber_zero _⟩
  · by_cases hmin : m0 = -9223372036854775808
    · subst hmin
      rw [normalizeNumber_minInt64] at h
      simp only [Except.ok.injEq, Prod.mk.injEq] at h
      obtain ⟨rfl, rfl⟩ := h
      exact ⟨by decide, he, fun h => absurd h (by decide), normalizeNumber_minInt64 _⟩
    · obtain ⟨hm', he'⟩ := normalizeNumber_char m0 e0 m e hz hI hmin he h
      have hr := normMantissa_range m0.natAbs (Int.natAbs_pos.mpr hz)
      have habs : |m| = (normMantissa m0.natAbs : Int) := by
        rw [hm', abs_mul, Int.abs_sign_of_nonzero hz, one_mul]
        exact abs_of_nonneg (by positivity)
      have h1 : numberMinMantissa ≤ |m| := by
        rw [habs]
        unfold numberMinMantissa
        exact_mod_cast hr.1
      have h2 : |m| ≤ numberMaxMantissa := by
        rw [habs]
        unfold numberMaxMantissa
        exact_mod_cast hr.2
      refine ⟨?_, ?_, ?_, normalizeNumber_inRange m e h1 h2⟩
      · unfold numberMaxMantissa at h2
        unfold IsInt64
        rcases abs_cases m with ⟨h, _⟩ | ⟨h, _⟩ <;> rw [h] at h2 <;> omega
      · rw [he']
        exact wrap32_isInt32 _
      · intro h0
        subst h0
        unfold numberMinMantissa at h1
        simp at h1

/-! ## Round trip -/

/-- Whatever `parseNumberString` returns is within the machine ranges. -/
theorem parseNumberString_range (s : List Char) (m e : Int)
    (h : parseNumberString s = .ok (m, e)) : IsInt64 m ∧ IsInt32 e := by
  unfold parseNumberString at h
  simp only at h
  split at h
  · simp only [Except.ok.injEq, Prod.mk.injEq] at h
    obtain ⟨rfl, rfl⟩ := h
    exact ⟨by decide, by decide⟩
  · split at h
    · exact absurd h (by simp)
    · split at h
      · simp only [Except.ok.injEq, Prod.mk.injEq] at h
        obtain ⟨rfl, rfl⟩ := h
        exact ⟨by decide, by decide⟩
      · split at h
        · exact absurd h (by simp)
        · split at h
          · exact absurd h (by simp)
          · rename_i exponent hadj
            have key : ∀ M : Int,
                (if ¬ IsInt64 M then
                  (Except.error (GoError.wrapf .ErrInvalidNumber ": mantissa overflow") :
                    Except GoError (Int × Int))
                else .ok (M, exponent)) = .ok (m, e) → IsInt64 m ∧ e = exponent := by
              intro M hM
              by_cases hI : IsInt64 M
              · simp only [hI, not_true_eq_false, if_false, Except.ok.injEq,
                  Prod.mk.injEq] at hM
                obtain ⟨rfl, rfl⟩ := hM
                exact ⟨hI, rfl⟩
              · simp only [hI, not_false_eq_true, if_true] at hM
                exact absurd hM (by simp)
            obtain ⟨hIm, rfl⟩ := key _ h
            refine ⟨hIm, ?_⟩
            split at hadj
            · split at hadj
              · exact absurd hadj (by simp)
              · simp only [Except.ok.injEq] at hadj
                rw [← hadj]
                exact wrap32_isInt32 _
            · simp only [Except.ok.injEq] at hadj
              rw [← hadj]
              exact wrap32_isInt32 _

theorem FromJSON_ok (x : List Char) (bytes : List Nat)
    (h : FromJSON (.string x) = .ok bytes) :
    ∃ m0 e0 m e, parseNumberString x = .ok (m0, e0) ∧
      normalizeNumber m0 e0 = .ok (m, e) ∧ bytes = encodeNumber m e := by
  unfold FromJSON at h
  simp only at h
  split at h
  · exact absurd h (by simp)
  · rename_i m0 e0 hparse
    split at h
    · exact absurd h (by simp)
    · rename_i m e hnorm
      simp only [Except.ok.injEq] at h
      exact ⟨m0, e0, m, e, hparse, hnorm, h.symm⟩

theorem FromJSON_of_steps_encodeNumber (s : List Char) (m e m' e' : Int)
    (hparse : parseNumberString s = .ok (m, e))
    (hnorm : normalizeNumber m e = .ok (m', e')) :
    FromJSON (.string s) = .ok (encodeNumber m' e') :=
  FromJSON_of_steps s m e m' e' hparse hnorm

/-- C1: Number round trip. For every string `x` that `Number.FromJSON` accepts and whose
encoded exponent lies in `[-32768, 32768]` (or that encodes to the zero pattern),
`Number.ToJSON` applied to the 12 encoded bytes returns a string `y` such that
`FromJSON(y)` succeeds and returns exactly the same 12 bytes as `FromJSON(x)`. -/
theorem number_round_trip (x : List Char) (bytes : List Nat)
    (hx : FromJSON (.string x) = .ok bytes)
    (hb : (-32768 ≤ encodedExponent bytes ∧ encodedExponent bytes ≤ 32768) ∨
      bytes = zeroPattern) :
    ∃ y, (ToJSON ⟨bytes⟩).1 = .ok (.string y) ∧ FromJSON (.string y) = .ok bytes := by
  obtain ⟨m0, e0, m, e, hparse, hnorm, rfl⟩ := FromJSON_ok x bytes hx
  obtain ⟨hI0, he0⟩ := parseNumberString_range x m0 e0 hparse
  obtain ⟨hI, he, hzero, hfix⟩ := normalizeNumber_output m0 e0 m e hI0 he0 hnorm
  have hexp := encodedExponent_encodeNumber m e he
  have hto := ToJSON_encodeNumber m e hI he
  by_cases hz : e = numberZeroExponent
  · rw [if_pos hz] at hto
    refine ⟨['0'], hto, ?_⟩
    rcases hb with hb | hb
    · rw [hexp, hz] at hb
      unfold numberZeroExponent at hb
      omega
    · rw [hb]
      decide
  · rw [if_neg hz] at hto
    refine ⟨formatNumber m e, hto, ?_⟩
    have hrange : -32768 ≤ e ∧ e ≤ 32768 := by
      rcases hb with hb | hb
      · rw [hexp] at hb
        exact hb
      · rw [hb] at hexp
        exact absurd hexp.symm (by
          intro h
          apply hz
          rw [h]
          decide)
    have hm : m ≠ 0 := fun h => hz (hzero h)
    exact FromJSON_of_steps_encodeNumber _ m e m e
      (parse_format_roundtrip m e hm hI hrange.1 hrange.2) hfix

theorem number_round_trip_witness :
    ∃ y, (ToJSON ⟨[0, 3, 141, 126, 164, 198, 128, 0, 255, 255, 255, 241]⟩).1 = .ok (.string y) ∧
      FromJSON (.string y) = .ok [0, 3, 141, 126, 164, 198, 128, 0, 255, 255, 255, 241] :=
  number_round_trip " 1".toList [0, 3, 141, 126, 164, 198, 128, 0, 255, 255, 255, 241]
    (by
      rw [FromJSON_of_steps " 1".toList 1 0 _ _ (by decide) normalizeNumber_one]
      decide)
    (Or.inl (by decide))

/-! ## The normal form depends on the value only -/

theorem normal_form_mul_ten (n : Nat) (hn : 0 < n) :
    normMantissa (n * 10) = normMantissa n ∧ normShift (n * 10) = normShift n + 1 := by
  have hlog : Nat.log 10 (n * 10) = Nat.log 10 n + 1 :=
    Nat.log_mul_base (by decide) (by omega)
  unfold normMantissa normShift
  rw [hlog]
  generalize Nat.log 10 n = L
  refine ⟨?_, by push_cast; ring⟩
  by_cases h1 : L + 1 ≤ 15
  · rw [if_pos h1, if_pos (by omega)]
    have : 15 - L = (15 - (L + 1)) + 1 := by omega
    rw [this, pow_succ]
    ring
  · rw [if_neg h1]
    by_cases h2 : L ≤ 15
    · have hL : L = 15 := by omega
      subst hL
      simp
    · rw [if_neg h2]
      have : L + 1 - 15 = (L - 15) + 1 := by omega
      rw [this, pow_succ]
      exact Nat.mul_div_mul_right n (10 ^ (L - 15)) (by decide)

theorem normal_form_mul_pow (d : Nat) : ∀ n : Nat, 0 < n →
    normMantissa (n * 10 ^ d) = normMantissa n ∧
    normShift (n * 10 ^ d) = normShift n + d := by
  induction d with
  | zero =>
    intro n _
    simp
  | succ d ih =>
    intro n hn
    obtain ⟨h1, h2⟩ := normal_form_mul_ten n hn
    obtain ⟨h3, h4⟩ := ih (n * 10) (by omega)
    have e : n * 10 ^ (d + 1) = n * 10 * 10 ^ d := by ring
    rw [e, h3, h4, h1, h2]
    refine ⟨rfl, ?_⟩
    push_cast
    ring

/-- Two inputs of `normalizeNumber` that denote the same value, one mantissa being the
other times a power of ten, give the same result whenever both succeed. -/
theorem normalizeNumber_scaled (M E : Int) (d : Nat) (r1 r2 : Int × Int) (hM : M ≠ 0)
    (hI : IsInt64 M) (hI2 : IsInt64 (M * 10 ^ d))
    (h1 : normalizeNumber M (wrap32 E) = .ok r1)
    (h2 : normalizeNumber (M * 10 ^ d) (wrap32 (E - d)) = .ok r2) : r1 = r2 := by
  obtain ⟨m1, e1⟩ := r1
  obtain ⟨m2, e2⟩ := r2
  have hpow : (1 : Int) ≤ 10 ^ d := by
    have : (0 : Int) < 10 ^ d := by positivity
    omega
  rcases Nat.eq_zero_or_pos d with hd | hd
  · subst hd
    simp only [pow_zero, mul_one, Nat.cast_zero, sub_zero] at h2
    rw [h1] at h2
    simpa using h2
  · have hten : ∃ t : Int, M * 10 ^ d = 10 * t := by
      refine ⟨M * 10 ^ (d - 1), ?_⟩
      have : d = (d - 1) + 1 := by omega
      rw [this, pow_succ]
      simp only [Nat.add_sub_cancel]
      ring
    obtain ⟨t, ht⟩ := hten
    have hne2 : M * 10 ^ d ≠ -9223372036854775808 := by
      rw [ht]
      omega
    have hne1 : M ≠ -9223372036854775808 := by
      intro h
      unfold IsInt64 at hI2
      have h10 : (10 : Int) ≤ 10 ^ d := by
        have : d = (d - 1) + 1 := by omega
        rw [this, pow_succ]
        have : (0 : Int) < 10 ^ (d - 1) := by positivity
        omega
      rw [h] at hI2
      nlinarith [hI2.1]
    have hM2 : M * 10 ^ d ≠ 0 := mul_ne_zero hM (by positivity)
    obtain ⟨a1, b1⟩ := normalizeNumber_char M (wrap32 E) m1 e1 hM hI hne1
      (wrap32_isInt32 _) h1
    obtain ⟨a2, b2⟩ := normalizeNumber_char (M * 10 ^ d) (wrap32 (E - d)) m2 e2 hM2 hI2 hne2
      (wrap32_isInt32 _) h2
    have hnat : (M * 10 ^ d).natAbs = M.natAbs * 10 ^ d := by
      rw [Int.natAbs_mul, Int.natAbs_pow]
      rfl
    obtain ⟨n1, n2⟩ := normal_form_mul_pow d M.natAbs (Int.natAbs_pos.mpr hM)
    have hsign : Int.sign (M * 10 ^ d) = Int.sign M := by
      rw [Int.sign_mul, Int.sign_eq_one_of_pos (by positivity : (0 : Int) < 10 ^ d), mul_one]
    rw [hnat, n1, hsign] at a2
    rw [hnat, n2] at b2
    rw [a1, a2, b1, b2]
    congr 1
    rw [wrap32_wrap32_add, wrap32_wrap32_add]
    congr 1
    ring

/-! ## Canonical form -/

theorem digits_mem_render (p : NumberParts) : ∀ c ∈ p.digits, c ∈ p.render := by
  obtain ⟨sign, intDigits, frac, exp⟩ := p
  intro c hc
  simp only [NumberParts.digits, NumberParts.fracDigits, List.mem_append] at hc
  simp only [NumberParts.render, List.mem_append]
  rcases hc with hc | hc
  · exact Or.inr (Or.inl hc)
  · cases frac with
    | none => simp [fracDigitsOf] at hc
    | some f =>
      right
      right
      left
      simp only [fracSuffix, List.mem_cons]
      exact Or.inr hc

theorem mantissa_zero_of_short (p : NumberParts)
    (h : p.render = ['0'] ∨ p.render = [] ∨ p.digits = []) : p.mantissa = 0 := by
  have hval : decimalValue p.digits = 0 := by
    rcases h with h | h | h
    · have hall : ∀ c ∈ p.digits, c = '0' := by
        intro c hc
        have := digits_mem_render p c hc
        rw [h] at this
        simpa using this
      rw [List.eq_replicate_of_mem hall]
      exact decimalValue_replicate_zero _
    · have := render_length p
      rw [h] at this
      simp only [List.length_nil, Nat.le_zero, List.length_eq_zero] at this
      rw [this]
      rfl
    · rw [h]
      rfl
  unfold NumberParts.mantissa
  rw [hval]
  simp

/-- What a successful `parseNumberString` returns, in terms of the grammar: the signed
value of the digits, and for a non-zero mantissa the exponent `X - len(F)` reduced to
`int32`. -/
theorem parseNumberString_parts (s : List Char) (p : NumberParts) (m e : Int)
    (hp : p.WellFormed) (htrim : TrimSpace s = p.render)
    (h : parseNumberString s = .ok (m, e)) :
    m = p.mantissa ∧ (m ≠ 0 → e = wrap32 p.exponent) := by
  rw [parseNumberString_trimmed s p hp htrim] at h
  split at h
  · rename_i h0
    simp only [Except.ok.injEq, Prod.mk.injEq] at h
    obtain ⟨rfl, rfl⟩ := h
    exact ⟨(mantissa_zero_of_short p h0).symm, fun hne => absurd rfl hne⟩
  · split at h
    · exact absurd h (by simp)
    · split at h
      · exact absurd h (by simp)
      · simp only [Except.ok.injEq, Prod.mk.injEq] at h
        obtain ⟨rfl, rfl⟩ := h
        exact ⟨rfl, fun _ => rfl⟩

theorem scaled_of_value_eq (Mx My Ex Ey : Int) (hle : Ey ≤ Ex)
    (hv : (Mx : ℚ) * (10 : ℚ) ^ Ex = (My : ℚ) * (10 : ℚ) ^ Ey) :
    My = Mx * 10 ^ (Ex - Ey).toNat := by
  have h10 : (10 : ℚ) ≠ 0 := by norm_num
  have hEy : (10 : ℚ) ^ Ey ≠ 0 := zpow_ne_zero _ h10
  have h1 : (Mx : ℚ) * (10 : ℚ) ^ (Ex - Ey) = (My : ℚ) := by
    rw [zpow_sub₀ h10, ← mul_div_assoc, hv, mul_div_assoc, div_self hEy, mul_one]
  have h2 : Ex - Ey = ((Ex - Ey).toNat : Int) := (Int.toNat_of_nonneg (by omega)).symm
  rw [h2, zpow_natCast] at h1
  exact_mod_cast h1.symm

/-- C5: the canonical form is unique. For any two strings `x` and `y` that
`Number.FromJSON` accepts, whose trimmed forms are laid out by the grammar with exponent
suffixes within `[-32768, 32768]`, and that denote the same decimal value
(`mantissa * 10^exponent` as exact rationals), `FromJSON(x)` and `FromJSON(y)` are the
identical 12 bytes. -/
theorem canonical_form_unique (x y : List Char) (px py : NumberParts) (bx bY : List Nat)
    (hpx : px.WellFormed) (hpy : py.WellFormed)
    (hx : TrimSpace x = px.render) (hy : TrimSpace y = py.render)
    (_hXx : -32768 ≤ px.expValue ∧ px.expValue ≤ 32768)
    (_hXy : -32768 ≤ py.expValue ∧ py.expValue ≤ 32768)
    (hv : (px.mantissa : ℚ) * (10 : ℚ) ^ px.exponent
      = (py.mantissa : ℚ) * (10 : ℚ) ^ py.exponent)
    (hbx : FromJSON (.string x) = .ok bx) (hbY : FromJSON (.string y) = .ok bY) :
    bx = bY := by
  obtain ⟨m0x, e0x, mx, ex, hparsex, hnormx, rfl⟩ := FromJSON_ok x bx hbx
  obtain ⟨m0y, e0y, my, ey, hparsey, hnormy, rfl⟩ := FromJSON_ok y bY hbY
  obtain ⟨hIx, -⟩ := parseNumberString_range x m0x e0x hparsex
  obtain ⟨hIy, -⟩ := parseNumberString_range y m0y e0y hparsey
  obtain ⟨hmx, hex⟩ := parseNumberString_parts x px m0x e0x hpx hx hparsex
  obtain ⟨hmy, hey⟩ := parseNumberString_parts y py m0y e0y hpy hy hparsey
  rw [← hmx, ← hmy] at hv
  have h10 : (10 : ℚ) ≠ 0 := by norm_num
  by_cases hzx : m0x = 0
  · have hzy : m0y = 0 := by
      rw [hzx] at hv
      simp only [Int.cast_zero, zero_mul] at hv
      have := mul_eq_zero.mp hv.symm
      rcases this with h | h
      · exact_mod_cast h
      · exact absurd h (zpow_ne_zero _ h10)
    rw [hzx, normalizeNumber_zero] at hnormx
    rw [hzy, normalizeNumber_zero] at hnormy
    simp only [Except.ok.injEq, Prod.mk.injEq] at hnormx hnormy
    rw [← hnormx.1, ← hnormx.2, ← hnormy.1, ← hnormy.2]
  · have hzy : m0y ≠ 0 := by
      intro h
      rw [h] at hv
      simp only [Int.cast_zero, zero_mul] at hv
      rcases mul_eq_zero.mp hv with h' | h'
      · exact hzx (by exact_mod_cast h')
      · exact absurd h' (zpow_ne_zero _ h10)
    rw [hex hzx] at hnormx
    rw [hey hzy] at hnormy
    rcases le_total py.exponent px.exponent with hle | hle
    · have hs := scaled_of_value_eq m0x m0y px.exponent py.exponent hle hv
      obtain ⟨d, hd⟩ : ∃ d : Nat, (px.exponent - py.exponent).toNat = d := ⟨_, rfl⟩
      rw [hd] at hs
      have hE : py.exponent = px.exponent - (d : Int) := by
        rw [← hd, Int.toNat_of_nonneg (by omega)]
        ring
      rw [hs] at hnormy hIy
      rw [hE] at hnormy
      have := normalizeNumber_scaled m0x px.exponent d _ _ hzx hIx hIy hnormx hnormy
      simp only [Prod.mk.injEq] at this
      rw [this.1, this.2]
    · have hs := scaled_of_value_eq m0y m0x py.exponent px.exponent hle hv.symm
      obtain ⟨d, hd⟩ : ∃ d : Nat, (py.exponent - px.exponent).toNat = d := ⟨_, rfl⟩
      rw [hd] at hs
      have hE : px.exponent = py.exponent - (d : Int) := by
        rw [← hd, Int.toNat_of_nonneg (by omega)]
        ring
      rw [hs] at hnormx hIx
      rw [hE] at hnormx
      have := normalizeNumber_scaled m0y py.exponent d _ _ hzy hIy hIx hnormy hnormx
      simp only [Prod.mk.injEq] at this
      rw [this.1, this.2]

theorem normalizeNumber_five : normalizeNumber 5 0 = .ok (5000000000000000, -15) := by
  simp [normalizeNumber, scaleUp, scaleDown, wrap64, wrap32, numberMinMantissa,
    numberMaxMantissa, numberMinExponent, numberMaxExponent]

theorem normalizeNumber_fifty : normalizeNumber 50 (-1) = .ok (5000000000000000, -15) := by
  simp [normalizeNumber, scaleUp, scaleDown, wrap64, wrap32, numberMinMantissa,
    numberMaxMantissa, numberMinExponent, numberMaxExponent]

theorem canonical_form_unique_witness :
    ∃ b, FromJSON (.string "5".toList) = .ok b ∧
      FromJSON (.string "5.0".toList) = .ok b ∧
      FromJSON (.string "+5".toList) = .ok b ∧
      FromJSON (.string "0.5e1".toList) = .ok b ∧
      FromJSON (.string "50E-1".toList) = .ok b := by
  have h1 := FromJSON_of_steps_encodeNumber "5".toList 5 0 _ _ (by decide) normalizeNumber_five
  have h2 := FromJSON_of_steps_encodeNumber "5.0".toList 50 (-1) _ _ (by decide)
    normalizeNumber_fifty
  have h3 := FromJSON_of_steps_encodeNumber "+5".toList 5 0 _ _ (by decide) normalizeNumber_five
  have h4 := FromJSON_of_steps_encodeNumber "0.5e1".toList 5 0 _ _ (by decide)
    normalizeNumber_five
  have h5 := FromJSON_of_steps_encodeNumber "50E-1".toList 50 (-1) _ _ (by decide)
    normalizeNumber_fifty
  have m5 : NumberParts.mantissa ⟨[], "5".toList, none, none⟩ = 5 := by decide
  have x5 : NumberParts.exponent ⟨[], "5".toList, none, none⟩ = 0 := by decide
  refine ⟨_, h1, ?_, ?_, ?_, ?_⟩
  · have m : NumberParts.mantissa ⟨[], "5".toList, some "0".toList, none⟩ = 50 := by decide
    have x : NumberParts.exponent ⟨[], "5".toList, some "0".toList, none⟩ = -1 := by decide
    rw [canonical_form_unique "5".toList "5.0".toList ⟨[], "5".toList, none, none⟩
      ⟨[], "5".toList, some "0".toList, none⟩ _ _ (by decide) (by decide) (by decide)
      (by decide) (by decide) (by decide) (by rw [m5, x5, m, x]; norm_num) h1 h2]
    exact h2
  · have m : NumberParts.mantissa ⟨"+".toList, "5".toList, none, none⟩ = 5 := by decide
    have x : NumberParts.exponent ⟨"+".toList, "5".toList, none, none⟩ = 0 := by decide
    rw [canonical_form_unique "5".toList "+5".toList ⟨[], "5".toList, none, none⟩
      ⟨"+".toList, "5".toList, none, none⟩ _ _ (by decide) (by decide) (by decide)
      (by decide) (by decide) (by decide) (by rw [m5, x5, m, x]) h1 h3]
    exact h3
  · have m : NumberParts.mantissa
        ⟨[], "0".toList, some "5".toList, some ('e', [], "1".toList)⟩ = 5 := by decide
    have x : NumberParts.exponent
        ⟨[], "0".toList, some "5".toList, some ('e', [], "1".toList)⟩ = 0 := by decide
    rw [canonical_form_unique "5".toList "0.5e1".toList ⟨[], "5".toList, none, none⟩
      ⟨[], "0".toList, some "5".toList, some ('e', [], "1".toList)⟩ _ _ (by decide)
      (by decide) (by decide) (by decide) (by decide) (by decide)
      (by rw [m5, x5, m, x]) h1 h4]
    exact h4
  · have m : NumberParts.mantissa
        ⟨[], "50".toList, none, some ('E', "-".toList, "1".toList)⟩ = 50 := by decide
    have x : NumberParts.exponent
        ⟨[], "50".toList, none, some ('E', "-".toList, "1".toList)⟩ = -1 := by decide
    rw [canonical_form_unique "5".toList "50E-1".toList ⟨[], "5".toList, none, none⟩
      ⟨[], "50".toList, none, some ('E', "-".toList, "1".toList)⟩ _ _ (by decide)
      (by decide) (by decide) (by decide) (by decide) (by decide)
      (by rw [m5, x5, m, x]; norm_num) h1 h5]
    exact h5

/-! ## Sign, wire layout, notation, non-string input -/

/-- `normalizeNumber` keeps the sign of a negative mantissa. -/
theorem normalizeNumber_neg (m0 e0 m e : Int) (hI : IsInt64 m0) (he : IsInt32 e0)
    (hneg : m0 < 0) (h : normalizeNumber m0 e0 = .ok (m, e)) : m < 0 := by
  by_cases hmin : m0 = -9223372036854775808
  · subst hmin
    rw [normalizeNumber_minInt64] at h
    simp only [Except.ok.injEq, Prod.mk.injEq] at h
    omega
  · obtain ⟨hm', -⟩ := normalizeNumber_char m0 e0 m e (by omega) hI hmin he h
    have hr := normMantissa_range m0.natAbs (Int.natAbs_pos.mpr (by omega))
    rw [hm', Int.sign_eq_neg_one_of_neg hneg]
    have : (0 : Int) < (normMantissa m0.natAbs : Int) := by
      have := hr.1
      omega
    omega

/-- `formatNumber` of a negative mantissa starts with `-`. -/
theorem formatNumber_neg (m e : Int) (hneg : m < 0) (hz : e ≠ numberZeroExponent) :
    ∃ rest, formatNumber m e = '-' :: rest := by
  have hs : signText m = ['-'] := by
    unfold signText
    simp [hneg]
  rw [formatNumber_eq, if_neg hz, hs]
  simp only [List.append_assoc, List.singleton_append]
  split
  · split
    · exact ⟨_, rfl⟩
    · split
      · exact ⟨_, rfl⟩
      · exact ⟨_, rfl⟩
  · split
    · exact ⟨_, rfl⟩
    · exact ⟨_, rfl⟩

/-- C11: sign preservation. For every string `x` that `Number.FromJSON` accepts with a
negative mantissa (as parsed, or as encoded) and an encoded exponent in
`[-32768, 32768]`, the encoded mantissa is negative, byte 0 of the encoding has its top
bit set, and `Number.ToJSON` on the bytes returns a string whose first character is
`-`. -/
theorem sign_preservation (x : List Char) (bytes : List Nat)
    (hx : FromJSON (.string x) = .ok bytes)
    (hneg : encodedMantissa bytes < 0 ∨
      ∃ m0 e0, parseNumberString x = .ok (m0, e0) ∧ m0 < 0)
    (he : -32768 ≤ encodedExponent bytes ∧ encodedExponent bytes ≤ 32768) :
    encodedMantissa bytes < 0 ∧
    (∃ b0 rest, bytes = b0 :: rest ∧ 128 ≤ b0 ∧ b0 < 256) ∧
    ∃ rest, (ToJSON ⟨bytes⟩).1 = .ok (.string ('-' :: rest)) := by
  obtain ⟨m0, e0, m, e, hparse, hnorm, rfl⟩ := FromJSON_ok x bytes hx
  obtain ⟨hI0, he0⟩ := parseNumberString_range x m0 e0 hparse
  obtain ⟨hI, heI, -, -⟩ := normalizeNumber_output m0 e0 m e hI0 he0 hnorm
  have hman := encodedMantissa_encodeNumber m e hI
  have hexp := encodedExponent_encodeNumber m e heI
  rw [hexp] at he
  have hm : m < 0 := by
    rcases hneg with h | ⟨m0', e0', hp, h⟩
    · rw [hman] at h
      exact h
    · rw [hparse] at hp
      simp only [Except.ok.injEq, Prod.mk.injEq] at hp
      rw [← hp.1] at h
      exact normalizeNumber_neg m0 e0 m e hI0 he0 h hnorm
  have hz : e ≠ numberZeroExponent := by
    unfold numberZeroExponent
    omega
  refine ⟨by rw [hman]; exact hm, ?_, ?_⟩
  · refine ⟨toUint64 m / 72057594037927936 % 256, _, rfl, ?_, ?_⟩
    · unfold IsInt64 at hI
      unfold toUint64
      have h1 : m % 18446744073709551616 = m + 18446744073709551616 := by
        rw [← Int.add_emod_self]
        exact Int.emod_eq_of_lt (by omega) (by omega)
      rw [h1]
      omega
    · omega
  · obtain ⟨rest, hrest⟩ := formatNumber_neg m e hm hz
    refine ⟨rest, ?_⟩
    rw [ToJSON_encodeNumber m e hI heI, if_neg hz, hrest]

theorem normalizeNumber_neg_123456 :
    normalizeNumber (-123456) (-3) = .ok (-1234560000000000, -13) := by
  simp [normalizeNumber, scaleUp, scaleDown, wrap64, wrap32, numberMinMantissa,
    numberMaxMantissa, numberMinExponent, numberMaxExponent]

theorem sign_preservation_witness :
    encodedMantissa (encodeNumber (-1234560000000000) (-13)) < 0 ∧
    (∃ b0 rest, encodeNumber (-1234560000000000) (-13) = b0 :: rest ∧ 128 ≤ b0 ∧ b0 < 256) ∧
    ∃ rest, (ToJSON ⟨encodeNumber (-1234560000000000) (-13)⟩).1 = .ok (.string ('-' :: rest)) :=
  sign_preservation "-123.456".toList (encodeNumber (-1234560000000000) (-13))
    (FromJSON_of_steps_encodeNumber "-123.456".toList (-123456) (-3) _ _ (by decide)
      normalizeNumber_neg_123456)
    (Or.inr ⟨-123456, -3, by decide, by decide⟩)
    (by decide)

theorem twosComplementBE_eight (v : Int) : twosComplementBE 8 v = putUint64 (toUint64 v) := by
  unfold twosComplementBE putUint64 toUint64
  have h : (256 : Int) ^ 8 = 18446744073709551616 := by norm_num
  rw [h]
  simp [List.range_succ]

theorem twosComplementBE_four (v : Int) : twosComplementBE 4 v = putUint32 (toUint32 v) := by
  unfold twosComplementBE putUint32 toUint32
  have h : (256 : Int) ^ 4 = 4294967296 := by norm_num
  rw [h]
  simp [List.range_succ]

/-- C12: wire layout. Whenever `Number.FromJSON` succeeds it returns exactly 12 bytes:
bytes 0..7 are the big-endian two's-complement representation of the normalized `int64`
mantissa, bytes 8..11 that of the `int32` exponent; and `Number.ToJSON` reads the same
layout back: it recovers that mantissa and exponent and returns `"0"` for the zero
exponent and `formatNumber` of the pair otherwise. -/
theorem wire_layout (x : List Char) (bytes : List Nat)
    (hx : FromJSON (.string x) = .ok bytes) :
    ∃ m0 e0 m e, parseNumberString x = .ok (m0, e0) ∧
      normalizeNumber m0 e0 = .ok (m, e) ∧ IsInt64 m ∧ IsInt32 e ∧
      bytes.length = 12 ∧ (∀ b ∈ bytes, b < 256) ∧
      bytes.take 8 = twosComplementBE 8 m ∧ bytes.drop 8 = twosComplementBE 4 e ∧
      encodedMantissa bytes = m ∧ encodedExponent bytes = e ∧
      (ToJSON ⟨bytes⟩).1 =
        (if e = numberZeroExponent then .ok (.string ['0'])
         else .ok (.string (formatNumber m e))) := by
  obtain ⟨m0, e0, m, e, hparse, hnorm, rfl⟩ := FromJSON_ok x bytes hx
  obtain ⟨hI0, he0⟩ := parseNumberString_range x m0 e0 hparse
  obtain ⟨hI, heI, -, -⟩ := normalizeNumber_output m0 e0 m e hI0 he0 hnorm
  refine ⟨m0, e0, m, e, hparse, hnorm, hI, heI, encodeNumber_length m e, ?_, ?_, ?_,
    encodedMantissa_encodeNumber m e hI, encodedExponent_encodeNumber m e heI,
    ToJSON_encodeNumber m e hI heI⟩
  · intro b hb
    simp only [encodeNumber, putUint64, putUint32, List.cons_append, List.nil_append,
      List.mem_cons, List.mem_singleton] at hb
    have h256 : ∀ n : Nat, n % 256 < 256 := fun n => Nat.mod_lt n (by decide)
    rcases hb with h | h | h | h | h | h | h | h | h | h | h | h | h
    all_goals first
      | (rw [h]; exact h256 _)
      | (simp at h)
  · rw [twosComplementBE_eight]
    simp [encodeNumber, putUint64, putUint32]
  · rw [twosComplementBE_four]
    simp [encodeNumber, putUint64, putUint32]

theorem wire_layout_witness :
    ∃ m0 e0 m e, parseNumberString "-123.456".toList = .ok (m0, e0) ∧
      normalizeNumber m0 e0 = .ok (m, e) ∧ IsInt64 m ∧ IsInt32 e ∧
      (encodeNumber (-1234560000000000) (-13)).length = 12 ∧
      (∀ b ∈ encodeNumber (-1234560000000000) (-13), b < 256) ∧
      (encodeNumber (-1234560000000000) (-13)).take 8 = twosComplementBE 8 m ∧
      (encodeNumber (-1234560000000000) (-13)).drop 8 = twosComplementBE 4 e ∧
      encodedMantissa (encodeNumber (-1234560000000000) (-13)) = m ∧
      encodedExponent (encodeNumber (-1234560000000000) (-13)) = e ∧
      (ToJSON ⟨encodeNumber (-1234560000000000) (-13)⟩).1 =
        (if e = numberZeroExponent then .ok (.string ['0'])
         else .ok (.string (formatNumber m e))) :=
  wire_layout "-123.456".toList (encodeNumber (-1234560000000000) (-13))
    (FromJSON_of_steps_encodeNumber "-123.456".toList (-123456) (-3) _ _ (by decide)
      normalizeNumber_neg_123456)

theorem signText_no_e (x : Int) : 'e' ∉ signText x := by
  unfold signText
  split <;> simp

theorem allDigits_no_e {ds : List Char} (h : AllDigits ds) : 'e' ∉ ds := by
  intro hmem
  exact absurd (h 'e' hmem) (by decide)

/-- C13: notation threshold. For every mantissa `m` and every exponent `e` other than
the zero sentinel, the output of `formatNumber m e` contains no `e` (fixed-point
notation) if and only if `-25 ≤ e ≤ -5`; otherwise it is scientific: the optional `-`,
the first digit, then `.` and the remaining digits when there is more than one digit,
then `e` and the decimal value of `e + digitCount m - 1`. -/
theorem notation_threshold (m e : Int) (hz : e ≠ numberZeroExponent) :
    ('e' ∉ formatNumber m e ↔ (-25 ≤ e ∧ e ≤ -5)) ∧
    (¬ (-25 ≤ e ∧ e ≤ -5) →
      formatNumber m e =
        signText m ++ (decimalDigits m.natAbs).take 1 ++
          (if 1 < (decimalDigits m.natAbs).length
            then '.' :: (decimalDigits m.natAbs).drop 1 else []) ++
          ['e'] ++
          (signText (e + ((decimalDigits m.natAbs).length : Int) - 1) ++
            decimalDigits (e + ((decimalDigits m.natAbs).length : Int) - 1).natAbs)) := by
  have hsn := signText_no_e m
  have hall : AllDigits (decimalDigits m.natAbs) := decimalDigits_allDigits _
  have hne : decimalDigits m.natAbs ≠ [] := decimalDigits_ne_nil _
  have hd : 'e' ∉ decimalDigits m.natAbs := allDigits_no_e hall
  have hrep : ∀ k : Nat, 'e' ∉ List.replicate k '0' :=
    fun k => allDigits_no_e (allDigits_replicate_zero k)
  have htake : ∀ k : Nat, 'e' ∉ (decimalDigits m.natAbs).take k :=
    fun k => allDigits_no_e (allDigits_take k hall)
  have hdrop : ∀ k : Nat, 'e' ∉ (decimalDigits m.natAbs).drop k :=
    fun k => allDigits_no_e (allDigits_drop k hall)
  rw [formatNumber_eq, if_neg hz]
  by_cases hdec : e ≥ -25 ∧ e ≤ -5
  · have hdec' : -25 ≤ e ∧ e ≤ -5 := hdec
    rw [if_pos hdec]
    refine ⟨⟨fun _ => hdec', fun _ => ?_⟩, fun h => absurd hdec' h⟩
    split
    · simp only [List.mem_append, List.mem_cons, not_or]
      exact ⟨⟨⟨hsn, by decide, by decide, by simp⟩, hrep _⟩, hd⟩
    · split
      · simp only [List.mem_append, List.mem_cons, not_or]
        exact ⟨⟨⟨hsn, htake _⟩, by decide, by simp⟩, hdrop _⟩
      · simp only [List.mem_append, not_or]
        exact ⟨⟨hsn, hd⟩, hrep _⟩
  · have hdec' : ¬ (-25 ≤ e ∧ e ≤ -5) := hdec
    rw [if_neg hdec]
    refine ⟨⟨fun h => ?_, fun h => absurd h hdec'⟩, fun _ => ?_⟩
    · exfalso
      apply h
      split <;> simp
    · by_cases hone : (decimalDigits m.natAbs).length = 1
      · have h1 : ¬ 1 < (decimalDigits m.natAbs).length := by omega
        have ht : (decimalDigits m.natAbs).take 1 = decimalDigits m.natAbs :=
          List.take_of_length_le (by omega)
        rw [if_pos hone, if_neg h1, ht, strconvFormatInt_eq, hone]
        simp [signText]
      · have h1 : 1 < (decimalDigits m.natAbs).length := by
          have := List.length_pos.mpr hne
          omega
        rw [if_neg hone, if_pos h1, strconvFormatInt_eq]
        simp [signText]

theorem notation_threshold_witness :
    ('e' ∉ formatNumber 1000000000000000 10 ↔ (-25 ≤ (10 : Int) ∧ (10 : Int) ≤ -5)) ∧
    ('e' ∉ formatNumber 1000000000000000 (-15) ↔ (-25 ≤ (-15 : Int) ∧ (-15 : Int) ≤ -5)) :=
  ⟨(notation_threshold 1000000000000000 10 (by decide)).1,
   (notation_threshold 1000000000000000 (-15) (by decide)).1⟩

/-- C14: non-string rejection. For every input value that is not a string,
`Number.FromJSON` returns no bytes and an error that wraps `ErrInvalidNumber`. -/
theorem non_string_rejection (value : AnyValue) (h : ∀ s, value ≠ .string s) :
    FromJSON value = .error (.wrapf .ErrInvalidNumber ": must be a string") ∧
    errorsIs (.wrapf .ErrInvalidNumber ": must be a string") .ErrInvalidNumber = true := by
  refine ⟨?_, by decide⟩
  cases value with
  | string s => exact absurd rfl (h s)
  | int i => rfl
  | bool b => rfl
  | null => rfl

theorem non_string_rejection_witness :
    FromJSON (.int 123) = .error (.wrapf .ErrInvalidNumber ": must be a string") ∧
    errorsIs (.wrapf .ErrInvalidNumber ": must be a string") .ErrInvalidNumber = true :=
  non_string_rejection (.int 123) (by intro s h; cases h)

end XRPL.BinaryCodec.Types

namespace XRPL.Transaction.Types

/-! ## The concrete text layer meets the laws -/

theorem stackRun_append (a b : List Nat) (st : List StackItem) :
    stackRun (a ++ b) st = (stackRun a st).bind (stackRun b) := by
  induction a generalizing st with
  | nil => simp [stackRun]
  | cons x a ih =>
    simp only [List.cons_append, stackRun]
    cases stackStep x st with
    | none => simp
    | some st' => simp [ih]

theorem char_toNat_lt (c : Char) : c.toNat < 1114112 := by
  have h := c.valid
  simp only [UInt32.isValidChar, Nat.isValidChar] at h
  have : c.toNat = c.val.toNat := rfl
  omega

theorem stackStep_digit (d c : Nat) (l : List Nat) (st : List StackItem) (hd : d < 16) :
    stackStep (16 + d) (.codes (c :: l) :: st) = some (.codes ((c * 16 + d) :: l) :: st) := by
  unfold stackStep
  rw [if_neg (by omega), if_pos (by omega)]
  simp [stackDigit]

theorem stackStep_op (b : Nat) (st : List StackItem) (hb : b < 16) :
    stackStep b st = stackOp b st := by
  unfold stackStep
  rw [if_pos hb]

theorem stackRun_char (c : Char) (l : List Nat) (st : List StackItem) :
    stackRun (stackPrintChar c) (.codes l :: st) = some (.codes (c.toNat :: l) :: st) := by
  have hc := char_toNat_lt c
  simp only [stackPrintChar, stackRun]
  rw [stackStep_op 6 _ (by omega)]
  simp only [stackOp]
  rw [stackStep_digit _ _ _ _ (Nat.mod_lt _ (by omega))]
  simp only []
  rw [stackStep_digit _ _ _ _ (Nat.mod_lt _ (by omega))]
  simp only []
  rw [stackStep_digit _ _ _ _ (Nat.mod_lt _ (by omega))]
  simp only []
  rw [stackStep_digit _ _ _ _ (Nat.mod_lt _ (by omega))]
  simp only []
  rw [stackStep_digit _ _ _ _ (Nat.mod_lt _ (by omega))]
  simp only []
  rw [stackStep_digit _ _ _ _ (Nat.mod_lt _ (by omega))]
  simp only []
  have h : (((((0 * 16 + c.toNat / 1048576 % 16) * 16 + c.toNat / 65536 % 16) * 16 +
      c.toNat / 4096 % 16) * 16 + c.toNat / 256 % 16) * 16 + c.toNat / 16 % 16) * 16 +
      c.toNat % 16 = c.toNat := by omega
  rw [h]

theorem stackRun_replicate_four (n : Nat) (k : Nat) (st : List StackItem) :
    stackRun (List.replicate n 4) (.value (.number ⟨k⟩) :: st) =
      some (.value (.number ⟨k + n⟩) :: st) := by
  induction n generalizing k with
  | zero => simp [stackRun]
  | succ n ih =>
    simp only [List.replicate_succ, stackRun, stackStep, stackOp, Nat.reduceLT, ↓reduceIte]
    rw [ih]
    have h : k + 1 + n = k + (n + 1) := by omega
    rw [h]

theorem stackRun_chars (s : List Char) (l : List Nat) (st : List StackItem) :
    stackRun (stackPrintChars s) (.codes l :: st) =
      some (.codes ((s.map Char.toNat).reverse ++ l) :: st) := by
  induction s generalizing l with
  | nil => simp [stackPrintChars, stackRun]
  | cons c s ih =>
    simp only [stackPrintChars]
    rw [stackRun_append, stackRun_char]
    simp [ih]

theorem stackRun_string (s : List Char) (st : List StackItem) :
    stackRun (stackPrintString s) st = some (.value (.string s) :: st) := by
  simp only [stackPrintString, stackRun, stackStep, stackOp, Nat.reduceLT, ↓reduceIte]
  rw [stackRun_append, stackRun_chars]
  have h : (Char.ofNat ∘ Char.toNat) = id := by
    funext c
    simp [Char.ofNat_toNat]
  simp [stackRun, stackStep, stackOp, h]

mutual
theorem stackRun_print : ∀ (v : JSONValue) (st : List StackItem),
    stackRun (stackPrint v) st = some (.value v :: st)
  | .null, st => by simp [stackPrint, stackRun, stackStep, stackOp, Nat.reduceLT, ↓reduceIte]
  | .bool false, st => by simp [stackPrint, stackRun, stackStep, stackOp, Nat.reduceLT, ↓reduceIte]
  | .bool true, st => by simp [stackPrint, stackRun, stackStep, stackOp, Nat.reduceLT, ↓reduceIte]
  | .number n, st => by
    simp only [stackPrint, stackRun, stackStep, stackOp, Nat.reduceLT, ↓reduceIte]
    rw [stackRun_replicate_four]
    simp
  | .string s, st => by
    simp only [stackPrint]
    exact stackRun_string s st
  | .array items, st => by
    simp only [stackPrint, stackRun, stackStep, stackOp, Nat.reduceLT, ↓reduceIte]
    rw [stackRun_printItems items [] st]
    simp
  | .object members, st => by
    simp only [stackPrint, stackRun, stackStep, stackOp, Nat.reduceLT, ↓reduceIte]
    rw [stackRun_printMembers members [] st]
    simp
theorem stackRun_printItems : ∀ (items acc : List JSONValue) (st : List StackItem),
    stackRun (stackPrintItems items) (.value (.array acc) :: st) =
      some (.value (.array (acc ++ items)) :: st)
  | [], acc, st => by simp [stackPrintItems, stackRun]
  | v :: rest, acc, st => by
    simp only [stackPrintItems]
    rw [stackRun_append, stackRun_print v]
    simp only [Option.some_bind, stackRun, stackStep, stackOp, Nat.reduceLT, ↓reduceIte]
    rw [stackRun_printItems rest]
    simp
theorem stackRun_printMembers : ∀ (members acc : List (List Char × JSONValue))
    (st : List StackItem),
    stackRun (stackPrintMembers members) (.value (.object acc) :: st) =
      some (.value (.object (acc ++ members)) :: st)
  | [], acc, st => by simp [stackPrintMembers, stackRun]
  | (k, v) :: rest, acc, st => by
    simp only [stackPrintMembers]
    rw [stackRun_append, stackRun_string, Option.some_bind, stackRun_append, stackRun_print v]
    simp only [Option.some_bind, stackRun, stackStep, stackOp, Nat.reduceLT, ↓reduceIte]
    rw [stackRun_printMembers rest]
    simp
end

theorem stackParse_print (d : JSONValue) : stackParse (stackPrint d) = some d := by
  simp [stackParse, stackRun_print]

theorem stackPrintChars_bytes (s : List Char) : ∀ b ∈ stackPrintChars s, b < 256 := by
  induction s with
  | nil => simp [stackPrintChars]
  | cons c s ih =>
    intro b hb
    simp only [stackPrintChars, stackPrintChar, List.mem_cons, List.mem_append,
      List.not_mem_nil, or_false] at hb
    rcases hb with (h | h | h | h | h | h | h) | h
    · omega
    · omega
    · omega
    · omega
    · omega
    · omega
    · omega
    · exact ih b h

theorem stackPrintString_bytes (s : List Char) : ∀ b ∈ stackPrintString s, b < 256 := by
  intro b hb
  simp only [stackPrintString, List.mem_cons, List.mem_append, List.mem_singleton,
    List.not_mem_nil, or_false] at hb
  rcases hb with h | h | h
  · omega
  · exact stackPrintChars_bytes s b h
  · omega

mutual
theorem stackPrint_bytes : ∀ (d : JSONValue), ∀ b ∈ stackPrint d, b < 256
  | .null => by simp [stackPrint]
  | .bool false => by simp [stackPrint]
  | .bool true => by simp [stackPrint]
  | .number n => by
    intro b hb
    simp only [stackPrint, List.mem_cons, List.mem_replicate] at hb
    rcases hb with h | ⟨_, h⟩ <;> omega
  | .string s => by
    simp only [stackPrint]
    exact stackPrintString_bytes s
  | .array items => by
    intro b hb
    simp only [stackPrint, List.mem_cons] at hb
    rcases hb with h | h
    · omega
    · exact stackPrintItems_bytes items b h
  | .object members => by
    intro b hb
    simp only [stackPrint, List.mem_cons] at hb
    rcases hb with h | h
    · omega
    · exact stackPrintMembers_bytes members b h
theorem stackPrintItems_bytes : ∀ (items : List JSONValue), ∀ b ∈ stackPrintItems items, b < 256
  | [] => by simp [stackPrintItems]
  | v :: rest => by
    intro b hb
    simp only [stackPrintItems, List.mem_append, List.mem_cons] at hb
    rcases hb with h | h | h
    · exact stackPrint_bytes v b h
    · omega
    · exact stackPrintItems_bytes rest b h
theorem stackPrintMembers_bytes : ∀ (members : List (List Char × JSONValue)),
    ∀ b ∈ stackPrintMembers members, b < 256
  | [] => by simp [stackPrintMembers]
  | (k, v) :: rest => by
    intro b hb
    simp only [stackPrintMembers, List.mem_append, List.mem_cons] at hb
    rcases hb with h | h | h | h
    · exact stackPrintString_bytes k b h
    · exact stackPrint_bytes v b h
    · omega
    · exact stackPrintMembers_bytes rest b h
end

theorem stackJSON_lawful : stackJSON.Lawful :=
  ⟨stackPrint_bytes, stackParse_print⟩

/-! ## json.Unmarshal into a map -/

theorem jsonUnmarshalMap_eq_none_iff (T : JSONText) (data : List Nat) :
    jsonUnmarshalMap T data = none ↔
      (T.parse data = none ∨ ∃ d, T.parse data = some d ∧ isArrayStringNumberOrBool d = true) := by
  unfold jsonUnmarshalMap
  cases h : T.parse data with
  | none => simp
  | some d => cases d <;> simp [isArrayStringNumberOrBool]

theorem jsonUnmarshalMap_object (T : JSONText) (data : List Nat)
    (members : List (List Char × JSONValue)) (h : T.parse data = some (.object members)) :
    jsonUnmarshalMap T data = some (toGoMembers members []) := by
  simp [jsonUnmarshalMap, h]

theorem jsonUnmarshalMap_null (T : JSONText) (data : List Nat)
    (h : T.parse data = some .null) : jsonUnmarshalMap T data = some [] := by
  simp [jsonUnmarshalMap, h]

/-! ## The errors each validator can report -/

theorem unknownFieldErrors_mem (m : List (List Char × JSONValue)) (e : MetadataError)
    (h : e ∈ unknownFieldErrors m) :
    ∃ k v, (k, v) ∈ m ∧ e = .ErrInvalidMPTokenMetadataUnknownField k ∧
      (validKeys mptTokenMetadataFieldMap).contains k = false := by
  induction m with
  | nil => simp [unknownFieldErrors] at h
  | cons p rest ih =>
    obtain ⟨k, v⟩ := p
    simp only [unknownFieldErrors] at h
    split at h
    · obtain ⟨k', v', hm, he⟩ := ih h
      exact ⟨k', v', by simp [hm], he⟩
    · rcases List.mem_cons.1 h with h | h
      · rename_i hk hmem
        exact ⟨k, v, by simp, h, by simpa using hk⟩
      · obtain ⟨k', v', hm, he⟩ := ih h
        exact ⟨k', v', by simp [hm], he⟩

theorem validateField_mem (m : List (List Char × JSONValue)) (longKey compactKey : List Char)
    (validator : JSONValue → Option MetadataError) (e : MetadataError)
    (h : e ∈ validateField m longKey compactKey validator) :
    e = .ErrInvalidMPTokenMetadataFieldCollision longKey compactKey ∨
    e = .ErrInvalidMPTokenMetadataMissingField longKey ∨
    ∃ v, validator v = some e := by
  unfold validateField at h
  split at h
  · simp at h; exact Or.inl h
  · split at h
    · simp at h; subst h; exact Or.inr (Or.inr ⟨_, by assumption⟩)
    · simp at h
  · split at h
    · simp at h; subst h; exact Or.inr (Or.inr ⟨_, by assumption⟩)
    · simp at h
  · split at h
    · simp at h
    · simp at h; exact Or.inr (Or.inl h)

theorem validateTicker_some (v : JSONValue) (e : MetadataError) (h : validateTicker v = some e) :
    e = .ErrInvalidMPTokenMetadataTicker := by
  unfold validateTicker at h
  split at h
  · split at h
    · simpa using h.symm
    · split at h
      · simpa using h.symm
      · simp at h
  · simpa using h.symm

theorem validateNonEmptyString_some (f : List Char) (v : JSONValue) (e : MetadataError)
    (h : validateNonEmptyString f v = some e) :
    e = .ErrInvalidMPTokenMetadataMissingField f := by
  unfold validateNonEmptyString at h
  split at h
  · split at h
    · simpa using h.symm
    · simp at h
  · simpa using h.symm

theorem validateOptionalString_some (f : List Char) (v : JSONValue) (e : MetadataError)
    (h : validateOptionalString f v = some e) :
    e = .ErrInvalidMPTokenMetadataMissingField f := by
  unfold validateOptionalString at h
  split at h
  · simp at h
  · exact validateNonEmptyString_some f _ e h

theorem validateAssetClass_some (v : JSONValue) (e : MetadataError)
    (h : validateAssetClass v = some e) :
    e = .ErrInvalidMPTokenMetadataAssetClass MPTokenMetadataAssetClasses := by
  unfold validateAssetClass at h
  split at h
  · split at h
    · simpa using h.symm
    · simp at h
  · simpa using h.symm

theorem validateSubClass_mem (m : List (List Char × JSONValue)) (e : MetadataError)
    (h : e ∈ validateSubClass m) :
    e = .ErrInvalidMPTokenMetadataFieldCollision "asset_subclass".toList "as".toList ∨
    e = .ErrInvalidMPTokenMetadataRWASubClassRequired ∨
    e = .ErrInvalidMPTokenMetadataAssetSubClass MPTokenMetadataAssetSubClasses := by
  unfold validateSubClass at h
  simp only at h
  split at h
  · simp at h; exact Or.inl h
  · split at h
    · simp at h; exact Or.inr (Or.inl h)
    · split at h
      · simp at h; exact Or.inr (Or.inr h)
      · simp at h

theorem uriCollisions_mem (o : List (List Char × JSONValue))
    (mapping : List (List Char × List Char)) (e : MetadataError)
    (h : e ∈ uriCollisions o mapping) :
    ∃ p ∈ mapping, e = .ErrInvalidMPTokenMetadataFieldCollision p.1 p.2 ∧
      areBothFieldsPresent o p.1 p.2 = true := by
  induction mapping with
  | nil => simp [uriCollisions] at h
  | cons p rest ih =>
    obtain ⟨long, compact⟩ := p
    simp only [uriCollisions] at h
    split at h
    · rcases List.mem_cons.1 h with h | h
      · exact ⟨(long, compact), by simp, h, by assumption⟩
      · obtain ⟨p, hp, he⟩ := ih h
        exact ⟨p, by simp [hp], he⟩
    · obtain ⟨p, hp, he⟩ := ih h
      exact ⟨p, by simp [hp], he⟩

theorem validateURIItem_mem (item : JSONValue) (e : MetadataError)
    (h : e ∈ validateURIItem item) :
    e = .ErrInvalidMPTokenMetadataURIs ∨
    ∃ p ∈ mptTokenMetadataURIFieldMap, e = .ErrInvalidMPTokenMetadataFieldCollision p.1 p.2 := by
  unfold validateURIItem at h
  split at h
  · split at h
    · simp at h; exact Or.inl h
    · simp only at h
      split at h
      · rcases List.mem_append.1 h with h | h
        · obtain ⟨p, hp, he, _⟩ := uriCollisions_mem _ _ _ h
          exact Or.inr ⟨p, hp, he⟩
        · simp at h; exact Or.inl h
      · split at h
        · rcases List.mem_append.1 h with h | h
          · obtain ⟨p, hp, he, _⟩ := uriCollisions_mem _ _ _ h
            exact Or.inr ⟨p, hp, he⟩
          · simp at h; exact Or.inl h
        · obtain ⟨p, hp, he, _⟩ := uriCollisions_mem _ _ _ h
          exact Or.inr ⟨p, hp, he⟩
  · simp at h; exact Or.inl h

theorem validateURIItems_mem (items : List JSONValue) (e : MetadataError)
    (h : e ∈ validateURIItems items) :
    e = .ErrInvalidMPTokenMetadataURIs ∨
    ∃ p ∈ mptTokenMetadataURIFieldMap, e = .ErrInvalidMPTokenMetadataFieldCollision p.1 p.2 := by
  induction items with
  | nil => simp [validateURIItems] at h
  | cons item rest ih =>
    simp only [validateURIItems] at h
    rcases List.mem_append.1 h with h | h
    · exact validateURIItem_mem item e h
    · exact ih h

theorem validateURIs_mem (m : List (List Char × JSONValue)) (e : MetadataError)
    (h : e ∈ validateURIs m) :
    e = .ErrInvalidMPTokenMetadataFieldCollision "uris".toList "us".toList ∨
    e = .ErrInvalidMPTokenMetadataURIs ∨
    ∃ p ∈ mptTokenMetadataURIFieldMap, e = .ErrInvalidMPTokenMetadataFieldCollision p.1 p.2 := by
  unfold validateURIs at h
  simp only at h
  split at h
  · simp at h
  · split at h
    · simp at h; exact Or.inl h
    · split at h
      · simp at h; exact Or.inr (Or.inl h)
      · exact Or.inr (validateURIItems_mem _ e h)
      · simp at h; exact Or.inr (Or.inl h)

theorem validateAdditionalInfo_mem (m : List (List Char × JSONValue)) (e : MetadataError)
    (h : e ∈ validateAdditionalInfo m) :
    e = .ErrInvalidMPTokenMetadataFieldCollision "additional_info".toList "ai".toList ∨
    e = .ErrInvalidMPTokenMetadataAdditionalInfo := by
  unfold validateAdditionalInfo at h
  simp only at h
  split at h
  · simp at h
  · split at h
    · simp at h; exact Or.inl h
    · split at h
      · simp at h; exact Or.inr h
      · simp at h

/-- The error list of `validateRawData`, component by component. -/
theorem validateRawData_eq (m : List (List Char × JSONValue)) :
    validateRawData m =
      (if m.length > mptTokenMetadataFieldMap.length then
        [.ErrInvalidMPTokenMetadataFieldCount mptTokenMetadataFieldMap.length] else []) ++
      unknownFieldErrors m ++
      validateField m "ticker".toList "t".toList validateTicker ++
      validateField m "name".toList "n".toList (validateNonEmptyString "name".toList) ++
      validateField m "icon".toList "i".toList (validateNonEmptyString "icon".toList) ++
      validateField m "issuer_name".toList "in".toList
        (validateNonEmptyString "issuer_name".toList) ++
      validateField m "asset_class".toList "ac".toList validateAssetClass ++
      validateField m "desc".toList "d".toList (validateOptionalString "desc".toList) ++
      validateSubClass m ++ validateURIs m ++ validateAdditionalInfo m := rfl

/-- What a field validation can report, by the kind of its validator. -/
theorem validateField_ticker_mem (m : List (List Char × JSONValue)) (e : MetadataError)
    (h : e ∈ validateField m "ticker".toList "t".toList validateTicker) :
    e = .ErrInvalidMPTokenMetadataFieldCollision "ticker".toList "t".toList ∨
    e = .ErrInvalidMPTokenMetadataMissingField "ticker".toList ∨
    e = .ErrInvalidMPTokenMetadataTicker := by
  rcases validateField_mem _ _ _ _ _ h with h | h | ⟨v, h⟩
  · exact Or.inl h
  · exact Or.inr (Or.inl h)
  · exact Or.inr (Or.inr (validateTicker_some v e h))

theorem validateField_nonEmpty_mem (m : List (List Char × JSONValue)) (long compact : List Char)
    (e : MetadataError)
    (h : e ∈ validateField m long compact (validateNonEmptyString long)) :
    e = .ErrInvalidMPTokenMetadataFieldCollision long compact ∨
    e = .ErrInvalidMPTokenMetadataMissingField long := by
  rcases validateField_mem _ _ _ _ _ h with h | h | ⟨v, h⟩
  · exact Or.inl h
  · exact Or.inr h
  · exact Or.inr (validateNonEmptyString_some _ v e h)

theorem validateField_optional_mem (m : List (List Char × JSONValue)) (long compact : List Char)
    (e : MetadataError)
    (h : e ∈ validateField m long compact (validateOptionalString long)) :
    e = .ErrInvalidMPTokenMetadataFieldCollision long compact ∨
    e = .ErrInvalidMPTokenMetadataMissingField long := by
  rcases validateField_mem _ _ _ _ _ h with h | h | ⟨v, h⟩
  · exact Or.inl h
  · exact Or.inr h
  · exact Or.inr (validateOptionalString_some _ v e h)

theorem validateField_assetClass_mem (m : List (List Char × JSONValue)) (e : MetadataError)
    (h : e ∈ validateField m "asset_class".toList "ac".toList validateAssetClass) :
    e = .ErrInvalidMPTokenMetadataFieldCollision "asset_class".toList "ac".toList ∨
    e = .ErrInvalidMPTokenMetadataMissingField "asset_class".toList ∨
    e = .ErrInvalidMPTokenMetadataAssetClass MPTokenMetadataAssetClasses := by
  rcases validateField_mem _ _ _ _ _ h with h | h | ⟨v, h⟩
  · exact Or.inl h
  · exact Or.inr (Or.inl h)
  · exact Or.inr (Or.inr (validateAssetClass_some v e h))

/-! ## Missing fields -/

theorem validateField_absent (m : List (List Char × JSONValue)) (longKey compactKey : List Char)
    (validator : JSONValue → Option MetadataError)
    (hl : mapLookup m longKey = none) (hc : mapLookup m compactKey = none) :
    validateField m longKey compactKey validator =
      if isOptionalField longKey then []
      else [.ErrInvalidMPTokenMetadataMissingField longKey] := by
  simp [validateField, hl, hc]

theorem lookupField_absent (m : List (List Char × JSONValue)) (long compact : List Char)
    (hl : mapLookup m long = none) (hc : mapLookup m compact = none) :
    lookupField m long compact = (.null, false) := by
  simp [lookupField, hl, hc]

theorem areBothFieldsPresent_absent (m : List (List Char × JSONValue)) (long compact : List Char)
    (hl : mapLookup m long = none) : areBothFieldsPresent m long compact = false := by
  simp [areBothFieldsPresent, mapHas, hl]

theorem count_eq_zero_of_forall_ne (l : List MetadataError) (a : MetadataError)
    (h : ∀ e ∈ l, e ≠ a) : l.count a = 0 :=
  List.count_eq_zero.2 (fun hm => h a hm rfl)

theorem count_missing_validateField (m : List (List Char × JSONValue))
    (longKey compactKey f : List Char) (validator : JSONValue → Option MetadataError)
    (hne : longKey ≠ f)
    (hv : ∀ v, validator v ≠ some (.ErrInvalidMPTokenMetadataMissingField f)) :
    (validateField m longKey compactKey validator).count
      (.ErrInvalidMPTokenMetadataMissingField f) = 0 := by
  apply count_eq_zero_of_forall_ne
  intro e he heq
  subst heq
  rcases validateField_mem _ _ _ _ _ he with h | h | ⟨v, h⟩
  · cases h
  · injection h with h
    exact hne h.symm
  · exact hv v h

theorem validateTicker_ne_missing (f : List Char) (v : JSONValue) :
    validateTicker v ≠ some (.ErrInvalidMPTokenMetadataMissingField f) := by
  intro h
  cases validateTicker_some v _ h

theorem validateAssetClass_ne_missing (f : List Char) (v : JSONValue) :
    validateAssetClass v ≠ some (.ErrInvalidMPTokenMetadataMissingField f) := by
  intro h
  cases validateAssetClass_some v _ h

theorem validateNonEmptyString_ne_missing (g f : List Char) (hne : g ≠ f) (v : JSONValue) :
    validateNonEmptyString g v ≠ some (.ErrInvalidMPTokenMetadataMissingField f) := by
  intro h
  have h2 := validateNonEmptyString_some g v _ h
  injection h2 with h2
  exact hne h2.symm

theorem validateOptionalString_ne_missing (g f : List Char) (hne : g ≠ f) (v : JSONValue) :
    validateOptionalString g v ≠ some (.ErrInvalidMPTokenMetadataMissingField f) := by
  intro h
  have h2 := validateOptionalString_some g v _ h
  injection h2 with h2
  exact hne h2.symm

/-- Missing-field errors come from the six field validations only. -/
theorem count_missing_validateRawData (m : List (List Char × JSONValue)) (f : List Char) :
    (validateRawData m).count (.ErrInvalidMPTokenMetadataMissingField f) =
      (validateField m "ticker".toList "t".toList validateTicker).count
        (.ErrInvalidMPTokenMetadataMissingField f) +
      (validateField m "name".toList "n".toList (validateNonEmptyString "name".toList)).count
        (.ErrInvalidMPTokenMetadataMissingField f) +
      (validateField m "icon".toList "i".toList (validateNonEmptyString "icon".toList)).count
        (.ErrInvalidMPTokenMetadataMissingField f) +
      (validateField m "issuer_name".toList "in".toList
        (validateNonEmptyString "issuer_name".toList)).count
        (.ErrInvalidMPTokenMetadataMissingField f) +
      (validateField m "asset_class".toList "ac".toList validateAssetClass).count
        (.ErrInvalidMPTokenMetadataMissingField f) +
      (validateField m "desc".toList "d".toList (validateOptionalString "desc".toList)).count
        (.ErrInvalidMPTokenMetadataMissingField f) := by
  have h1 : (if m.length > mptTokenMetadataFieldMap.length then
        [MetadataError.ErrInvalidMPTokenMetadataFieldCount mptTokenMetadataFieldMap.length]
        else []).count (.ErrInvalidMPTokenMetadataMissingField f) = 0 := by
    split <;> simp
  have h2 : (unknownFieldErrors m).count (.ErrInvalidMPTokenMetadataMissingField f) = 0 := by
    apply count_eq_zero_of_forall_ne
    intro e he heq
    obtain ⟨k, v, _, h, _⟩ := unknownFieldErrors_mem m e he
    rw [h] at heq
    cases heq
  have h3 : (validateSubClass m).count (.ErrInvalidMPTokenMetadataMissingField f) = 0 := by
    apply count_eq_zero_of_forall_ne
    intro e he heq
    rcases validateSubClass_mem m e he with h | h | h <;> rw [h] at heq <;> cases heq
  have h4 : (validateURIs m).count (.ErrInvalidMPTokenMetadataMissingField f) = 0 := by
    apply count_eq_zero_of_forall_ne
    intro e he heq
    rcases validateURIs_mem m e he with h | h | ⟨p, _, h⟩ <;> rw [h] at heq <;> cases heq
  have h5 : (validateAdditionalInfo m).count (.ErrInvalidMPTokenMetadataMissingField f) = 0 := by
    apply count_eq_zero_of_forall_ne
    intro e he heq
    rcases validateAdditionalInfo_mem m e he with h | h <;> rw [h] at heq <;> cases heq
  rw [validateRawData_eq]
  simp only [List.count_append, h1, h2, h3, h4, h5]
  omega

/-- A required field absent under both its keys is reported once. -/
theorem count_missing_required (m : List (List Char × JSONValue)) (p : List Char × List Char)
    (hp : p ∈ [("ticker".toList, "t".toList), ("name".toList, "n".toList),
      ("icon".toList, "i".toList), ("issuer_name".toList, "in".toList),
      ("asset_class".toList, "ac".toList)])
    (hl : mapLookup m p.1 = none) (hc : mapLookup m p.2 = none) :
    (validateRawData m).count (.ErrInvalidMPTokenMetadataMissingField p.1) = 1 := by
  rw [count_missing_validateRawData]
  simp only [List.mem_cons, List.mem_singleton, List.not_mem_nil, or_false] at hp
  rcases hp with hp | hp | hp | hp | hp <;> subst hp <;> simp only at hl hc ⊢
  · rw [validateField_absent m _ _ _ hl hc,
      count_missing_validateField m "name".toList _ _ _ (by decide)
        (validateNonEmptyString_ne_missing _ _ (by decide)),
      count_missing_validateField m "icon".toList _ _ _ (by decide)
        (validateNonEmptyString_ne_missing _ _ (by decide)),
      count_missing_validateField m "issuer_name".toList _ _ _ (by decide)
        (validateNonEmptyString_ne_missing _ _ (by decide)),
      count_missing_validateField m "asset_class".toList _ _ _ (by decide)
        (validateAssetClass_ne_missing _),
      count_missing_validateField m "desc".toList _ _ _ (by decide)
        (validateOptionalString_ne_missing _ _ (by decide))]
    rfl
  · rw [validateField_absent m _ _ _ hl hc,
      count_missing_validateField m "ticker".toList _ _ _ (by decide)
        (validateTicker_ne_missing _),
      count_missing_validateField m "icon".toList _ _ _ (by decide)
        (validateNonEmptyString_ne_missing _ _ (by decide)),
      count_missing_validateField m "issuer_name".toList _ _ _ (by decide)
        (validateNonEmptyString_ne_missing _ _ (by decide)),
      count_missing_validateField m "asset_class".toList _ _ _ (by decide)
        (validateAssetClass_ne_missing _),
      count_missing_validateField m "desc".toList _ _ _ (by decide)
        (validateOptionalString_ne_missing _ _ (by decide))]
    rfl
  · rw [validateField_absent m _ _ _ hl hc,
      count_missing_validateField m "ticker".toList _ _ _ (by decide)
        (validateTicker_ne_missing _),
      count_missing_validateField m "name".toList _ _ _ (by decide)
        (validateNonEmptyString_ne_missing _ _ (by decide)),
      count_missing_validateField m "issuer_name".toList _ _ _ (by decide)
        (validateNonEmptyString_ne_missing _ _ (by decide)),
      count_missing_validateField m "asset_class".toList _ _ _ (by decide)
        (validateAssetClass_ne_missing _),
      count_missing_validateField m "desc".toList _ _ _ (by decide)
        (validateOptionalString_ne_missing _ _ (by decide))]
    rfl
  · rw [validateField_absent m _ _ _ hl hc,
      count_missing_validateField m "ticker".toList _ _ _ (by decide)
        (validateTicker_ne_missing _),
      count_missing_validateField m "name".toList _ _ _ (by decide)
        (validateNonEmptyString_ne_missing _ _ (by decide)),
      count_missing_validateField m "icon".toList _ _ _ (by decide)
        (validateNonEmptyString_ne_missing _ _ (by decide)),
      count_missing_validateField m "asset_class".toList _ _ _ (by decide)
        (validateAssetClass_ne_missing _),
      count_missing_validateField m "desc".toList _ _ _ (by decide)
        (validateOptionalString_ne_missing _ _ (by decide))]
    rfl
  · rw [validateField_absent m _ _ _ hl hc,
      count_missing_validateField m "ticker".toList _ _ _ (by decide)
        (validateTicker_ne_missing _),
      count_missing_validateField m "name".toList _ _ _ (by decide)
        (validateNonEmptyString_ne_missing _ _ (by decide)),
      count_missing_validateField m "icon".toList _ _ _ (by decide)
        (validateNonEmptyString_ne_missing _ _ (by decide)),
      count_missing_validateField m "issuer_name".toList _ _ _ (by decide)
        (validateNonEmptyString_ne_missing _ _ (by decide)),
      count_missing_validateField m "desc".toList _ _ _ (by decide)
        (validateOptionalString_ne_missing _ _ (by decide))]
    rfl

theorem ValidateMPTokenMetadata_of_map (T : JSONText) (hexInput : List Char) (bytes : List Nat)
    (rawData : List (List Char × JSONValue))
    (hhex : hexDecodeString hexInput = some bytes)
    (hlen : bytes.length ≤ MaxMPTokenMetadataByteLength)
    (hmap : jsonUnmarshalMap T bytes = some rawData) :
    ValidateMPTokenMetadata T hexInput = validateRawData rawData := by
  unfold ValidateMPTokenMetadata
  simp only [hhex]
  rw [if_neg (by omega)]
  simp only [hmap]

/-! ## Each error is reported by one step -/

theorem validateRawData_join (m : List (List Char × JSONValue)) :
    validateRawData m = (validationSteps m).flatten := by
  rw [validateRawData_eq]
  simp [validationSteps, List.append_assoc]

theorem errorStep_of_mem (m : List (List Char × JSONValue)) (i : Nat) (e : MetadataError)
    (h : e ∈ (validationSteps m).getD i []) : errorStep e = i := by
  have hi : i < 11 ∨ 11 ≤ i := by omega
  rcases hi with hi | hi
  · interval_cases i <;> simp only [validationSteps, List.getD_cons_zero, List.getD_cons_succ] at h
    · split at h
      · simp at h; subst h; rfl
      · simp at h
    · obtain ⟨k, v, _, h, _⟩ := unknownFieldErrors_mem m e h
      subst h; rfl
    · rcases validateField_ticker_mem m e h with h | h | h <;> subst h <;> rfl
    · rcases validateField_nonEmpty_mem m _ _ e h with h | h <;> subst h <;> rfl
    · rcases validateField_nonEmpty_mem m _ _ e h with h | h <;> subst h <;> rfl
    · rcases validateField_nonEmpty_mem m _ _ e h with h | h <;> subst h <;> rfl
    · rcases validateField_assetClass_mem m e h with h | h | h <;> subst h <;> rfl
    · rcases validateField_optional_mem m _ _ e h with h | h <;> subst h <;> rfl
    · rcases validateSubClass_mem m e h with h | h | h <;> subst h <;> rfl
    · rcases validateURIs_mem m e h with h | h | ⟨p, hp, h⟩
      · subst h; rfl
      · subst h; rfl
      · simp only [mptTokenMetadataURIFieldMap, List.mem_cons, List.mem_singleton,
          List.not_mem_nil, or_false] at hp
        rcases hp with hp | hp | hp <;> subst hp <;> subst h <;> rfl
    · rcases validateAdditionalInfo_mem m e h with h | h <;> subst h <;> rfl
  · rw [List.getD_eq_default _ _ (by simpa [validationSteps] using hi)] at h
    simp at h

/-- An error is in the result of `validateRawData` exactly when the step that can report
it reports it. -/
theorem mem_validateRawData_iff (m : List (List Char × JSONValue)) (e : MetadataError) :
    e ∈ validateRawData m ↔ e ∈ (validationSteps m).getD (errorStep e) [] := by
  rw [validateRawData_join, List.mem_flatten]
  constructor
  · rintro ⟨l, hl, he⟩
    obtain ⟨i, hi, rfl⟩ := List.getElem_of_mem hl
    have h2 : (validationSteps m).getD i [] = (validationSteps m)[i] := by
      simp [List.getD_eq_getElem?_getD, List.getElem?_eq_getElem hi]
    have h3 := errorStep_of_mem m i e (by rw [h2]; exact he)
    rw [h3, h2]
    exact he
  · intro h
    have hlt : errorStep e < (validationSteps m).length := by
      by_contra hge
      rw [List.getD_eq_default _ _ (by omega)] at h
      simp at h
    refine ⟨(validationSteps m)[errorStep e], List.getElem_mem _, ?_⟩
    simpa [List.getD_eq_getElem?_getD, List.getElem?_eq_getElem hlt] using h

theorem mem_validationStep (m : List (List Char × JSONValue)) (e : MetadataError) (i : Nat)
    (h : e ∈ validateRawData m) (hi : errorStep e = i) :
    e ∈ (validationSteps m).getD i [] := by
  rw [← hi]
  exact (mem_validateRawData_iff m e).1 h

theorem validateURIs_absent (m : List (List Char × JSONValue))
    (hl : mapLookup m "uris".toList = none) (hc : mapLookup m "us".toList = none) :
    validateURIs m = [] := by
  unfold validateURIs
  rw [lookupField_absent m _ _ hl hc]
  rfl

theorem validateAdditionalInfo_absent (m : List (List Char × JSONValue))
    (hl : mapLookup m "additional_info".toList = none)
    (hc : mapLookup m "ai".toList = none) :
    validateAdditionalInfo m = [] := by
  unfold validateAdditionalInfo
  rw [lookupField_absent m _ _ hl hc]
  rfl

theorem validateSubClass_absent (m : List (List Char × JSONValue))
    (hl : mapLookup m "asset_subclass".toList = none)
    (hc : mapLookup m "as".toList = none)
    (hrwa : isRWA (lookupField m "asset_class".toList "ac".toList).1 = false) :
    validateSubClass m = [] := by
  unfold validateSubClass
  rw [lookupField_absent m "asset_subclass".toList _ hl hc,
    areBothFieldsPresent_absent m "asset_subclass".toList _ hl]
  simp only []
  rw [hrwa]
  simp

theorem errorStep_lt_of_mem (m : List (List Char × JSONValue)) (e : MetadataError)
    (h : e ∈ validateRawData m) : errorStep e < 11 := by
  have h2 := (mem_validateRawData_iff m e).1 h
  by_contra hge
  have hlen : (validationSteps m).length ≤ errorStep e := by
    simp only [validationSteps, List.length_cons, List.length_nil]
    omega
  rw [List.getD_eq_default _ _ hlen] at h2
  cases h2

theorem validateRawData_not_envelope (m : List (List Char × JSONValue)) (e : MetadataError)
    (h : e ∈ validateRawData m) : isEnvelopeError e = false := by
  have hlt := errorStep_lt_of_mem m e h
  cases e <;> first | rfl | (simp [errorStep] at hlt)

/-! ## Decode failures, envelope checks, required fields -/

/-- C18: decode failures. `DecodeMPTokenMetadata` returns no result and exactly
`ErrInvalidMPTokenMetadataHex` for every input that `hex.DecodeString` rejects, such as
"invalid"; for every input that is valid hex and decodes to bytes that are not JSON, or
that are a JSON array, string, number or boolean, it returns no result and exactly
`ErrInvalidMPTokenMetadataJSON`. "464F4F" is valid hex for the bytes of "FOO". -/
theorem decode_failures (T : JSONText) (hexInput : List Char) :
    (hexDecodeString hexInput = none →
      DecodeMPTokenMetadata T hexInput = .error .ErrInvalidMPTokenMetadataHex) ∧
    (∀ bytes, hexDecodeString hexInput = some bytes →
      (T.parse bytes = none ∨
        ∃ d, T.parse bytes = some d ∧ isArrayStringNumberOrBool d = true) →
      DecodeMPTokenMetadata T hexInput = .error .ErrInvalidMPTokenMetadataJSON) ∧
    hexDecodeString "invalid".toList = none ∧
    hexDecodeString "464F4F".toList = some [70, 79, 79] := by
  refine ⟨?_, ?_, by decide, by decide⟩
  · intro h
    simp [DecodeMPTokenMetadata, h]
  · intro bytes h hbad
    have hmap := (jsonUnmarshalMap_eq_none_iff T bytes).2 hbad
    simp [DecodeMPTokenMetadata, h, hmap]

/-- Both failures of C18, run on the concrete text layer: "invalid" is not hex, and
"464F4F" is hex for bytes that are not a document. -/
theorem decode_failures_witness :
    DecodeMPTokenMetadata stackJSON "invalid".toList = .error .ErrInvalidMPTokenMetadataHex ∧
    DecodeMPTokenMetadata stackJSON "464F4F".toList = .error .ErrInvalidMPTokenMetadataJSON ∧
    DecodeMPTokenMetadata stackJSON "09".toList = .error .ErrInvalidMPTokenMetadataJSON :=
  ⟨(decode_failures stackJSON "invalid".toList).1 (by decide),
   (decode_failures stackJSON "464F4F".toList).2.1 [70, 79, 79] (by decide) (Or.inl rfl),
   (decode_failures stackJSON "09".toList).2.1 [9] (by decide)
     (Or.inr ⟨.array [], rfl, rfl⟩)⟩

/-- C19: the envelope checks of `ValidateMPTokenMetadata` come first, in this order, and
each ends the validation with one error: input that is not hex gives exactly
`ErrInvalidMPTokenMetadataHex`; hex for more than 1024 bytes gives exactly
`ErrInvalidMPTokenMetadataSize`, whatever the bytes are; hex for at most 1024 bytes that
are not JSON, or are a JSON array, string, number or boolean, gives exactly
`ErrInvalidMPTokenMetadataJSON`. The size error is reported only for more than 1024
bytes, so never for exactly 1024. -/
theorem envelope_checks (T : JSONText) (hexInput : List Char) :
    (hexDecodeString hexInput = none →
      ValidateMPTokenMetadata T hexInput = [.ErrInvalidMPTokenMetadataHex]) ∧
    (∀ bytes, hexDecodeString hexInput = some bytes →
      (1024 < bytes.length →
        ValidateMPTokenMetadata T hexInput = [.ErrInvalidMPTokenMetadataSize]) ∧
      (bytes.length ≤ 1024 →
        (T.parse bytes = none ∨
          ∃ d, T.parse bytes = some d ∧ isArrayStringNumberOrBool d = true) →
        ValidateMPTokenMetadata T hexInput = [.ErrInvalidMPTokenMetadataJSON]) ∧
      (.ErrInvalidMPTokenMetadataSize ∈ ValidateMPTokenMetadata T hexInput ↔
        1024 < bytes.length)) := by
  refine ⟨?_, ?_⟩
  · intro h
    simp [ValidateMPTokenMetadata, h]
  · intro bytes h
    have hbig : 1024 < bytes.length →
        ValidateMPTokenMetadata T hexInput = [.ErrInvalidMPTokenMetadataSize] := by
      intro hlen
      unfold ValidateMPTokenMetadata
      simp only [h]
      rw [if_pos (by simpa [MaxMPTokenMetadataByteLength] using hlen)]
    refine ⟨hbig, ?_, ?_⟩
    · intro hlen hbad
      have hmap := (jsonUnmarshalMap_eq_none_iff T bytes).2 hbad
      unfold ValidateMPTokenMetadata
      simp only [h]
      rw [if_neg (by simpa [MaxMPTokenMetadataByteLength] using hlen)]
      simp only [hmap]
    · constructor
      · intro hmem
        by_contra hlen
        have hlen2 : ¬ bytes.length > MaxMPTokenMetadataByteLength := by
          simpa [MaxMPTokenMetadataByteLength] using hlen
        unfold ValidateMPTokenMetadata at hmem
        simp only [h] at hmem
        rw [if_neg hlen2] at hmem
        cases hmap : jsonUnmarshalMap T bytes with
        | none => simp [hmap] at hmem
        | some rawData =>
          simp only [hmap] at hmem
          have := validateRawData_not_envelope rawData _ hmem
          simp [isEnvelopeError] at this
      · intro hlen
        rw [hbig hlen]
        simp

theorem hexDecodeString_zeros (n : Nat) :
    hexDecodeString (List.replicate (2 * n) '0') = some (List.replicate n 0) := by
  induction n with
  | zero => rfl
  | succ n ih =>
    have h : 2 * (n + 1) = (2 * n + 1) + 1 := by omega
    rw [h, List.replicate_succ, List.replicate_succ, hexDecodeString, ih]
    rfl

/-- The three envelope errors of C19, run on the concrete text layer: input that is
not hex, 1025 zero bytes, and three bytes that are not a document. -/
theorem envelope_checks_witness :
    ValidateMPTokenMetadata stackJSON "invalid".toList = [.ErrInvalidMPTokenMetadataHex] ∧
    ValidateMPTokenMetadata stackJSON (List.replicate (2 * 1025) '0') =
      [.ErrInvalidMPTokenMetadataSize] ∧
    ValidateMPTokenMetadata stackJSON "464F4F".toList = [.ErrInvalidMPTokenMetadataJSON] :=
  ⟨(envelope_checks stackJSON "invalid".toList).1 (by decide),
   ((envelope_checks stackJSON (List.replicate (2 * 1025) '0')).2 (List.replicate 1025 0)
      (hexDecodeString_zeros 1025)).1 (by rw [List.length_replicate]; omega),
   ((envelope_checks stackJSON "464F4F".toList).2 [70, 79, 79] (by decide)).2.1
      (by decide) (Or.inl rfl)⟩

/-- C20: required fields. For metadata whose JSON is the empty object or `null`,
`ValidateMPTokenMetadata` reports exactly five errors: the missing-field errors for
ticker, name, icon, issuer_name and asset_class. In general, on a parsed object
`rawData`, each of these five fields that is absent under both its keys is reported by
exactly one missing-field error naming the long key; an absent desc, uris or
additional_info is not reported at all, and neither is an absent asset_subclass when
asset_class is not the string "rwa". -/
theorem required_fields (T : JSONText) (hexInput : List Char) (bytes : List Nat)
    (rawData : List (List Char × JSONValue))
    (hhex : hexDecodeString hexInput = some bytes)
    (hlen : bytes.length ≤ 1024)
    (hmap : jsonUnmarshalMap T bytes = some rawData) :
    ((T.parse bytes = some (.object []) ∨ T.parse bytes = some .null) →
      ValidateMPTokenMetadata T hexInput =
        [.ErrInvalidMPTokenMetadataMissingField "ticker".toList,
         .ErrInvalidMPTokenMetadataMissingField "name".toList,
         .ErrInvalidMPTokenMetadataMissingField "icon".toList,
         .ErrInvalidMPTokenMetadataMissingField "issuer_name".toList,
         .ErrInvalidMPTokenMetadataMissingField "asset_class".toList]) ∧
    (∀ p ∈ [("ticker".toList, "t".toList), ("name".toList, "n".toList),
        ("icon".toList, "i".toList), ("issuer_name".toList, "in".toList),
        ("asset_class".toList, "ac".toList)],
      mapLookup rawData p.1 = none → mapLookup rawData p.2 = none →
      (ValidateMPTokenMetadata T hexInput).count
        (.ErrInvalidMPTokenMetadataMissingField p.1) = 1) ∧
    (mapLookup rawData "desc".toList = none → mapLookup rawData "d".toList = none →
      ∀ e ∈ ValidateMPTokenMetadata T hexInput,
        e ≠ .ErrInvalidMPTokenMetadataMissingField "desc".toList ∧
        e ≠ .ErrInvalidMPTokenMetadataFieldCollision "desc".toList "d".toList) ∧
    (mapLookup rawData "uris".toList = none → mapLookup rawData "us".toList = none →
      ∀ e ∈ ValidateMPTokenMetadata T hexInput,
        e ≠ .ErrInvalidMPTokenMetadataURIs ∧
        e ≠ .ErrInvalidMPTokenMetadataFieldCollision "uris".toList "us".toList ∧
        ∀ p ∈ mptTokenMetadataURIFieldMap,
          e ≠ .ErrInvalidMPTokenMetadataFieldCollision p.1 p.2) ∧
    (mapLookup rawData "additional_info".toList = none →
      mapLookup rawData "ai".toList = none →
      ∀ e ∈ ValidateMPTokenMetadata T hexInput,
        e ≠ .ErrInvalidMPTokenMetadataAdditionalInfo ∧
        e ≠ .ErrInvalidMPTokenMetadataFieldCollision "additional_info".toList "ai".toList) ∧
    (mapLookup rawData "asset_subclass".toList = none →
      mapLookup rawData "as".toList = none →
      (lookupField rawData "asset_class".toList "ac".toList).1 ≠ .string "rwa".toList →
      ∀ e ∈ ValidateMPTokenMetadata T hexInput,
        e ≠ .ErrInvalidMPTokenMetadataRWASubClassRequired ∧
        e ≠ .ErrInvalidMPTokenMetadataAssetSubClass MPTokenMetadataAssetSubClasses ∧
        e ≠ .ErrInvalidMPTokenMetadataFieldCollision "asset_subclass".toList "as".toList) := by
  have hV := ValidateMPTokenMetadata_of_map T hexInput bytes rawData hhex
    (by simpa [MaxMPTokenMetadataByteLength] using hlen) hmap
  rw [hV]
  refine ⟨?_, ?_, ?_, ?_, ?_, ?_⟩
  · intro hdoc
    have hraw : rawData = [] := by
      rcases hdoc with hdoc | hdoc
      · rw [jsonUnmarshalMap_object T bytes [] hdoc] at hmap
        simpa [toGoMembers] using hmap.symm
      · rw [jsonUnmarshalMap_null T bytes hdoc] at hmap
        simpa using hmap.symm
    subst hraw
    decide
  · intro p hp hl hc
    exact count_missing_required rawData p hp hl hc
  · intro hl hc e he
    have hcomp := validateField_absent rawData "desc".toList "d".toList
      (validateOptionalString "desc".toList) hl hc
    rw [if_pos (by decide)] at hcomp
    refine ⟨?_, ?_⟩ <;> intro heq <;> subst heq
    · have h := mem_validationStep rawData _ 7 he rfl
      have h2 : _ ∈ validateField rawData "desc".toList "d".toList
        (validateOptionalString "desc".toList) := h
      rw [hcomp] at h2
      cases h2
    · have h := mem_validationStep rawData _ 7 he rfl
      have h2 : _ ∈ validateField rawData "desc".toList "d".toList
        (validateOptionalString "desc".toList) := h
      rw [hcomp] at h2
      cases h2
  · intro hl hc e he
    have hcomp := validateURIs_absent rawData hl hc
    have key : errorStep e = 9 → False := by
      intro hs
      have h := mem_validationStep rawData e 9 he hs
      have h2 : e ∈ validateURIs rawData := h
      rw [hcomp] at h2
      cases h2
    refine ⟨?_, ?_, ?_⟩
    · intro heq
      exact key (by rw [heq]; rfl)
    · intro heq
      exact key (by rw [heq]; rfl)
    · intro p hp heq
      simp only [mptTokenMetadataURIFieldMap, List.mem_cons, List.mem_singleton,
        List.not_mem_nil, or_false] at hp
      rcases hp with hp | hp | hp <;> subst hp <;> exact key (by rw [heq]; rfl)
  · intro hl hc e he
    have hcomp := validateAdditionalInfo_absent rawData hl hc
    have key : errorStep e = 10 → False := by
      intro hs
      have h := mem_validationStep rawData e 10 he hs
      have h2 : e ∈ validateAdditionalInfo rawData := h
      rw [hcomp] at h2
      cases h2
    refine ⟨?_, ?_⟩ <;> intro heq <;> exact key (by rw [heq]; rfl)
  · intro hl hc hrwa e he
    have hnot : isRWA (lookupField rawData "asset_class".toList "ac".toList).1 = false := by
      revert hrwa
      cases (lookupField rawData "asset_class".toList "ac".toList).1 <;> simp [isRWA]
    have hcomp := validateSubClass_absent rawData hl hc hnot
    have key : errorStep e = 8 → False := by
      intro hs
      have h := mem_validationStep rawData e 8 he hs
      have h2 : e ∈ validateSubClass rawData := h
      rw [hcomp] at h2
      cases h2
    refine ⟨?_, ?_, ?_⟩ <;> intro heq <;> exact key (by rw [heq]; rfl)

/-- The empty object of C20 on the concrete text layer ("0B" is hex for its one byte):
all five required fields are reported missing, each once. -/
theorem required_fields_witness :
    ValidateMPTokenMetadata stackJSON "0B".toList =
      [.ErrInvalidMPTokenMetadataMissingField "ticker".toList,
       .ErrInvalidMPTokenMetadataMissingField "name".toList,
       .ErrInvalidMPTokenMetadataMissingField "icon".toList,
       .ErrInvalidMPTokenMetadataMissingField "issuer_name".toList,
       .ErrInvalidMPTokenMetadataMissingField "asset_class".toList] ∧
    (ValidateMPTokenMetadata stackJSON "0B".toList).count
      (.ErrInvalidMPTokenMetadataMissingField "ticker".toList) = 1 :=
  ⟨(required_fields stackJSON "0B".toList [11] [] (by decide) (by decide) rfl).1
     (Or.inl rfl),
   (required_fields stackJSON "0B".toList [11] [] (by decide) (by decide) rfl).2.1
     ("ticker".toList, "t".toList) (by decide) rfl rfl⟩

/-! ## The map built from the struct -/

theorem toGoList_uriToJSON (us : List ParsedMPTokenMetadataURI) :
    toGoList (us.map uriToJSON) = us.map canonicalURI := by
  induction us with
  | nil => rfl
  | cons u us ih =>
    simp only [List.map_cons, toGoList, ih]
    rfl

theorem structToJSON_members (metadata : ParsedMPTokenMetadata)
    (hai : metadata.AdditionalInfo ≠ .unsupported) :
    ∃ members, structToJSON metadata = .ok (.object members) ∧
      toGoMembers members [] = canonicalMembers metadata := by
  obtain ⟨t, n, d, i, ac, as, inn, us, ai⟩ := metadata
  cases ai with
  | unsupported => exact absurd rfl hai
  | nil =>
    refine ⟨_, rfl, ?_⟩
    cases d <;> cases as <;> rcases us with _ | _ | ⟨u, us⟩ <;>
      simp only [canonicalMembers, optionalStringMember, urisMember, canonicalInfoMember,
        canonicalURIsMember, List.append_nil, List.nil_append, List.cons_append,
        List.singleton_append] <;>
      simp only [toGoMembers, toGoValue, toGoList_uriToJSON] <;> rfl
  | value v =>
    refine ⟨_, rfl, ?_⟩
    cases d <;> cases as <;> rcases us with _ | _ | ⟨u, us⟩ <;>
      simp only [canonicalMembers, optionalStringMember, urisMember, canonicalInfoMember,
        canonicalURIsMember, List.append_nil, List.nil_append, List.cons_append,
        List.singleton_append] <;>
      simp only [toGoMembers, toGoValue, toGoList_uriToJSON] <;> rfl

theorem structToJSON_unsupported (metadata : ParsedMPTokenMetadata)
    (hai : metadata.AdditionalInfo = .unsupported) :
    structToJSON metadata = .error .jsonUnsupportedValueError := by
  unfold structToJSON
  rw [hai]
  rfl

theorem compactURIEntry_canonicalURI (u : ParsedMPTokenMetadataURI) :
    compactURIEntry (canonicalURI u) = canonicalURI u := rfl

theorem map_compactURIEntry_canonicalURI (us : List ParsedMPTokenMetadataURI) :
    (us.map canonicalURI).map compactURIEntry = us.map canonicalURI := by
  induction us with
  | nil => rfl
  | cons u us ih => simp only [List.map_cons, ih, compactURIEntry_canonicalURI]

/-! ## Go's string order and maps -/

theorem keyLt_irrefl (a : List Char) : keyLt a a = false := by
  induction a with
  | nil => rfl
  | cons c cs ih => simp [keyLt, ih]

theorem keyLt_trans (a b c : List Char) (hab : keyLt a b = true) (hbc : keyLt b c = true) :
    keyLt a c = true := by
  induction a generalizing b c with
  | nil =>
    cases b with
    | nil => simp [keyLt] at hab
    | cons y ys =>
      cases c with
      | nil => simp [keyLt] at hbc
      | cons z zs => simp [keyLt]
  | cons x xs ih =>
    cases b with
    | nil => simp [keyLt] at hab
    | cons y ys =>
      cases c with
      | nil => simp [keyLt] at hbc
      | cons z zs =>
        simp only [keyLt, Bool.or_eq_true, Bool.and_eq_true, decide_eq_true_eq] at hab hbc ⊢
        rcases hab with hab | ⟨hab, hxs⟩
        · rcases hbc with hbc | ⟨hbc, _⟩
          · exact Or.inl (lt_trans hab hbc)
          · exact Or.inl (hbc ▸ hab)
        · rcases hbc with hbc | ⟨hbc, hys⟩
          · exact Or.inl (hab ▸ hbc)
          · exact Or.inr ⟨hab.trans hbc, ih ys zs hxs hys⟩

theorem keyLt_total (a b : List Char) (hab : keyLt a b = false) (hba : keyLt b a = false) :
    a = b := by
  induction a generalizing b with
  | nil =>
    cases b with
    | nil => rfl
    | cons y ys => simp [keyLt] at hab
  | cons x xs ih =>
    cases b with
    | nil => simp [keyLt] at hba
    | cons y ys =>
      simp only [keyLt, Bool.or_eq_false_iff, Bool.and_eq_false_imp, decide_eq_false_iff_not,
        decide_eq_true_eq] at hab hba
      have hxy : x = y := le_antisymm (not_lt.1 hba.1) (not_lt.1 hab.1)
      subst hxy
      rw [ih ys (hab.2 rfl) (hba.2 rfl)]

theorem keyLt_ne (a b : List Char) (h : keyLt a b = true) : a ≠ b := by
  intro hab
  subst hab
  rw [keyLt_irrefl] at h
  cases h

theorem keyLt_asymm (a b : List Char) (h : keyLt a b = true) : keyLt b a = false := by
  cases hba : keyLt b a with
  | false => rfl
  | true =>
    have := keyLt_trans a b a h hba
    rw [keyLt_irrefl] at this
    cases this

theorem keysAscending_cons (a : List Char) (l : List (List Char)) :
    keysAscending (a :: l) = true ↔ (∀ b ∈ l, keyLt a b = true) ∧ keysAscending l = true := by
  induction l generalizing a with
  | nil => simp [keysAscending]
  | cons b rest ih =>
    simp only [keysAscending, Bool.and_eq_true, List.mem_cons, forall_eq_or_imp]
    constructor
    · rintro ⟨hab, hrest⟩
      refine ⟨⟨hab, ?_⟩, hrest⟩
      intro c hc
      exact keyLt_trans a b c hab (((ih b).1 hrest).1 c hc)
    · rintro ⟨⟨hab, _⟩, hrest⟩
      exact ⟨hab, hrest⟩

theorem isGoMap_nil : IsGoMap [] := rfl

theorem isGoMap_cons (k : List Char) (v : JSONValue) (m : List (List Char × JSONValue)) :
    IsGoMap ((k, v) :: m) ↔ (∀ p ∈ m, keyLt k p.1 = true) ∧ IsGoMap m := by
  unfold IsGoMap
  rw [List.map_cons, keysAscending_cons]
  constructor
  · rintro ⟨h1, h2⟩
    exact ⟨fun p hp => h1 p.1 (List.mem_map_of_mem _ hp), h2⟩
  · rintro ⟨h1, h2⟩
    refine ⟨?_, h2⟩
    intro b hb
    obtain ⟨p, hp, rfl⟩ := List.mem_map.1 hb
    exact h1 p hp

theorem mapLookup_mapInsert (k : List Char) (v : JSONValue) (m : List (List Char × JSONValue))
    (k' : List Char) :
    mapLookup (mapInsert k v m) k' = if k' = k then some v else mapLookup m k' := by
  induction m with
  | nil => simp [mapInsert, mapLookup]
  | cons p rest ih =>
    obtain ⟨k0, v0⟩ := p
    simp only [mapInsert]
    split
    · simp [mapLookup]
    · split
      · rename_i hk
        subst hk
        simp only [mapLookup]
        by_cases h1 : k' = k
        · rw [if_pos h1, if_pos h1]
        · rw [if_neg h1, if_neg h1, if_neg h1]
      · rename_i hk
        simp only [mapLookup, ih]
        by_cases h1 : k' = k0
        · subst h1
          rw [if_pos rfl, if_neg (fun h => hk h.symm), if_pos rfl]
        · rw [if_neg h1, if_neg h1]

theorem mem_mapInsert (k : List Char) (v : JSONValue) (m : List (List Char × JSONValue))
    (p : List Char × JSONValue) (hp : p ∈ mapInsert k v m) : p = (k, v) ∨ p ∈ m := by
  induction m with
  | nil => simpa [mapInsert] using hp
  | cons q rest ih =>
    obtain ⟨k0, v0⟩ := q
    simp only [mapInsert] at hp
    split at hp
    · simpa using hp
    · split at hp
      · rcases List.mem_cons.1 hp with h | h
        · exact Or.inl h
        · exact Or.inr (List.mem_cons_of_mem _ h)
      · rcases List.mem_cons.1 hp with h | h
        · exact Or.inr (h ▸ List.mem_cons_self _ _)
        · rcases ih h with h | h
          · exact Or.inl h
          · exact Or.inr (List.mem_cons_of_mem _ h)

theorem isGoMap_mapInsert (k : List Char) (v : JSONValue) (m : List (List Char × JSONValue))
    (hm : IsGoMap m) : IsGoMap (mapInsert k v m) := by
  induction m with
  | nil =>
    simp [mapInsert, IsGoMap, keysAscending]
  | cons q rest ih =>
    obtain ⟨k0, v0⟩ := q
    have h0 := (isGoMap_cons k0 v0 rest).1 hm
    simp only [mapInsert]
    split
    · rename_i hlt
      rw [isGoMap_cons]
      refine ⟨?_, hm⟩
      intro p hp
      rcases List.mem_cons.1 hp with h | h
      · subst h
        exact hlt
      · exact keyLt_trans k k0 p.1 hlt (h0.1 p h)
    · split
      · rename_i hk
        subst hk
        rw [isGoMap_cons]
        exact h0
      · rename_i hnlt hk
        rw [isGoMap_cons]
        refine ⟨?_, ih h0.2⟩
        intro p hp
        rcases mem_mapInsert k v rest p hp with h | h
        · subst h
          cases hlt : keyLt k0 k with
          | true => rfl
          | false =>
            exact absurd (keyLt_total k k0 (by simpa using hnlt) hlt) hk
        · exact h0.1 p h

theorem mapLookup_eq_none_of_lt (m : List (List Char × JSONValue)) (k : List Char)
    (h : ∀ p ∈ m, keyLt k p.1 = true) : mapLookup m k = none := by
  induction m with
  | nil => rfl
  | cons q rest ih =>
    obtain ⟨k0, v0⟩ := q
    simp only [mapLookup]
    rw [if_neg (keyLt_ne k k0 (h (k0, v0) (List.mem_cons_self _ _)))]
    exact ih (fun p hp => h p (List.mem_cons_of_mem _ hp))

theorem mem_of_mapLookup (m : List (List Char × JSONValue)) (k : List Char) (v : JSONValue)
    (h : mapLookup m k = some v) : (k, v) ∈ m := by
  induction m with
  | nil => simp [mapLookup] at h
  | cons q rest ih =>
    obtain ⟨k0, v0⟩ := q
    simp only [mapLookup] at h
    split at h
    · rename_i hk
      subst hk
      simp only [Option.some.injEq] at h
      subst h
      exact List.mem_cons_self _ _
    · exact List.mem_cons_of_mem _ (ih h)

theorem mapLookup_of_mem (m : List (List Char × JSONValue)) (hm : IsGoMap m) (k : List Char)
    (v : JSONValue) (h : (k, v) ∈ m) : mapLookup m k = some v := by
  induction m with
  | nil => cases h
  | cons q rest ih =>
    obtain ⟨k0, v0⟩ := q
    have h0 := (isGoMap_cons k0 v0 rest).1 hm
    simp only [mapLookup]
    rcases List.mem_cons.1 h with h | h
    · injection h with h1 h2
      subst h1 h2
      rw [if_pos rfl]
    · rw [if_neg (fun hk => keyLt_ne k0 k (h0.1 (k, v) h) hk.symm)]
      exact ih h0.2 h

/-- Two Go maps with the same lookups are the same list. -/
theorem goMap_ext (m1 m2 : List (List Char × JSONValue)) (h1 : IsGoMap m1) (h2 : IsGoMap m2)
    (h : ∀ k, mapLookup m1 k = mapLookup m2 k) : m1 = m2 := by
  induction m1 generalizing m2 with
  | nil =>
    cases m2 with
    | nil => rfl
    | cons q rest =>
      have := h q.1
      simp [mapLookup] at this
  | cons p r1 ih =>
    obtain ⟨k1, v1⟩ := p
    cases m2 with
    | nil =>
      have := h k1
      simp [mapLookup] at this
    | cons q r2 =>
      obtain ⟨k2, v2⟩ := q
      have g1 := (isGoMap_cons k1 v1 r1).1 h1
      have g2 := (isGoMap_cons k2 v2 r2).1 h2
      have hk : k1 = k2 := by
        by_contra hne
        cases h12 : keyLt k1 k2 with
        | true =>
          have e1 := h k1
          rw [mapLookup, if_pos rfl, mapLookup, if_neg hne,
            mapLookup_eq_none_of_lt r2 k1
              (fun p hp => keyLt_trans k1 k2 p.1 h12 (g2.1 p hp))] at e1
          cases e1
        | false =>
          cases h21 : keyLt k2 k1 with
          | true =>
            have e1 := h k2
            rw [mapLookup, if_neg (fun hh => hne hh.symm),
              mapLookup_eq_none_of_lt r1 k2
                (fun p hp => keyLt_trans k2 k1 p.1 h21 (g1.1 p hp)),
              mapLookup, if_pos rfl] at e1
            cases e1
          | false => exact hne (keyLt_total k1 k2 h12 h21)
      subst hk
      have hv : v1 = v2 := by
        have e1 := h k1
        simpa [mapLookup] using e1
      subst hv
      have hr : r1 = r2 := by
        apply ih r2 g1.2 g2.2
        intro k
        by_cases hkk : k = k1
        · subst hkk
          rw [mapLookup_eq_none_of_lt r1 k g1.1, mapLookup_eq_none_of_lt r2 k g2.1]
        · have e1 := h k
          simpa [mapLookup, hkk] using e1
      rw [hr]

/-! ## Lookups after a sequence of insertions -/

theorem lastValue_append (a b : List (List Char × JSONValue)) (k : List Char) :
    lastValue (a ++ b) k = (lastValue b k).or (lastValue a k) := by
  induction a with
  | nil => simp [lastValue]
  | cons p rest ih =>
    obtain ⟨k0, v0⟩ := p
    change lastValue ((k0, v0) :: (rest ++ b)) k = _
    rw [lastValue, ih, lastValue, Option.or_assoc]

theorem mapLookup_foldl_insert (entries acc : List (List Char × JSONValue)) (k : List Char) :
    mapLookup (entries.foldl (fun r e => mapInsert e.1 e.2 r) acc) k =
      (lastValue entries k).or (mapLookup acc k) := by
  induction entries generalizing acc with
  | nil => simp [lastValue]
  | cons p rest ih =>
    obtain ⟨k0, v0⟩ := p
    simp only [List.foldl_cons, ih, lastValue, mapLookup_mapInsert]
    cases lastValue rest k with
    | some w => simp
    | none =>
      by_cases hk : k = k0
      · simp [hk]
      · simp [hk]

theorem isGoMap_foldl_insert (entries acc : List (List Char × JSONValue)) (h : IsGoMap acc) :
    IsGoMap (entries.foldl (fun r e => mapInsert e.1 e.2 r) acc) := by
  induction entries generalizing acc with
  | nil => exact h
  | cons p rest ih => exact ih _ (isGoMap_mapInsert _ _ _ h)

theorem toGoMembers_eq_foldl (members acc : List (List Char × JSONValue)) :
    toGoMembers members acc =
      (members.map (fun e => (e.1, toGoValue e.2))).foldl (fun r e => mapInsert e.1 e.2 r) acc := by
  induction members generalizing acc with
  | nil => rfl
  | cons p rest ih =>
    obtain ⟨k0, v0⟩ := p
    simp only [toGoMembers, List.map_cons, List.foldl_cons, ih]

theorem isGoMap_toGoMembers (members : List (List Char × JSONValue)) :
    IsGoMap (toGoMembers members []) := by
  rw [toGoMembers_eq_foldl]
  exact isGoMap_foldl_insert _ _ isGoMap_nil

theorem mapLookup_toGoMembers (members : List (List Char × JSONValue)) (k : List Char) :
    mapLookup (toGoMembers members []) k =
      lastValue (members.map (fun e => (e.1, toGoValue e.2))) k := by
  rw [toGoMembers_eq_foldl, mapLookup_foldl_insert]
  cases lastValue (members.map (fun e => (e.1, toGoValue e.2))) k <;> simp [mapLookup]

theorem compactKeysStep_eq (input : List (List Char × JSONValue))
    (mapping : List (List Char × List Char)) (result : List (List Char × JSONValue))
    (entry : List Char × JSONValue) :
    compactKeysStep input mapping result entry =
      mapInsert (compactTarget input mapping entry.1) entry.2 result := by
  unfold compactKeysStep compactTarget
  cases mappingLookup mapping entry.1 with
  | none => rfl
  | some c =>
    simp only
    split <;> rfl

theorem compactKeys_eq_foldl (input : List (List Char × JSONValue))
    (mapping : List (List Char × List Char)) :
    compactKeys input mapping =
      (input.map (fun e => (compactTarget input mapping e.1, e.2))).foldl
        (fun r e => mapInsert e.1 e.2 r) [] := by
  unfold compactKeys
  rw [List.foldl_map]
  congr 1
  funext r e
  exact compactKeysStep_eq input mapping r e

theorem isGoMap_compactKeys (input : List (List Char × JSONValue))
    (mapping : List (List Char × List Char)) : IsGoMap (compactKeys input mapping) := by
  rw [compactKeys_eq_foldl]
  exact isGoMap_foldl_insert _ _ isGoMap_nil

theorem mapLookup_compactKeys (input : List (List Char × JSONValue))
    (mapping : List (List Char × List Char)) (k : List Char) :
    mapLookup (compactKeys input mapping) k =
      lastValue (input.map (fun e => (compactTarget input mapping e.1, e.2))) k := by
  rw [compactKeys_eq_foldl, mapLookup_foldl_insert]
  cases lastValue (input.map (fun e => (compactTarget input mapping e.1, e.2))) k <;>
    simp [mapLookup]

theorem lastValue_eq_none_of_forall_ne (m : List (List Char × JSONValue)) (k : List Char)
    (h : ∀ p ∈ m, p.1 ≠ k) : lastValue m k = none := by
  induction m with
  | nil => rfl
  | cons q rest ih =>
    obtain ⟨k0, v0⟩ := q
    simp only [lastValue]
    rw [ih (fun p hp => h p (List.mem_cons_of_mem _ hp)),
      if_neg (fun hk => h (k0, v0) (List.mem_cons_self _ _) hk.symm)]
    rfl

/-- In a Go map every key occurs once, so the last value of a key is its value. -/
theorem lastValue_eq_mapLookup (m : List (List Char × JSONValue)) (hm : IsGoMap m)
    (k : List Char) : lastValue m k = mapLookup m k := by
  induction m with
  | nil => rfl
  | cons q rest ih =>
    obtain ⟨k0, v0⟩ := q
    have h0 := (isGoMap_cons k0 v0 rest).1 hm
    simp only [lastValue, mapLookup]
    by_cases hk : k = k0
    · subst hk
      rw [if_pos rfl, if_pos rfl, ih h0.2, mapLookup_eq_none_of_lt rest k h0.1]
      rfl
    · rw [if_neg hk, if_neg hk, ih h0.2]
      cases mapLookup rest k <;> rfl

theorem lastValue_isSome_iff (m : List (List Char × JSONValue)) (k : List Char) :
    (lastValue m k).isSome = true ↔ k ∈ m.map Prod.fst := by
  induction m with
  | nil => simp [lastValue]
  | cons q rest ih =>
    obtain ⟨k0, v0⟩ := q
    simp only [lastValue, List.map_cons, List.mem_cons]
    cases h : lastValue rest k with
    | some w =>
      exact ⟨fun _ => Or.inr (ih.1 (by rw [h]; rfl)), fun _ => rfl⟩
    | none =>
      have hn : k ∉ rest.map Prod.fst := fun hm => by
        have := ih.2 hm
        rw [h] at this
        cases this
      by_cases hk : k = k0
      · rw [if_pos hk]
        exact ⟨fun _ => Or.inl hk, fun _ => rfl⟩
      · rw [if_neg hk]
        constructor
        · intro h2
          cases h2
        · rintro (h2 | h2)
          · exact absurd h2 hk
          · exact absurd h2 hn

theorem mapHas_iff_mem_keys (m : List (List Char × JSONValue)) (hm : IsGoMap m)
    (k : List Char) : mapHas m k = true ↔ k ∈ m.map Prod.fst := by
  unfold mapHas
  rw [← lastValue_eq_mapLookup m hm k]
  exact lastValue_isSome_iff m k

/-! ## Key compaction of a map without long keys -/

theorem compactKeys_of_no_long (m : List (List Char × JSONValue))
    (mapping : List (List Char × List Char)) (hm : IsGoMap m)
    (h : ∀ p ∈ m, mappingLookup mapping p.1 = none) : compactKeys m mapping = m := by
  apply goMap_ext _ _ (isGoMap_compactKeys m mapping) hm
  intro k
  rw [mapLookup_compactKeys]
  have hmap : m.map (fun e => (compactTarget m mapping e.1, e.2)) = m := by
    conv_rhs => rw [← List.map_id m]
    apply List.map_congr_left
    intro e he
    simp only [compactTarget, h e he, id]
  rw [hmap, lastValue_eq_mapLookup m hm]

theorem mapInsert_of_mapLookup (m : List (List Char × JSONValue)) (hm : IsGoMap m)
    (k : List Char) (v : JSONValue) (h : mapLookup m k = some v) : mapInsert k v m = m := by
  apply goMap_ext _ _ (isGoMap_mapInsert k v m hm) hm
  intro k'
  rw [mapLookup_mapInsert]
  by_cases hk : k' = k
  · rw [if_pos hk, hk, h]
  · rw [if_neg hk]

/-- The compact keys in ascending order. -/
theorem canonicalMembers_keys (metadata : ParsedMPTokenMetadata) :
    IsGoMap (canonicalMembers metadata) ∧
    ((canonicalMembers metadata).map Prod.fst).all
      (fun k => ["ac".toList, "ai".toList, "as".toList, "d".toList, "i".toList, "in".toList,
        "n".toList, "t".toList, "us".toList].contains k) = true := by
  obtain ⟨t, n, d, i, ac, as, inn, us, ai⟩ := metadata
  cases d <;> cases as <;> rcases us with _ | _ | ⟨u, us⟩ <;> cases ai <;> exact ⟨rfl, rfl⟩

theorem canonicalMembers_no_long (metadata : ParsedMPTokenMetadata) :
    ∀ p ∈ canonicalMembers metadata, mappingLookup mptTokenMetadataFieldMap p.1 = none := by
  intro p hp
  have h := (canonicalMembers_keys metadata).2
  rw [List.all_eq_true] at h
  have h2 := h p.1 (List.mem_map_of_mem _ hp)
  simp only [List.contains_eq_any_beq, List.any_cons, List.any_nil, Bool.or_false, Bool.or_eq_true, beq_iff_eq, List.mem_cons, List.mem_singleton, List.not_mem_nil,
    or_false, List.elem_eq_mem, decide_eq_true_eq] at h2
  rcases h2 with h2 | h2 | h2 | h2 | h2 | h2 | h2 | h2 | h2 <;> rw [h2] <;> rfl

theorem compactKeys_canonicalMembers (metadata : ParsedMPTokenMetadata) :
    compactKeys (canonicalMembers metadata) mptTokenMetadataFieldMap =
      canonicalMembers metadata :=
  compactKeys_of_no_long _ _ (canonicalMembers_keys metadata).1
    (canonicalMembers_no_long metadata)

theorem mapLookup_us_canonicalMembers (metadata : ParsedMPTokenMetadata) :
    mapLookup (canonicalMembers metadata) "us".toList =
      (canonicalURIsMember metadata.URIs).head?.map Prod.snd := by
  obtain ⟨t, n, d, i, ac, as, inn, us, ai⟩ := metadata
  cases d <;> cases as <;> rcases us with _ | _ | ⟨u, us⟩ <;> cases ai <;> rfl

theorem compactNestedURIs_canonicalMembers (metadata : ParsedMPTokenMetadata) :
    compactNestedURIs (canonicalMembers metadata) = canonicalMembers metadata := by
  have hl := mapLookup_us_canonicalMembers metadata
  unfold compactNestedURIs
  rcases hu : metadata.URIs with _ | _ | ⟨u, us⟩
  · rw [hu] at hl
    rw [hl]
    rfl
  · rw [hu] at hl
    rw [hl]
    rfl
  · rw [hu] at hl
    have hl2 : mapLookup (canonicalMembers metadata) "us".toList =
        some (.array (canonicalURI u :: us.map canonicalURI)) := by
      rw [hl]
      rfl
    rw [hl2]
    simp only
    have hmap : (canonicalURI u :: us.map canonicalURI).map compactURIEntry =
        canonicalURI u :: us.map canonicalURI :=
      map_compactURIEntry_canonicalURI (u :: us)
    rw [hmap]
    exact mapInsert_of_mapLookup _ (canonicalMembers_keys metadata).1 _ _ hl2

/-! ## Hexadecimal text -/

theorem fromHexChar_upper_digit :
    ∀ d, d < 16 → fromHexChar (Char.toUpper (Nat.digitChar d)) = some d := by
  decide

theorem upper_digit_mem :
    ∀ d, d < 16 → Char.toUpper (Nat.digitChar d) ∈ "0123456789ABCDEF".toList := by
  decide

theorem hexDecodeString_upper_encode (b : List Nat) (hb : ∀ x ∈ b, x < 256) :
    hexDecodeString (stringsToUpper (hexEncodeToString b)) = some b := by
  induction b with
  | nil => rfl
  | cons x rest ih =>
    have hx : x < 256 := hb x (List.mem_cons_self _ _)
    have ih2 := ih (fun y hy => hb y (List.mem_cons_of_mem _ hy))
    unfold stringsToUpper at ih2 ⊢
    simp only [hexEncodeToString, List.map_cons, hexDecodeString]
    rw [fromHexChar_upper_digit (x / 16) (by omega),
      fromHexChar_upper_digit (x % 16) (Nat.mod_lt _ (by omega)), ih2]
    simp only
    congr 2
    omega

theorem upper_encode_chars (b : List Nat) (hb : ∀ x ∈ b, x < 256) :
    ∀ c ∈ stringsToUpper (hexEncodeToString b), c ∈ "0123456789ABCDEF".toList := by
  induction b with
  | nil =>
    intro c hc
    cases hc
  | cons x rest ih =>
    have hx : x < 256 := hb x (List.mem_cons_self _ _)
    have ih2 := ih (fun y hy => hb y (List.mem_cons_of_mem _ hy))
    unfold stringsToUpper at ih2 ⊢
    intro c hc
    simp only [hexEncodeToString, List.map_cons, List.mem_cons] at hc
    rcases hc with hc | hc | hc
    · rw [hc]
      exact upper_digit_mem (x / 16) (by omega)
    · rw [hc]
      exact upper_digit_mem (x % 16) (Nat.mod_lt _ (by omega))
    · exact ih2 c hc

/-! ## What EncodeMPTokenMetadata writes -/

theorem jsonUnmarshalMap_print_struct (T : JSONText) (hT : T.Lawful)
    (metadata : ParsedMPTokenMetadata) (hai : metadata.AdditionalInfo ≠ .unsupported) :
    ∃ bytes, jsonMarshalStruct T metadata = .ok bytes ∧
      jsonUnmarshalMap T bytes = some (canonicalMembers metadata) := by
  obtain ⟨members, hdoc, hgo⟩ := structToJSON_members metadata hai
  refine ⟨T.print (.object members), ?_, ?_⟩
  · unfold jsonMarshalStruct
    rw [hdoc]
  · rw [jsonUnmarshalMap_object T _ members (hT.2 _), hgo]

theorem EncodeMPTokenMetadata_eq (T : JSONText) (hT : T.Lawful)
    (metadata : ParsedMPTokenMetadata) (hai : metadata.AdditionalInfo ≠ .unsupported) :
    EncodeMPTokenMetadata T metadata =
      .ok (stringsToUpper (hexEncodeToString
        (T.print (.object (canonicalMembers metadata))))) := by
  obtain ⟨bytes, hbytes, hmap⟩ := jsonUnmarshalMap_print_struct T hT metadata hai
  unfold EncodeMPTokenMetadata
  simp only [hbytes, hmap, jsonMarshalMap, compactKeys_canonicalMembers,
    compactNestedURIs_canonicalMembers]

theorem EncodeMPTokenMetadata_unsupported (T : JSONText) (metadata : ParsedMPTokenMetadata)
    (hai : metadata.AdditionalInfo = .unsupported) :
    EncodeMPTokenMetadata T metadata = .error .jsonUnsupportedValueError := by
  unfold EncodeMPTokenMetadata jsonMarshalStruct
  rw [structToJSON_unsupported metadata hai]

theorem DecodeMPTokenMetadata_of_map (T : JSONText) (hT : T.Lawful) (hexInput : List Char)
    (bytes : List Nat) (rawMap : List (List Char × JSONValue))
    (hhex : hexDecodeString hexInput = some bytes)
    (hmap : jsonUnmarshalMap T bytes = some rawMap) :
    DecodeMPTokenMetadata T hexInput =
      decodeStruct (.object (compactNestedURIs (compactKeys rawMap mptTokenMetadataFieldMap))) := by
  unfold DecodeMPTokenMetadata
  simp only [hhex, hmap, jsonMarshalMap, jsonUnmarshalStruct, hT.2]

/-! ## Decoding what EncodeMPTokenMetadata wrote -/

theorem goString_jsonCoerce (s : List GoChar) (h : utf8ValidString s = true) :
    goString (jsonCoerce s) = s := by
  induction s with
  | nil => rfl
  | cons c rest ih =>
    cases c with
    | rune r =>
      simp only [utf8ValidString] at h
      simp only [jsonCoerce, goString, ih h]
    | invalid b => simp [utf8ValidString] at h

theorem decodeStructMember_ac (r : ParsedMPTokenMetadata) (s : List Char) :
    decodeStructMember r "ac".toList (.string s) = .ok { r with AssetClass := goString s } :=
  rfl

theorem decodeStructMember_ai (r : ParsedMPTokenMetadata) (v : JSONValue) :
    decodeStructMember r "ai".toList v = .ok { r with AdditionalInfo := unmarshalAny v } :=
  rfl

theorem unmarshalAny_of_unmarshalled (v : JSONValue) (h : IsUnmarshalledAny (.value v)) :
    unmarshalAny (toGoValue v) = .value v := by
  cases v with
  | null => exact absurd h (by simp [IsUnmarshalledAny])
  | bool b => rfl
  | number n => rfl
  | string s => rfl
  | array items =>
    have h2 : toGoValue (.array items) = .array items := h
    rw [h2]
    simp only [unmarshalAny, h2]
  | object members =>
    have h2 : toGoValue (.object members) = .object members := h
    rw [h2]
    simp only [unmarshalAny, h2]

theorem decodeStructMember_as (r : ParsedMPTokenMetadata) (s : List Char) :
    decodeStructMember r "as".toList (.string s) =
      .ok { r with AssetSubclass := some (goString s) } :=
  rfl

theorem decodeStructMember_d (r : ParsedMPTokenMetadata) (s : List Char) :
    decodeStructMember r "d".toList (.string s) = .ok { r with Desc := some (goString s) } :=
  rfl

theorem decodeStructMember_i (r : ParsedMPTokenMetadata) (s : List Char) :
    decodeStructMember r "i".toList (.string s) = .ok { r with Icon := goString s } :=
  rfl

theorem decodeStructMember_in (r : ParsedMPTokenMetadata) (s : List Char) :
    decodeStructMember r "in".toList (.string s) = .ok { r with IssuerName := goString s } :=
  rfl

theorem decodeStructMember_n (r : ParsedMPTokenMetadata) (s : List Char) :
    decodeStructMember r "n".toList (.string s) = .ok { r with Name := goString s } :=
  rfl

theorem decodeStructMember_t (r : ParsedMPTokenMetadata) (s : List Char) :
    decodeStructMember r "t".toList (.string s) = .ok { r with Ticker := goString s } :=
  rfl

theorem decodeStructMember_us (r : ParsedMPTokenMetadata) (v : JSONValue) :
    decodeStructMember r "us".toList v =
      (match decodeURIsField r.URIs v with
       | .ok us => .ok { r with URIs := us }
       | .error e => .error e) :=
  rfl

theorem decodeURI_canonicalURI (cur u : ParsedMPTokenMetadataURI) :
    decodeURI cur (canonicalURI u) =
      .ok ⟨goString (jsonCoerce u.URI), goString (jsonCoerce u.Category),
        goString (jsonCoerce u.Title)⟩ :=
  rfl

theorem decodeURIList_canonicalURI (us cur : List ParsedMPTokenMetadataURI)
    (h : us.all uriValidUTF8 = true) :
    decodeURIList (us.map canonicalURI) cur = .ok us := by
  induction us generalizing cur with
  | nil => rfl
  | cons u rest ih =>
    simp only [List.all_cons, Bool.and_eq_true, uriValidUTF8] at h
    obtain ⟨⟨⟨h1, h2⟩, h3⟩, hrest⟩ := h
    simp only [List.map_cons, decodeURIList, decodeURI_canonicalURI, ih _ hrest,
      goString_jsonCoerce _ h1, goString_jsonCoerce _ h2, goString_jsonCoerce _ h3]

theorem toGoList_canonicalURI (us : List ParsedMPTokenMetadataURI) :
    toGoList (us.map canonicalURI) = us.map canonicalURI := by
  induction us with
  | nil => rfl
  | cons u us ih =>
    simp only [List.map_cons, toGoList, ih]
    rfl

/-- Decoding the canonical members gives back the struct. -/
theorem decodeStructMembers_canonicalMembers (metadata : ParsedMPTokenMetadata)
    (hutf : metadataValidUTF8 metadata = true)
    (hai : IsUnmarshalledAny metadata.AdditionalInfo)
    (hus : metadata.URIs ≠ some []) :
    decodeStructMembers (canonicalMembers metadata) zeroParsedMPTokenMetadata =
      .ok metadata := by
  obtain ⟨t, n, d, i, ac, as, inn, us, ai⟩ := metadata
  simp only [metadataValidUTF8, Bool.and_eq_true] at hutf
  obtain ⟨⟨⟨⟨⟨⟨⟨h1, h2⟩, h3⟩, h4⟩, h5⟩, h6⟩, h7⟩, h8⟩ := hutf
  simp only at hai hus
  simp only [canonicalMembers]
  rcases ai with _ | v | _
  · cases d <;> cases as <;> rcases us with _ | _ | ⟨u, us⟩ <;>
      first
      | exact absurd rfl hus
      | (simp only [Option.getD_some, Option.getD_none] at h8
         simp only [optionalStringMember, canonicalInfoMember,
            canonicalURIsMember, List.append_nil, List.nil_append, List.cons_append,
            List.singleton_append, decodeStructMembers, decodeStructMember_ac,
            decodeStructMember_as, decodeStructMember_d,
            decodeStructMember_i, decodeStructMember_in, decodeStructMember_n,
            decodeStructMember_t, decodeStructMember_us, decodeURIsField,
            zeroParsedMPTokenMetadata, Option.getD_none, Option.getD_some, optionalValidUTF8,
            decodeURIList_canonicalURI _ _ h8, goString_jsonCoerce _ h1,
            goString_jsonCoerce _ h2, goString_jsonCoerce _ h4, goString_jsonCoerce _ h5,
            goString_jsonCoerce _ h7] <;>
          (try simp only [optionalValidUTF8] at h3 h6) <;>
          (try simp only [goString_jsonCoerce _ h3]) <;>
          (try simp only [goString_jsonCoerce _ h6]))
  · have hv := unmarshalAny_of_unmarshalled v hai
    cases d <;> cases as <;> rcases us with _ | _ | ⟨u, us⟩ <;>
      first
      | exact absurd rfl hus
      | (simp only [Option.getD_some, Option.getD_none] at h8
         simp only [optionalStringMember, canonicalInfoMember,
            canonicalURIsMember, List.append_nil, List.nil_append, List.cons_append,
            List.singleton_append, decodeStructMembers, decodeStructMember_ac,
            decodeStructMember_ai, hv, decodeStructMember_as, decodeStructMember_d,
            decodeStructMember_i, decodeStructMember_in, decodeStructMember_n,
            decodeStructMember_t, decodeStructMember_us, decodeURIsField,
            zeroParsedMPTokenMetadata, Option.getD_none, Option.getD_some, optionalValidUTF8,
            decodeURIList_canonicalURI _ _ h8, goString_jsonCoerce _ h1,
            goString_jsonCoerce _ h2, goString_jsonCoerce _ h4, goString_jsonCoerce _ h5,
            goString_jsonCoerce _ h7] <;>
          (try simp only [optionalValidUTF8] at h3 h6) <;>
          (try simp only [goString_jsonCoerce _ h3]) <;>
          (try simp only [goString_jsonCoerce _ h6]))
  · exact absurd hai (by simp [IsUnmarshalledAny])

/-! ## Metadata round trip and canonical encoding -/

theorem toGoMembers_of_goMap (m : List (List Char × JSONValue)) (hm : IsGoMap m)
    (h : ∀ p ∈ m, toGoValue p.2 = p.2) : toGoMembers m [] = m := by
  apply goMap_ext _ _ (isGoMap_toGoMembers m) hm
  intro k
  rw [mapLookup_toGoMembers]
  have hmap : m.map (fun e => (e.1, toGoValue e.2)) = m := by
    conv_rhs => rw [← List.map_id m]
    apply List.map_congr_left
    intro e he
    simp only [h e he, id]
  rw [hmap, lastValue_eq_mapLookup m hm]

theorem toGoValue_of_unmarshalled (v : JSONValue) (h : IsUnmarshalledAny (.value v)) :
    toGoValue v = v := by
  cases v with
  | null => rfl
  | bool b => rfl
  | number n => rfl
  | string s => rfl
  | array items => exact h
  | object members => exact h

theorem canonicalInfoMember_mem (a : GoAny) (ha : IsUnmarshalledAny a)
    (p : List Char × JSONValue) (h : p ∈ canonicalInfoMember a) : toGoValue p.2 = p.2 := by
  cases a with
  | nil => cases h
  | unsupported => cases h
  | value v =>
    have hv := toGoValue_of_unmarshalled v ha
    simp only [canonicalInfoMember, List.mem_singleton] at h
    rw [h]
    simp only [hv]

theorem canonicalMembers_values (metadata : ParsedMPTokenMetadata)
    (hai : IsUnmarshalledAny metadata.AdditionalInfo) :
    ∀ p ∈ canonicalMembers metadata, toGoValue p.2 = p.2 := by
  intro p hp
  simp only [canonicalMembers, List.mem_append, List.mem_cons, List.mem_singleton,
    List.not_mem_nil, or_false] at hp
  rcases hp with ((((hp | hp) | hp) | hp) | hp) | hp
  · rw [hp]
    rfl
  · exact canonicalInfoMember_mem _ hai p hp
  · cases hs : metadata.AssetSubclass with
    | none => simp [hs, optionalStringMember] at hp
    | some s =>
      simp only [hs, optionalStringMember, List.mem_singleton] at hp
      rw [hp]
      rfl
  · cases hs : metadata.Desc with
    | none => simp [hs, optionalStringMember] at hp
    | some s =>
      simp only [hs, optionalStringMember, List.mem_singleton] at hp
      rw [hp]
      rfl
  · rcases hp with hp | hp | hp | hp <;> rw [hp] <;> rfl
  · rcases hs : metadata.URIs with _ | _ | ⟨u, us⟩
    · simp [hs, canonicalURIsMember] at hp
    · simp [hs, canonicalURIsMember] at hp
    · simp only [hs, canonicalURIsMember, List.mem_singleton] at hp
      rw [hp]
      simp only [toGoValue, toGoList_canonicalURI]

theorem isUnmarshalledAny_supported (a : GoAny) (h : IsUnmarshalledAny a) :
    a ≠ .unsupported := by
  intro ha
  rw [ha] at h
  exact h

theorem DecodeMPTokenMetadata_encoded (T : JSONText) (hT : T.Lawful)
    (metadata : ParsedMPTokenMetadata)
    (hai : IsUnmarshalledAny metadata.AdditionalInfo) :
    DecodeMPTokenMetadata T (stringsToUpper (hexEncodeToString
        (T.print (.object (canonicalMembers metadata))))) =
      decodeStructMembers (canonicalMembers metadata) zeroParsedMPTokenMetadata := by
  have hhex := hexDecodeString_upper_encode _ (hT.1 (.object (canonicalMembers metadata)))
  have hmap : jsonUnmarshalMap T (T.print (.object (canonicalMembers metadata))) =
      some (canonicalMembers metadata) := by
    rw [jsonUnmarshalMap_object T _ _ (hT.2 _),
      toGoMembers_of_goMap _ (canonicalMembers_keys metadata).1
        (canonicalMembers_values metadata hai)]
  rw [DecodeMPTokenMetadata_of_map T hT _ _ _ hhex hmap, compactKeys_canonicalMembers,
    compactNestedURIs_canonicalMembers]
  rfl

/-- C15, as stated, fails for a string that is not valid UTF-8: `json.Marshal` replaces
the byte 0xFF of the ticker by U+FFFD, so decoding the encoded value succeeds but returns
a different ticker, although `AdditionalInfo` and `URIs` are `nil`. -/
theorem metadata_round_trip_counterexample :
    invalidTickerMetadata.AdditionalInfo = .nil ∧ invalidTickerMetadata.URIs = none ∧
    ∃ h, EncodeMPTokenMetadata stackJSON invalidTickerMetadata = .ok h ∧
      DecodeMPTokenMetadata stackJSON h =
        .ok { invalidTickerMetadata with Ticker := [.rune (Char.ofNat 0xFFFD)] } ∧
      [GoChar.rune (Char.ofNat 0xFFFD)] ≠ invalidTickerMetadata.Ticker :=
  ⟨rfl, rfl, _, rfl, rfl, by decide⟩

/-- C15, amended: MPToken metadata round trip. For every `ParsedMPTokenMetadata` value
whose strings are all valid UTF-8, whose `AdditionalInfo` is `nil` or JSON data as
`json.Unmarshal` produces it (a string, a `map[string]any`, and so on), and whose `URIs`
list is `nil` or non-empty, `EncodeMPTokenMetadata` succeeds with a hex string `h`, and
`DecodeMPTokenMetadata h` succeeds and returns the same value, field by field. -/
theorem metadata_round_trip (T : JSONText) (hT : T.Lawful) (metadata : ParsedMPTokenMetadata)
    (hutf : metadataValidUTF8 metadata = true)
    (hai : IsUnmarshalledAny metadata.AdditionalInfo)
    (hus : metadata.URIs ≠ some []) :
    ∃ h, EncodeMPTokenMetadata T metadata = .ok h ∧
      DecodeMPTokenMetadata T h = .ok metadata := by
  refine ⟨_, EncodeMPTokenMetadata_eq T hT metadata (isUnmarshalledAny_supported _ hai), ?_⟩
  rw [DecodeMPTokenMetadata_encoded T hT metadata hai]
  exact decodeStructMembers_canonicalMembers metadata hutf hai hus

/-- The round trip of C15 on the concrete text layer, for a value with every field
set. -/
theorem metadata_round_trip_witness :
    ∃ h, EncodeMPTokenMetadata stackJSON exampleMetadata = .ok h ∧
      DecodeMPTokenMetadata stackJSON h = .ok exampleMetadata :=
  metadata_round_trip stackJSON stackJSON_lawful exampleMetadata (by decide) rfl (by decide)

/-- C16 as stated fails for a value whose `AdditionalInfo` holds something that
`json.Marshal` cannot write (a channel, a func, a NaN): `EncodeMPTokenMetadata` returns
the error of `json.Marshal` and the empty string, which is not the hexadecimal text of a
JSON object. -/
theorem canonical_encoding_counterexample :
    unsupportedInfoMetadata.AdditionalInfo = .unsupported ∧
    EncodeMPTokenMetadata stackJSON unsupportedInfoMetadata = .error .jsonUnsupportedValueError ∧
    encodedText (EncodeMPTokenMetadata stackJSON unsupportedInfoMetadata) = [] ∧
    hexDecodeString (encodedText (EncodeMPTokenMetadata stackJSON unsupportedInfoMetadata)) =
      some [] ∧
    jsonUnmarshalMap stackJSON [] = none :=
  ⟨rfl, rfl, rfl, rfl, rfl⟩

/-- C16, amended: canonical metadata encoding. For every `ParsedMPTokenMetadata` value
whose `AdditionalInfo` is `nil` or a value that gets through `encoding/json`
(`json.Marshal` writes it and `json.Unmarshal` reads the text back),
`EncodeMPTokenMetadata` returns the upper-case hexadecimal text of the JSON object with
the members `canonicalMembers`, which are a function of the field values alone; for every
other value it returns the error of the library. The keys of these members are strictly
ascending and are all among the compact keys ac, ai, as, d, i, in, n, t, us; none is a
long key; and the value under us is an array of objects that each have exactly the keys
c, t, u, in this order. -/
theorem canonical_encoding (T : JSONText) (hT : T.Lawful) (metadata : ParsedMPTokenMetadata) :
    (metadata.AdditionalInfo ≠ .unsupported →
      EncodeMPTokenMetadata T metadata =
        .ok (stringsToUpper (hexEncodeToString
          (T.print (.object (canonicalMembers metadata)))))) ∧
    (metadata.AdditionalInfo = .unsupported →
      EncodeMPTokenMetadata T metadata = .error .jsonUnsupportedValueError) ∧
    hexDecodeString (stringsToUpper (hexEncodeToString
        (T.print (.object (canonicalMembers metadata))))) =
      some (T.print (.object (canonicalMembers metadata))) ∧
    (∀ c ∈ stringsToUpper (hexEncodeToString (T.print (.object (canonicalMembers metadata)))),
      c ∈ "0123456789ABCDEF".toList) ∧
    IsGoMap (canonicalMembers metadata) ∧
    (∀ k ∈ (canonicalMembers metadata).map Prod.fst,
      k ∈ ["ac".toList, "ai".toList, "as".toList, "d".toList, "i".toList, "in".toList,
        "n".toList, "t".toList, "us".toList] ∧
      ∀ p ∈ mptTokenMetadataFieldMap, k ≠ p.1) ∧
    (∀ v, mapLookup (canonicalMembers metadata) "us".toList = some v →
      ∃ items, v = .array items ∧ ∀ item ∈ items, ∃ c t u,
        item = .object [("c".toList, .string c), ("t".toList, .string t),
          ("u".toList, .string u)]) := by
  refine ⟨EncodeMPTokenMetadata_eq T hT metadata,
    EncodeMPTokenMetadata_unsupported T metadata,
    hexDecodeString_upper_encode _ (hT.1 _), upper_encode_chars _ (hT.1 _),
    (canonicalMembers_keys metadata).1, ?_, ?_⟩
  · intro k hk
    have h := (canonicalMembers_keys metadata).2
    rw [List.all_eq_true] at h
    have h2 := h k hk
    simp only [List.contains_eq_any_beq, List.any_cons, List.any_nil, Bool.or_false,
      Bool.or_eq_true, beq_iff_eq] at h2
    refine ⟨by simpa only [List.mem_cons, List.mem_singleton, List.not_mem_nil, or_false]
      using h2, ?_⟩
    intro p hp
    simp only [mptTokenMetadataFieldMap, List.mem_cons, List.mem_singleton, List.not_mem_nil,
      or_false] at hp
    rcases h2 with h2 | h2 | h2 | h2 | h2 | h2 | h2 | h2 | h2 <;>
      rcases hp with hp | hp | hp | hp | hp | hp | hp | hp | hp <;>
      rw [h2, hp] <;> decide
  · intro v hv
    rw [mapLookup_us_canonicalMembers] at hv
    rcases hs : metadata.URIs with _ | _ | ⟨u, us⟩
    · rw [hs] at hv
      cases hv
    · rw [hs] at hv
      cases hv
    · rw [hs] at hv
      simp only [canonicalURIsMember, List.head?_cons, Option.map_some', Option.some.injEq] at hv
      refine ⟨_, hv.symm, ?_⟩
      intro item hitem
      obtain ⟨w, _, hw⟩ := List.mem_map.1 hitem
      exact ⟨_, _, _, hw.symm⟩

/-- The encoding of C16 on the concrete text layer, for a value with every field set,
whose `AdditionalInfo` is a map that `json.Marshal` can write. -/
theorem canonical_encoding_witness :
    stackJSON.Lawful ∧
    exampleMetadata.AdditionalInfo ≠ .unsupported ∧
    EncodeMPTokenMetadata stackJSON exampleMetadata =
      .ok (stringsToUpper (hexEncodeToString
        (stackJSON.print (.object (canonicalMembers exampleMetadata))))) :=
  ⟨stackJSON_lawful, (fun h => by cases h),
    (canonical_encoding stackJSON stackJSON_lawful exampleMetadata).1 (fun h => by cases h)⟩

/-! ## Renaming the keys of a document -/

theorem mem_of_mappingLookup (mapping : List (List Char × List Char)) (k c : List Char)
    (h : mappingLookup mapping k = some c) : (k, c) ∈ mapping := by
  induction mapping with
  | nil => cases h
  | cons p rest ih =>
    obtain ⟨long, compact⟩ := p
    simp only [mappingLookup] at h
    split at h
    · rename_i hk
      subst hk
      simp only [Option.some.injEq] at h
      subst h
      exact List.mem_cons_self _ _
    · exact List.mem_cons_of_mem _ (ih h)

theorem mappingLookup_isSome_of_mem (mapping : List (List Char × List Char))
    (p : List Char × List Char) (hp : p ∈ mapping) :
    (mappingLookup mapping p.1).isSome = true := by
  induction mapping with
  | nil => cases hp
  | cons q rest ih =>
    obtain ⟨long, compact⟩ := q
    simp only [mappingLookup]
    split
    · rfl
    · rename_i hk
      rcases List.mem_cons.1 hp with h | h
      · exact absurd (by rw [h]) hk
      · exact ih h

theorem lastValue_map_value (l : List (List Char × JSONValue))
    (f : List Char → JSONValue → JSONValue) (k : List Char) :
    lastValue (l.map (fun e => (e.1, f e.1 e.2))) k = (lastValue l k).map (f k) := by
  induction l with
  | nil => rfl
  | cons p rest ih =>
    obtain ⟨k0, v0⟩ := p
    simp only [List.map_cons, lastValue, ih]
    cases lastValue rest k with
    | some w => rfl
    | none =>
      by_cases hk : k = k0
      · subst hk
        simp
      · simp [hk]

theorem mem_of_lastValue (l : List (List Char × JSONValue)) (k : List Char) (v : JSONValue)
    (h : lastValue l k = some v) : (k, v) ∈ l := by
  induction l with
  | nil => cases h
  | cons p rest ih =>
    obtain ⟨k0, v0⟩ := p
    simp only [lastValue] at h
    cases hr : lastValue rest k with
    | some w =>
      rw [hr] at h
      have h2 : some w = some v := h
      simp only [Option.some.injEq] at h2
      subst h2
      exact List.mem_cons_of_mem _ (ih hr)
    | none =>
      rw [hr] at h
      have h2 : (if k = k0 then some v0 else none) = some v := h
      split at h2
      · rename_i hk
        subst hk
        simp only [Option.some.injEq] at h2
        subst h2
        exact List.mem_cons_self _ _
      · cases h2

theorem lastValue_rename_of_iff (mapping : List (List Char × List Char))
    (a : List (List Char × JSONValue)) (k kstar : List Char)
    (h : ∀ e ∈ a, (compactAlias mapping e.1 = k ↔ e.1 = kstar)) :
    lastValue (renameMembers mapping a) k = lastValue a kstar := by
  induction a with
  | nil => rfl
  | cons p rest ih =>
    obtain ⟨k0, v0⟩ := p
    have h0 := h (k0, v0) (List.mem_cons_self _ _)
    simp only [renameMembers, List.map_cons, lastValue]
    have ih2 := ih (fun e he => h e (List.mem_cons_of_mem _ he))
    simp only [renameMembers] at ih2
    rw [ih2]
    by_cases hk : kstar = k0
    · rw [if_pos hk, if_pos (h0.2 hk.symm).symm]
    · rw [if_neg hk, if_neg (fun hh => hk (h0.1 hh.symm).symm)]

theorem lastValue_rename_none (mapping : List (List Char × List Char))
    (a : List (List Char × JSONValue)) (k : List Char)
    (h : ∀ e ∈ a, compactAlias mapping e.1 ≠ k) :
    lastValue (renameMembers mapping a) k = none := by
  apply lastValue_eq_none_of_forall_ne
  intro p hp
  obtain ⟨e, he, rfl⟩ := List.mem_map.1 hp
  exact h e he

theorem keys_eq_of_lastValue_eq (a b : List (List Char × JSONValue))
    (h : ∀ k, lastValue a k = lastValue b k) (k : List Char) :
    k ∈ a.map Prod.fst ↔ k ∈ b.map Prod.fst := by
  rw [← lastValue_isSome_iff, ← lastValue_isSome_iff, h]

/-- The alias map is one-to-one on the keys of a document without collisions. -/
theorem compactAlias_injOn (mapping : List (List Char × List Char))
    (hdistinct : ∀ p ∈ mapping, ∀ q ∈ mapping, p.2 = q.2 → p.1 = q.1)
    (members : List (List Char × JSONValue)) (hno : NoCollision mapping members)
    (k1 k2 : List Char) (h1 : k1 ∈ members.map Prod.fst) (h2 : k2 ∈ members.map Prod.fst)
    (h : compactAlias mapping k1 = compactAlias mapping k2) : k1 = k2 := by
  unfold compactAlias at h
  cases e1 : mappingLookup mapping k1 with
  | none =>
    cases e2 : mappingLookup mapping k2 with
    | none =>
      rw [e1, e2] at h
      exact h
    | some c2 =>
      rw [e1, e2] at h
      simp only [Option.getD_none, Option.getD_some] at h
      exact absurd ⟨h2, h ▸ h1⟩ (hno (k2, c2) (mem_of_mappingLookup _ _ _ e2))
  | some c1 =>
    cases e2 : mappingLookup mapping k2 with
    | none =>
      rw [e1, e2] at h
      simp only [Option.getD_none, Option.getD_some] at h
      exact absurd ⟨h1, h ▸ h2⟩ (hno (k1, c1) (mem_of_mappingLookup _ _ _ e1))
    | some c2 =>
      rw [e1, e2] at h
      simp only [Option.getD_some] at h
      exact hdistinct (k1, c1) (mem_of_mappingLookup _ _ _ e1) (k2, c2)
        (mem_of_mappingLookup _ _ _ e2) h

theorem lastValue_rename_congr (mapping : List (List Char × List Char))
    (hdistinct : ∀ p ∈ mapping, ∀ q ∈ mapping, p.2 = q.2 → p.1 = q.1)
    (a b : List (List Char × JSONValue)) (hno : NoCollision mapping b)
    (h : ∀ k, lastValue a k = lastValue b k) (k : List Char) :
    lastValue (renameMembers mapping a) k = lastValue (renameMembers mapping b) k := by
  have hkeys := keys_eq_of_lastValue_eq a b h
  by_cases hex : ∃ e ∈ b, compactAlias mapping e.1 = k
  · obtain ⟨e0, he0, hk0⟩ := hex
    have hiff : ∀ l : List (List Char × JSONValue),
        (∀ x, x ∈ l.map Prod.fst → x ∈ b.map Prod.fst) →
        ∀ e ∈ l, (compactAlias mapping e.1 = k ↔ e.1 = e0.1) := by
      intro l hl e he
      constructor
      · intro hh
        exact compactAlias_injOn mapping hdistinct b hno e.1 e0.1
          (hl _ (List.mem_map_of_mem _ he)) (List.mem_map_of_mem _ he0) (hh.trans hk0.symm)
      · intro hh
        rw [hh, hk0]
    rw [lastValue_rename_of_iff mapping a k e0.1 (hiff a (fun x hx => (hkeys x).1 hx)),
      lastValue_rename_of_iff mapping b k e0.1 (hiff b (fun x hx => hx)), h]
  · have hb : ∀ e ∈ b, compactAlias mapping e.1 ≠ k := fun e he hh => hex ⟨e, he, hh⟩
    have ha : ∀ e ∈ a, compactAlias mapping e.1 ≠ k := by
      intro e he hh
      obtain ⟨e', he', hfst⟩ := List.mem_map.1 ((hkeys e.1).1 (List.mem_map_of_mem _ he))
      exact hb e' he' (by rw [hfst]; exact hh)
    rw [lastValue_rename_none mapping a k ha, lastValue_rename_none mapping b k hb]

/-- Key compaction of the map of a document without collisions is the map of the
document with its long keys replaced. -/
theorem compactKeys_toGoMembers (mapping : List (List Char × List Char))
    (hdistinct : ∀ p ∈ mapping, ∀ q ∈ mapping, p.2 = q.2 → p.1 = q.1)
    (members : List (List Char × JSONValue)) (hno : NoCollision mapping members) :
    compactKeys (toGoMembers members []) mapping =
      toGoMembers (renameMembers mapping members) [] := by
  apply goMap_ext _ _ (isGoMap_compactKeys _ _) (isGoMap_toGoMembers _)
  intro k
  have hm := isGoMap_toGoMembers members
  have hlook : ∀ k, lastValue (toGoMembers members []) k =
      lastValue (members.map (fun e => (e.1, toGoValue e.2))) k := by
    intro k
    rw [lastValue_eq_mapLookup _ hm, mapLookup_toGoMembers]
  have hkeys : ∀ x, x ∈ (toGoMembers members []).map Prod.fst ↔ x ∈ members.map Prod.fst := by
    intro x
    rw [keys_eq_of_lastValue_eq _ _ hlook x, List.map_map]
    rfl
  have hno2 : NoCollision mapping (members.map (fun e => (e.1, toGoValue e.2))) := by
    intro p hp hboth
    rw [List.map_map] at hboth
    exact hno p hp hboth
  have htarget : (toGoMembers members []).map
      (fun e => (compactTarget (toGoMembers members []) mapping e.1, e.2)) =
      renameMembers mapping (toGoMembers members []) := by
    unfold renameMembers
    apply List.map_congr_left
    intro e he
    unfold compactTarget compactAlias
    cases hl : mappingLookup mapping e.1 with
    | none => rfl
    | some c =>
      have hc : mapHas (toGoMembers members []) c = false := by
        cases hh : mapHas (toGoMembers members []) c with
        | false => rfl
        | true =>
          have h1 := (hkeys c).1 ((mapHas_iff_mem_keys _ hm c).1 hh)
          have h2 := (hkeys e.1).1 (List.mem_map_of_mem _ he)
          exact absurd ⟨h2, h1⟩ (hno (e.1, c) (mem_of_mappingLookup _ _ _ hl))
      simp only [hc, Option.getD_some]
      rfl
  rw [mapLookup_compactKeys, htarget, mapLookup_toGoMembers,
    lastValue_rename_congr mapping hdistinct _ _ hno2 hlook k]
  unfold renameMembers
  rw [List.map_map, List.map_map]
  rfl

theorem mappingLookup_compactAlias (mapping : List (List Char × List Char))
    (haliases : ∀ p ∈ mapping, mappingLookup mapping p.2 = none) (k : List Char) :
    mappingLookup mapping (compactAlias mapping k) = none := by
  unfold compactAlias
  cases hl : mappingLookup mapping k with
  | none => exact hl
  | some c => exact haliases (k, c) (mem_of_mappingLookup _ _ _ hl)

theorem mem_keys_of_mem_toGoMembers (members : List (List Char × JSONValue))
    (p : List Char × JSONValue) (hp : p ∈ toGoMembers members []) :
    p.1 ∈ members.map Prod.fst := by
  have hm := isGoMap_toGoMembers members
  have h1 : p.1 ∈ (toGoMembers members []).map Prod.fst := List.mem_map_of_mem _ hp
  rw [← lastValue_isSome_iff, lastValue_eq_mapLookup _ hm, mapLookup_toGoMembers,
    lastValue_isSome_iff, List.map_map] at h1
  exact h1

/-- Key compaction leaves the map of a document with renamed keys as it is. -/
theorem compactKeys_toGoMembers_renamed (mapping : List (List Char × List Char))
    (haliases : ∀ p ∈ mapping, mappingLookup mapping p.2 = none)
    (members : List (List Char × JSONValue))
    (hkeys : ∀ k ∈ members.map Prod.fst, ∃ k0, k = compactAlias mapping k0) :
    compactKeys (toGoMembers members []) mapping = toGoMembers members [] := by
  apply compactKeys_of_no_long _ _ (isGoMap_toGoMembers _)
  intro p hp
  obtain ⟨k0, hk0⟩ := hkeys _ (mem_keys_of_mem_toGoMembers members p hp)
  rw [hk0]
  exact mappingLookup_compactAlias mapping haliases k0

theorem fieldMap_distinct :
    ∀ p ∈ mptTokenMetadataFieldMap, ∀ q ∈ mptTokenMetadataFieldMap, p.2 = q.2 → p.1 = q.1 := by
  decide

theorem fieldMap_aliases :
    ∀ p ∈ mptTokenMetadataFieldMap, mappingLookup mptTokenMetadataFieldMap p.2 = none := by
  decide

theorem uriFieldMap_distinct :
    ∀ p ∈ mptTokenMetadataURIFieldMap, ∀ q ∈ mptTokenMetadataURIFieldMap,
      p.2 = q.2 → p.1 = q.1 := by
  decide

theorem uriFieldMap_aliases :
    ∀ p ∈ mptTokenMetadataURIFieldMap,
      mappingLookup mptTokenMetadataURIFieldMap p.2 = none := by
  decide

/-! ## Decoding long and compact keys alike -/

theorem toGoList_eq_map (l : List JSONValue) : toGoList l = l.map toGoValue := by
  induction l with
  | nil => rfl
  | cons v rest ih => simp only [toGoList, List.map_cons, ih]

theorem mapLookup_compactNestedURIs (m : List (List Char × JSONValue)) (k : List Char) :
    mapLookup (compactNestedURIs m) k =
      if k = "us".toList then (mapLookup m "us".toList).map compactNestedValue
      else mapLookup m k := by
  unfold compactNestedURIs
  split
  · rename_i h
    rw [mapLookup_mapInsert, h]
    rfl
  · rename_i u us h
    rw [mapLookup_mapInsert, h]
    rfl
  · rename_i h1 h2
    by_cases hk : k = "us".toList
    · rw [if_pos hk, hk]
      cases hv : mapLookup m "us".toList with
      | none => rfl
      | some v =>
        cases v with
        | array items =>
          cases items with
          | nil => exact absurd hv h1
          | cons u us => exact absurd hv (h2 u us)
        | null => rfl
        | bool b => rfl
        | number n => rfl
        | string s => rfl
        | object o => rfl
    · rw [if_neg hk]

theorem isGoMap_compactNestedURIs (m : List (List Char × JSONValue)) (hm : IsGoMap m) :
    IsGoMap (compactNestedURIs m) := by
  unfold compactNestedURIs
  split
  · exact isGoMap_mapInsert _ _ _ hm
  · exact isGoMap_mapInsert _ _ _ hm
  · exact hm

theorem compactURIEntry_renameURIObject (item : JSONValue)
    (hno : ∀ o, item = .object o → NoCollision mptTokenMetadataURIFieldMap o) :
    compactURIEntry (toGoValue (renameURIObject item)) = compactURIEntry (toGoValue item) := by
  cases item with
  | object o =>
    simp only [renameURIObject, toGoValue, compactURIEntry]
    rw [compactKeys_toGoMembers _ uriFieldMap_distinct o (hno o rfl),
      compactKeys_toGoMembers_renamed _ uriFieldMap_aliases]
    intro k hk
    unfold renameMembers at hk
    rw [List.map_map] at hk
    obtain ⟨e, _, he⟩ := List.mem_map.1 hk
    exact ⟨e.1, he.symm⟩
  | null => rfl
  | bool b => rfl
  | number n => rfl
  | string s => rfl
  | array items => rfl

theorem compactNestedValue_renameURIs (v : JSONValue)
    (hno : ∀ o ∈ uriObjects v, NoCollision mptTokenMetadataURIFieldMap o) :
    compactNestedValue (toGoValue (renameURIs v)) = compactNestedValue (toGoValue v) := by
  cases v with
  | array items =>
    cases items with
    | nil => rfl
    | cons u us =>
      simp only [renameURIs, toGoValue, toGoList_eq_map, List.map_cons, compactNestedValue,
        List.map_map]
      have hel : ∀ item ∈ u :: us,
          compactURIEntry (toGoValue (renameURIObject item)) =
            compactURIEntry (toGoValue item) := by
        intro item hitem
        apply compactURIEntry_renameURIObject
        intro o ho
        apply hno
        simp only [uriObjects, List.mem_filterMap]
        exact ⟨item, hitem, by rw [ho]⟩
      rw [hel u (List.mem_cons_self _ _)]
      congr 2
      apply List.map_congr_left
      intro item hitem
      exact hel item (List.mem_cons_of_mem _ hitem)
  | null => rfl
  | bool b => rfl
  | number n => rfl
  | string s => rfl
  | object o => rfl

theorem renameLongKeys_eq (members : List (List Char × JSONValue)) :
    renameLongKeys members =
      (renameMembers mptTokenMetadataFieldMap members).map
        (fun e => (e.1, (fun k v => if k = "us".toList then renameURIs v else v) e.1 e.2)) := by
  unfold renameLongKeys renameMembers
  rw [List.map_map]
  rfl

/-- The compacted maps of a document and of the document with its long keys replaced
are the same. -/
theorem compact_map_renameLongKeys (members : List (List Char × JSONValue))
    (hno : NoCollision mptTokenMetadataFieldMap members)
    (hnoURI : ∀ e ∈ members, compactAlias mptTokenMetadataFieldMap e.1 = "us".toList →
      ∀ o ∈ uriObjects e.2, NoCollision mptTokenMetadataURIFieldMap o) :
    compactNestedURIs (compactKeys (toGoMembers (renameLongKeys members) [])
        mptTokenMetadataFieldMap) =
      compactNestedURIs (compactKeys (toGoMembers members []) mptTokenMetadataFieldMap) := by
  have hA := compactKeys_toGoMembers _ fieldMap_distinct members hno
  have hB : compactKeys (toGoMembers (renameLongKeys members) []) mptTokenMetadataFieldMap =
      toGoMembers (renameLongKeys members) [] := by
    apply compactKeys_toGoMembers_renamed _ fieldMap_aliases
    intro k hk
    unfold renameLongKeys at hk
    rw [List.map_map] at hk
    obtain ⟨e, _, he⟩ := List.mem_map.1 hk
    exact ⟨e.1, he.symm⟩
  rw [hA, hB]
  apply goMap_ext _ _ (isGoMap_compactNestedURIs _ (isGoMap_toGoMembers _))
    (isGoMap_compactNestedURIs _ (isGoMap_toGoMembers _))
  intro k
  have hlA : ∀ k, mapLookup (toGoMembers (renameMembers mptTokenMetadataFieldMap members) []) k =
      (lastValue (renameMembers mptTokenMetadataFieldMap members) k).map toGoValue := by
    intro k
    rw [mapLookup_toGoMembers]
    exact lastValue_map_value _ (fun _ v => toGoValue v) k
  have hlB : ∀ k, mapLookup (toGoMembers (renameLongKeys members) []) k =
      (lastValue (renameMembers mptTokenMetadataFieldMap members) k).map
        (fun v => toGoValue (if k = "us".toList then renameURIs v else v)) := by
    intro k
    rw [mapLookup_toGoMembers, renameLongKeys_eq, List.map_map]
    exact lastValue_map_value _
      (fun k v => toGoValue (if k = "us".toList then renameURIs v else v)) k
  rw [mapLookup_compactNestedURIs, mapLookup_compactNestedURIs, hlA, hlB, hlA, hlB]
  by_cases hk : k = "us".toList
  · rw [if_pos hk, if_pos hk]
    cases hv : lastValue (renameMembers mptTokenMetadataFieldMap members) "us".toList with
    | none => rfl
    | some v =>
      have hmem := mem_of_lastValue _ _ _ hv
      unfold renameMembers at hmem
      obtain ⟨e, he, heq⟩ := List.mem_map.1 hmem
      injection heq with hk1 hv1
      have := compactNestedValue_renameURIs v (by rw [← hv1]; exact hnoURI e he hk1)
      simp only [Option.map_some', if_true, this]
  · rw [if_neg hk, if_neg hk]
    simp only [if_neg hk]

/-- C17: decode accepts long or compact keys alike. Let `members` be the members of a
JSON object in which no field is present under both its long and its compact key, at
top level and inside each object of the array under `uris` or `us`. Then for hex text
of this object and hex text of the object with every long key replaced by its compact
alias (`renameLongKeys`), `DecodeMPTokenMetadata` returns the same. -/
theorem decode_long_or_compact (T : JSONText) (members : List (List Char × JSONValue))
    (hexLong hexCompact : List Char) (bytesLong bytesCompact : List Nat)
    (hhex1 : hexDecodeString hexLong = some bytesLong)
    (hdoc1 : T.parse bytesLong = some (.object members))
    (hhex2 : hexDecodeString hexCompact = some bytesCompact)
    (hdoc2 : T.parse bytesCompact = some (.object (renameLongKeys members)))
    (hno : NoCollision mptTokenMetadataFieldMap members)
    (hnoURI : ∀ e ∈ members, compactAlias mptTokenMetadataFieldMap e.1 = "us".toList →
      ∀ o ∈ uriObjects e.2, NoCollision mptTokenMetadataURIFieldMap o) :
    DecodeMPTokenMetadata T hexLong = DecodeMPTokenMetadata T hexCompact := by
  unfold DecodeMPTokenMetadata
  simp only [hhex1, hhex2, jsonUnmarshalMap_object T _ _ hdoc1,
    jsonUnmarshalMap_object T _ _ hdoc2, compact_map_renameLongKeys members hno hnoURI]

theorem DecodeMPTokenMetadata_printed (T : JSONText) (hT : T.Lawful)
    (members : List (List Char × JSONValue)) :
    DecodeMPTokenMetadata T
        (stringsToUpper (hexEncodeToString (T.print (.object members)))) =
      decodeStruct (.object (compactNestedURIs
        (compactKeys (toGoMembers members []) mptTokenMetadataFieldMap))) :=
  DecodeMPTokenMetadata_of_map T hT _ _ _ (hexDecodeString_upper_encode _ (hT.1 _))
    (jsonUnmarshalMap_object T _ _ (hT.2 _))

/-- The two decodings of C17 on the concrete text layer: a document written with long
keys only, and the same with compact keys, both decode to `exampleMetadata`. -/
theorem decode_long_or_compact_witness :
    DecodeMPTokenMetadata stackJSON
        (stringsToUpper (hexEncodeToString (stackJSON.print (.object exampleLongMembers)))) =
      DecodeMPTokenMetadata stackJSON
        (stringsToUpper (hexEncodeToString
          (stackJSON.print (.object (renameLongKeys exampleLongMembers))))) ∧
    DecodeMPTokenMetadata stackJSON
        (stringsToUpper (hexEncodeToString (stackJSON.print (.object exampleLongMembers)))) =
      .ok exampleMetadata :=
  ⟨decode_long_or_compact stackJSON exampleLongMembers _ _ _ _
      (hexDecodeString_upper_encode _ (stackJSON_lawful.1 _)) (stackJSON_lawful.2 _)
      (hexDecodeString_upper_encode _ (stackJSON_lawful.1 _)) (stackJSON_lawful.2 _)
      (by unfold NoCollision; decide)
      (by
        intro e he hk o ho
        simp only [exampleLongMembers, List.mem_cons, List.mem_singleton, List.not_mem_nil,
          or_false] at he
        rcases he with he | he | he | he | he | he | he | he | he <;> subst he <;>
          first
          | exact absurd hk (by decide)
          | (simp only [uriObjects, List.filterMap_cons, List.filterMap_nil,
              List.mem_singleton] at ho
             subst ho
             unfold NoCollision
             decide)),
   (DecodeMPTokenMetadata_printed stackJSON stackJSON_lawful exampleLongMembers).trans rfl⟩

/-! ## Counting the reports of one error -/

theorem count_validationStep_of_ne (m : List (List Char × JSONValue)) (e : MetadataError)
    (i : Nat) (h : errorStep e ≠ i) : ((validationSteps m).getD i []).count e = 0 :=
  List.count_eq_zero.2 (fun hm => h (errorStep_of_mem m i e hm))

/-- An error is reported by `validateRawData` as often as the one step that can report
it reports it. -/
theorem count_validateRawData (m : List (List Char × JSONValue)) (e : MetadataError) :
    (validateRawData m).count e = ((validationSteps m).getD (errorStep e) []).count e := by
  have h := count_validationStep_of_ne m e
  have h0 := h 0
  have h1 := h 1
  have h2 := h 2
  have h3 := h 3
  have h4 := h 4
  have h5 := h 5
  have h6 := h 6
  have h7 := h 7
  have h8 := h 8
  have h9 := h 9
  have h10 := h 10
  have key : validateRawData m =
      (validationSteps m).getD 0 [] ++ (validationSteps m).getD 1 [] ++
      (validationSteps m).getD 2 [] ++ (validationSteps m).getD 3 [] ++
      (validationSteps m).getD 4 [] ++ (validationSteps m).getD 5 [] ++
      (validationSteps m).getD 6 [] ++ (validationSteps m).getD 7 [] ++
      (validationSteps m).getD 8 [] ++ (validationSteps m).getD 9 [] ++
      (validationSteps m).getD 10 [] := rfl
  rw [key]
  simp only [List.count_append]
  have hlt : errorStep e < 11 ∨ 11 ≤ errorStep e := by omega
  rcases hlt with hlt | hge
  · generalize errorStep e = s at *
    interval_cases s <;> omega
  · have hlen : (validationSteps m).length ≤ errorStep e := by
      simp only [validationSteps, List.length_cons, List.length_nil]
      omega
    rw [List.getD_eq_default _ _ hlen]
    simp only [List.count_nil]
    omega

theorem validateField_one_key (m : List (List Char × JSONValue)) (longKey compactKey : List Char)
    (validator : JSONValue → Option MetadataError) (v : JSONValue)
    (hone : (mapLookup m longKey = some v ∧ mapLookup m compactKey = none) ∨
      (mapLookup m longKey = none ∧ mapLookup m compactKey = some v)) :
    validateField m longKey compactKey validator = (validator v).toList := by
  unfold validateField
  rcases hone with ⟨h1, h2⟩ | ⟨h1, h2⟩
  · rw [h1, h2]
    cases hv : validator v <;> simp [hv]
  · rw [h1, h2]
    cases hv : validator v <;> simp [hv]

theorem validateField_collision (m : List (List Char × JSONValue)) (longKey compactKey : List Char)
    (validator : JSONValue → Option MetadataError)
    (hl : mapLookup m longKey ≠ none) (hc : mapLookup m compactKey ≠ none) :
    validateField m longKey compactKey validator =
      [.ErrInvalidMPTokenMetadataFieldCollision longKey compactKey] := by
  unfold validateField
  cases h1 : mapLookup m longKey with
  | none => exact absurd h1 hl
  | some a =>
    cases h2 : mapLookup m compactKey with
    | none => exact absurd h2 hc
    | some b => rfl

/-! ## The ticker -/

theorem isTickerChar_iff (c : Char) :
    isTickerChar c = true ↔ (('A' ≤ c ∧ c ≤ 'Z') ∨ ('0' ≤ c ∧ c ≤ '9')) := by
  simp [isTickerChar]

theorem tickerRegexMatch_iff (s : List Char) :
    tickerRegexMatch s = true ↔
      (1 ≤ s.length ∧ s.length ≤ 6 ∧
        ∀ c ∈ s, (('A' ≤ c ∧ c ≤ 'Z') ∨ ('0' ≤ c ∧ c ≤ '9'))) := by
  unfold tickerRegexMatch
  simp only [Bool.and_eq_true, decide_eq_true_eq, List.all_eq_true, isTickerChar_iff]
  tauto

theorem validateTicker_eq_none_iff (v : JSONValue) :
    validateTicker v = none ↔
      ∃ s, v = .string s ∧ 1 ≤ s.length ∧ s.length ≤ 6 ∧
        ∀ c ∈ s, (('A' ≤ c ∧ c ≤ 'Z') ∨ ('0' ≤ c ∧ c ≤ '9')) := by
  cases v with
  | string s =>
    simp only [validateTicker, JSONValue.string.injEq, exists_eq_left']
    rw [← tickerRegexMatch_iff]
    by_cases hs : s = []
    · subst hs
      simp [tickerRegexMatch]
    · rw [if_neg hs]
      by_cases hm : tickerRegexMatch s = true
      · simp [hm]
      · simp [hm]
  | null => simp [validateTicker]
  | bool b => simp [validateTicker]
  | number n => simp [validateTicker]
  | array items => simp [validateTicker]
  | object o => simp [validateTicker]

/-- C21: ticker rule. For metadata parsed to a map in which exactly one of the keys
ticker and t is present, with value `v`, `ValidateMPTokenMetadata` reports
`ErrInvalidMPTokenMetadataTicker` if and only if `v` is not a string of 1 to 6
characters, each in A-Z or 0-9; it reports it at most once. So "tbill", "TBILLLLLLL",
"", `null` and numbers are rejected by `validateTicker`, and "TBILL" is accepted. -/
theorem ticker_rule (T : JSONText) (hexInput : List Char) (bytes : List Nat)
    (rawData : List (List Char × JSONValue)) (v : JSONValue)
    (hhex : hexDecodeString hexInput = some bytes)
    (hlen : bytes.length ≤ 1024)
    (hmap : jsonUnmarshalMap T bytes = some rawData)
    (hone : (mapLookup rawData "ticker".toList = some v ∧ mapLookup rawData "t".toList = none) ∨
      (mapLookup rawData "ticker".toList = none ∧ mapLookup rawData "t".toList = some v)) :
    (.ErrInvalidMPTokenMetadataTicker ∈ ValidateMPTokenMetadata T hexInput ↔
      ¬ ∃ s, v = .string s ∧ 1 ≤ s.length ∧ s.length ≤ 6 ∧
        ∀ c ∈ s, (('A' ≤ c ∧ c ≤ 'Z') ∨ ('0' ≤ c ∧ c ≤ '9'))) ∧
    (ValidateMPTokenMetadata T hexInput).count .ErrInvalidMPTokenMetadataTicker ≤ 1 ∧
    validateTicker (.string "tbill".toList) = some .ErrInvalidMPTokenMetadataTicker ∧
    validateTicker (.string "TBILLLLLLL".toList) = some .ErrInvalidMPTokenMetadataTicker ∧
    validateTicker (.string []) = some .ErrInvalidMPTokenMetadataTicker ∧
    validateTicker .null = some .ErrInvalidMPTokenMetadataTicker ∧
    (∀ n, validateTicker (.number n) = some .ErrInvalidMPTokenMetadataTicker) ∧
    validateTicker (.string "TBILL".toList) = none := by
  have hV := ValidateMPTokenMetadata_of_map T hexInput bytes rawData hhex
    (by simpa [MaxMPTokenMetadataByteLength] using hlen) hmap
  have hstep : (validationSteps rawData).getD 2 [] = (validateTicker v).toList :=
    validateField_one_key rawData _ _ validateTicker v hone
  have hs : errorStep .ErrInvalidMPTokenMetadataTicker = 2 := rfl
  refine ⟨?_, ?_, by decide, by decide, by decide, rfl, fun _ => rfl, by decide⟩
  · rw [hV, mem_validateRawData_iff, hs, hstep, ← validateTicker_eq_none_iff]
    cases hv : validateTicker v with
    | none => simp
    | some e =>
      have he := validateTicker_some v e hv
      subst he
      simp
  · rw [hV, count_validateRawData, hs, hstep]
    cases validateTicker v with
    | none => simp
    | some e =>
      simp only [Option.toList, List.count_cons, List.count_nil]
      split <;> omega

/-- The rule of C21 on the concrete text layer: a document with "t": "tbill" is
reported. -/
theorem ticker_rule_witness :
    .ErrInvalidMPTokenMetadataTicker ∈ ValidateMPTokenMetadata stackJSON
      (stringsToUpper (hexEncodeToString
        (stackJSON.print (.object [("t".toList, .string "tbill".toList)])))) :=
  (ticker_rule stackJSON _ _ (toGoMembers [("t".toList, .string "tbill".toList)] [])
      (.string "tbill".toList)
      (hexDecodeString_upper_encode _ (stackJSON_lawful.1 _)) (by decide)
      (jsonUnmarshalMap_object stackJSON _ [("t".toList, .string "tbill".toList)]
        (stackJSON_lawful.2 _))
      (Or.inr ⟨rfl, rfl⟩)).1.2
    (by
      rintro ⟨s, hs, _, _, hall⟩
      injection hs with hs
      subst hs
      exact absurd (hall 't' (by decide)) (by decide))

/-! ## The asset subclass -/

theorem lookupField_long (m : List (List Char × JSONValue)) (long compact : List Char)
    (v : JSONValue) (h : mapLookup m long = some v) : lookupField m long compact = (v, true) := by
  unfold lookupField
  rw [h]

theorem lookupField_compact (m : List (List Char × JSONValue)) (long compact : List Char)
    (v : JSONValue) (hl : mapLookup m long = none) (hc : mapLookup m compact = some v) :
    lookupField m long compact = (v, true) := by
  unfold lookupField
  rw [hl, hc]

theorem lookupField_of_found (m : List (List Char × JSONValue)) (long compact : List Char)
    (v : JSONValue)
    (h : mapLookup m long = some v ∨ (mapLookup m long = none ∧ mapLookup m compact = some v)) :
    lookupField m long compact = (v, true) := by
  rcases h with h | ⟨h1, h2⟩
  · exact lookupField_long m long compact v h
  · exact lookupField_compact m long compact v h1 h2

theorem areBothFieldsPresent_one (m : List (List Char × JSONValue)) (long compact : List Char)
    (h : mapLookup m long = none ∨ mapLookup m compact = none) :
    areBothFieldsPresent m long compact = false := by
  unfold areBothFieldsPresent mapHas
  rcases h with h | h <;> rw [h] <;> simp

theorem areBothFieldsPresent_both (m : List (List Char × JSONValue)) (long compact : List Char)
    (hl : mapLookup m long ≠ none) (hc : mapLookup m compact ≠ none) :
    areBothFieldsPresent m long compact = true := by
  unfold areBothFieldsPresent mapHas
  cases h1 : mapLookup m long with
  | none => exact absurd h1 hl
  | some a =>
    cases h2 : mapLookup m compact with
    | none => exact absurd h2 hc
    | some b => rfl

theorem validateSubClass_eq (m : List (List Char × JSONValue)) :
    validateSubClass m =
      if areBothFieldsPresent m "asset_subclass".toList "as".toList then
        [.ErrInvalidMPTokenMetadataFieldCollision "asset_subclass".toList "as".toList]
      else if (lookupField m "asset_class".toList "ac".toList).2 &&
          isRWA (lookupField m "asset_class".toList "ac".toList).1 &&
          !(lookupField m "asset_subclass".toList "as".toList).2 then
        [.ErrInvalidMPTokenMetadataRWASubClassRequired]
      else if (lookupField m "asset_subclass".toList "as".toList).2 &&
          isInvalidSubClass (lookupField m "asset_subclass".toList "as".toList).1 then
        [.ErrInvalidMPTokenMetadataAssetSubClass MPTokenMetadataAssetSubClasses]
      else [] := rfl

theorem isInvalidSubClass_eq_false_iff (v : JSONValue) :
    isInvalidSubClass v = false ↔ ∃ s, v = .string s ∧ s ∈ MPTokenMetadataAssetSubClasses := by
  cases v with
  | string s =>
    simp only [isInvalidSubClass, JSONValue.string.injEq, exists_eq_left', Bool.or_eq_false_iff,
      Bool.not_eq_false', decide_eq_false_iff_not, List.contains_iff_exists_mem_beq,
      decide_eq_true_eq, beq_iff_eq, exists_eq_right, and_iff_right_iff_imp]
    constructor
    · rintro ⟨_, a, ha, rfl⟩
      exact ha
    · intro hs
      refine ⟨?_, s, hs, rfl⟩
      intro hlen
      have h0 : s = [] := List.length_eq_zero.1 hlen
      subst h0
      revert hs
      decide
  | null => simp [isInvalidSubClass]
  | bool b => simp [isInvalidSubClass]
  | number n => simp [isInvalidSubClass]
  | array items => simp [isInvalidSubClass]
  | object o => simp [isInvalidSubClass]

/-- C22: asset subclass rule. On a parsed object `rawData`, `ValidateMPTokenMetadata`
reports `ErrInvalidMPTokenMetadataRWASubClassRequired` whenever asset_class (the value
under the long key, or under ac when the long key is absent) is the string "rwa" and
asset_subclass is absent under both keys; it reports
`ErrInvalidMPTokenMetadataAssetSubClass` whenever asset_subclass is present under
exactly one key with a value that is not one of the allowed strings; and when
asset_subclass is present with an allowed value, it reports neither of the two,
whatever the asset class. -/
theorem asset_subclass_rule (T : JSONText) (hexInput : List Char) (bytes : List Nat)
    (rawData : List (List Char × JSONValue))
    (hhex : hexDecodeString hexInput = some bytes)
    (hlen : bytes.length ≤ 1024)
    (hmap : jsonUnmarshalMap T bytes = some rawData) :
    ((mapLookup rawData "asset_class".toList = some (.string "rwa".toList) ∨
        (mapLookup rawData "asset_class".toList = none ∧
          mapLookup rawData "ac".toList = some (.string "rwa".toList))) →
      mapLookup rawData "asset_subclass".toList = none →
      mapLookup rawData "as".toList = none →
      .ErrInvalidMPTokenMetadataRWASubClassRequired ∈ ValidateMPTokenMetadata T hexInput) ∧
    (∀ v, ((mapLookup rawData "asset_subclass".toList = some v ∧
          mapLookup rawData "as".toList = none) ∨
        (mapLookup rawData "asset_subclass".toList = none ∧
          mapLookup rawData "as".toList = some v)) →
      (¬ ∃ s, v = .string s ∧ s ∈ MPTokenMetadataAssetSubClasses) →
      .ErrInvalidMPTokenMetadataAssetSubClass MPTokenMetadataAssetSubClasses ∈
        ValidateMPTokenMetadata T hexInput) ∧
    (∀ v, (mapLookup rawData "asset_subclass".toList = some v ∨
        (mapLookup rawData "asset_subclass".toList = none ∧
          mapLookup rawData "as".toList = some v)) →
      (∃ s, v = .string s ∧ s ∈ MPTokenMetadataAssetSubClasses) →
      .ErrInvalidMPTokenMetadataRWASubClassRequired ∉ ValidateMPTokenMetadata T hexInput ∧
      .ErrInvalidMPTokenMetadataAssetSubClass MPTokenMetadataAssetSubClasses ∉
        ValidateMPTokenMetadata T hexInput) := by
  have hV := ValidateMPTokenMetadata_of_map T hexInput bytes rawData hhex
    (by simpa [MaxMPTokenMetadataByteLength] using hlen) hmap
  have hstep : (validationSteps rawData).getD 8 [] = validateSubClass rawData := rfl
  have hs1 : errorStep .ErrInvalidMPTokenMetadataRWASubClassRequired = 8 := rfl
  have hs2 : errorStep
      (.ErrInvalidMPTokenMetadataAssetSubClass MPTokenMetadataAssetSubClasses) = 8 := rfl
  rw [hV]
  refine ⟨?_, ?_, ?_⟩
  · intro hac hl hc
    rw [mem_validateRawData_iff, hs1, hstep, validateSubClass_eq,
      areBothFieldsPresent_one _ _ _ (Or.inl hl), lookupField_absent _ _ _ hl hc,
      lookupField_of_found _ _ _ _ hac]
    simp [isRWA]
  · intro v hone hbad
    have hfound : mapLookup rawData "asset_subclass".toList = some v ∨
        (mapLookup rawData "asset_subclass".toList = none ∧
          mapLookup rawData "as".toList = some v) := by
      rcases hone with ⟨h1, _⟩ | ⟨h1, h2⟩
      · exact Or.inl h1
      · exact Or.inr ⟨h1, h2⟩
    have hnot : areBothFieldsPresent rawData "asset_subclass".toList "as".toList = false := by
      apply areBothFieldsPresent_one
      rcases hone with ⟨_, h2⟩ | ⟨h1, _⟩
      · exact Or.inr h2
      · exact Or.inl h1
    have hinv : isInvalidSubClass v = true := by
      cases h : isInvalidSubClass v with
      | true => rfl
      | false => exact absurd ((isInvalidSubClass_eq_false_iff v).1 h) hbad
    rw [mem_validateRawData_iff, hs2, hstep, validateSubClass_eq, hnot,
      lookupField_of_found _ _ _ _ hfound, hinv]
    simp
  · intro v hfound hgood
    have hinv : isInvalidSubClass v = false := (isInvalidSubClass_eq_false_iff v).2 hgood
    rw [mem_validateRawData_iff, mem_validateRawData_iff, hs1, hs2, hstep, validateSubClass_eq,
      lookupField_of_found _ _ _ _ hfound, hinv]
    constructor <;> split <;> simp

/-- The first rule of C22 on the concrete text layer: "ac": "rwa" without a subclass. -/
theorem asset_subclass_rule_witness :
    .ErrInvalidMPTokenMetadataRWASubClassRequired ∈ ValidateMPTokenMetadata stackJSON
      (stringsToUpper (hexEncodeToString
        (stackJSON.print (.object [("ac".toList, .string "rwa".toList)])))) :=
  (asset_subclass_rule stackJSON _ _ (toGoMembers [("ac".toList, .string "rwa".toList)] [])
      (hexDecodeString_upper_encode _ (stackJSON_lawful.1 _)) (by decide)
      (jsonUnmarshalMap_object stackJSON _ [("ac".toList, .string "rwa".toList)]
        (stackJSON_lawful.2 _))).1
    (Or.inr ⟨rfl, rfl⟩) rfl rfl

/-! ## Key collisions -/

theorem lookupField_exists_of_long (m : List (List Char × JSONValue)) (long compact : List Char)
    (h : mapLookup m long ≠ none) : (lookupField m long compact).2 = true := by
  unfold lookupField
  cases h1 : mapLookup m long with
  | none => exact absurd h1 h
  | some a => rfl

theorem validateSubClass_collision (m : List (List Char × JSONValue))
    (hl : mapLookup m "asset_subclass".toList ≠ none) (hc : mapLookup m "as".toList ≠ none) :
    validateSubClass m =
      [.ErrInvalidMPTokenMetadataFieldCollision "asset_subclass".toList "as".toList] := by
  rw [validateSubClass_eq, areBothFieldsPresent_both _ _ _ hl hc]
  rfl

theorem validateURIs_collision (m : List (List Char × JSONValue))
    (hl : mapLookup m "uris".toList ≠ none) (hc : mapLookup m "us".toList ≠ none) :
    validateURIs m = [.ErrInvalidMPTokenMetadataFieldCollision "uris".toList "us".toList] := by
  unfold validateURIs
  simp only []
  rw [lookupField_exists_of_long _ _ _ hl, areBothFieldsPresent_both _ _ _ hl hc]
  rfl

theorem validateAdditionalInfo_collision (m : List (List Char × JSONValue))
    (hl : mapLookup m "additional_info".toList ≠ none)
    (hc : mapLookup m "ai".toList ≠ none) :
    validateAdditionalInfo m =
      [.ErrInvalidMPTokenMetadataFieldCollision "additional_info".toList "ai".toList] := by
  unfold validateAdditionalInfo
  simp only []
  rw [lookupField_exists_of_long _ _ _ hl, areBothFieldsPresent_both _ _ _ hl hc]
  rfl

/-- The errors about a field come from the step that reports its collision, if from
any. -/
theorem errorStep_of_isMissingOrValueError (p : List Char × List Char)
    (hp : p ∈ mptTokenMetadataFieldMap) (e : MetadataError)
    (h : isMissingOrValueError p.1 e = true) :
    errorStep e = errorStep (.ErrInvalidMPTokenMetadataFieldCollision p.1 p.2) ∨
      errorStep e = 11 := by
  simp only [mptTokenMetadataFieldMap, List.mem_cons, List.mem_singleton, List.not_mem_nil,
    or_false] at hp
  cases e with
  | ErrInvalidMPTokenMetadataMissingField f =>
    simp only [isMissingOrValueError, decide_eq_true_eq] at h
    subst h
    rcases hp with hp | hp | hp | hp | hp | hp | hp | hp | hp <;> subst hp <;> decide
  | ErrInvalidMPTokenMetadataTicker =>
    rcases hp with hp | hp | hp | hp | hp | hp | hp | hp | hp <;> subst hp <;>
      first | decide | exact absurd h (by decide)
  | ErrInvalidMPTokenMetadataAssetClass s =>
    rcases hp with hp | hp | hp | hp | hp | hp | hp | hp | hp <;> subst hp <;>
      first
      | (left; rfl)
      | (exfalso
         revert h
         simp only [isMissingOrValueError]
         decide)
  | ErrInvalidMPTokenMetadataAssetSubClass s =>
    rcases hp with hp | hp | hp | hp | hp | hp | hp | hp | hp <;> subst hp <;>
      first
      | (left; rfl)
      | (exfalso
         revert h
         simp only [isMissingOrValueError]
         decide)
  | ErrInvalidMPTokenMetadataRWASubClassRequired =>
    rcases hp with hp | hp | hp | hp | hp | hp | hp | hp | hp <;> subst hp <;>
      first | decide | exact absurd h (by decide)
  | ErrInvalidMPTokenMetadataURIs =>
    rcases hp with hp | hp | hp | hp | hp | hp | hp | hp | hp <;> subst hp <;>
      first | decide | exact absurd h (by decide)
  | ErrInvalidMPTokenMetadataAdditionalInfo =>
    rcases hp with hp | hp | hp | hp | hp | hp | hp | hp | hp <;> subst hp <;>
      first | decide | exact absurd h (by decide)
  | ErrInvalidMPTokenMetadataHex => cases h
  | ErrInvalidMPTokenMetadataSize => cases h
  | ErrInvalidMPTokenMetadataJSON => cases h
  | ErrInvalidMPTokenMetadataFieldCount n => cases h
  | ErrInvalidMPTokenMetadataUnknownField f => cases h
  | ErrInvalidMPTokenMetadataFieldCollision a b => cases h
  | jsonSyntaxError => cases h
  | jsonUnmarshalTypeError => cases h
  | jsonUnsupportedValueError => cases h

/-- The step that reports the collision of a field reports nothing else when both keys
are present. -/
theorem validationStep_collision (m : List (List Char × JSONValue))
    (p : List Char × List Char) (hp : p ∈ mptTokenMetadataFieldMap)
    (hl : mapLookup m p.1 ≠ none) (hc : mapLookup m p.2 ≠ none) :
    (validationSteps m).getD (errorStep (.ErrInvalidMPTokenMetadataFieldCollision p.1 p.2)) [] =
      [.ErrInvalidMPTokenMetadataFieldCollision p.1 p.2] := by
  simp only [mptTokenMetadataFieldMap, List.mem_cons, List.mem_singleton, List.not_mem_nil,
    or_false] at hp
  rcases hp with hp | hp | hp | hp | hp | hp | hp | hp | hp <;> subst hp
  · exact validateField_collision m _ _ _ hl hc
  · exact validateField_collision m _ _ _ hl hc
  · exact validateField_collision m _ _ _ hl hc
  · exact validateField_collision m _ _ _ hl hc
  · exact validateField_collision m _ _ _ hl hc
  · exact validateSubClass_collision m hl hc
  · exact validateField_collision m _ _ _ hl hc
  · exact validateURIs_collision m hl hc
  · exact validateAdditionalInfo_collision m hl hc

theorem ne_none_of_eq_some (o : Option JSONValue) (v : JSONValue) (h : o = some v) :
    o ≠ none := by
  rw [h]
  exact fun h2 => Option.noConfusion h2

/-- C23: key collisions are reported. For each of the nine top-level fields, if the
parsed object contains both the long key and its compact alias, the error list of
`ValidateMPTokenMetadata` contains exactly one `ErrInvalidMPTokenMetadataFieldCollision`
naming that pair, and no missing-field error and no value error for that field. -/
theorem key_collisions (T : JSONText) (hexInput : List Char) (bytes : List Nat)
    (rawData : List (List Char × JSONValue)) (p : List Char × List Char)
    (hhex : hexDecodeString hexInput = some bytes)
    (hlen : bytes.length ≤ 1024)
    (hmap : jsonUnmarshalMap T bytes = some rawData)
    (hp : p ∈ mptTokenMetadataFieldMap)
    (hl : mapLookup rawData p.1 ≠ none) (hc : mapLookup rawData p.2 ≠ none) :
    (ValidateMPTokenMetadata T hexInput).count
        (.ErrInvalidMPTokenMetadataFieldCollision p.1 p.2) = 1 ∧
    ∀ e ∈ ValidateMPTokenMetadata T hexInput, isMissingOrValueError p.1 e = false := by
  have hV := ValidateMPTokenMetadata_of_map T hexInput bytes rawData hhex
    (by simpa [MaxMPTokenMetadataByteLength] using hlen) hmap
  have hstep := validationStep_collision rawData p hp hl hc
  rw [hV]
  constructor
  · rw [count_validateRawData, hstep]
    simp
  · intro e he
    cases hval : isMissingOrValueError p.1 e with
    | false => rfl
    | true =>
      rcases errorStep_of_isMissingOrValueError p hp e hval with hs | hs
      · have hmem := (mem_validateRawData_iff rawData e).1 he
        rw [hs, hstep, List.mem_singleton] at hmem
        rw [hmem] at hval
        cases hval
      · have := errorStep_lt_of_mem rawData e he
        omega

/-- The collision of C23 on the concrete text layer: a document with both ticker and
t. -/
theorem key_collisions_witness :
    (ValidateMPTokenMetadata stackJSON
      (stringsToUpper (hexEncodeToString
        (stackJSON.print (.object [("ticker".toList, .string "A".toList),
          ("t".toList, .string "B".toList)]))))).count
      (.ErrInvalidMPTokenMetadataFieldCollision "ticker".toList "t".toList) = 1 :=
  (key_collisions stackJSON _ _
      (toGoMembers [("ticker".toList, .string "A".toList), ("t".toList, .string "B".toList)] [])
      ("ticker".toList, "t".toList)
      (hexDecodeString_upper_encode _ (stackJSON_lawful.1 _)) (by decide)
      (jsonUnmarshalMap_object stackJSON _
        [("ticker".toList, .string "A".toList), ("t".toList, .string "B".toList)]
        (stackJSON_lawful.2 _))
      (by decide)
      (ne_none_of_eq_some _ (.string "A".toList) rfl)
      (ne_none_of_eq_some _ (.string "B".toList) rfl)).1

/-! ## The values of a parsed map are Go values -/

theorem mapLookup_toGoMembers_value (members : List (List Char × JSONValue)) (k : List Char)
    (v : JSONValue) (h : mapLookup (toGoMembers members []) k = some v) :
    ∃ v0, v = toGoValue v0 := by
  rw [mapLookup_toGoMembers] at h
  have h2 := lastValue_map_value members (fun _ w => toGoValue w) k
  simp only at h2
  rw [h2] at h
  cases hl : lastValue members k with
  | none =>
    rw [hl] at h
    cases h
  | some w =>
    rw [hl] at h
    simp only [Option.map_some', Option.some.injEq] at h
    exact ⟨w, h.symm⟩

theorem jsonUnmarshalMap_value (T : JSONText) (bytes : List Nat)
    (rawData : List (List Char × JSONValue)) (k : List Char) (v : JSONValue)
    (hmap : jsonUnmarshalMap T bytes = some rawData) (h : mapLookup rawData k = some v) :
    ∃ v0, v = toGoValue v0 := by
  unfold jsonUnmarshalMap at hmap
  split at hmap
  · simp only [Option.some.injEq] at hmap
    subst hmap
    exact mapLookup_toGoMembers_value _ k v h
  · simp only [Option.some.injEq] at hmap
    subst hmap
    cases h
  · cases hmap

theorem toGoValue_array_items (v0 : JSONValue) (items : List JSONValue)
    (h : toGoValue v0 = .array items) : ∀ item ∈ items, ∃ i0, item = toGoValue i0 := by
  cases v0 with
  | array l =>
    simp only [toGoValue, JSONValue.array.injEq, toGoList_eq_map] at h
    subst h
    intro item hitem
    obtain ⟨i0, _, hi⟩ := List.mem_map.1 hitem
    exact ⟨i0, hi.symm⟩
  | null => simp [toGoValue] at h
  | bool b => simp [toGoValue] at h
  | number n => simp [toGoValue] at h
  | string s => simp [toGoValue] at h
  | object o => simp [toGoValue] at h

theorem toGoValue_object_isGoMap (v0 : JSONValue) (o : List (List Char × JSONValue))
    (h : toGoValue v0 = .object o) : IsGoMap o := by
  cases v0 with
  | object l =>
    simp only [toGoValue, JSONValue.object.injEq] at h
    subst h
    exact isGoMap_toGoMembers l
  | null => simp [toGoValue] at h
  | bool b => simp [toGoValue] at h
  | number n => simp [toGoValue] at h
  | string s => simp [toGoValue] at h
  | array l => simp [toGoValue] at h

theorem mapLookup_eq_none_of_forall_ne (m : List (List Char × JSONValue)) (k : List Char)
    (h : ∀ p ∈ m, p.1 ≠ k) : mapLookup m k = none := by
  induction m with
  | nil => rfl
  | cons q rest ih =>
    obtain ⟨k0, v0⟩ := q
    simp only [mapLookup]
    rw [if_neg (fun hk => h (k0, v0) (List.mem_cons_self _ _) hk.symm)]
    exact ih (fun p hp => h p (List.mem_cons_of_mem _ hp))

theorem goMap_eq_of_mem_iff (a b : List (List Char × JSONValue)) (ha : IsGoMap a)
    (hb : IsGoMap b) (h : ∀ p, p ∈ a ↔ p ∈ b) : a = b := by
  apply goMap_ext a b ha hb
  intro k
  cases h1 : mapLookup a k with
  | some v =>
    exact (mapLookup_of_mem b hb k v ((h _).1 (mem_of_mapLookup a k v h1))).symm
  | none =>
    cases h2 : mapLookup b k with
    | none => rfl
    | some v =>
      have := mapLookup_of_mem a ha k v ((h _).2 (mem_of_mapLookup b k v h2))
      rw [h1] at this
      cases this

/-! ## One entry of the URI list -/

theorem validateURIItem_object (o : List (List Char × JSONValue)) :
    validateURIItem (.object o) =
      if o.length ≠ URIRequiredFieldCount then [.ErrInvalidMPTokenMetadataURIs]
      else if (!(lookupField o "uri".toList "u".toList).2 ||
          !isString (lookupField o "uri".toList "u".toList).1 ||
          !(lookupField o "category".toList "c".toList).2 ||
          !isString (lookupField o "category".toList "c".toList).1 ||
          !(lookupField o "title".toList "t".toList).2 ||
          !isString (lookupField o "title".toList "t".toList).1) = true then
        uriCollisions o mptTokenMetadataURIFieldMap ++ [.ErrInvalidMPTokenMetadataURIs]
      else if isInvalidCategory (lookupField o "category".toList "c".toList).1 = true then
        uriCollisions o mptTokenMetadataURIFieldMap ++ [.ErrInvalidMPTokenMetadataURIs]
      else uriCollisions o mptTokenMetadataURIFieldMap := rfl

theorem count_URIs_uriCollisions (o : List (List Char × JSONValue))
    (mapping : List (List Char × List Char)) :
    (uriCollisions o mapping).count .ErrInvalidMPTokenMetadataURIs = 0 := by
  apply count_eq_zero_of_forall_ne
  intro e he heq
  obtain ⟨p, _, hp, _⟩ := uriCollisions_mem o mapping e he
  rw [hp] at heq
  cases heq

theorem lookupField_found (m : List (List Char × JSONValue)) (long compact : List Char)
    (h : (lookupField m long compact).2 = true) :
    ∃ k, (k = long ∨ k = compact) ∧ (k, (lookupField m long compact).1) ∈ m := by
  unfold lookupField at h ⊢
  cases h1 : mapLookup m long with
  | some a => exact ⟨long, Or.inl rfl, mem_of_mapLookup m long a h1⟩
  | none =>
    cases h2 : mapLookup m compact with
    | some b => exact ⟨compact, Or.inr rfl, mem_of_mapLookup m compact b h2⟩
    | none =>
      rw [h1, h2] at h
      cases h

theorem isString_iff (v : JSONValue) : isString v = true ↔ ∃ s, v = .string s := by
  cases v <;> simp [isString]

theorem isInvalidCategory_of_isString (v : JSONValue) (h : isString v = true) :
    isInvalidCategory v = !isCategoryValue v := by
  cases v with
  | string s => rfl
  | null => cases h
  | bool b => cases h
  | number n => cases h
  | array l => cases h
  | object o => cases h

/-- When the code reports no `ErrInvalidMPTokenMetadataURIs` for an object, the object
is an entry that the rules accept. -/
theorem isValidURIEntry_of_code (o : List (List Char × JSONValue))
    (hlen : o.length = 3)
    (h1 : (lookupField o "uri".toList "u".toList).2 = true)
    (h2 : isString (lookupField o "uri".toList "u".toList).1 = true)
    (h3 : (lookupField o "category".toList "c".toList).2 = true)
    (h4 : isString (lookupField o "category".toList "c".toList).1 = true)
    (h5 : (lookupField o "title".toList "t".toList).2 = true)
    (h6 : isString (lookupField o "title".toList "t".toList).1 = true)
    (h7 : isInvalidCategory (lookupField o "category".toList "c".toList).1 = false) :
    isValidURIEntry (.object o) = true := by
  obtain ⟨k1, hk1, hm1⟩ := lookupField_found o _ _ h1
  obtain ⟨k2, hk2, hm2⟩ := lookupField_found o _ _ h3
  obtain ⟨k3, hk3, hm3⟩ := lookupField_found o _ _ h5
  rw [isInvalidCategory_of_isString _ h4] at h7
  simp only [Bool.not_eq_false'] at h7
  unfold isValidURIEntry hasStringEntry hasCategoryEntry
  simp only [Bool.and_eq_true, decide_eq_true_eq, List.any_eq_true, Bool.or_eq_true, beq_iff_eq]
  exact ⟨⟨⟨hlen, _, hm1, hk1, h2⟩, _, hm2, hk2, h7⟩, _, hm3, hk3, h6⟩

theorem mapLookup_of_three (o : List (List Char × JSONValue)) (ho : IsGoMap o)
    (k1 k2 k3 : List Char) (v1 v2 v3 : JSONValue)
    (hmem : ∀ p, p ∈ o ↔ (p = (k1, v1) ∨ p = (k2, v2) ∨ p = (k3, v3))) (x : List Char) :
    mapLookup o x =
      if x = k1 then some v1 else if x = k2 then some v2 else if x = k3 then some v3
      else none := by
  by_cases h1 : x = k1
  · rw [if_pos h1, h1]
    exact mapLookup_of_mem o ho k1 v1 ((hmem _).2 (Or.inl rfl))
  · rw [if_neg h1]
    by_cases h2 : x = k2
    · rw [if_pos h2, h2]
      exact mapLookup_of_mem o ho k2 v2 ((hmem _).2 (Or.inr (Or.inl rfl)))
    · rw [if_neg h2]
      by_cases h3 : x = k3
      · rw [if_pos h3, h3]
        exact mapLookup_of_mem o ho k3 v3 ((hmem _).2 (Or.inr (Or.inr rfl)))
      · rw [if_neg h3]
        apply mapLookup_eq_none_of_forall_ne
        intro p hp hpx
        rcases (hmem p).1 hp with h | h | h
        · exact h1 (by rw [← hpx, h])
        · exact h2 (by rw [← hpx, h])
        · exact h3 (by rw [← hpx, h])

theorem mem_iff_of_three (o : List (List Char × JSONValue)) (hlen : o.length = 3)
    (e1 e2 e3 : List Char × JSONValue) (h1 : e1 ∈ o) (h2 : e2 ∈ o) (h3 : e3 ∈ o)
    (h12 : e1 ≠ e2) (h13 : e1 ≠ e3) (h23 : e2 ≠ e3) :
    ∀ p, p ∈ o ↔ (p = e1 ∨ p = e2 ∨ p = e3) := by
  have hnd : [e1, e2, e3].Nodup := by
    simp only [List.nodup_cons, List.mem_cons, List.mem_singleton, List.not_mem_nil,
      not_or, List.nodup_nil, or_false, not_false_eq_true, and_true]
    exact ⟨⟨h12, h13⟩, h23⟩
  have hsub : [e1, e2, e3] ⊆ o := by
    intro p hp
    simp only [List.mem_cons, List.mem_singleton, List.not_mem_nil, or_false] at hp
    rcases hp with hp | hp | hp <;> rw [hp] <;> assumption
  have hperm : [e1, e2, e3].Perm o :=
    (List.subperm_of_subset hnd hsub).perm_of_length_le (by rw [hlen]; rfl)
  intro p
  rw [← hperm.mem_iff]
  simp only [List.mem_cons, List.mem_singleton, List.not_mem_nil, or_false]

/-- An entry that the rules accept is passed by the code without any error. -/
theorem validateURIItem_of_valid (o : List (List Char × JSONValue)) (ho : IsGoMap o)
    (h : isValidURIEntry (.object o) = true) : validateURIItem (.object o) = [] := by
  unfold isValidURIEntry hasStringEntry hasCategoryEntry at h
  simp only [Bool.and_eq_true, decide_eq_true_eq, List.any_eq_true, Bool.or_eq_true,
    beq_iff_eq] at h
  obtain ⟨⟨⟨hlen, ⟨k1, v1⟩, hm1, hk1, hs1⟩, ⟨k2, v2⟩, hm2, hk2, hs2⟩, ⟨k3, v3⟩, hm3, hk3, hs3⟩ := h
  simp only at hk1 hk2 hk3 hs1 hs2 hs3
  obtain ⟨s1, rfl⟩ := (isString_iff v1).1 hs1
  obtain ⟨s3, rfl⟩ := (isString_iff v3).1 hs3
  obtain ⟨s2, rfl⟩ : ∃ s2, v2 = .string s2 := by
    cases v2 <;> simp [isCategoryValue] at hs2
    exact ⟨_, rfl⟩
  have hic : isInvalidCategory (.string s2) = false := by
    simp only [isCategoryValue] at hs2
    simp only [isInvalidCategory, hs2]
    rfl
  have hk12 : k1 ≠ k2 := by
    rcases hk1 with rfl | rfl <;> rcases hk2 with rfl | rfl <;> decide
  have hk13 : k1 ≠ k3 := by
    rcases hk1 with rfl | rfl <;> rcases hk3 with rfl | rfl <;> decide
  have hk23 : k2 ≠ k3 := by
    rcases hk2 with rfl | rfl <;> rcases hk3 with rfl | rfl <;> decide
  have hmem := mem_iff_of_three o hlen _ _ _ hm1 hm2 hm3
    (fun hh => hk12 (congrArg Prod.fst hh)) (fun hh => hk13 (congrArg Prod.fst hh))
    (fun hh => hk23 (congrArg Prod.fst hh))
  have hL := mapLookup_of_three o ho _ _ _ _ _ _ hmem
  rw [validateURIItem_object]
  rcases hk1 with rfl | rfl <;> rcases hk2 with rfl | rfl <;> rcases hk3 with rfl | rfl <;>
    simp [lookupField, uriCollisions, areBothFieldsPresent, mapHas, hL, isString, hic,
      hlen, mptTokenMetadataURIFieldMap, URIRequiredFieldCount]

theorem count_URIs_validateURIItem (item : JSONValue)
    (hgo : ∀ o, item = .object o → IsGoMap o) :
    (validateURIItem item).count .ErrInvalidMPTokenMetadataURIs =
      if isValidURIEntry item = true then 0 else 1 := by
  cases item with
  | object o =>
    by_cases hv : isValidURIEntry (.object o) = true
    · rw [if_pos hv, validateURIItem_of_valid o (hgo o rfl) hv]
      rfl
    · rw [if_neg hv, validateURIItem_object]
      by_cases hlen : o.length ≠ URIRequiredFieldCount
      · rw [if_pos hlen]
        rfl
      · rw [if_neg hlen]
        split
        · rw [List.count_append, count_URIs_uriCollisions]
          rfl
        · rename_i hc
          split
          · rw [List.count_append, count_URIs_uriCollisions]
            rfl
          · rename_i hcat
            exfalso
            apply hv
            simp only [Bool.or_eq_true, Bool.not_eq_true', not_or, Bool.not_eq_false] at hc
            obtain ⟨⟨⟨⟨⟨h1, h2⟩, h3⟩, h4⟩, h5⟩, h6⟩ := hc
            exact isValidURIEntry_of_code o (by simpa [URIRequiredFieldCount] using hlen)
              h1 h2 h3 h4 h5 h6 (by simpa using hcat)
  | null => rfl
  | bool b => rfl
  | number n => rfl
  | string s => rfl
  | array l => rfl

theorem validateURIItems_of_valid (items : List JSONValue)
    (hgo : ∀ item ∈ items, ∀ o, item = .object o → IsGoMap o)
    (h : ∀ item ∈ items, isValidURIEntry item = true) : validateURIItems items = [] := by
  induction items with
  | nil => rfl
  | cons item rest ih =>
    have hi := h item (List.mem_cons_self _ _)
    have hitem : validateURIItem item = [] := by
      cases item with
      | object o =>
        exact validateURIItem_of_valid o (hgo _ (List.mem_cons_self _ _) o rfl) hi
      | null => cases hi
      | bool b => cases hi
      | number n => cases hi
      | string s => cases hi
      | array l => cases hi
    simp only [validateURIItems, hitem, List.nil_append]
    exact ih (fun i hin => hgo i (List.mem_cons_of_mem _ hin))
      (fun i hin => h i (List.mem_cons_of_mem _ hin))

theorem count_URIs_validateURIItems (items : List JSONValue)
    (hgo : ∀ item ∈ items, ∀ o, item = .object o → IsGoMap o) :
    (validateURIItems items).count .ErrInvalidMPTokenMetadataURIs =
      items.countP (fun item => !isValidURIEntry item) := by
  induction items with
  | nil => rfl
  | cons item rest ih =>
    simp only [validateURIItems, List.count_append, List.countP_cons,
      count_URIs_validateURIItem item (hgo item (List.mem_cons_self _ _)),
      ih (fun i hin => hgo i (List.mem_cons_of_mem _ hin))]
    cases isValidURIEntry item
    · simp only [Bool.false_eq_true, if_false, Bool.not_false, if_true]
      omega
    · simp only [if_true, Bool.not_true, Bool.false_eq_true, if_false]
      omega

/-! ## The URI list -/

theorem validateURIs_one_key (m : List (List Char × JSONValue)) (v : JSONValue)
    (hone : (mapLookup m "uris".toList = some v ∧ mapLookup m "us".toList = none) ∨
      (mapLookup m "uris".toList = none ∧ mapLookup m "us".toList = some v)) :
    (∀ items, v = .array items → items ≠ [] → validateURIs m = validateURIItems items) ∧
    ((v = .array [] ∨ ∀ items, v ≠ .array items) →
      validateURIs m = [.ErrInvalidMPTokenMetadataURIs]) := by
  have hfound : lookupField m "uris".toList "us".toList = (v, true) := by
    apply lookupField_of_found
    rcases hone with ⟨h1, _⟩ | ⟨h1, h2⟩
    · exact Or.inl h1
    · exact Or.inr ⟨h1, h2⟩
  have hnot : areBothFieldsPresent m "uris".toList "us".toList = false := by
    apply areBothFieldsPresent_one
    rcases hone with ⟨_, h2⟩ | ⟨h1, _⟩
    · exact Or.inr h2
    · exact Or.inl h1
  unfold validateURIs
  simp only []
  rw [hfound, hnot]
  constructor
  · intro items hv hne
    subst hv
    cases items with
    | nil => exact absurd rfl hne
    | cons item rest => rfl
  · intro h
    cases v with
    | array items =>
      cases items with
      | nil => rfl
      | cons item rest =>
        rcases h with h | h
        · cases h
        · exact absurd rfl (h (item :: rest))
    | null => rfl
    | bool b => rfl
    | number n => rfl
    | string s => rfl
    | object o => rfl

theorem errorStep_uri_collision (p : List Char × List Char)
    (hp : p ∈ mptTokenMetadataURIFieldMap) :
    errorStep (.ErrInvalidMPTokenMetadataFieldCollision p.1 p.2) = 9 := by
  simp only [mptTokenMetadataURIFieldMap, List.mem_cons, List.mem_singleton, List.not_mem_nil,
    or_false] at hp
  rcases hp with hp | hp | hp <;> subst hp <;> rfl

/-- C24: URI list rule. When uris is present under exactly one key, with value `v`,
`ValidateMPTokenMetadata` reports no `ErrInvalidMPTokenMetadataURIs` and no collision of
URI keys if and only if `v` is a non-empty array in which every element is an object
with exactly three entries, one under uri or u, one under category or c, one under
title or t, all three values strings, and the category one of website, social, docs,
other (`isValidURIEntry`). Otherwise `ErrInvalidMPTokenMetadataURIs` is reported once
for each element that is not such an object, and once when `v` is an empty array or not
an array. -/
theorem uri_list_rule (T : JSONText) (hexInput : List Char) (bytes : List Nat)
    (rawData : List (List Char × JSONValue)) (v : JSONValue)
    (hhex : hexDecodeString hexInput = some bytes)
    (hlen : bytes.length ≤ 1024)
    (hmap : jsonUnmarshalMap T bytes = some rawData)
    (hone : (mapLookup rawData "uris".toList = some v ∧ mapLookup rawData "us".toList = none) ∨
      (mapLookup rawData "uris".toList = none ∧ mapLookup rawData "us".toList = some v)) :
    ((.ErrInvalidMPTokenMetadataURIs ∉ ValidateMPTokenMetadata T hexInput ∧
        ∀ p ∈ mptTokenMetadataURIFieldMap,
          .ErrInvalidMPTokenMetadataFieldCollision p.1 p.2 ∉
            ValidateMPTokenMetadata T hexInput) ↔
      ∃ items, v = .array items ∧ items ≠ [] ∧
        ∀ item ∈ items, isValidURIEntry item = true) ∧
    (∀ items, v = .array items → items ≠ [] →
      (ValidateMPTokenMetadata T hexInput).count .ErrInvalidMPTokenMetadataURIs =
        items.countP (fun item => !isValidURIEntry item)) ∧
    ((v = .array [] ∨ ∀ items, v ≠ .array items) →
      (ValidateMPTokenMetadata T hexInput).count .ErrInvalidMPTokenMetadataURIs = 1) := by
  have hV := ValidateMPTokenMetadata_of_map T hexInput bytes rawData hhex
    (by simpa [MaxMPTokenMetadataByteLength] using hlen) hmap
  have hstep : (validationSteps rawData).getD 9 [] = validateURIs rawData := rfl
  have hs : errorStep .ErrInvalidMPTokenMetadataURIs = 9 := rfl
  have hU := validateURIs_one_key rawData v hone
  have hvgo : ∃ v0, v = toGoValue v0 := by
    rcases hone with ⟨h1, _⟩ | ⟨_, h2⟩
    · exact jsonUnmarshalMap_value T bytes rawData _ v hmap h1
    · exact jsonUnmarshalMap_value T bytes rawData _ v hmap h2
  have hgo : ∀ items, v = .array items →
      ∀ item ∈ items, ∀ o, item = .object o → IsGoMap o := by
    intro items hv item hitem o ho
    obtain ⟨v0, hv0⟩ := hvgo
    obtain ⟨i0, hi0⟩ := toGoValue_array_items v0 items (by rw [← hv0, hv]) item hitem
    exact toGoValue_object_isGoMap i0 o (by rw [← hi0, ho])
  have hcount : (ValidateMPTokenMetadata T hexInput).count .ErrInvalidMPTokenMetadataURIs =
      (validateURIs rawData).count .ErrInvalidMPTokenMetadataURIs := by
    rw [hV, count_validateRawData, hs, hstep]
  have hnonempty := hU.1
  have hbad := hU.2
  refine ⟨?_, ?_, ?_⟩
  · constructor
    · rintro ⟨hno, _⟩
      have hzero : (validateURIs rawData).count .ErrInvalidMPTokenMetadataURIs = 0 := by
        rw [← hcount]
        exact List.count_eq_zero.2 hno
      cases hv : v with
      | array items =>
        cases items with
        | nil =>
          rw [hbad (Or.inl hv)] at hzero
          cases hzero
        | cons item rest =>
          refine ⟨item :: rest, rfl, List.cons_ne_nil _ _, ?_⟩
          rw [hnonempty _ hv (List.cons_ne_nil _ _),
            count_URIs_validateURIItems _ (hgo _ hv), List.countP_eq_zero] at hzero
          intro i hi
          have := hzero i hi
          simpa using this
      | null =>
        rw [hbad (Or.inr (fun items h => by rw [hv] at h; cases h))] at hzero
        cases hzero
      | bool b =>
        rw [hbad (Or.inr (fun items h => by rw [hv] at h; cases h))] at hzero
        cases hzero
      | number n =>
        rw [hbad (Or.inr (fun items h => by rw [hv] at h; cases h))] at hzero
        cases hzero
      | string s =>
        rw [hbad (Or.inr (fun items h => by rw [hv] at h; cases h))] at hzero
        cases hzero
      | object o =>
        rw [hbad (Or.inr (fun items h => by rw [hv] at h; cases h))] at hzero
        cases hzero
    · rintro ⟨items, hv, hne, hall⟩
      have hnil : validateURIs rawData = [] := by
        rw [hnonempty items hv hne]
        exact validateURIItems_of_valid items (hgo items hv) hall
      constructor
      · rw [hV, mem_validateRawData_iff, hs, hstep, hnil]
        exact List.not_mem_nil _
      · intro p hp
        rw [hV, mem_validateRawData_iff, errorStep_uri_collision p hp, hstep, hnil]
        exact List.not_mem_nil _
  · intro items hv hne
    rw [hcount, hnonempty items hv hne]
    exact count_URIs_validateURIItems items (hgo items hv)
  · intro h
    rw [hcount, hbad h]
    rfl

set_option maxRecDepth 10000 in
/-- The rule of C24 on the concrete text layer: a list of one well-formed entry under
us is passed without a URI error. -/
theorem uri_list_rule_witness :
    .ErrInvalidMPTokenMetadataURIs ∉ ValidateMPTokenMetadata stackJSON
      (stringsToUpper (hexEncodeToString (stackJSON.print (.object exampleURIsMembers)))) :=
  ((uri_list_rule stackJSON _ (stackJSON.print (.object exampleURIsMembers))
      (toGoMembers exampleURIsMembers [])
      (.array [.object [("c".toList, .string "docs".toList),
        ("t".toList, .string "Doc".toList), ("u".toList, .string "x.org".toList)]])
      (hexDecodeString_upper_encode _ (stackJSON_lawful.1 _)) (by decide)
      (jsonUnmarshalMap_object stackJSON _ exampleURIsMembers (stackJSON_lawful.2 _))
      (Or.inr ⟨rfl, rfl⟩)).1.2
    ⟨_, rfl, List.cons_ne_nil _ _, by
      intro item hitem
      rw [List.mem_singleton] at hitem
      subst hitem
      rfl⟩).1

end XRPL.Transaction.Types

namespace XRPL.Flag

/-! ## `flag.Contains` -/

theorem Contains_eq_true_iff (currentFlag flag : Nat) :
    Contains currentFlag flag = true ↔ flag ≠ 0 ∧ currentFlag &&& flag = flag := by
  simp [Contains]

theorem land_eq_right_iff_bits (currentFlag flag : Nat) :
    currentFlag &&& flag = flag ↔
      ∀ i, flag.testBit i = true → currentFlag.testBit i = true := by
  constructor
  · intro h i hi
    rw [← h, Nat.testBit_land] at hi
    simp only [Bool.and_eq_true] at hi
    exact hi.1
  · intro h
    apply Nat.eq_of_testBit_eq
    intro i
    rw [Nat.testBit_land]
    cases hf : flag.testBit i
    · simp
    · simp [h i hf]

theorem Contains_eq_true_iff_bits (currentFlag flag : Nat) :
    Contains currentFlag flag = true ↔
      flag ≠ 0 ∧ ∀ i, flag.testBit i = true → currentFlag.testBit i = true := by
  rw [Contains_eq_true_iff, land_eq_right_iff_bits]

theorem Contains_zero_flag (currentFlag : Nat) : Contains currentFlag 0 = false := by
  simp [Contains]

theorem Contains_missing_bit (currentFlag flag i : Nat) (hf : flag.testBit i = true)
    (hc : currentFlag.testBit i = false) : Contains currentFlag flag = false := by
  cases h : Contains currentFlag flag
  · rfl
  · rw [Contains_eq_true_iff_bits] at h
    rw [h.2 i hf] at hc
    cases hc

theorem Contains_two_pow (currentFlag n : Nat) :
    Contains currentFlag (2 ^ n) = currentFlag.testBit n := by
  cases hb : currentFlag.testBit n
  · exact Contains_missing_bit _ _ n (by simp [Nat.testBit_two_pow]) hb
  · rw [Contains_eq_true_iff_bits]
    refine ⟨by positivity, fun i hi => ?_⟩
    rw [Nat.testBit_two_pow] at hi
    simp only [decide_eq_true_eq] at hi
    subst hi
    exact hb

/-- C25. `Contains currentFlag flag` is true exactly when `flag` is not zero and every bit
of `flag` is a bit of `currentFlag`, which is to say `flag ≠ 0` and
`currentFlag AND flag = flag`. It is false for the flag 0, also when `currentFlag` is 0,
and false as soon as one bit of `flag` is missing from `currentFlag`, whatever the other
bits: `A` does not contain `A|B` for the flags `A = 262144`, `B = 131072` of the tests. -/
theorem contains_contract (currentFlag flag : Nat) :
    (Contains currentFlag flag = true ↔
      flag ≠ 0 ∧ ∀ i, flag.testBit i = true → currentFlag.testBit i = true) ∧
    (Contains currentFlag flag = true ↔ flag ≠ 0 ∧ currentFlag &&& flag = flag) ∧
    Contains currentFlag 0 = false ∧
    Contains 0 0 = false ∧
    (∀ i, flag.testBit i = true → currentFlag.testBit i = false →
      Contains currentFlag flag = false) ∧
    Contains 262144 (262144 ||| 131072) = false ∧
    Contains (262144 ||| 131072) 262144 = true :=
  ⟨Contains_eq_true_iff_bits _ _, Contains_eq_true_iff _ _, Contains_zero_flag _,
    Contains_zero_flag _, fun i hf hc => Contains_missing_bit _ _ i hf hc,
    by decide, by decide⟩

/-- C25 at the flags of the tests: `A|B = 393216` holds `A = 262144` and not
`C = 65536`, whose bit 16 it lacks. -/
theorem contains_contract_witness :
    Contains 393216 262144 = true ∧ Contains 393216 65536 = false :=
  ⟨((contains_contract 393216 262144).2.1).2 ⟨by decide, by decide⟩,
    (contains_contract 393216 65536).2.2.2.2.1 16 (by decide) (by decide)⟩

end XRPL.Flag

namespace XRPL.Transaction

open XRPL.Flag

/-! ## The flag setters of `TrustSet` -/

theorem TrustSetSetter_call_Flags {T : PackageTypes} (s : TrustSetSetter) (t : TrustSet T) :
    (s.call t).BaseTx.Flags = t.BaseTx.Flags ||| s.constant := by
  cases s <;> rfl

theorem TrustSetSetter_call_frame {T : PackageTypes} (s : TrustSetSetter) (t : TrustSet T) :
    (s.call t).BaseTx.Rest = t.BaseTx.Rest ∧ (s.call t).LimitAmount = t.LimitAmount ∧
    (s.call t).QualityIn = t.QualityIn ∧ (s.call t).QualityOut = t.QualityOut := by
  cases s <;> exact ⟨rfl, rfl, rfl, rfl⟩

theorem callSetters_frame {T : PackageTypes} (calls : List TrustSetSetter) (t : TrustSet T) :
    (callSetters calls t).BaseTx.Rest = t.BaseTx.Rest ∧
    (callSetters calls t).LimitAmount = t.LimitAmount ∧
    (callSetters calls t).QualityIn = t.QualityIn ∧
    (callSetters calls t).QualityOut = t.QualityOut := by
  induction calls generalizing t with
  | nil => exact ⟨rfl, rfl, rfl, rfl⟩
  | cons s rest ih =>
    have h1 := ih (s.call t)
    have h2 := TrustSetSetter_call_frame s t
    simp only [callSetters, List.foldl_cons] at h1 ⊢
    exact ⟨h1.1.trans h2.1, h1.2.1.trans h2.2.1, h1.2.2.1.trans h2.2.2.1,
      h1.2.2.2.trans h2.2.2.2⟩

theorem callSetters_Flags {T : PackageTypes} (calls : List TrustSetSetter) (t : TrustSet T) :
    (callSetters calls t).BaseTx.Flags =
      calls.foldl (fun acc s => acc ||| s.constant) t.BaseTx.Flags := by
  induction calls generalizing t with
  | nil => rfl
  | cons s rest ih =>
    have h1 := ih (s.call t)
    simp only [callSetters, List.foldl_cons] at h1 ⊢
    rw [h1, TrustSetSetter_call_Flags]

theorem testBit_foldl_constants (calls : List TrustSetSetter) (start i : Nat) :
    (calls.foldl (fun acc s => acc ||| s.constant) start).testBit i =
      (start.testBit i || calls.any (fun s => s.constant.testBit i)) := by
  induction calls generalizing start with
  | nil => simp
  | cons s rest ih =>
    simp only [List.foldl_cons, List.any_cons]
    rw [ih, Nat.testBit_lor, Bool.or_assoc]

theorem foldl_constants_congr (calls1 calls2 : List TrustSetSetter) (start : Nat)
    (hsame : ∀ s, s ∈ calls1 ↔ s ∈ calls2) :
    calls1.foldl (fun acc s => acc ||| s.constant) start =
      calls2.foldl (fun acc s => acc ||| s.constant) start := by
  apply Nat.eq_of_testBit_eq
  intro i
  rw [testBit_foldl_constants, testBit_foldl_constants]
  congr 1
  rw [Bool.eq_iff_iff]
  simp only [List.any_eq_true]
  constructor
  · rintro ⟨s, hs, hb⟩
    exact ⟨s, (hsame s).1 hs, hb⟩
  · rintro ⟨s, hs, hb⟩
    exact ⟨s, (hsame s).2 hs, hb⟩

theorem TrustSet_ext {T : PackageTypes} (a b : TrustSet T)
    (hf : a.BaseTx.Flags = b.BaseTx.Flags) (hr : a.BaseTx.Rest = b.BaseTx.Rest)
    (hl : a.LimitAmount = b.LimitAmount) (hi : a.QualityIn = b.QualityIn)
    (ho : a.QualityOut = b.QualityOut) : a = b := by
  cases a with
  | mk ab al ai ao =>
    cases b with
    | mk bb bl bi bo =>
      cases ab
      cases bb
      simp only at hf hr hl hi ho
      subst hf hr hl hi ho
      rfl

/-- C26. A flag setter of `TrustSet` only adds its own bits. For each of the seven setters
with its constant `F`, the `Flags` after the call are the old `Flags` OR `F`, and the other
fields of the base transaction, `LimitAmount`, `QualityIn` and `QualityOut` are the old
ones. Hence a sequence of calls on a `TrustSet` whose `Flags` are 0 leaves the OR of the
constants of the calls in `Flags` and changes nothing else, and two sequences that use the
same setters, in whatever order and however often, end in the same `TrustSet`. -/
theorem trust_set_setters {T : PackageTypes} (t : TrustSet T) :
    (∀ s : TrustSetSetter,
      (s.call t).BaseTx.Flags = t.BaseTx.Flags ||| s.constant ∧
      (s.call t).BaseTx.Rest = t.BaseTx.Rest ∧ (s.call t).LimitAmount = t.LimitAmount ∧
      (s.call t).QualityIn = t.QualityIn ∧ (s.call t).QualityOut = t.QualityOut) ∧
    (t.SetSetAuthFlag.BaseTx.Flags = t.BaseTx.Flags ||| 0x00010000 ∧
      t.SetSetNoRippleFlag.BaseTx.Flags = t.BaseTx.Flags ||| 0x00020000 ∧
      t.SetClearNoRippleFlag.BaseTx.Flags = t.BaseTx.Flags ||| 0x00040000 ∧
      t.SetSetFreezeFlag.BaseTx.Flags = t.BaseTx.Flags ||| 0x00100000 ∧
      t.SetClearFreezeFlag.BaseTx.Flags = t.BaseTx.Flags ||| 0x00200000 ∧
      t.SetSetDeepFreezeFlag.BaseTx.Flags = t.BaseTx.Flags ||| 0x00400000 ∧
      t.SetClearDeepFreezeFlag.BaseTx.Flags = t.BaseTx.Flags ||| 0x00800000) ∧
    (t.BaseTx.Flags = 0 →
      (∀ calls : List TrustSetSetter,
        (callSetters calls t).BaseTx.Flags = orOfConstants calls ∧
        (callSetters calls t).BaseTx.Rest = t.BaseTx.Rest ∧
        (callSetters calls t).LimitAmount = t.LimitAmount ∧
        (callSetters calls t).QualityIn = t.QualityIn ∧
        (callSetters calls t).QualityOut = t.QualityOut) ∧
      (∀ calls1 calls2 : List TrustSetSetter, (∀ s, s ∈ calls1 ↔ s ∈ calls2) →
        callSetters calls1 t = callSetters calls2 t)) := by
  refine ⟨fun s => ⟨TrustSetSetter_call_Flags s t, TrustSetSetter_call_frame s t⟩,
    ⟨rfl, rfl, rfl, rfl, rfl, rfl, rfl⟩, fun hzero => ⟨fun calls => ?_, ?_⟩⟩
  · refine ⟨?_, callSetters_frame calls t⟩
    rw [callSetters_Flags, hzero]
    rfl
  · intro calls1 calls2 hsame
    have f1 := callSetters_frame calls1 t
    have f2 := callSetters_frame calls2 t
    apply TrustSet_ext
    · rw [callSetters_Flags, callSetters_Flags]
      exact foldl_constants_congr calls1 calls2 _ hsame
    · exact f1.1.trans f2.1.symm
    · exact f1.2.1.trans f2.2.1.symm
    · exact f1.2.2.1.trans f2.2.2.1.symm
    · exact f1.2.2.2.trans f2.2.2.2.symm

/-- C26 on a `TrustSet` without flags: the calls `SetSetFreezeFlag`, `SetSetAuthFlag`,
`SetSetFreezeFlag` leave `TfSetAuth|TfSetFreeze = 1114112` in `Flags`, and end in the
same `TrustSet` as the calls `SetSetAuthFlag`, `SetSetFreezeFlag`. -/
theorem trust_set_setters_witness :
    (callSetters [.SetSetFreezeFlag, .SetSetAuthFlag, .SetSetFreezeFlag]
      sampleTrustSet).BaseTx.Flags = 1114112 ∧
    callSetters [.SetSetFreezeFlag, .SetSetAuthFlag, .SetSetFreezeFlag] sampleTrustSet =
      callSetters [.SetSetAuthFlag, .SetSetFreezeFlag] sampleTrustSet :=
  ⟨(((trust_set_setters sampleTrustSet).2.2 rfl).1
      [.SetSetFreezeFlag, .SetSetAuthFlag, .SetSetFreezeFlag]).1.trans (by decide),
    ((trust_set_setters sampleTrustSet).2.2 rfl).2
      [.SetSetFreezeFlag, .SetSetAuthFlag, .SetSetFreezeFlag]
      [.SetSetAuthFlag, .SetSetFreezeFlag] (fun s => by cases s <;> decide)⟩

end XRPL.Transaction

namespace XRPL.Transaction

open XRPL.Flag

/-! ## `checkPartialPayment` -/

theorem Contains_TfPartialPayment (flags : Nat) :
    Contains flags TfPartialPayment = flags.testBit 17 :=
  Contains_two_pow flags 17

theorem checkPartialPayment_eq {T : PackageTypes} (tx : Payment T) :
    checkPartialPayment tx =
      if tx.DeliverMin.isNone || tx.BaseTx.Flags.testBit 17 then (true, none)
      else (false, some .ErrPartialPaymentFlagRequired) := by
  unfold checkPartialPayment
  rw [Contains_TfPartialPayment]
  cases hd : tx.DeliverMin.isNone
  · by_cases hz : tx.BaseTx.Flags = 0
    · simp [hz]
    · cases hb : tx.BaseTx.Flags.testBit 17 <;> simp [hz]
  · simp

theorem checkPartialPaymentWithoutZeroTest_eq {T : PackageTypes} (tx : Payment T) :
    checkPartialPaymentWithoutZeroTest tx =
      if tx.DeliverMin.isNone || tx.BaseTx.Flags.testBit 17 then (true, none)
      else (false, some .ErrPartialPaymentFlagRequired) := by
  unfold checkPartialPaymentWithoutZeroTest
  rw [Contains_TfPartialPayment]
  cases hd : tx.DeliverMin.isNone
  · cases hb : tx.BaseTx.Flags.testBit 17 <;> simp
  · simp

theorem Payment_Validate_of_failed_check {T : PackageTypes} (h : Helpers T) (tx : Payment T)
    (hbase : (h.BaseTxValidate tx.BaseTx).2 = none)
    (hamount : (h.IsAmount tx.Amount "Amount" true).1 = true)
    (hdest : h.IsValidAddress tx.Destination = true)
    (hpaths : ∀ paths, tx.Paths = some paths → (h.IsPaths paths).1 = true)
    (hsend : (h.IsAmount tx.SendMax "SendMax" false).1 = true)
    (hmax : (h.IsAmount tx.DeliverMax "DeliverMax" false).1 = true)
    (hmin : (h.IsAmount tx.DeliverMin "DeliverMin" false).1 = true)
    (hcred : ∀ ids, tx.CredentialIDs = some ids → h.CredentialIDsIsValid ids = true)
    (hfail : (checkPartialPayment tx).1 = false) :
    tx.Validate h = checkPartialPayment tx := by
  have hpp : checkPartialPayment tx = (false, (checkPartialPayment tx).2) := by
    rw [← hfail]
  have hpaths2 : (match tx.Paths with
      | some paths => if (!(h.IsPaths paths).1) = true then some (false, (h.IsPaths paths).2)
          else none
      | none => none) = (none : Option (Bool × Option TxError)) := by
    cases hp : tx.Paths with
    | none => rfl
    | some paths => simp [hpaths paths hp]
  have hcred2 : (match tx.CredentialIDs with
      | some ids => !h.CredentialIDsIsValid ids
      | none => false) = false := by
    cases hc : tx.CredentialIDs with
    | none => rfl
    | some ids => simp [hcred ids hc]
  unfold Payment.Validate
  simp only [hbase, hamount, hdest, hsend, hmax, hmin, hpaths2, hcred2, hfail, bne_self_eq_false,
    Bool.not_true, Bool.not_false, Bool.false_eq_true, if_false, if_true]
  exact hpp.symm

/-- C29. The check `checkPartialPayment` gives `(true, nil)` exactly when `DeliverMin` is
`nil` or bit 17 of `Flags`, the bit `TfPartialPayment = 131072`, is set; in every other
case it gives `(false, ErrPartialPaymentFlagRequired)`. The test `tx.Flags == 0` changes
nothing: the function without it gives the same result on every payment. In
`Payment.Validate` a payment that passes the checks before it (base transaction, `Amount`,
`Destination`, `Paths`, `SendMax`, `DeliverMax`, `DeliverMin`, `CredentialIDs`) and fails
this one is refused with that result. -/
theorem partial_payment_rule {T : PackageTypes} (tx : Payment T) :
    (checkPartialPayment tx = (true, none) ↔
      tx.DeliverMin = none ∨ tx.BaseTx.Flags.testBit 17 = true) ∧
    (¬ (tx.DeliverMin = none ∨ tx.BaseTx.Flags.testBit 17 = true) →
      checkPartialPayment tx = (false, some .ErrPartialPaymentFlagRequired)) ∧
    (TfPartialPayment = 131072 ∧ TfPartialPayment = 2 ^ 17 ∧
      Contains tx.BaseTx.Flags TfPartialPayment = tx.BaseTx.Flags.testBit 17) ∧
    checkPartialPayment tx = checkPartialPaymentWithoutZeroTest tx ∧
    (∀ h : Helpers T,
      (h.BaseTxValidate tx.BaseTx).2 = none →
      (h.IsAmount tx.Amount "Amount" true).1 = true →
      h.IsValidAddress tx.Destination = true →
      (∀ paths, tx.Paths = some paths → (h.IsPaths paths).1 = true) →
      (h.IsAmount tx.SendMax "SendMax" false).1 = true →
      (h.IsAmount tx.DeliverMax "DeliverMax" false).1 = true →
      (h.IsAmount tx.DeliverMin "DeliverMin" false).1 = true →
      (∀ ids, tx.CredentialIDs = some ids → h.CredentialIDsIsValid ids = true) →
      ¬ (tx.DeliverMin = none ∨ tx.BaseTx.Flags.testBit 17 = true) →
      tx.Validate h = (false, some .ErrPartialPaymentFlagRequired)) := by
  have key := checkPartialPayment_eq tx
  have hcond : (tx.DeliverMin.isNone || tx.BaseTx.Flags.testBit 17) = true ↔
      tx.DeliverMin = none ∨ tx.BaseTx.Flags.testBit 17 = true := by
    rw [Bool.or_eq_true, Option.isNone_iff_eq_none]
  have hneg : ¬ (tx.DeliverMin = none ∨ tx.BaseTx.Flags.testBit 17 = true) →
      checkPartialPayment tx = (false, some .ErrPartialPaymentFlagRequired) := by
    intro hn
    rw [key, if_neg (fun hc => hn (hcond.1 hc))]
  refine ⟨?_, hneg, ⟨rfl, rfl, Contains_TfPartialPayment _⟩, ?_, ?_⟩
  · constructor
    · intro hok
      by_contra hn
      rw [hneg hn] at hok
      cases hok
    · intro hc
      rw [key, if_pos (hcond.2 hc)]
  · rw [key, checkPartialPaymentWithoutZeroTest_eq]
  · intro h hbase hamount hdest hpaths hsend hmax hmin hcred hn
    have hfail := hneg hn
    rw [Payment_Validate_of_failed_check h tx hbase hamount hdest hpaths hsend hmax hmin hcred
      (by rw [hfail]), hfail]

/-- C29 on a payment with a `DeliverMin` whose only flag is `TfRippleNotDirect`: the
check fails, and `Payment.Validate` with helpers that accept everything refuses the
payment with `ErrPartialPaymentFlagRequired`. -/
theorem partial_payment_rule_witness :
    checkPartialPayment samplePayment = (false, some .ErrPartialPaymentFlagRequired) ∧
    samplePayment.Validate sampleHelpers = (false, some .ErrPartialPaymentFlagRequired) :=
  ⟨(partial_payment_rule samplePayment).2.1 (by decide),
    (partial_payment_rule samplePayment).2.2.2.2 sampleHelpers rfl rfl rfl
      (fun _ _ => rfl) rfl rfl rfl (fun _ _ => rfl) (by decide)⟩

/-! ## `AccountSet.Validate` -/

theorem firstError_eq_none (checks : List (Option TxError))
    (hall : ∀ r ∈ checks, r = none) : firstError checks = none := by
  induction checks with
  | nil => rfl
  | cons r rest ih =>
    have hr : r = none := hall r (List.mem_cons_self _ _)
    subst hr
    exact ih (fun r hr => hall r (List.mem_cons_of_mem _ hr))

/-- The test of `AccountSet.Validate` on the tick size. -/
theorem tickSize_test (tick : Nat) :
    (tick != 0 && (decide (tick < MinTickSize) || decide (tick > MaxTickSize))) = true ↔
      tick = 1 ∨ tick = 2 ∨ 15 < tick := by
  simp only [MinTickSize, MaxTickSize, Bool.and_eq_true, Bool.or_eq_true, bne_iff_ne,
    decide_eq_true_eq]
  omega

theorem AccountSet_Validate_of_checks {T : PackageTypes} (h : Helpers T) (s : AccountSet T)
    (hbase : (h.BaseTxValidate s.BaseTx).2 = none)
    (hfields : ∀ r ∈ s.optionalFieldChecks h, r = none)
    (hflag : s.SetFlag = 0 ∨
      (AsfRequireDest ≤ s.SetFlag ∧ s.SetFlag ≤ AsfAllowTrustLineLocking)) :
    s.Validate h =
      if (match s.TickSize with
          | some tick => tick != 0 && (decide (tick < MinTickSize) || decide (tick > MaxTickSize))
          | none => false) = true
      then (false, some .ErrAccountSetInvalidTickSize) else (true, none) := by
  have hflag2 : (s.SetFlag != 0 && (decide (s.SetFlag < AsfRequireDest) ||
      decide (s.SetFlag > AsfAllowTrustLineLocking))) = false := by
    rw [Bool.eq_false_iff]
    simp only [ne_eq, Bool.and_eq_true, Bool.or_eq_true, bne_iff_ne, decide_eq_true_eq]
    omega
  unfold AccountSet.Validate
  simp only [hbase, firstError_eq_none _ hfields, hflag2, bne_self_eq_false,
    Bool.false_eq_true, if_false]

theorem sampleHelpers_optionalFieldChecks (s : AccountSet sampleTypes) :
    ∀ r ∈ s.optionalFieldChecks sampleHelpers, r = none := by
  intro r hr
  simp only [AccountSet.optionalFieldChecks, sampleHelpers, List.mem_cons,
    List.mem_singleton, List.not_mem_nil, or_false, or_self] at hr
  exact hr

/-- C30. When the base transaction gives no error, the ten optional-field checks give no
error and `SetFlag` is 0 or lies between `AsfRequireDest` and `AsfAllowTrustLineLocking`,
`AccountSet.Validate` gives `(false, ErrAccountSetInvalidTickSize)` exactly when
`TickSize` is present with the value 1, 2 or a value above 15. With `TickSize` absent, 0
or from 3 to 15 it gives `(true, nil)`. -/
theorem tick_size_range {T : PackageTypes} (h : Helpers T) (s : AccountSet T)
    (hbase : (h.BaseTxValidate s.BaseTx).2 = none)
    (hfields : ∀ r ∈ s.optionalFieldChecks h, r = none)
    (hflag : s.SetFlag = 0 ∨
      (AsfRequireDest ≤ s.SetFlag ∧ s.SetFlag ≤ AsfAllowTrustLineLocking)) :
    (s.Validate h = (false, some .ErrAccountSetInvalidTickSize) ↔
      ∃ tick, s.TickSize = some tick ∧ (tick = 1 ∨ tick = 2 ∨ 15 < tick)) ∧
    ((s.TickSize = none ∨ s.TickSize = some 0 ∨
        ∃ tick, s.TickSize = some tick ∧ 3 ≤ tick ∧ tick ≤ 15) →
      s.Validate h = (true, none)) ∧
    (s.Validate h = (true, none) ∨
      s.Validate h = (false, some .ErrAccountSetInvalidTickSize)) := by
  have key := AccountSet_Validate_of_checks h s hbase hfields hflag
  cases ht : s.TickSize with
  | none =>
    rw [ht] at key
    simp only [Bool.false_eq_true, if_false] at key
    rw [key]
    refine ⟨⟨fun hc => ?_, fun hc => ?_⟩, fun _ => rfl, Or.inl rfl⟩
    · cases hc
    · obtain ⟨tick, htick, _⟩ := hc
      cases htick
  | some tick =>
    rw [ht] at key
    simp only [] at key
    by_cases hbad : tick = 1 ∨ tick = 2 ∨ 15 < tick
    · rw [if_pos ((tickSize_test tick).2 hbad)] at key
      rw [key]
      refine ⟨⟨fun _ => ⟨tick, rfl, hbad⟩, fun _ => rfl⟩, fun hc => ?_, Or.inr rfl⟩
      exfalso
      rcases hc with hc | hc | ⟨t2, h2, h3, h4⟩
      · cases hc
      · cases hc
        omega
      · cases h2
        omega
    · rw [if_neg (fun hc => hbad ((tickSize_test tick).1 hc))] at key
      rw [key]
      refine ⟨⟨fun hc => ?_, fun hc => ?_⟩, fun _ => rfl, Or.inl rfl⟩
      · cases hc
      · obtain ⟨t2, h2, h3⟩ := hc
        cases h2
        exact absurd h3 hbad

/-- C30 on an `AccountSet` that only sets a tick size, with helpers that accept
everything: the tick size 2 is refused, the tick size 8 is accepted. -/
theorem tick_size_range_witness :
    (sampleAccountSet (some 2)).Validate sampleHelpers =
      (false, some .ErrAccountSetInvalidTickSize) ∧
    (sampleAccountSet (some 8)).Validate sampleHelpers = (true, none) :=
  ⟨(tick_size_range sampleHelpers (sampleAccountSet (some 2)) rfl
      (sampleHelpers_optionalFieldChecks _)
      (Or.inl rfl)).1.2 ⟨2, rfl, Or.inr (Or.inl rfl)⟩,
    (tick_size_range sampleHelpers (sampleAccountSet (some 8)) rfl
      (sampleHelpers_optionalFieldChecks _)
      (Or.inl rfl)).2.1 (Or.inr (Or.inr ⟨8, rfl, by decide, by decide⟩))⟩

end XRPL.Transaction

namespace XRPL.Transaction

open XRPL.Flag

/-! ## `MPTokenIssuanceCreate.Validate` -/

theorem MPTokenIssuanceCreate_Validate_of_fee {T : PackageTypes} (h : Helpers T)
    (m : MPTokenIssuanceCreate T) (fee : Nat)
    (hbase : h.BaseTxValidate m.BaseTx = (true, none))
    (hfee : m.TransferFee = some fee) (hpos : 0 < fee) (hmax : fee ≤ h.MaxTransferFee)
    (hflag : Contains m.BaseTx.Flags TfMPTCanTransfer = false) :
    m.Validate h = (false, some .ErrTransferFeeRequiresCanTransfer) := by
  unfold MPTokenIssuanceCreate.Validate
  simp [hbase, hfee, hpos, hflag, Nat.not_lt.2 hmax]

theorem MPTokenIssuanceCreate_Validate_of_zero_fee {T : PackageTypes} (h : Helpers T)
    (m : MPTokenIssuanceCreate T)
    (hbase : h.BaseTxValidate m.BaseTx = (true, none))
    (hfee : m.TransferFee = some 0)
    (hamount : m.MaximumAmount = none)
    (hmeta : m.MPTokenMetadata = none) :
    m.Validate h = (true, none) := by
  unfold MPTokenIssuanceCreate.Validate
  simp [hbase, hfee, hamount, hmeta]

/-- C27 as stated fails for a fee of 0. On a transaction with `TransferFee: 0` and
`Flags: 0` the fee is present, the flags do not contain `TfMPTCanTransfer`, base
validation passes and the fee does not exceed `MaxTransferFee`; the test
`*m.TransferFee > 0` skips both checks of the fee and the transaction is accepted with
`(true, nil)`. -/
theorem transfer_fee_requires_flag_counterexample :
    zeroFeeIssuance.TransferFee = some 0 ∧
    Contains zeroFeeIssuance.BaseTx.Flags TfMPTCanTransfer = false ∧
    sampleHelpers.BaseTxValidate zeroFeeIssuance.BaseTx = (true, none) ∧
    0 ≤ sampleHelpers.MaxTransferFee ∧
    zeroFeeIssuance.Validate sampleHelpers = (true, none) :=
  ⟨rfl, by decide, rfl, by decide,
    MPTokenIssuanceCreate_Validate_of_zero_fee sampleHelpers zeroFeeIssuance rfl rfl rfl rfl⟩

/-- C27, amended: whenever `TransferFee` is present with a value greater than 0 and
`Flags` does not contain `TfMPTCanTransfer`, `Validate` returns false with
`ErrTransferFeeRequiresCanTransfer`, given that base validation passes and the fee does not
exceed `MaxTransferFee`. A `TransferFee` that is present and 0 is validated as a
transaction without the field. -/
theorem transfer_fee_requires_flag {T : PackageTypes} (h : Helpers T)
    (m : MPTokenIssuanceCreate T) (fee : Nat)
    (hbase : h.BaseTxValidate m.BaseTx = (true, none))
    (hfee : m.TransferFee = some fee) (hmax : fee ≤ h.MaxTransferFee)
    (hflag : Contains m.BaseTx.Flags TfMPTCanTransfer = false) :
    (0 < fee → m.Validate h = (false, some .ErrTransferFeeRequiresCanTransfer)) ∧
    (fee = 0 → m.Validate h = ({ m with TransferFee := none }).Validate h) := by
  refine ⟨fun hpos => MPTokenIssuanceCreate_Validate_of_fee h m fee hbase hfee hpos hmax hflag,
    fun hzero => ?_⟩
  unfold MPTokenIssuanceCreate.Validate
  simp [hfee, hzero]

/-- C27 on a transaction with `TransferFee: 10` and `Flags: 0`, with helpers that accept
the base transaction and the limit 50000: the transaction is refused with
`ErrTransferFeeRequiresCanTransfer`. -/
theorem transfer_fee_requires_flag_witness :
    (sampleFeeIssuance 10).TransferFee = some 10 ∧
    Contains (sampleFeeIssuance 10).BaseTx.Flags TfMPTCanTransfer = false ∧
    (sampleFeeIssuance 10).Validate sampleHelpers =
      (false, some .ErrTransferFeeRequiresCanTransfer) :=
  ⟨rfl, by decide,
    (transfer_fee_requires_flag sampleHelpers (sampleFeeIssuance 10) 10 rfl rfl (by decide)
      (by decide)).1 (by decide)⟩

/-! ## `XChainModifyBridge.Validate` -/

theorem XChainModifyBridge_Validate_with_flag {T : PackageTypes} (h : Helpers T)
    (x : XChainModifyBridge T)
    (hbase : (h.BaseTxValidate x.BaseTx).2 = none)
    (hflag : Contains x.Flags TfClearAccountCreateAmount = true)
    (hmin : (h.IsAmount x.MinAccountCreateAmount "MinAccountCreateAmount" false).1 = true)
    (hreward : (h.IsAmount x.SignatureReward "SignatureReward" false).1 = true) :
    x.Validate h = h.XChainBridgeValidate x.XChainBridge := by
  unfold XChainModifyBridge.Validate
  simp [hbase, hflag, hmin, hreward]

/-- C28, the code at the failing inputs: whenever the base transaction gives no error and
`Flags` does not contain `TfClearAccountCreateAmount`, as with `Flags = 0`,
`XChainModifyBridge.Validate` gives `(false, ErrInvalidFlags)`, whatever the amounts and
the bridge are. -/
theorem modify_bridge_demands_flag {T : PackageTypes} (h : Helpers T)
    (x : XChainModifyBridge T)
    (hbase : (h.BaseTxValidate x.BaseTx).2 = none)
    (hflags : x.Flags = 0 ∨ Contains x.Flags TfClearAccountCreateAmount = false) :
    x.Validate h = (false, some .ErrInvalidFlags) := by
  have hc : Contains x.Flags TfClearAccountCreateAmount = false := by
    rcases hflags with hz | hc
    · rw [hz]
      rfl
    · exact hc
  unfold XChainModifyBridge.Validate
  simp [hbase, hc]

/-- C28 on the documented example (a signature reward, a minimal account create amount, no
flags), with helpers that accept the base transaction, both amounts and the bridge: the
transaction is refused with `ErrInvalidFlags`. -/
theorem modify_bridge_demands_flag_witness :
    documentedModifyBridge.Flags = 0 ∧
    documentedModifyBridge.Validate sampleHelpers = (false, some .ErrInvalidFlags) :=
  ⟨rfl, modify_bridge_demands_flag sampleHelpers documentedModifyBridge rfl (Or.inl rfl)⟩

end XRPL.Transaction

namespace XRPL.Transaction

/-! ## The projections of `TxMetadataBuilder` -/

/-- C31. For every `TxMetadataBuilder` `b`, `AsTxObjMeta` copies `AffectedNodes`,
`PartialDeliveredAmount`, `TransactionIndex`, `TransactionResult`, `DeliveredAmount` and
`ParentBatchID` of `b`. Each of the six other projections returns a value whose embedded
`TxObjMeta` is `b.AsTxObjMeta()` and whose own fields (`NFTokenID`, `OfferID`,
`NFTokenIDs`, `MPTIssuanceID`, as the type has them) are the fields of `b` with the same
name, a `nil` as well as any other value. -/
theorem metadata_builder_projections {M : MetaTypes} (b : TxMetadataBuilder M) :
    (b.AsTxObjMeta.AffectedNodes = b.AffectedNodes ∧
      b.AsTxObjMeta.PartialDeliveredAmount = b.PartialDeliveredAmount ∧
      b.AsTxObjMeta.TransactionIndex = b.TransactionIndex ∧
      b.AsTxObjMeta.TransactionResult = b.TransactionResult ∧
      b.AsTxObjMeta.DeliveredAmount = b.DeliveredAmount ∧
      b.AsTxObjMeta.ParentBatchID = b.ParentBatchID) ∧
    b.AsPaymentMetadata.TxObjMeta = b.AsTxObjMeta ∧
    (b.AsNFTokenMintMetadata.TxObjMeta = b.AsTxObjMeta ∧
      b.AsNFTokenMintMetadata.NFTokenID = b.NFTokenID ∧
      b.AsNFTokenMintMetadata.OfferID = b.OfferID) ∧
    (b.AsNFTokenCreateOfferMetadata.TxObjMeta = b.AsTxObjMeta ∧
      b.AsNFTokenCreateOfferMetadata.OfferID = b.OfferID) ∧
    (b.AsNFTokenAcceptOfferMetadata.TxObjMeta = b.AsTxObjMeta ∧
      b.AsNFTokenAcceptOfferMetadata.NFTokenID = b.NFTokenID) ∧
    (b.AsNFTokenCancelOfferMetadata.TxObjMeta = b.AsTxObjMeta ∧
      b.AsNFTokenCancelOfferMetadata.NFTokenIDs = b.NFTokenIDs) ∧
    (b.AsMPTokenIssuanceCreateMetadata.TxObjMeta = b.AsTxObjMeta ∧
      b.AsMPTokenIssuanceCreateMetadata.MPTIssuanceID = b.MPTIssuanceID) :=
  ⟨⟨rfl, rfl, rfl, rfl, rfl, rfl⟩, rfl, ⟨rfl, rfl, rfl⟩, ⟨rfl, rfl⟩, ⟨rfl, rfl⟩,
    ⟨rfl, rfl⟩, ⟨rfl, rfl⟩⟩

end XRPL.Transaction

namespace XRPL.Pkg.Hexutil

open XRPL.Transaction.Types

/-! ## `EncodeToUpperHex` -/

theorem toUpper_digitChar (d : Nat) (hd : d < 16) :
    (Nat.digitChar d).toUpper = upperHexDigit d := by
  interval_cases d <;> rfl

theorem upper_encode_length (l : List Nat) :
    (stringsToUpper (hexEncodeToString l)).length = 2 * l.length := by
  induction l with
  | nil => rfl
  | cons x rest ih =>
    unfold stringsToUpper at ih ⊢
    simp only [hexEncodeToString, List.map_cons, List.length_cons, ih]
    omega

theorem upper_encode_pair (l : List Nat) (hl : ∀ x ∈ l, x < 256) (i : Nat)
    (hi : i < l.length) :
    (stringsToUpper (hexEncodeToString l)).get? (2 * i) = some (upperHexDigit (l.getD i 0 / 16)) ∧
    (stringsToUpper (hexEncodeToString l)).get? (2 * i + 1) =
      some (upperHexDigit (l.getD i 0 % 16)) := by
  induction l generalizing i with
  | nil => cases hi
  | cons x rest ih =>
    have hx : x < 256 := hl x (List.mem_cons_self _ _)
    unfold stringsToUpper at ih ⊢
    simp only [hexEncodeToString, List.map_cons]
    cases i with
    | zero =>
      simp only [Nat.mul_zero, List.get?_cons_zero, Nat.zero_add, List.get?_cons_succ,
        List.getD_cons_zero]
      rw [toUpper_digitChar _ (by omega), toUpper_digitChar _ (Nat.mod_lt _ (by omega))]
      exact ⟨rfl, rfl⟩
    | succ j =>
      have h2 : 2 * (j + 1) = (2 * j + 1) + 1 := by omega
      have h3 : 2 * (j + 1) + 1 = ((2 * j + 1) + 1) + 1 := by omega
      rw [h3, h2]
      simp only [List.get?_cons_succ, List.getD_cons_succ]
      exact ih (fun y hy => hl y (List.mem_cons_of_mem _ hy)) j
        (by simpa using hi)

/-- C32. For every byte slice `b`, the `nil` and the empty one as well,
`EncodeToUpperHex(b)` has `2*len(b)` characters, all of them among `0-9` and `A-F`; the
characters `2i` and `2i+1` are the upper-case hexadecimal digits of `b[i] / 16` and
`b[i] % 16`, the two-digit value of `b[i]`. The `nil` and the empty slice give the empty
string, and `hex.DecodeString` gives back the bytes of `b`. -/
theorem encode_to_upper_hex (b : Option (List Nat)) (hb : ∀ x ∈ sliceBytes b, x < 256) :
    (EncodeToUpperHex b).length = 2 * (sliceBytes b).length ∧
    (∀ c ∈ EncodeToUpperHex b, c ∈ "0123456789ABCDEF".toList) ∧
    (∀ i, i < (sliceBytes b).length →
      (EncodeToUpperHex b).get? (2 * i) =
        some (upperHexDigit ((sliceBytes b).getD i 0 / 16)) ∧
      (EncodeToUpperHex b).get? (2 * i + 1) =
        some (upperHexDigit ((sliceBytes b).getD i 0 % 16))) ∧
    EncodeToUpperHex none = [] ∧
    EncodeToUpperHex (some []) = [] ∧
    hexDecodeString (EncodeToUpperHex b) = some (sliceBytes b) :=
  ⟨upper_encode_length _, upper_encode_chars _ hb, fun i hi => upper_encode_pair _ hb i hi,
    rfl, rfl, hexDecodeString_upper_encode _ hb⟩

/-- C32 on the bytes `0xDE 0xAD 0xBE 0xEF` and `0x00 0x0F 0xFF` of the tests. -/
theorem encode_to_upper_hex_witness :
    EncodeToUpperHex (some [222, 173, 190, 239]) = "DEADBEEF".toList ∧
    (EncodeToUpperHex (some [0, 15, 255])).length = 6 ∧
    hexDecodeString (EncodeToUpperHex (some [0, 15, 255])) = some [0, 15, 255] :=
  ⟨rfl, (encode_to_upper_hex (some [0, 15, 255]) (by decide)).1,
    (encode_to_upper_hex (some [0, 15, 255]) (by decide)).2.2.2.2.2⟩

end XRPL.Pkg.Hexutil

namespace XRPL.BinaryCodec.Types

/-! ## Idempotence, inversion and fixed points of the number codec -/

/-- C36. Parsing inverts formatting: for every non-zero `int64` mantissa `m`, in normal
form or not and `-2^63` included, and every exponent `e` in `[-32768, 32768]`,
`parseNumberString(formatNumber(m, e))` succeeds with exactly `(m, e)`; this holds in the
fixed-point range `-25 ≤ e ≤ -5` and in the scientific range alike. -/
theorem parse_inverts_format (m e : Int) (hm : m ≠ 0) (hI : IsInt64 m)
    (he1 : -32768 ≤ e) (he2 : e ≤ 32768) :
    parseNumberString (formatNumber m e) = .ok (m, e) :=
  parse_format_roundtrip m e hm hI he1 he2

/-- C36 on `-2^63` in the fixed-point range and on the mantissa 5, which is not in normal
form, in the scientific range. -/
theorem parse_inverts_format_witness :
    parseNumberString (formatNumber (-9223372036854775808) (-5)) =
      .ok (-9223372036854775808, -5) ∧
    parseNumberString (formatNumber 5 100) = .ok (5, 100) :=
  ⟨parse_inverts_format (-9223372036854775808) (-5) (by decide) (by decide) (by decide)
      (by decide),
    parse_inverts_format 5 100 (by decide) (by decide) (by decide) (by decide)⟩

/-- C37. `normalizeNumber` is idempotent: when `normalizeNumber(m, e)` succeeds with
`(m', e')` for an `int64` `m` and an `int32` `e`, `normalizeNumber(m', e')` succeeds with
`(m', e')` again. A zero mantissa gives `(0, -2147483648)` whatever the exponent. -/
theorem normalize_idempotent (m e m' e' : Int) (hI : IsInt64 m) (he : IsInt32 e)
    (h : normalizeNumber m e = .ok (m', e')) :
    normalizeNumber m' e' = .ok (m', e') ∧
    (∀ e0 : Int, normalizeNumber 0 e0 = .ok (0, -2147483648)) :=
  ⟨(normalizeNumber_output m e m' e' hI he h).2.2.2, fun e0 => normalizeNumber_zero e0⟩

/-- C37 on the mantissa 1 with exponent 0, which normalizes to `(10^15, -15)`. -/
theorem normalize_idempotent_witness :
    normalizeNumber 1000000000000000 (-15) = .ok (1000000000000000, -15) :=
  (normalize_idempotent 1 0 1000000000000000 (-15) (by decide) (by decide)
    normalizeNumber_one).1

theorem TrimSpace_of_all_space (s : List Char) (h : ∀ c ∈ s, isSpace c = true) :
    TrimSpace s = [] := by
  unfold TrimSpace
  have h1 : s.dropWhile isSpace = [] := by
    rw [List.dropWhile_eq_nil_iff]
    exact h
  rw [h1]
  rfl

theorem encodeNumber_zero : encodeNumber 0 numberZeroExponent = zeroPattern := by
  decide

theorem FromJSON_of_parse_zero (s : List Char)
    (h : parseNumberString s = .ok (0, numberZeroExponent)) :
    FromJSON (.string s) = .ok zeroPattern := by
  rw [FromJSON_of_steps_encodeNumber s 0 numberZeroExponent 0 numberZeroExponent h
    (normalizeNumber_zero _), encodeNumber_zero]

/-- C38. A string without any mantissa digit encodes as zero: for every string made only
of an optional sign, an optional `'.'` and an optional exponent suffix, and for every
string of white space only, `Number.FromJSON` succeeds with the twelve-byte zero
pattern. -/
theorem digitless_inputs_encode_zero (s : List Char)
    (h : DigitlessLayout s ∨ ∀ c ∈ s, isSpace c = true) :
    FromJSON (.string s) = .ok zeroPattern := by
  apply FromJSON_of_parse_zero
  rcases h with ⟨p, hp, hint, hfrac, rfl⟩ | h
  · have hd : p.digits = [] := by
      unfold NumberParts.digits
      rw [hint, hfrac]
      rfl
    rw [parseNumberString_render p hp, if_pos (Or.inr (Or.inr hd))]
  · unfold parseNumberString
    simp only [TrimSpace_of_all_space s h, or_true, if_true]

/-- C38 on the strings `-.E-3`, `+`, `.`, `e5` and on a string of two spaces and a
tab. -/
theorem digitless_inputs_encode_zero_witness :
    FromJSON (.string "-.E-3".toList) = .ok zeroPattern ∧
    FromJSON (.string "+".toList) = .ok zeroPattern ∧
    FromJSON (.string ".".toList) = .ok zeroPattern ∧
    FromJSON (.string "e5".toList) = .ok zeroPattern ∧
    FromJSON (.string "  \t".toList) = .ok zeroPattern :=
  ⟨digitless_inputs_encode_zero _
      (Or.inl ⟨⟨['-'], [], some [], some ('E', ['-'], ['3'])⟩, by decide, rfl, rfl, rfl⟩),
    digitless_inputs_encode_zero _ (Or.inl ⟨⟨['+'], [], none, none⟩, by decide, rfl, rfl, rfl⟩),
    digitless_inputs_encode_zero _ (Or.inl ⟨⟨[], [], some [], none⟩, by decide, rfl, rfl, rfl⟩),
    digitless_inputs_encode_zero _
      (Or.inl ⟨⟨[], [], none, some ('e', [], ['5'])⟩, by decide, rfl, rfl, rfl⟩),
    digitless_inputs_encode_zero _ (Or.inr (by decide))⟩

end XRPL.BinaryCodec.Types

namespace XRPL.BinaryCodec.Types

/-! ## Twelve bytes are the encoding of what they hold -/

theorem toUint64_wrap64_natCast (v : Nat) (hv : v < 18446744073709551616) :
    toUint64 (wrap64 (v : Int)) = v := by
  unfold toUint64 wrap64
  omega

theorem toUint32_wrap32_natCast (v : Nat) (hv : v < 4294967296) :
    toUint32 (wrap32 (v : Int)) = v := by
  unfold toUint32 wrap32
  omega

theorem putUint64_bigEndianValue (b0 b1 b2 b3 b4 b5 b6 b7 : Nat) (h0 : b0 < 256)
    (h1 : b1 < 256) (h2 : b2 < 256) (h3 : b3 < 256) (h4 : b4 < 256) (h5 : b5 < 256)
    (h6 : b6 < 256) (h7 : b7 < 256) :
    bigEndianValue [b0, b1, b2, b3, b4, b5, b6, b7] < 18446744073709551616 ∧
    putUint64 (bigEndianValue [b0, b1, b2, b3, b4, b5, b6, b7]) =
      [b0, b1, b2, b3, b4, b5, b6, b7] := by
  simp only [bigEndianValue, List.foldl_cons, List.foldl_nil, putUint64, List.cons.injEq,
    and_true]
  omega

theorem putUint32_bigEndianValue (b0 b1 b2 b3 : Nat) (h0 : b0 < 256)
    (h1 : b1 < 256) (h2 : b2 < 256) (h3 : b3 < 256) :
    bigEndianValue [b0, b1, b2, b3] < 4294967296 ∧
    putUint32 (bigEndianValue [b0, b1, b2, b3]) = [b0, b1, b2, b3] := by
  simp only [bigEndianValue, List.foldl_cons, List.foldl_nil, putUint32, List.cons.injEq,
    and_true]
  omega

theorem encodeNumber_encoded (b : List Nat) (hlen : b.length = 12)
    (hbytes : ∀ x ∈ b, x < 256) :
    encodeNumber (encodedMantissa b) (encodedExponent b) = b := by
  match b, hlen with
  | [b0, b1, b2, b3, b4, b5, b6, b7, b8, b9, b10, b11], _ =>
    have h64 := putUint64_bigEndianValue b0 b1 b2 b3 b4 b5 b6 b7
      (hbytes _ (by simp)) (hbytes _ (by simp)) (hbytes _ (by simp)) (hbytes _ (by simp))
      (hbytes _ (by simp)) (hbytes _ (by simp)) (hbytes _ (by simp)) (hbytes _ (by simp))
    have h32 := putUint32_bigEndianValue b8 b9 b10 b11
      (hbytes _ (by simp)) (hbytes _ (by simp)) (hbytes _ (by simp)) (hbytes _ (by simp))
    unfold encodeNumber encodedMantissa encodedExponent
    simp only [List.take, List.drop]
    rw [toUint64_wrap64_natCast _ h64.1, toUint32_wrap32_natCast _ h32.1, h64.2, h32.2]
    rfl

/-- C35. A canonical encoding is a fixed point of decoding and encoding again: for
twelve bytes `b` that are the zero pattern, or hold a mantissa of magnitude in
`[10^15, 10^16 - 1]` and an exponent in `[-32768, 32768]`, `Number.ToJSON` on `b` returns a
string `s`, and `Number.FromJSON(s)` succeeds with exactly `b`. -/
theorem canonical_bytes_fixed_point (b : List Nat) (hb : IsCanonicalEncoding b) :
    ∃ s, (ToJSON ⟨b⟩).1 = .ok (.string s) ∧ FromJSON (.string s) = .ok b := by
  obtain ⟨hlen, hbytes, hcanon⟩ := hb
  rcases hcanon with hz | ⟨h1, h2, h3, h4⟩
  · subst hz
    exact ⟨['0'], by decide, by decide⟩
  · have henc := encodeNumber_encoded b hlen hbytes
    have hI : IsInt64 (encodedMantissa b) := wrap64_isInt64 _
    have he : IsInt32 (encodedExponent b) := wrap32_isInt32 _
    unfold numberMinExponent at h3
    unfold numberMaxExponent at h4
    have hz : encodedExponent b ≠ numberZeroExponent := by
      unfold numberZeroExponent
      omega
    have hm : encodedMantissa b ≠ 0 := by
      intro h0
      rw [h0] at h1
      unfold numberMinMantissa at h1
      simp at h1
    have hto := ToJSON_encodeNumber (encodedMantissa b) (encodedExponent b) hI he
    rw [henc, if_neg hz] at hto
    refine ⟨_, hto, ?_⟩
    have hfrom := FromJSON_of_steps_encodeNumber _ _ _ _ _
      (parse_format_roundtrip (encodedMantissa b) (encodedExponent b) hm hI h3 h4)
      (normalizeNumber_inRange (encodedMantissa b) (encodedExponent b) h1 h2)
    rw [henc] at hfrom
    exact hfrom

/-- C35 on the encoding of 1 (mantissa `10^15`, exponent -15) and on the zero pattern. -/
theorem canonical_bytes_fixed_point_witness :
    (∃ s, (ToJSON ⟨[0, 3, 141, 126, 164, 198, 128, 0, 255, 255, 255, 241]⟩).1 =
        .ok (.string s) ∧
      FromJSON (.string s) = .ok [0, 3, 141, 126, 164, 198, 128, 0, 255, 255, 255, 241]) ∧
    ∃ s, (ToJSON ⟨zeroPattern⟩).1 = .ok (.string s) ∧ FromJSON (.string s) = .ok zeroPattern :=
  ⟨canonical_bytes_fixed_point [0, 3, 141, 126, 164, 198, 128, 0, 255, 255, 255, 241]
      ⟨rfl, by decide, Or.inr (by decide)⟩,
    canonical_bytes_fixed_point zeroPattern ⟨rfl, by decide, Or.inl rfl⟩⟩

end XRPL.BinaryCodec.Types

namespace XRPL.Transaction.Types

/-! ## `compactKeys` loses no entry -/

theorem isGoMap_nodup (m : List (List Char × JSONValue)) (hm : IsGoMap m) :
    (m.map Prod.fst).Nodup := by
  induction m with
  | nil => exact List.nodup_nil
  | cons q rest ih =>
    obtain ⟨k0, v0⟩ := q
    have h0 := (isGoMap_cons k0 v0 rest).1 hm
    rw [List.map_cons, List.nodup_cons]
    refine ⟨?_, ih h0.2⟩
    intro hmem
    obtain ⟨p, hp, hk⟩ := List.mem_map.1 hmem
    exact keyLt_ne k0 p.1 (h0.1 p hp) hk.symm

theorem lastValue_of_mem_nodup (l : List (List Char × JSONValue))
    (hnd : (l.map Prod.fst).Nodup) (k : List Char) (v : JSONValue) (h : (k, v) ∈ l) :
    lastValue l k = some v := by
  induction l with
  | nil => cases h
  | cons q rest ih =>
    obtain ⟨k0, v0⟩ := q
    rw [List.map_cons, List.nodup_cons] at hnd
    simp only [lastValue]
    rcases List.mem_cons.1 h with h | h
    · injection h with h1 h2
      subst h1 h2
      rw [lastValue_eq_none_of_forall_ne rest k
        (fun p hp hk => hnd.1 (List.mem_map.2 ⟨p, hp, hk⟩)), if_pos rfl]
      rfl
    · rw [ih hnd.2 h]
      rfl

/-- The key under which `compactKeys` stores an entry tells the entries of a map
apart, for a table in which different long keys have different aliases. -/
theorem compactTarget_injOn (mapping : List (List Char × List Char))
    (hdistinct : ∀ p ∈ mapping, ∀ q ∈ mapping, p.2 = q.2 → p.1 = q.1)
    (input : List (List Char × JSONValue)) (hin : IsGoMap input) (k1 k2 : List Char)
    (h1 : k1 ∈ input.map Prod.fst) (h2 : k2 ∈ input.map Prod.fst)
    (h : compactTarget input mapping k1 = compactTarget input mapping k2) : k1 = k2 := by
  unfold compactTarget at h
  cases e1 : mappingLookup mapping k1 with
  | none =>
    rw [e1] at h
    cases e2 : mappingLookup mapping k2 with
    | none =>
      rw [e2] at h
      exact h
    | some c2 =>
      rw [e2] at h
      simp only at h
      by_cases hc : mapHas input c2 = true
      · rw [if_pos hc] at h
        exact h
      · rw [if_neg hc] at h
        exact absurd ((mapHas_iff_mem_keys input hin c2).2 (h ▸ h1)) hc
  | some c1 =>
    rw [e1] at h
    simp only at h
    by_cases hc1 : mapHas input c1 = true
    · rw [if_pos hc1] at h
      cases e2 : mappingLookup mapping k2 with
      | none =>
        rw [e2] at h
        exact h
      | some c2 =>
        rw [e2] at h
        simp only at h
        by_cases hc : mapHas input c2 = true
        · rw [if_pos hc] at h
          exact h
        · rw [if_neg hc] at h
          exact absurd ((mapHas_iff_mem_keys input hin c2).2 (h ▸ h1)) hc
    · rw [if_neg hc1] at h
      cases e2 : mappingLookup mapping k2 with
      | none =>
        rw [e2] at h
        exact absurd ((mapHas_iff_mem_keys input hin c1).2 (h.symm ▸ h2)) hc1
      | some c2 =>
        rw [e2] at h
        simp only at h
        by_cases hc : mapHas input c2 = true
        · rw [if_pos hc] at h
          exact absurd ((mapHas_iff_mem_keys input hin c1).2 (h.symm ▸ h2)) hc1
        · rw [if_neg hc] at h
          exact hdistinct (k1, c1) (mem_of_mappingLookup _ _ _ e1) (k2, c2)
            (mem_of_mappingLookup _ _ _ e2) h

theorem compactTargets_nodup (mapping : List (List Char × List Char))
    (hdistinct : ∀ p ∈ mapping, ∀ q ∈ mapping, p.2 = q.2 → p.1 = q.1)
    (input : List (List Char × JSONValue)) (hin : IsGoMap input) :
    ((input.map (fun e => (compactTarget input mapping e.1, e.2))).map Prod.fst).Nodup := by
  have hkeys : (input.map (fun e => (compactTarget input mapping e.1, e.2))).map Prod.fst =
      (input.map Prod.fst).map (compactTarget input mapping) := by
    rw [List.map_map, List.map_map]
    rfl
  rw [hkeys]
  exact List.Nodup.map_on
    (fun k1 h1 k2 h2 h => compactTarget_injOn mapping hdistinct input hin k1 k2 h1 h2 h)
    (isGoMap_nodup input hin)

theorem mem_compactKeys_of_mem (mapping : List (List Char × List Char))
    (hdistinct : ∀ p ∈ mapping, ∀ q ∈ mapping, p.2 = q.2 → p.1 = q.1)
    (input : List (List Char × JSONValue)) (hin : IsGoMap input) (k : List Char)
    (v : JSONValue) (h : (k, v) ∈ input) :
    (compactTarget input mapping k, v) ∈ compactKeys input mapping := by
  apply mem_of_mapLookup
  rw [mapLookup_compactKeys]
  exact lastValue_of_mem_nodup _ (compactTargets_nodup mapping hdistinct input hin) _ _
    (List.mem_map.2 ⟨(k, v), h, rfl⟩)

theorem mem_of_mem_compactKeys (mapping : List (List Char × List Char))
    (input : List (List Char × JSONValue)) (p : List Char × JSONValue)
    (hp : p ∈ compactKeys input mapping) :
    ∃ k, (k, p.2) ∈ input ∧ p.1 = compactTarget input mapping k := by
  have h1 := mapLookup_of_mem _ (isGoMap_compactKeys input mapping) p.1 p.2 hp
  rw [mapLookup_compactKeys] at h1
  obtain ⟨e, he, heq⟩ := List.mem_map.1 (mem_of_lastValue _ _ _ h1)
  injection heq with hk hv
  exact ⟨e.1, hv ▸ he, hk.symm⟩

theorem compactKeys_length (mapping : List (List Char × List Char))
    (hdistinct : ∀ p ∈ mapping, ∀ q ∈ mapping, p.2 = q.2 → p.1 = q.1)
    (input : List (List Char × JSONValue)) (hin : IsGoMap input) :
    (compactKeys input mapping).length = input.length := by
  have hperm : ((compactKeys input mapping).map Prod.fst).Perm
      ((input.map (fun e => (compactTarget input mapping e.1, e.2))).map Prod.fst) := by
    rw [List.perm_ext_iff_of_nodup (isGoMap_nodup _ (isGoMap_compactKeys input mapping))
      (compactTargets_nodup mapping hdistinct input hin)]
    intro k
    rw [← lastValue_isSome_iff, ← lastValue_isSome_iff,
      lastValue_eq_mapLookup _ (isGoMap_compactKeys input mapping), mapLookup_compactKeys]
  have := hperm.length_eq
  simpa using this

/-- C33. `compactKeys` renames without losing entries. For a map `input` and either of
the two key tables of the metadata, every entry `(k, v)` of `input` is found in the
result: as `(alias, v)` when `k` is a long key whose alias is not a key of `input`, as
`(k, v)` when the alias of `k` is a key of `input` too, and as `(k, v)` when `k` has no
alias. The result has as many entries as `input`, each of them coming from an entry of
`input` in this way; when a long key and its alias are both keys of `input`, both entries
are in the result unchanged. -/
theorem compact_keys_keep_entries (input : List (List Char × JSONValue))
    (mapping : List (List Char × List Char)) (hin : IsGoMap input)
    (hmapping : mapping = mptTokenMetadataFieldMap ∨ mapping = mptTokenMetadataURIFieldMap) :
    (∀ k v, (k, v) ∈ input →
      (∀ a, mappingLookup mapping k = some a → mapHas input a = false →
        (a, v) ∈ compactKeys input mapping) ∧
      (∀ a, mappingLookup mapping k = some a → mapHas input a = true →
        (k, v) ∈ compactKeys input mapping) ∧
      (mappingLookup mapping k = none → (k, v) ∈ compactKeys input mapping)) ∧
    (compactKeys input mapping).length = input.length ∧
    (∀ p ∈ compactKeys input mapping,
      ∃ k, (k, p.2) ∈ input ∧ p.1 = compactTarget input mapping k) ∧
    (∀ k a v w, mappingLookup mapping k = some a → (k, v) ∈ input → (a, w) ∈ input →
      (k, v) ∈ compactKeys input mapping ∧ (a, w) ∈ compactKeys input mapping) := by
  have hdistinct : ∀ p ∈ mapping, ∀ q ∈ mapping, p.2 = q.2 → p.1 = q.1 := by
    rcases hmapping with h | h
    · rw [h]
      exact fieldMap_distinct
    · rw [h]
      exact uriFieldMap_distinct
  have haliases : ∀ p ∈ mapping, mappingLookup mapping p.2 = none := by
    rcases hmapping with h | h
    · rw [h]
      exact fieldMap_aliases
    · rw [h]
      exact uriFieldMap_aliases
  have hmem := mem_compactKeys_of_mem mapping hdistinct input hin
  refine ⟨fun k v hkv => ⟨fun a ha hno => ?_, fun a ha hyes => ?_, fun hnone => ?_⟩,
    compactKeys_length mapping hdistinct input hin,
    fun p hp => mem_of_mem_compactKeys mapping input p hp,
    fun k a v w ha hkv haw => ⟨?_, ?_⟩⟩
  · have := hmem k v hkv
    unfold compactTarget at this
    rw [ha] at this
    simp only [hno, Bool.false_eq_true, if_false] at this
    exact this
  · have := hmem k v hkv
    unfold compactTarget at this
    rw [ha] at this
    simp only [hyes, if_true] at this
    exact this
  · have := hmem k v hkv
    unfold compactTarget at this
    rw [hnone] at this
    exact this
  · have hyes : mapHas input a = true :=
      (mapHas_iff_mem_keys input hin a).2 (List.mem_map.2 ⟨(a, w), haw, rfl⟩)
    have := hmem k v hkv
    unfold compactTarget at this
    rw [ha] at this
    simp only [hyes, if_true] at this
    exact this
  · have hnone : mappingLookup mapping a = none :=
      haliases (k, a) (mem_of_mappingLookup _ _ _ ha)
    have := hmem a w haw
    unfold compactTarget at this
    rw [hnone] at this
    exact this

/-- C33 on a map with the keys `name`, `t`, `ticker` and `x`: `name` is stored under `n`,
`ticker` and `t` are both kept, and the result has four entries. -/
theorem compact_keys_keep_entries_witness :
    ("n".toList, JSONValue.string "Bill".toList) ∈
      compactKeys exampleCollisionMap mptTokenMetadataFieldMap ∧
    (compactKeys exampleCollisionMap mptTokenMetadataFieldMap).length = 4 ∧
    (("ticker".toList, JSONValue.string "TBILL".toList) ∈
        compactKeys exampleCollisionMap mptTokenMetadataFieldMap ∧
      ("t".toList, JSONValue.string "TB".toList) ∈
        compactKeys exampleCollisionMap mptTokenMetadataFieldMap) :=
  ⟨((compact_keys_keep_entries exampleCollisionMap mptTokenMetadataFieldMap rfl
      (Or.inl rfl)).1 "name".toList (.string "Bill".toList)
      (List.mem_cons_self _ _)).1 "n".toList rfl rfl,
    (compact_keys_keep_entries exampleCollisionMap mptTokenMetadataFieldMap rfl
      (Or.inl rfl)).2.1,
    (compact_keys_keep_entries exampleCollisionMap mptTokenMetadataFieldMap rfl
      (Or.inl rfl)).2.2.2 "ticker".toList "t".toList (.string "TBILL".toList)
      (.string "TB".toList) rfl
      (List.mem_cons_of_mem _ (List.mem_cons_of_mem _ (List.mem_cons_self _ _)))
      (List.mem_cons_of_mem _ (List.mem_cons_self _ _))⟩

end XRPL.Transaction.Types

namespace XRPL.Transaction.Types

/-! ## More than nine keys: an unknown key or a collision -/

theorem unknownFieldErrors_of_mem (m : List (List Char × JSONValue)) (k : List Char)
    (v : JSONValue) (hkv : (k, v) ∈ m)
    (hk : (validKeys mptTokenMetadataFieldMap).contains k = false) :
    .ErrInvalidMPTokenMetadataUnknownField k ∈ unknownFieldErrors m := by
  induction m with
  | nil => cases hkv
  | cons q rest ih =>
    obtain ⟨k0, v0⟩ := q
    simp only [unknownFieldErrors]
    rcases List.mem_cons.1 hkv with h | h
    · injection h with h1 h2
      subst h1
      rw [hk]
      exact List.mem_cons_self _ _
    · split
      · exact ih h
      · exact List.mem_cons_of_mem _ (ih h)

theorem unknownField_mem_validateRawData (m : List (List Char × JSONValue)) (k : List Char)
    (v : JSONValue) (hkv : (k, v) ∈ m)
    (hk : (validKeys mptTokenMetadataFieldMap).contains k = false) :
    .ErrInvalidMPTokenMetadataUnknownField k ∈ validateRawData m :=
  (mem_validateRawData_iff m _).2 (unknownFieldErrors_of_mem m k v hkv hk)

theorem length_of_fieldCount_mem (m : List (List Char × JSONValue)) (c : Nat)
    (h : .ErrInvalidMPTokenMetadataFieldCount c ∈ validateRawData m) :
    9 < m.length := by
  have h1 := (mem_validateRawData_iff m _).1 h
  change (.ErrInvalidMPTokenMetadataFieldCount c) ∈
    (if m.length > mptTokenMetadataFieldMap.length then
      [MetadataError.ErrInvalidMPTokenMetadataFieldCount mptTokenMetadataFieldMap.length]
     else []) at h1
  by_cases hlen : m.length > mptTokenMetadataFieldMap.length
  · exact hlen
  · rw [if_neg hlen] at h1
    cases h1

theorem collision_mem_validateRawData (m : List (List Char × JSONValue))
    (p : List Char × List Char) (hp : p ∈ mptTokenMetadataFieldMap)
    (hl : mapLookup m p.1 ≠ none) (hc : mapLookup m p.2 ≠ none) :
    .ErrInvalidMPTokenMetadataFieldCollision p.1 p.2 ∈ validateRawData m := by
  rw [mem_validateRawData_iff, validationStep_collision m p hp hl hc]
  exact List.mem_singleton_self _

theorem compactAlias_of_validKey :
    ∀ k ∈ validKeys mptTokenMetadataFieldMap,
      compactAlias mptTokenMetadataFieldMap k ∈ mptTokenMetadataFieldMap.map Prod.snd := by
  decide

/-- Keys that are all long or compact names of the nine fields, none of the fields
being there under both names, are at most nine. -/
theorem length_le_nine_of_no_collision (m : List (List Char × JSONValue)) (hm : IsGoMap m)
    (hvalid : ∀ k ∈ m.map Prod.fst, k ∈ validKeys mptTokenMetadataFieldMap)
    (hno : NoCollision mptTokenMetadataFieldMap m) : m.length ≤ 9 := by
  have hnd : ((m.map Prod.fst).map (compactAlias mptTokenMetadataFieldMap)).Nodup :=
    List.Nodup.map_on
      (fun k1 h1 k2 h2 h =>
        compactAlias_injOn mptTokenMetadataFieldMap fieldMap_distinct m hno k1 k2 h1 h2 h)
      (isGoMap_nodup m hm)
  have hsub : (m.map Prod.fst).map (compactAlias mptTokenMetadataFieldMap) ⊆
      mptTokenMetadataFieldMap.map Prod.snd := by
    intro a ha
    obtain ⟨k, hk, rfl⟩ := List.mem_map.1 ha
    exact compactAlias_of_validKey k (hvalid k hk)
  have hle := (List.subperm_of_subset hnd hsub).length_le
  simpa [mptTokenMetadataFieldMap] using hle

theorem fieldCount_never_alone_raw (m : List (List Char × JSONValue)) (hm : IsGoMap m)
    (c : Nat) (h : .ErrInvalidMPTokenMetadataFieldCount c ∈ validateRawData m) :
    (∃ k, .ErrInvalidMPTokenMetadataUnknownField k ∈ validateRawData m) ∨
    (∃ p ∈ mptTokenMetadataFieldMap,
      .ErrInvalidMPTokenMetadataFieldCollision p.1 p.2 ∈ validateRawData m) := by
  have hlen := length_of_fieldCount_mem m c h
  by_cases hvalid : ∀ k ∈ m.map Prod.fst, k ∈ validKeys mptTokenMetadataFieldMap
  · right
    by_contra hnone
    have hno : NoCollision mptTokenMetadataFieldMap m := by
      intro p hp hboth
      apply hnone
      refine ⟨p, hp, collision_mem_validateRawData m p hp ?_ ?_⟩
      · have := (mapHas_iff_mem_keys m hm p.1).2 hboth.1
        unfold mapHas at this
        intro hn
        rw [hn] at this
        cases this
      · have := (mapHas_iff_mem_keys m hm p.2).2 hboth.2
        unfold mapHas at this
        intro hn
        rw [hn] at this
        cases this
    have := length_le_nine_of_no_collision m hm hvalid hno
    omega
  · left
    push_neg at hvalid
    obtain ⟨k, hk, hnot⟩ := hvalid
    obtain ⟨e, he, rfl⟩ := List.mem_map.1 hk
    refine ⟨e.1, unknownField_mem_validateRawData m e.1 e.2 he ?_⟩
    cases hcont : (validKeys mptTokenMetadataFieldMap).contains e.1
    · rfl
    · exact absurd (List.mem_of_elem_eq_true hcont) hnot

theorem isGoMap_of_jsonUnmarshalMap (T : JSONText) (bytes : List Nat)
    (rawData : List (List Char × JSONValue)) (h : jsonUnmarshalMap T bytes = some rawData) :
    IsGoMap rawData := by
  unfold jsonUnmarshalMap at h
  split at h
  · simp only [Option.some.injEq] at h
    rw [← h]
    exact isGoMap_toGoMembers _
  · simp only [Option.some.injEq] at h
    rw [← h]
    exact isGoMap_nil
  · cases h

/-- C39. The field-count error never stands alone: whenever the errors of
`ValidateMPTokenMetadata` hold an `ErrInvalidMPTokenMetadataFieldCount`, the object has
more than nine keys, and the same errors hold an `ErrInvalidMPTokenMetadataUnknownField`
or an `ErrInvalidMPTokenMetadataFieldCollision` for one of the nine pairs of a long key
and its alias. -/
theorem field_count_never_alone (T : JSONText) (hexInput : List Char) (c : Nat)
    (h : .ErrInvalidMPTokenMetadataFieldCount c ∈ ValidateMPTokenMetadata T hexInput) :
    (∃ k, .ErrInvalidMPTokenMetadataUnknownField k ∈ ValidateMPTokenMetadata T hexInput) ∨
    (∃ p ∈ mptTokenMetadataFieldMap,
      .ErrInvalidMPTokenMetadataFieldCollision p.1 p.2 ∈
        ValidateMPTokenMetadata T hexInput) := by
  unfold ValidateMPTokenMetadata at h ⊢
  cases hhex : hexDecodeString hexInput with
  | none =>
    rw [hhex] at h
    simp at h
  | some bytes =>
    rw [hhex] at h
    simp only at h ⊢
    by_cases hlen : bytes.length > MaxMPTokenMetadataByteLength
    · rw [if_pos hlen] at h
      simp at h
    · rw [if_neg hlen] at h
      rw [if_neg hlen]
      cases hmap : jsonUnmarshalMap T bytes with
      | none =>
        rw [hmap] at h
        simp at h
      | some rawData =>
        rw [hmap] at h
        exact fieldCount_never_alone_raw rawData (isGoMap_of_jsonUnmarshalMap T bytes _ hmap)
          c h

set_option maxRecDepth 10000 in
theorem ValidateMPTokenMetadata_tenKeys :
    ValidateMPTokenMetadata stackJSON
        (stringsToUpper (hexEncodeToString (stackJSON.print (.object tenKeyMembers)))) =
      validateRawData (toGoMembers tenKeyMembers []) :=
  ValidateMPTokenMetadata_of_map stackJSON _ (stackJSON.print (.object tenKeyMembers)) _
    (hexDecodeString_upper_encode _ (stackJSON_lawful.1 _)) (by decide)
    (jsonUnmarshalMap_object stackJSON _ tenKeyMembers (stackJSON_lawful.2 _))

/-- C39 on a document with the nine compact keys and `ticker`: the field-count error
comes with the collision of `ticker` and `t`. -/
theorem field_count_never_alone_witness :
    (∃ k, .ErrInvalidMPTokenMetadataUnknownField k ∈ ValidateMPTokenMetadata stackJSON
      (stringsToUpper (hexEncodeToString (stackJSON.print (.object tenKeyMembers))))) ∨
    (∃ p ∈ mptTokenMetadataFieldMap,
      .ErrInvalidMPTokenMetadataFieldCollision p.1 p.2 ∈ ValidateMPTokenMetadata stackJSON
        (stringsToUpper (hexEncodeToString (stackJSON.print (.object tenKeyMembers))))) :=
  field_count_never_alone stackJSON _ 9
    (ValidateMPTokenMetadata_tenKeys ▸
      (mem_validateRawData_iff (toGoMembers tenKeyMembers []) _).2
        (List.mem_singleton_self _))

end XRPL.Transaction.Types

namespace XRPL.Transaction.Types

/-! ## Validation of what the encoder writes -/

theorem validateField_no_long (m : List (List Char × JSONValue)) (long compact : List Char)
    (validator : JSONValue → Option MetadataError) (e : MetadataError)
    (hl : mapLookup m long = none) (h : e ∈ validateField m long compact validator) :
    e = .ErrInvalidMPTokenMetadataMissingField long ∨ ∃ v, validator v = some e := by
  unfold validateField at h
  rw [hl] at h
  cases hc : mapLookup m compact with
  | none =>
    rw [hc] at h
    simp only at h
    split at h
    · cases h
    · exact Or.inl (List.mem_singleton.1 h)
  | some v =>
    rw [hc] at h
    simp only at h
    cases hv : validator v with
    | none =>
      rw [hv] at h
      cases h
    | some err =>
      rw [hv] at h
      rw [List.mem_singleton.1 h]
      exact Or.inr ⟨v, hv⟩

theorem validateSubClass_no_long (m : List (List Char × JSONValue)) (e : MetadataError)
    (hl : mapLookup m "asset_subclass".toList = none) (h : e ∈ validateSubClass m) :
    isValueError e = true := by
  rw [validateSubClass_eq, areBothFieldsPresent_one m _ _ (Or.inl hl)] at h
  simp only [Bool.false_eq_true, if_false] at h
  split at h
  · rw [List.mem_singleton.1 h]
    rfl
  · split at h
    · rw [List.mem_singleton.1 h]
      rfl
    · cases h

theorem validateAdditionalInfo_no_long (m : List (List Char × JSONValue)) (e : MetadataError)
    (hl : mapLookup m "additional_info".toList = none) (h : e ∈ validateAdditionalInfo m) :
    isValueError e = true := by
  rcases validateAdditionalInfo_mem m e h with he | he
  · exfalso
    subst he
    unfold validateAdditionalInfo at h
    rw [areBothFieldsPresent_one m _ _ (Or.inl hl)] at h
    simp only [Bool.false_eq_true, if_false] at h
    split at h
    · cases h
    · split at h
      · simp at h
      · cases h
  · rw [he]
    rfl

theorem validateURIItem_canonicalURI (u : ParsedMPTokenMetadataURI) (e : MetadataError)
    (h : e ∈ validateURIItem (canonicalURI u)) : e = .ErrInvalidMPTokenMetadataURIs := by
  have hcol : uriCollisions [("c".toList, JSONValue.string (jsonCoerce u.Category)),
      ("t".toList, .string (jsonCoerce u.Title)), ("u".toList, .string (jsonCoerce u.URI))]
      mptTokenMetadataURIFieldMap = [] := by
    simp [uriCollisions, mptTokenMetadataURIFieldMap, areBothFieldsPresent, mapHas, mapLookup]
  unfold canonicalURI at h
  rw [validateURIItem_object, hcol] at h
  split at h
  · exact List.mem_singleton.1 h
  · split at h
    · simpa using h
    · split at h
      · simpa using h
      · cases h

theorem validateURIItems_canonicalURI (us : List ParsedMPTokenMetadataURI) (e : MetadataError)
    (h : e ∈ validateURIItems (us.map canonicalURI)) : e = .ErrInvalidMPTokenMetadataURIs := by
  induction us with
  | nil => cases h
  | cons u rest ih =>
    simp only [List.map_cons, validateURIItems, List.mem_append] at h
    rcases h with h | h
    · exact validateURIItem_canonicalURI u e h
    · exact ih h

theorem validateURIs_no_long (m : List (List Char × JSONValue)) (e : MetadataError)
    (hl : mapLookup m "uris".toList = none)
    (hitems : ∀ items, mapLookup m "us".toList = some (.array items) →
      ∀ e ∈ validateURIItems items, e = .ErrInvalidMPTokenMetadataURIs)
    (h : e ∈ validateURIs m) : e = .ErrInvalidMPTokenMetadataURIs := by
  cases hc : mapLookup m "us".toList with
  | none =>
    rw [validateURIs_absent m hl hc] at h
    cases h
  | some v =>
    have hone := validateURIs_one_key m v (Or.inr ⟨hl, hc⟩)
    by_cases hv : ∃ items, v = .array items ∧ items ≠ []
    · obtain ⟨items, rfl, hne⟩ := hv
      rw [hone.1 items rfl hne] at h
      exact hitems items hc e h
    · have hbad : v = .array [] ∨ ∀ items, v ≠ .array items := by
        by_cases hv2 : ∃ items, v = .array items
        · obtain ⟨items, rfl⟩ := hv2
          left
          by_contra hne
          exact hv ⟨items, rfl, fun h0 => hne (by rw [h0])⟩
        · right
          intro items hi
          exact hv2 ⟨items, hi⟩
      rw [hone.2 hbad] at h
      exact List.mem_singleton.1 h

theorem compactNames_valid :
    ∀ k ∈ compactNames, (validKeys mptTokenMetadataFieldMap).contains k = true := by
  decide

theorem compactNames_not_long :
    ∀ p ∈ mptTokenMetadataFieldMap, p.1 ∉ compactNames := by
  decide

/-- The errors of an object whose keys are compact keys only and whose URI entries are
as the encoder writes them: errors about values, none about the form. -/
theorem validateRawData_compact_only (m : List (List Char × JSONValue)) (hm : IsGoMap m)
    (hkeys : ∀ p ∈ m, p.1 ∈ compactNames)
    (hitems : ∀ items, mapLookup m "us".toList = some (.array items) →
      ∀ e ∈ validateURIItems items, e = .ErrInvalidMPTokenMetadataURIs)
    (e : MetadataError) (h : e ∈ validateRawData m) : isValueError e = true := by
  have hnone : ∀ p ∈ mptTokenMetadataFieldMap, mapLookup m p.1 = none := by
    intro p hp
    apply mapLookup_eq_none_of_forall_ne
    intro q hq hk
    exact compactNames_not_long p hp (hk ▸ hkeys q hq)
  have hlen : m.length ≤ 9 := by
    have hnd := isGoMap_nodup m hm
    have hsub : m.map Prod.fst ⊆ compactNames := by
      intro k hk
      obtain ⟨q, hq, rfl⟩ := List.mem_map.1 hk
      exact hkeys q hq
    have hle := (List.subperm_of_subset hnd hsub).length_le
    simpa [compactNames] using hle
  rw [validateRawData_eq] at h
  simp only [List.mem_append] at h
  rcases h with (((((((((h | h) | h) | h) | h) | h) | h) | h) | h) | h) | h
  · exfalso
    split at h
    · rename_i hgt
      simp only [mptTokenMetadataFieldMap, List.length_cons, List.length_nil] at hgt
      omega
    · cases h
  · exfalso
    obtain ⟨k, v, hkv, _, hbad⟩ := unknownFieldErrors_mem m e h
    rw [compactNames_valid k (hkeys (k, v) hkv)] at hbad
    cases hbad
  · rcases validateField_no_long m _ _ _ e (hnone ("ticker".toList, "t".toList) (by decide)) h
      with he | ⟨v, hv⟩
    · rw [he]
      rfl
    · rw [validateTicker_some v e hv]
      rfl
  · rcases validateField_no_long m _ _ _ e (hnone ("name".toList, "n".toList) (by decide)) h
      with he | ⟨v, hv⟩
    · rw [he]
      rfl
    · rw [validateNonEmptyString_some _ v e hv]
      rfl
  · rcases validateField_no_long m _ _ _ e (hnone ("icon".toList, "i".toList) (by decide)) h
      with he | ⟨v, hv⟩
    · rw [he]
      rfl
    · rw [validateNonEmptyString_some _ v e hv]
      rfl
  · rcases validateField_no_long m _ _ _ e
      (hnone ("issuer_name".toList, "in".toList) (by decide)) h with he | ⟨v, hv⟩
    · rw [he]
      rfl
    · rw [validateNonEmptyString_some _ v e hv]
      rfl
  · rcases validateField_no_long m _ _ _ e
      (hnone ("asset_class".toList, "ac".toList) (by decide)) h with he | ⟨v, hv⟩
    · rw [he]
      rfl
    · rw [validateAssetClass_some v e hv]
      rfl
  · rcases validateField_no_long m _ _ _ e (hnone ("desc".toList, "d".toList) (by decide)) h
      with he | ⟨v, hv⟩
    · rw [he]
      rfl
    · rw [validateOptionalString_some _ v e hv]
      rfl
  · exact validateSubClass_no_long m e
      (hnone ("asset_subclass".toList, "as".toList) (by decide)) h
  · rw [validateURIs_no_long m e (hnone ("uris".toList, "us".toList) (by decide)) hitems h]
    rfl
  · exact validateAdditionalInfo_no_long m e
      (hnone ("additional_info".toList, "ai".toList) (by decide)) h

theorem isValueError_not_structural (e : MetadataError)
    (h : e = .ErrInvalidMPTokenMetadataSize ∨ isValueError e = true) :
    isStructuralError e = false := by
  rcases h with h | h
  · rw [h]
    rfl
  · cases e <;> first | rfl | cases h

theorem uriItems_of_encoded (metadata : ParsedMPTokenMetadata) (items : List JSONValue)
    (h : mapLookup (toGoMembers (canonicalMembers metadata) []) "us".toList =
      some (.array items)) :
    ∃ us : List ParsedMPTokenMetadataURI, items = us.map canonicalURI := by
  rw [mapLookup_toGoMembers] at h
  have h2 := lastValue_map_value (canonicalMembers metadata) (fun _ w => toGoValue w)
    "us".toList
  simp only at h2
  rw [h2, lastValue_eq_mapLookup _ (canonicalMembers_keys metadata).1,
    mapLookup_us_canonicalMembers] at h
  rcases hu : metadata.URIs with _ | _ | ⟨u, us⟩
  · rw [hu] at h
    cases h
  · rw [hu] at h
    cases h
  · rw [hu] at h
    simp only [canonicalURIsMember, List.head?_cons, Option.map_some', toGoValue,
      Option.some.injEq, JSONValue.array.injEq] at h
    rw [toGoList_canonicalURI (u :: us)] at h
    exact ⟨u :: us, h.symm⟩

/-- C40 as stated fails for a value whose `AdditionalInfo` holds something that
`json.Marshal` cannot write: `EncodeMPTokenMetadata` returns an error and the empty
string, and on the empty string `ValidateMPTokenMetadata` reports the invalid-JSON
error. -/
theorem encoder_output_structurally_valid_counterexample :
    EncodeMPTokenMetadata stackJSON unsupportedInfoMetadata = .error .jsonUnsupportedValueError ∧
    ValidateMPTokenMetadata stackJSON
        (encodedText (EncodeMPTokenMetadata stackJSON unsupportedInfoMetadata)) =
      [.ErrInvalidMPTokenMetadataJSON] ∧
    isStructuralError .ErrInvalidMPTokenMetadataJSON = true :=
  ⟨rfl, rfl, rfl⟩

/-- C40, amended. What the encoder writes passes the checks of form of the validator. For
every `ParsedMPTokenMetadata` whose `AdditionalInfo` is `nil` or a value that gets through
`encoding/json` (`json.Marshal` writes it and `json.Unmarshal` reads the text back),
`EncodeMPTokenMetadata` succeeds with a hex text, and every error that
`ValidateMPTokenMetadata` reports on this text is the size error or an error about the
value of a field; none is an invalid-hex, invalid-JSON, field-count, unknown-field or
key-collision error. For every other value `EncodeMPTokenMetadata` returns an error and
the empty string. -/
theorem encoder_output_structurally_valid (T : JSONText) (hT : T.Lawful)
    (metadata : ParsedMPTokenMetadata) :
    (metadata.AdditionalInfo ≠ .unsupported →
      ∃ hexText, EncodeMPTokenMetadata T metadata = .ok hexText ∧
        encodedText (EncodeMPTokenMetadata T metadata) = hexText ∧
        ∀ e ∈ ValidateMPTokenMetadata T hexText,
          isStructuralError e = false ∧
          (e = .ErrInvalidMPTokenMetadataSize ∨ isValueError e = true)) ∧
    (metadata.AdditionalInfo = .unsupported →
      EncodeMPTokenMetadata T metadata = .error .jsonUnsupportedValueError ∧
      encodedText (EncodeMPTokenMetadata T metadata) = []) := by
  refine ⟨fun hai => ?_, fun hai => ?_⟩
  swap
  · rw [EncodeMPTokenMetadata_unsupported T metadata hai]
    exact ⟨rfl, rfl⟩
  have henc := EncodeMPTokenMetadata_eq T hT metadata hai
  refine ⟨_, henc, by rw [henc]; rfl, ?_⟩
  have hvalue : ∀ e ∈ ValidateMPTokenMetadata T (stringsToUpper (hexEncodeToString
      (T.print (.object (canonicalMembers metadata))))),
      e = .ErrInvalidMPTokenMetadataSize ∨ isValueError e = true := by
    intro e he
    unfold ValidateMPTokenMetadata at he
    rw [hexDecodeString_upper_encode _ (hT.1 _)] at he
    simp only at he
    split at he
    · exact Or.inl (List.mem_singleton.1 he)
    · rw [jsonUnmarshalMap_object T _ (canonicalMembers metadata) (hT.2 _)] at he
      right
      refine validateRawData_compact_only _ (isGoMap_toGoMembers _) ?_ ?_ e he
      · intro p hp
        have hk := mem_keys_of_mem_toGoMembers (canonicalMembers metadata) p hp
        have hall := (canonicalMembers_keys metadata).2
        rw [List.all_eq_true] at hall
        exact List.mem_of_elem_eq_true (hall p.1 hk)
      · intro items hitems e2 he2
        obtain ⟨us, rfl⟩ := uriItems_of_encoded metadata items hitems
        exact validateURIItems_canonicalURI us e2 he2
  intro e he
  exact ⟨isValueError_not_structural e (hvalue e he), hvalue e he⟩

/-- C40 on the text layer `stackJSON` and a metadata value with every field set, whose
`AdditionalInfo` is a map that `json.Marshal` can write. -/
theorem encoder_output_structurally_valid_witness :
    stackJSON.Lawful ∧
    exampleMetadata.AdditionalInfo ≠ .unsupported ∧
    ∃ hexText, EncodeMPTokenMetadata stackJSON exampleMetadata = .ok hexText ∧
      encodedText (EncodeMPTokenMetadata stackJSON exampleMetadata) = hexText ∧
      ∀ e ∈ ValidateMPTokenMetadata stackJSON hexText,
        isStructuralError e = false ∧
        (e = .ErrInvalidMPTokenMetadataSize ∨ isValueError e = true) :=
  ⟨stackJSON_lawful, (fun h => by cases h),
    (encoder_output_structurally_valid stackJSON stackJSON_lawful exampleMetadata).1
      (fun h => by cases h)⟩

end XRPL.Transaction.Types

namespace XRPL.Transaction.Types

/-! ## Loops over members -/

theorem decodeStructMembers_eq_runMembers (l : List (List Char × JSONValue))
    (r : ParsedMPTokenMetadata) :
    decodeStructMembers l r = runMembers decodeStructMember l r := by
  induction l generalizing r with
  | nil => rfl
  | cons p rest ih =>
    obtain ⟨k, v⟩ := p
    simp only [decodeStructMembers, runMembers]
    cases decodeStructMember r k v with
    | ok r' => exact ih r'
    | error e => rfl

theorem decodeURIMembers_eq_runMembers (l : List (List Char × JSONValue))
    (u : ParsedMPTokenMetadataURI) :
    decodeURIMembers l u = runMembers decodeURIMember l u := by
  induction l generalizing u with
  | nil => rfl
  | cons p rest ih =>
    obtain ⟨k, v⟩ := p
    simp only [decodeURIMembers, runMembers]
    cases decodeURIMember u k v with
    | ok u' => exact ih u'
    | error e => rfl

/-- Members on which the step does nothing can be left out. -/
theorem runMembers_filter {α : Type}
    (step : α → List Char → JSONValue → Except MetadataError α)
    (keep : List Char × JSONValue → Bool) (l : List (List Char × JSONValue))
    (hskip : ∀ e ∈ l, keep e = false → ∀ r, step r e.1 e.2 = .ok r) (r : α) :
    runMembers step l r = runMembers step (l.filter keep) r := by
  induction l generalizing r with
  | nil => rfl
  | cons p rest ih =>
    obtain ⟨k, v⟩ := p
    have ih2 := ih (fun e he => hskip e (List.mem_cons_of_mem _ he))
    cases hk : keep (k, v) with
    | false =>
      rw [List.filter_cons_of_neg (by simp [hk])]
      simp only [runMembers]
      rw [hskip (k, v) (List.mem_cons_self _ _) hk r]
      exact ih2 r
    | true =>
      rw [List.filter_cons_of_pos hk]
      simp only [runMembers]
      cases step r k v with
      | ok r' => exact ih2 r'
      | error e => rfl

/-- Two tables whose values have the same effect on the step have the same effect on the
loop. -/
theorem runMembers_tableMembers_congr {α : Type}
    (step : α → List Char → JSONValue → Except MetadataError α)
    (names : List (List Char)) (f g : List Char → Option JSONValue)
    (h : ∀ c ∈ names, (f c = none ∧ g c = none) ∨
      ∃ v w, f c = some v ∧ g c = some w ∧ ∀ r, step r c v = step r c w) (r : α) :
    runMembers step (tableMembers names f) r = runMembers step (tableMembers names g) r := by
  induction names generalizing r with
  | nil => rfl
  | cons c rest ih =>
    have ih2 := ih (fun c hc => h c (List.mem_cons_of_mem _ hc))
    unfold tableMembers at ih2 ⊢
    rcases h c (List.mem_cons_self _ _) with ⟨hf, hg⟩ | ⟨v, w, hf, hg, hstep⟩
    · simp only [List.filterMap_cons, hf, hg, Option.map_none']
      exact ih2 r
    · simp only [List.filterMap_cons, hf, hg, Option.map_some', runMembers, hstep r]
      cases step r c w with
      | ok r' => exact ih2 r'
      | error e => rfl

/-! ## Tables as Go maps -/

theorem keysAscending_of_sublist (l1 l2 : List (List Char)) (hsub : l1.Sublist l2)
    (h : keysAscending l2 = true) : keysAscending l1 = true := by
  induction hsub with
  | slnil => rfl
  | cons a _ ih =>
    exact ih ((keysAscending_cons a _).1 h).2
  | cons₂ a hs ih =>
    rw [keysAscending_cons] at h ⊢
    exact ⟨fun b hb => h.1 b (hs.subset hb), ih h.2⟩

theorem tableMembers_keys_sublist (names : List (List Char))
    (value : List Char → Option JSONValue) :
    ((tableMembers names value).map Prod.fst).Sublist names := by
  induction names with
  | nil => exact List.Sublist.slnil
  | cons c rest ih =>
    unfold tableMembers at ih ⊢
    rw [List.filterMap_cons]
    cases value c with
    | none => exact List.Sublist.cons _ ih
    | some v => exact List.Sublist.cons₂ _ ih

theorem isGoMap_tableMembers (names : List (List Char)) (hn : keysAscending names = true)
    (value : List Char → Option JSONValue) : IsGoMap (tableMembers names value) :=
  keysAscending_of_sublist _ _ (tableMembers_keys_sublist names value) hn

theorem isGoMap_filter (m : List (List Char × JSONValue)) (hm : IsGoMap m)
    (keep : List Char × JSONValue → Bool) : IsGoMap (m.filter keep) :=
  keysAscending_of_sublist _ _ (List.Sublist.map _ (List.filter_sublist m)) hm

theorem mapLookup_tableMembers (names : List (List Char)) (hn : keysAscending names = true)
    (value : List Char → Option JSONValue) (k : List Char) :
    mapLookup (tableMembers names value) k = if k ∈ names then value k else none := by
  induction names with
  | nil => rfl
  | cons c rest ih =>
    have hc := (keysAscending_cons c rest).1 hn
    have ih2 := ih hc.2
    unfold tableMembers at ih2 ⊢
    rw [List.filterMap_cons]
    by_cases hk : k = c
    · subst hk
      rw [if_pos (List.mem_cons_self _ _)]
      cases hv : value k with
      | none =>
        simp only [Option.map_none']
        rw [ih2, if_neg (fun hmem => keyLt_ne k k (hc.1 k hmem) rfl)]
      | some v =>
        simp only [Option.map_some', mapLookup, if_true]
    · have hmem : k ∈ c :: rest ↔ k ∈ rest := by
        simp [hk]
      cases hv : value c with
      | none =>
        simp only [Option.map_none']
        rw [ih2]
        simp only [hmem]
      | some v =>
        simp only [Option.map_some', mapLookup, if_neg hk]
        rw [ih2]
        simp only [hmem]

theorem mapLookup_filter_keys (m : List (List Char × JSONValue)) (names : List (List Char))
    (k : List Char) :
    mapLookup (m.filter (fun e => names.contains e.1)) k =
      if k ∈ names then mapLookup m k else none := by
  induction m with
  | nil => simp [mapLookup]
  | cons p rest ih =>
    obtain ⟨k0, v0⟩ := p
    by_cases hk0 : names.contains k0 = true
    · rw [List.filter_cons_of_pos (by simpa using hk0)]
      simp only [mapLookup]
      by_cases hk : k = k0
      · subst hk
        rw [if_pos rfl, if_pos rfl, if_pos (List.mem_of_elem_eq_true hk0)]
      · rw [if_neg hk, if_neg hk, ih]
    · rw [List.filter_cons_of_neg (by simpa using hk0)]
      simp only [mapLookup]
      by_cases hk : k = k0
      · subst hk
        have hnot : k ∉ names := fun hmem => hk0 (List.elem_eq_true_of_mem hmem)
        rw [ih, if_neg hnot, if_neg hnot]
      · rw [if_neg hk, ih]

/-- The entries of a Go map under a list of names, as a table. -/
theorem filter_eq_tableMembers (m : List (List Char × JSONValue)) (hm : IsGoMap m)
    (names : List (List Char)) (hn : keysAscending names = true) :
    m.filter (fun e => names.contains e.1) = tableMembers names (mapLookup m) := by
  apply goMap_ext _ _ (isGoMap_filter m hm _) (isGoMap_tableMembers names hn _)
  intro k
  rw [mapLookup_filter_keys, mapLookup_tableMembers names hn]

end XRPL.Transaction.Types

namespace XRPL.Transaction.Types

/-! ## What `compactKeys` stores under a compact key -/

theorem fieldMap_lookup :
    ∀ p ∈ mptTokenMetadataFieldMap, mappingLookup mptTokenMetadataFieldMap p.1 = some p.2 := by
  decide

theorem uriFieldMap_lookup :
    ∀ p ∈ mptTokenMetadataURIFieldMap,
      mappingLookup mptTokenMetadataURIFieldMap p.1 = some p.2 := by
  decide

theorem compactTarget_mem_or (mapping : List (List Char × List Char))
    (input : List (List Char × JSONValue)) (k : List Char) :
    compactTarget input mapping k = k ∨
      ∃ a, mappingLookup mapping k = some a ∧ compactTarget input mapping k = a := by
  unfold compactTarget
  cases h : mappingLookup mapping k with
  | none => exact Or.inl rfl
  | some a =>
    simp only
    split
    · exact Or.inl rfl
    · exact Or.inr ⟨a, rfl, rfl⟩

/-- Under a compact key `compactKeys` stores the value of the compact key when the input
has it, and else the value of the long key. -/
theorem mapLookup_compactKeys_alias (mapping : List (List Char × List Char))
    (hdistinct : ∀ p ∈ mapping, ∀ q ∈ mapping, p.2 = q.2 → p.1 = q.1)
    (haliases : ∀ p ∈ mapping, mappingLookup mapping p.2 = none)
    (hlookup : ∀ p ∈ mapping, mappingLookup mapping p.1 = some p.2)
    (input : List (List Char × JSONValue)) (hin : IsGoMap input)
    (p : List Char × List Char) (hp : p ∈ mapping) :
    mapLookup (compactKeys input mapping) p.2 =
      (mapLookup input p.2).or (mapLookup input p.1) := by
  rw [mapLookup_compactKeys]
  have hnd := compactTargets_nodup mapping hdistinct input hin
  cases hc : mapLookup input p.2 with
  | some v =>
    have hmem : (p.2, v) ∈ input := mem_of_mapLookup _ _ _ hc
    have ht : compactTarget input mapping p.2 = p.2 := by
      unfold compactTarget
      rw [haliases p hp]
    rw [lastValue_of_mem_nodup _ hnd p.2 v
      (List.mem_map.2 ⟨(p.2, v), hmem, by rw [ht]⟩)]
    rfl
  | none =>
    cases hl : mapLookup input p.1 with
    | some v =>
      have hmem : (p.1, v) ∈ input := mem_of_mapLookup _ _ _ hl
      have ht : compactTarget input mapping p.1 = p.2 := by
        unfold compactTarget
        rw [hlookup p hp]
        simp only [mapHas, hc, Option.isSome_none, Bool.false_eq_true, if_false]
      rw [lastValue_of_mem_nodup _ hnd p.2 v
        (List.mem_map.2 ⟨(p.1, v), hmem, by rw [ht]⟩)]
      rfl
    | none =>
      rw [lastValue_eq_none_of_forall_ne]
      · rfl
      · intro q hq hk
        obtain ⟨e, he, rfl⟩ := List.mem_map.1 hq
        simp only at hk
        rcases compactTarget_mem_or mapping input e.1 with ht | ⟨a, ha, ht⟩
        · rw [ht] at hk
          have := mapLookup_of_mem input hin e.1 e.2 he
          rw [hk, hc] at this
          cases this
        · rw [ht] at hk
          have h1 := hdistinct (e.1, a) (mem_of_mappingLookup _ _ _ ha) p hp hk
          simp only at h1
          have := mapLookup_of_mem input hin e.1 e.2 he
          rw [h1, hl] at this
          cases this

theorem longName_fieldMap :
    ∀ c ∈ compactNames, (longName mptTokenMetadataFieldMap c, c) ∈ mptTokenMetadataFieldMap := by
  decide

theorem longName_uriFieldMap :
    ∀ c ∈ uriCompactNames,
      (longName mptTokenMetadataURIFieldMap c, c) ∈ mptTokenMetadataURIFieldMap := by
  decide

theorem mapLookup_compactKeys_fieldMap (input : List (List Char × JSONValue))
    (hin : IsGoMap input) (c : List Char) (hc : c ∈ compactNames) :
    mapLookup (compactKeys input mptTokenMetadataFieldMap) c =
      effectiveValue mptTokenMetadataFieldMap input c :=
  mapLookup_compactKeys_alias _ fieldMap_distinct fieldMap_aliases fieldMap_lookup input hin
    (longName mptTokenMetadataFieldMap c, c) (longName_fieldMap c hc)

theorem mapLookup_compactKeys_uriFieldMap (input : List (List Char × JSONValue))
    (hin : IsGoMap input) (c : List Char) (hc : c ∈ uriCompactNames) :
    mapLookup (compactKeys input mptTokenMetadataURIFieldMap) c =
      effectiveValue mptTokenMetadataURIFieldMap input c :=
  mapLookup_compactKeys_alias _ uriFieldMap_distinct uriFieldMap_aliases uriFieldMap_lookup
    input hin (longName mptTokenMetadataURIFieldMap c, c) (longName_uriFieldMap c hc)

/-- A key of the result of `compactKeys` that is not one of the compact names is a key of
the input, and so is no name up to case folding when the input has exact keys. -/
theorem compactKeys_other_keys (mapping : List (List Char × List Char))
    (names : List (List Char)) (hnames : ∀ p ∈ mapping, p.2 ∈ names)
    (input : List (List Char × JSONValue)) (hexact : ExactKeys names input)
    (e : List Char × JSONValue) (he : e ∈ compactKeys input mapping)
    (hk : names.contains e.1 = false) : ∀ c ∈ names, foldName e.1 ≠ foldName c := by
  have hnot : e.1 ∉ names := by
    intro hmem
    have h2 : names.contains e.1 = true := List.elem_eq_true_of_mem hmem
    rw [h2] at hk
    cases hk
  obtain ⟨k, hkv, hkey⟩ := mem_of_mem_compactKeys mapping input e he
  rcases compactTarget_mem_or mapping input k with ht | ⟨a, ha, ht⟩
  · rw [ht] at hkey
    intro c hc hfold
    have := hexact (k, e.2) hkv c hc (by rw [← hkey]; exact hfold)
    simp only at this
    exact hnot (by rw [hkey, this]; exact hc)
  · exfalso
    rw [ht] at hkey
    exact hnot (by rw [hkey]; exact hnames (k, a) (mem_of_mappingLookup _ _ _ ha))

theorem fieldMap_compactNames : ∀ p ∈ mptTokenMetadataFieldMap, p.2 ∈ compactNames := by
  decide

theorem uriFieldMap_compactNames :
    ∀ p ∈ mptTokenMetadataURIFieldMap, p.2 ∈ uriCompactNames := by
  decide

/-! ## Keys that `json.Unmarshal` skips -/

theorem decodeStructMember_skip (r : ParsedMPTokenMetadata) (k : List Char) (v : JSONValue)
    (h : ∀ c ∈ compactNames, foldName k ≠ foldName c) : decodeStructMember r k v = .ok r := by
  unfold decodeStructMember
  rw [if_neg (h "t".toList (by decide)), if_neg (h "n".toList (by decide)),
    if_neg (h "d".toList (by decide)), if_neg (h "i".toList (by decide)),
    if_neg (h "ac".toList (by decide)), if_neg (h "as".toList (by decide)),
    if_neg (h "in".toList (by decide)), if_neg (h "us".toList (by decide)),
    if_neg (h "ai".toList (by decide))]

theorem decodeURIMember_skip (u : ParsedMPTokenMetadataURI) (k : List Char) (v : JSONValue)
    (h : ∀ c ∈ uriCompactNames, foldName k ≠ foldName c) : decodeURIMember u k v = .ok u := by
  unfold decodeURIMember
  rw [if_neg (h "u".toList (by decide)), if_neg (h "c".toList (by decide)),
    if_neg (h "t".toList (by decide))]

end XRPL.Transaction.Types

namespace XRPL.Transaction.Types

/-! ## Decoding the cleaned map is decoding the reduced document -/

theorem tableMembers_congr (names : List (List Char)) (f g : List Char → Option JSONValue)
    (h : ∀ c ∈ names, f c = g c) : tableMembers names f = tableMembers names g := by
  induction names with
  | nil => rfl
  | cons c rest ih =>
    unfold tableMembers at ih ⊢
    rw [List.filterMap_cons, List.filterMap_cons, h c (List.mem_cons_self _ _),
      ih (fun c hc => h c (List.mem_cons_of_mem _ hc))]

theorem decodeURI_reduceURI (cur : ParsedMPTokenMetadataURI) (item : JSONValue)
    (hitem : ∀ o, item = .object o → IsGoMap o ∧ ExactKeys uriCompactNames o) :
    decodeURI cur (compactURIEntry item) = decodeURI cur (reduceURI item) := by
  cases item with
  | object o =>
    obtain ⟨hgo, hexact⟩ := hitem o rfl
    change decodeURIMembers (compactKeys o mptTokenMetadataURIFieldMap) cur =
      decodeURIMembers (tableMembers uriCompactNames
        (effectiveValue mptTokenMetadataURIFieldMap o)) cur
    rw [decodeURIMembers_eq_runMembers, decodeURIMembers_eq_runMembers,
      runMembers_filter decodeURIMember (fun e => uriCompactNames.contains e.1)
        (compactKeys o mptTokenMetadataURIFieldMap)
        (fun e he hk r => decodeURIMember_skip r e.1 e.2
          (compactKeys_other_keys _ _ uriFieldMap_compactNames o hexact e he hk)),
      filter_eq_tableMembers _ (isGoMap_compactKeys _ _) uriCompactNames rfl,
      tableMembers_congr uriCompactNames _ _
        (fun c hc => mapLookup_compactKeys_uriFieldMap o hgo c hc)]
  | null => rfl
  | bool b => rfl
  | number n => rfl
  | string s => rfl
  | array items => rfl

theorem decodeURIList_congr (items : List JSONValue) (f g : JSONValue → JSONValue)
    (h : ∀ item ∈ items, ∀ cur, decodeURI cur (f item) = decodeURI cur (g item))
    (cur : List ParsedMPTokenMetadataURI) :
    decodeURIList (items.map f) cur = decodeURIList (items.map g) cur := by
  induction items generalizing cur with
  | nil => rfl
  | cons item rest ih =>
    simp only [List.map_cons, decodeURIList]
    rw [h item (List.mem_cons_self _ _), ih (fun i hi => h i (List.mem_cons_of_mem _ hi))]

theorem decodeStructMember_us_reduce (r : ParsedMPTokenMetadata) (v : JSONValue)
    (hitems : ∀ items, v = .array items → ∀ item ∈ items, ∀ o, item = .object o →
      IsGoMap o ∧ ExactKeys uriCompactNames o) :
    decodeStructMember r "us".toList (compactNestedValue v) =
      decodeStructMember r "us".toList (reduceURIs v) := by
  cases v with
  | array items =>
    cases items with
    | nil => rfl
    | cons u us =>
      rw [decodeStructMember_us, decodeStructMember_us]
      simp only [compactNestedValue, reduceURIs, decodeURIsField]
      rw [decodeURIList_congr (u :: us) compactURIEntry reduceURI
        (fun item hi cur => decodeURI_reduceURI cur item (hitems (u :: us) rfl item hi))]
  | null => rfl
  | bool b => rfl
  | number n => rfl
  | string s => rfl
  | object o => rfl

theorem us_mem_compactNames : "us".toList ∈ compactNames := by
  decide

/-- The struct decoded from the map that `DecodeMPTokenMetadata` cleans is the struct
decoded from the reduced document. -/
theorem decodeStruct_cleaned (rawMap : List (List Char × JSONValue)) (hraw : IsGoMap rawMap)
    (hexact : ExactKeys compactNames rawMap)
    (hitems : ∀ v, effectiveValue mptTokenMetadataFieldMap rawMap "us".toList = some v →
      ∀ items, v = .array items → ∀ item ∈ items, ∀ o, item = .object o →
        IsGoMap o ∧ ExactKeys uriCompactNames o) :
    decodeStruct (.object (compactNestedURIs (compactKeys rawMap mptTokenMetadataFieldMap))) =
      decodeStruct (.object (reducedDocument rawMap)) := by
  have hC : IsGoMap (compactNestedURIs (compactKeys rawMap mptTokenMetadataFieldMap)) :=
    isGoMap_compactNestedURIs _ (isGoMap_compactKeys _ _)
  have hskip : ∀ e ∈ compactNestedURIs (compactKeys rawMap mptTokenMetadataFieldMap),
      compactNames.contains e.1 = false → ∀ r, decodeStructMember r e.1 e.2 = .ok r := by
    intro e he hk r
    have hne : e.1 ≠ "us".toList := by
      intro h
      have h2 : compactNames.contains e.1 = true := by
        rw [h]
        rfl
      rw [h2] at hk
      cases hk
    have hl := mapLookup_of_mem _ hC e.1 e.2 he
    rw [mapLookup_compactNestedURIs, if_neg hne] at hl
    exact decodeStructMember_skip r e.1 e.2
      (compactKeys_other_keys _ _ fieldMap_compactNames rawMap hexact e
        (mem_of_mapLookup _ _ _ hl) hk)
  change decodeStructMembers _ zeroParsedMPTokenMetadata =
    decodeStructMembers _ zeroParsedMPTokenMetadata
  rw [decodeStructMembers_eq_runMembers, decodeStructMembers_eq_runMembers,
    runMembers_filter decodeStructMember (fun e => compactNames.contains e.1) _ hskip,
    filter_eq_tableMembers _ hC compactNames rfl]
  unfold reducedDocument
  apply runMembers_tableMembers_congr
  intro c hc
  rw [mapLookup_compactNestedURIs]
  by_cases hus : c = "us".toList
  · rw [if_pos hus, mapLookup_compactKeys_fieldMap rawMap hraw _ us_mem_compactNames, hus]
    cases hv : effectiveValue mptTokenMetadataFieldMap rawMap "us".toList with
    | none => exact Or.inl ⟨rfl, rfl⟩
    | some v =>
      refine Or.inr ⟨compactNestedValue v, reduceURIs v, rfl, ?_, fun r => ?_⟩
      · simp only [Option.map_some', if_true]
      · exact decodeStructMember_us_reduce r v (hitems v hv)
  · rw [if_neg hus, mapLookup_compactKeys_fieldMap rawMap hraw c hc]
    cases hv : effectiveValue mptTokenMetadataFieldMap rawMap c with
    | none => exact Or.inl ⟨rfl, rfl⟩
    | some v =>
      refine Or.inr ⟨v, v, rfl, ?_, fun r => rfl⟩
      simp only [Option.map_some', if_neg hus]

end XRPL.Transaction.Types

namespace XRPL.Transaction.Types

/-! ## The string fields of the decoded struct -/

theorem decodeStructMember_at_t (r : ParsedMPTokenMetadata) (v : JSONValue) :
    decodeStructMember r "t".toList v =
      (match decodeStringField r.Ticker v with
       | .ok s => .ok { r with Ticker := s }
       | .error e => .error e) := rfl

theorem decodeStructMember_at_n (r : ParsedMPTokenMetadata) (v : JSONValue) :
    decodeStructMember r "n".toList v =
      (match decodeStringField r.Name v with
       | .ok s => .ok { r with Name := s }
       | .error e => .error e) := rfl

theorem decodeStructMember_at_d (r : ParsedMPTokenMetadata) (v : JSONValue) :
    decodeStructMember r "d".toList v =
      (match decodeStringPtrField v with
       | .ok s => .ok { r with Desc := s }
       | .error e => .error e) := rfl

theorem decodeStructMember_at_i (r : ParsedMPTokenMetadata) (v : JSONValue) :
    decodeStructMember r "i".toList v =
      (match decodeStringField r.Icon v with
       | .ok s => .ok { r with Icon := s }
       | .error e => .error e) := rfl

theorem decodeStructMember_at_ac (r : ParsedMPTokenMetadata) (v : JSONValue) :
    decodeStructMember r "ac".toList v =
      (match decodeStringField r.AssetClass v with
       | .ok s => .ok { r with AssetClass := s }
       | .error e => .error e) := rfl

theorem decodeStructMember_at_as (r : ParsedMPTokenMetadata) (v : JSONValue) :
    decodeStructMember r "as".toList v =
      (match decodeStringPtrField v with
       | .ok s => .ok { r with AssetSubclass := s }
       | .error e => .error e) := rfl

theorem decodeStructMember_at_in (r : ParsedMPTokenMetadata) (v : JSONValue) :
    decodeStructMember r "in".toList v =
      (match decodeStringField r.IssuerName v with
       | .ok s => .ok { r with IssuerName := s }
       | .error e => .error e) := rfl

theorem decodeStructMember_at_ai (r : ParsedMPTokenMetadata) (v : JSONValue) :
    decodeStructMember r "ai".toList v = .ok { r with AdditionalInfo := unmarshalAny v } := rfl

/-- The step of a compact key sets the string field of this key and no other. -/
theorem stringField_of_step (r r' : ParsedMPTokenMetadata) (k : List Char) (v : JSONValue)
    (hk : k ∈ compactNames) (h : decodeStructMember r k v = .ok r') (c : List Char)
    (hc : c ∈ stringFieldNames) :
    (k ≠ c → stringField r' c = stringField r c) ∧
    (∀ s, k = c → v = .string s → stringField r' c = some (goString s)) := by
  simp only [compactNames, List.mem_cons, List.mem_singleton, List.not_mem_nil, or_false] at hk
  simp only [stringFieldNames, List.mem_cons, List.mem_singleton, List.not_mem_nil,
    or_false] at hc
  rcases hk with rfl | rfl | rfl | rfl | rfl | rfl | rfl | rfl | rfl
  · rw [decodeStructMember_at_ac] at h
    cases hd : decodeStringField r.AssetClass v with
    | error e => rw [hd] at h; cases h
    | ok s0 =>
      rw [hd] at h
      injection h with h
      subst h
      rcases hc with rfl | rfl | rfl | rfl | rfl | rfl | rfl <;>
        first
        | exact ⟨fun _ => rfl, fun s hkc => absurd hkc (by decide)⟩
        | (refine ⟨fun hne => absurd rfl hne, fun s _ hv => ?_⟩
           subst hv
           injection hd with hd
           subst hd
           rfl)
  · rw [decodeStructMember_at_ai] at h
    injection h with h
    subst h
    rcases hc with rfl | rfl | rfl | rfl | rfl | rfl | rfl <;>
      exact ⟨fun _ => rfl, fun s hkc => absurd hkc (by decide)⟩
  · rw [decodeStructMember_at_as] at h
    cases hd : decodeStringPtrField v with
    | error e => rw [hd] at h; cases h
    | ok s0 =>
      rw [hd] at h
      injection h with h
      subst h
      rcases hc with rfl | rfl | rfl | rfl | rfl | rfl | rfl <;>
        first
        | exact ⟨fun _ => rfl, fun s hkc => absurd hkc (by decide)⟩
        | (refine ⟨fun hne => absurd rfl hne, fun s _ hv => ?_⟩
           subst hv
           injection hd with hd
           subst hd
           rfl)
  · rw [decodeStructMember_at_d] at h
    cases hd : decodeStringPtrField v with
    | error e => rw [hd] at h; cases h
    | ok s0 =>
      rw [hd] at h
      injection h with h
      subst h
      rcases hc with rfl | rfl | rfl | rfl | rfl | rfl | rfl <;>
        first
        | exact ⟨fun _ => rfl, fun s hkc => absurd hkc (by decide)⟩
        | (refine ⟨fun hne => absurd rfl hne, fun s _ hv => ?_⟩
           subst hv
           injection hd with hd
           subst hd
           rfl)
  · rw [decodeStructMember_at_i] at h
    cases hd : decodeStringField r.Icon v with
    | error e => rw [hd] at h; cases h
    | ok s0 =>
      rw [hd] at h
      injection h with h
      subst h
      rcases hc with rfl | rfl | rfl | rfl | rfl | rfl | rfl <;>
        first
        | exact ⟨fun _ => rfl, fun s hkc => absurd hkc (by decide)⟩
        | (refine ⟨fun hne => absurd rfl hne, fun s _ hv => ?_⟩
           subst hv
           injection hd with hd
           subst hd
           rfl)
  · rw [decodeStructMember_at_in] at h
    cases hd : decodeStringField r.IssuerName v with
    | error e => rw [hd] at h; cases h
    | ok s0 =>
      rw [hd] at h
      injection h with h
      subst h
      rcases hc with rfl | rfl | rfl | rfl | rfl | rfl | rfl <;>
        first
        | exact ⟨fun _ => rfl, fun s hkc => absurd hkc (by decide)⟩
        | (refine ⟨fun hne => absurd rfl hne, fun s _ hv => ?_⟩
           subst hv
           injection hd with hd
           subst hd
           rfl)
  · rw [decodeStructMember_at_n] at h
    cases hd : decodeStringField r.Name v with
    | error e => rw [hd] at h; cases h
    | ok s0 =>
      rw [hd] at h
      injection h with h
      subst h
      rcases hc with rfl | rfl | rfl | rfl | rfl | rfl | rfl <;>
        first
        | exact ⟨fun _ => rfl, fun s hkc => absurd hkc (by decide)⟩
        | (refine ⟨fun hne => absurd rfl hne, fun s _ hv => ?_⟩
           subst hv
           injection hd with hd
           subst hd
           rfl)
  · rw [decodeStructMember_at_t] at h
    cases hd : decodeStringField r.Ticker v with
    | error e => rw [hd] at h; cases h
    | ok s0 =>
      rw [hd] at h
      injection h with h
      subst h
      rcases hc with rfl | rfl | rfl | rfl | rfl | rfl | rfl <;>
        first
        | exact ⟨fun _ => rfl, fun s hkc => absurd hkc (by decide)⟩
        | (refine ⟨fun hne => absurd rfl hne, fun s _ hv => ?_⟩
           subst hv
           injection hd with hd
           subst hd
           rfl)
  · rw [decodeStructMember_us] at h
    cases hd : decodeURIsField r.URIs v with
    | error e => rw [hd] at h; cases h
    | ok s0 =>
      rw [hd] at h
      injection h with h
      subst h
      rcases hc with rfl | rfl | rfl | rfl | rfl | rfl | rfl <;>
        exact ⟨fun _ => rfl, fun s hkc => absurd hkc (by decide)⟩

end XRPL.Transaction.Types

namespace XRPL.Transaction.Types

theorem stringField_of_run (l : List (List Char × JSONValue))
    (hnd : (l.map Prod.fst).Nodup) (hkeys : ∀ e ∈ l, e.1 ∈ compactNames) (c : List Char)
    (hc : c ∈ stringFieldNames) (r r' : ParsedMPTokenMetadata)
    (h : runMembers decodeStructMember l r = .ok r') :
    (c ∉ l.map Prod.fst → stringField r' c = stringField r c) ∧
    (∀ s, (c, JSONValue.string s) ∈ l → stringField r' c = some (goString s)) := by
  induction l generalizing r with
  | nil =>
    simp only [runMembers, Except.ok.injEq] at h
    subst h
    exact ⟨fun _ => rfl, fun s hs => absurd hs (List.not_mem_nil _)⟩
  | cons p rest ih =>
    obtain ⟨k, v⟩ := p
    rw [List.map_cons, List.nodup_cons] at hnd
    simp only [runMembers] at h
    cases hstep : decodeStructMember r k v with
    | error e =>
      rw [hstep] at h
      cases h
    | ok r1 =>
      rw [hstep] at h
      have ih2 := ih hnd.2 (fun e he => hkeys e (List.mem_cons_of_mem _ he)) r1 h
      have hs := stringField_of_step r r1 k v (hkeys (k, v) (List.mem_cons_self _ _)) hstep
        c hc
      constructor
      · intro hnot
        rw [List.map_cons, List.mem_cons, not_or] at hnot
        rw [ih2.1 hnot.2, hs.1 (fun hkc => hnot.1 hkc.symm)]
      · intro s hmem
        rcases List.mem_cons.1 hmem with hhead | hrest
        · injection hhead with h1 h2
          subst h1 h2
          rw [ih2.1 hnd.1]
          exact hs.2 s rfl rfl
        · exact ih2.2 s hrest

theorem runMembers_ok_of_steps {α : Type}
    (step : α → List Char → JSONValue → Except MetadataError α)
    (l : List (List Char × JSONValue))
    (h : ∀ e ∈ l, ∀ r, ∃ r', step r e.1 e.2 = .ok r') (r : α) :
    ∃ r', runMembers step l r = .ok r' := by
  induction l generalizing r with
  | nil => exact ⟨r, rfl⟩
  | cons p rest ih =>
    obtain ⟨k, v⟩ := p
    obtain ⟨r1, h1⟩ := h (k, v) (List.mem_cons_self _ _) r
    simp only [runMembers, h1]
    exact ih (fun e he => h e (List.mem_cons_of_mem _ he)) r1

theorem reducedDocument_keys (m : List (List Char × JSONValue)) :
    ∀ e ∈ reducedDocument m, e.1 ∈ compactNames := by
  intro e he
  exact (tableMembers_keys_sublist compactNames _).subset (List.mem_map_of_mem Prod.fst he)

theorem mapLookup_reducedDocument (m : List (List Char × JSONValue)) (c : List Char)
    (hc : c ∈ compactNames) (w : JSONValue) (hw : mapLookup m c = some w) :
    mapLookup (reducedDocument m) c = some (if c = "us".toList then reduceURIs w else w) := by
  unfold reducedDocument
  rw [mapLookup_tableMembers compactNames rfl, if_pos hc]
  unfold effectiveValue
  rw [hw]
  rfl

theorem stringFieldNames_compact : ∀ c ∈ stringFieldNames, c ∈ compactNames ∧ c ≠ "us".toList := by
  decide

theorem mem_uriObjects_array (items : List JSONValue) (o : List (List Char × JSONValue))
    (h : JSONValue.object o ∈ items) : o ∈ uriObjects (.array items) := by
  unfold uriObjects
  rw [List.mem_filterMap]
  exact ⟨.object o, h, rfl⟩

end XRPL.Transaction.Types

namespace XRPL.Transaction.Types

theorem uriItems_of_rawMap (T : JSONText) (bytes : List Nat)
    (rawMap : List (List Char × JSONValue)) (hmap : jsonUnmarshalMap T bytes = some rawMap)
    (hnested : ∀ v, effectiveValue mptTokenMetadataFieldMap rawMap "us".toList = some v →
      ∀ o ∈ uriObjects v, ExactKeys uriCompactNames o)
    (v : JSONValue) (hv : effectiveValue mptTokenMetadataFieldMap rawMap "us".toList = some v)
    (items : List JSONValue) (hitems : v = .array items) (item : JSONValue)
    (hitem : item ∈ items) (o : List (List Char × JSONValue)) (ho : item = .object o) :
    IsGoMap o ∧ ExactKeys uriCompactNames o := by
  have hvalue : ∃ k, mapLookup rawMap k = some v := by
    unfold effectiveValue at hv
    cases h1 : mapLookup rawMap "us".toList with
    | some w =>
      rw [h1] at hv
      exact ⟨_, h1.trans hv⟩
    | none =>
      rw [h1] at hv
      exact ⟨_, hv⟩
  obtain ⟨k, hk⟩ := hvalue
  obtain ⟨v0, hv0⟩ := jsonUnmarshalMap_value T bytes rawMap k v hmap hk
  obtain ⟨i0, hi0⟩ := toGoValue_array_items v0 items (hv0.symm.trans hitems) item hitem
  refine ⟨toGoValue_object_isGoMap i0 o (hi0.symm.trans ho), ?_⟩
  apply hnested v hv
  rw [hitems]
  exact mem_uriObjects_array items o (ho ▸ hitem)

/-- C34, as it holds. Let the parsed object have exact keys: no key other than a compact
name itself is equal to a compact name up to the case folding of `encoding/json`, at top
level and inside the URI entries. Then `DecodeMPTokenMetadata` returns what
`json.Unmarshal` into the struct returns for the reduced document, which has the compact
keys only, each with the value the object has under the compact key when it has this key,
and else the value under the long key. So a collision is resolved in favour of the compact
key, and every other key is dropped; decoding succeeds as soon as every value of the
reduced document can be stored in its field, and a string under the compact key of a
string field is the decoded field. -/
theorem decode_resolves_collisions (T : JSONText) (hT : T.Lawful) (hexInput : List Char)
    (bytes : List Nat) (rawMap : List (List Char × JSONValue))
    (hhex : hexDecodeString hexInput = some bytes)
    (hmap : jsonUnmarshalMap T bytes = some rawMap)
    (hexact : ExactKeys compactNames rawMap)
    (hnested : ∀ v, effectiveValue mptTokenMetadataFieldMap rawMap "us".toList = some v →
      ∀ o ∈ uriObjects v, ExactKeys uriCompactNames o) :
    DecodeMPTokenMetadata T hexInput = decodeStruct (.object (reducedDocument rawMap)) ∧
    (∀ e ∈ reducedDocument rawMap, e.1 ∈ compactNames) ∧
    (∀ c ∈ compactNames, ∀ w, mapLookup rawMap c = some w →
      mapLookup (reducedDocument rawMap) c =
        some (if c = "us".toList then reduceURIs w else w)) ∧
    ((∀ e ∈ reducedDocument rawMap, ∀ r, ∃ r', decodeStructMember r e.1 e.2 = .ok r') →
      ∃ r, DecodeMPTokenMetadata T hexInput = .ok r) ∧
    (∀ c ∈ stringFieldNames, ∀ s r, mapLookup rawMap c = some (.string s) →
      DecodeMPTokenMetadata T hexInput = .ok r → stringField r c = some (goString s)) := by
  have hraw := isGoMap_of_jsonUnmarshalMap T bytes rawMap hmap
  have hdec : DecodeMPTokenMetadata T hexInput =
      decodeStruct (.object (reducedDocument rawMap)) := by
    rw [DecodeMPTokenMetadata_of_map T hT hexInput bytes rawMap hhex hmap]
    exact decodeStruct_cleaned rawMap hraw hexact
      (fun v hv items hi item hitem o ho =>
        uriItems_of_rawMap T bytes rawMap hmap hnested v hv items hi item hitem o ho)
  have hrun : decodeStruct (.object (reducedDocument rawMap)) =
      runMembers decodeStructMember (reducedDocument rawMap) zeroParsedMPTokenMetadata :=
    decodeStructMembers_eq_runMembers _ _
  refine ⟨hdec, reducedDocument_keys rawMap,
    fun c hc w hw => mapLookup_reducedDocument rawMap c hc w hw, fun hsteps => ?_,
    fun c hc s r hs hok => ?_⟩
  · obtain ⟨r, hr⟩ := runMembers_ok_of_steps decodeStructMember _ hsteps
      zeroParsedMPTokenMetadata
    exact ⟨r, by rw [hdec, hrun, hr]⟩
  · have hgo : IsGoMap (reducedDocument rawMap) := isGoMap_tableMembers compactNames rfl _
    obtain ⟨hcn, hne⟩ := stringFieldNames_compact c hc
    have hl := mapLookup_reducedDocument rawMap c hcn _ hs
    rw [if_neg hne] at hl
    rw [hdec, hrun] at hok
    exact (stringField_of_run _ (isGoMap_nodup _ hgo) (reducedDocument_keys rawMap) c hc _ _
      hok).2 s (mem_of_mapLookup _ _ _ hl)

/-- C34 fails as stated. The object `{"ticker": "A", "t": 5}` has both keys of a field, and
`DecodeMPTokenMetadata` does not succeed: a number cannot be stored in the string field. The
key `T` of the object `{"T": "X"}` is neither a long nor a compact name, and it is not
dropped: `encoding/json` matches it with the tag `t`, and the decoded ticker is `X`. -/
theorem decode_resolves_collisions_counterexample :
    DecodeMPTokenMetadata stackJSON
        (stringsToUpper (hexEncodeToString (stackJSON.print (.object numberTickerMembers)))) =
      .error .jsonUnmarshalTypeError ∧
    DecodeMPTokenMetadata stackJSON
        (stringsToUpper (hexEncodeToString (stackJSON.print (.object upperCaseKeyMembers)))) =
      .ok { zeroParsedMPTokenMetadata with Ticker := goString "X".toList } :=
  ⟨(DecodeMPTokenMetadata_printed stackJSON stackJSON_lawful numberTickerMembers).trans rfl,
    (DecodeMPTokenMetadata_printed stackJSON stackJSON_lawful upperCaseKeyMembers).trans rfl⟩

theorem collisionMembers_exact :
    ExactKeys compactNames (toGoMembers collisionMembers []) := by
  unfold ExactKeys
  decide

theorem collisionMembers_nested (v : JSONValue)
    (hv : effectiveValue mptTokenMetadataFieldMap (toGoMembers collisionMembers [])
      "us".toList = some v) :
    ∀ o ∈ uriObjects v, ExactKeys uriCompactNames o := by
  have hval : effectiveValue mptTokenMetadataFieldMap (toGoMembers collisionMembers [])
      "us".toList = some (.array [.object [("category".toList, .string "docs".toList),
        ("title".toList, .string "Doc".toList), ("u".toList, .string "b.org".toList),
        ("uri".toList, .string "a.org".toList)]]) := rfl
  rw [hval] at hv
  injection hv with hv
  subst hv
  intro o ho
  simp only [uriObjects, List.filterMap_cons, List.filterMap_nil, List.mem_singleton] at ho
  subst ho
  unfold ExactKeys
  decide

/-- C34 on a document with `ticker` and `t`, an unknown key, and a URI entry with `uri`
and `u`: the decoded ticker is the value under `t`, the decoded URI the value under `u`,
and the unknown key leaves no trace. -/
theorem decode_resolves_collisions_witness :
    DecodeMPTokenMetadata stackJSON
        (stringsToUpper (hexEncodeToString (stackJSON.print (.object collisionMembers)))) =
      .ok { zeroParsedMPTokenMetadata with
        Ticker := goString "TB".toList
        URIs := some [⟨goString "b.org".toList, goString "docs".toList,
          goString "Doc".toList⟩] } :=
  (decode_resolves_collisions stackJSON stackJSON_lawful _
      (stackJSON.print (.object collisionMembers)) (toGoMembers collisionMembers [])
      (hexDecodeString_upper_encode _ (stackJSON_lawful.1 _))
      (jsonUnmarshalMap_object stackJSON _ collisionMembers (stackJSON_lawful.2 _))
      collisionMembers_exact collisionMembers_nested).1.trans rfl

end XRPL.Transaction.Types
